import Mathlib

/-!
realign: the NFA model and the subset construction.

A shallow embedding of the Go packages `collections/queue`, `collections/set`,
`collections/mvmap`, `automata/nfa`, `automata/dfa` and of the part of
`scanner/fragment.go` that is used below.

Modelling conventions.

* A Go pointer `*nfa.State` is an index (`Nat`) into the arena `Nfa.states`, which lists the
  states of a machine in allocation order; a `*dfa.State` is an index into `Dfa.states`.
  Mutation through a pointer is an update of the arena.
* A Go `map[K]V` is an association list with unique keys, kept in insertion order; ranging over
  it visits the entries in that order (Go leaves the order unspecified).
* Go `int` state ids are `Nat` (they are only ever produced by a counter that starts at 0);
  accept indices are `Int`, `-1` meaning "not accepting".
* Loops that Go does not bound (`for queue.Len() > 0`) take a fuel argument and return
  `Except.error Fault.outOfFuel` when it runs out; a nil-pointer dereference is
  `Except.error Fault.nilDeref`.
* A Go `panic(msg)` of a constructor of fragments is `Except.error msg`.
* A program that uses the machine API is a list of calls (`nfa.Call`), run from `nfa.New`;
  the log of a run pairs every call with the state it returned.
-/

namespace Realign

/-- Ways in which a modelled Go call fails to return a value. -/
inductive Fault where
  | outOfFuel
  | nilDeref
deriving DecidableEq, Repr

/-! ## Go builtin maps -/

namespace gomap

/-- Go `m[k]` with the comma-ok idiom: `none` when the key is absent. -/
def get {K V : Type} [DecidableEq K] : List (K × V) → K → Option V
  | [], _ => none
  | (k1, v1) :: rest, k => if k1 = k then some v1 else get rest k

/-- Go `m[k] = v`: overwrite the entry of `k`, or add one. -/
def set {K V : Type} [DecidableEq K] : List (K × V) → K → V → List (K × V)
  | [], k, v => [(k, v)]
  | (k1, v1) :: rest, k, v => if k1 = k then (k1, v) :: rest else (k1, v1) :: set rest k v

end gomap

/-! ## collections/queue -/

namespace queue

/-- Go `Queue[T]`: a FIFO queue backed by a slice. -/
structure Queue (T : Type) where
  data : List T
deriving DecidableEq, Repr

/-- Go `queue.New`. -/
def New {T : Type} : Queue T := ⟨[]⟩

/-- Go `Queue.Enqueue`: append at the end. -/
def Queue.Enqueue {T : Type} (q : Queue T) (v : T) : Queue T := ⟨q.data ++ [v]⟩

/-- Go `Queue.Dequeue`: the front value (`none` stands for `(zero, false)`) and the rest. -/
def Queue.Dequeue {T : Type} (q : Queue T) : Option T × Queue T :=
  match q.data with
  | [] => (none, q)
  | v :: rest => (some v, ⟨rest⟩)

/-- Go `Queue.Len`. -/
def Queue.Len {T : Type} (q : Queue T) : Nat := q.data.length

end queue

/-! ## collections/set -/

namespace set

/-- Go `Set[T]`, a `map[T]struct{}`: the keys, without repetition, in insertion order. -/
structure Set (T : Type) where
  elems : List T
deriving DecidableEq, Repr

/-- Go `set.New`. -/
def New {T : Type} : Set T := ⟨[]⟩

/-- Go `Set.Add`: no effect when the value is present. -/
def Set.Add {T : Type} [DecidableEq T] (s : Set T) (v : T) : Set T :=
  if v ∈ s.elems then s else ⟨s.elems ++ [v]⟩

/-- Go `Set.Has`. -/
def Set.Has {T : Type} [DecidableEq T] (s : Set T) (v : T) : Bool := decide (v ∈ s.elems)

/-- Go `Set.Values`. -/
def Set.Values {T : Type} (s : Set T) : List T := s.elems

/-- Go `Set.Len`. -/
def Set.Len {T : Type} (s : Set T) : Nat := s.elems.length

end set

/-! ## collections/mvmap -/

namespace mvmap

/-- Go `MvMap[K, V]`, a `map[K][]V`. -/
structure MvMap (K V : Type) where
  data : List (K × List V)
deriving DecidableEq, Repr

/-- Go `mvmap.New`. -/
def New {K V : Type} : MvMap K V := ⟨[]⟩

/-- Go `MvMap.Get`: the slice stored for the key, nil (empty) when there is none. -/
def MvMap.Get {K V : Type} [DecidableEq K] (m : MvMap K V) (k : K) : List V :=
  (gomap.get m.data k).getD []

/-- Go `MvMap.Put`: `m.data[k] = append(m.data[k], v)`. -/
def MvMap.Put {K V : Type} [DecidableEq K] (m : MvMap K V) (k : K) (v : V) : MvMap K V :=
  ⟨gomap.set m.data k (m.Get k ++ [v])⟩

/-- Go `MvMap.Len`. -/
def MvMap.Len {K V : Type} (m : MvMap K V) : Nat := m.data.length

/-- Go `MvMap.Keys`. -/
def MvMap.Keys {K V : Type} (m : MvMap K V) : List K := m.data.map Prod.fst

end mvmap

/-! ## automata/nfa -/

namespace nfa

/-- Go `predicateTransition`: a target state and the function guarding the transition. -/
structure predicateTransition (S : Type) where
  EndState : Nat
  Fn : S → Bool

/-- Go `nfa.State`. The single-edge slot `edge` is `none` when `edge.has` is false and
`some (symbol, endState)` when it is true; `transitions` is `none` for a nil map pointer. -/
structure State (S V : Type) where
  id : Nat
  edge : Option (S × Nat)
  transitions : Option (mvmap.MvMap S Nat)
  predicateTransitions : List (predicateTransition S)
  eTransitions : List Nat
  acceptIdx : Int
  value : V

/-- Go `nfa.Nfa`, with the arena of the states allocated by the machine so far. -/
structure Nfa (S V : Type) where
  states : List (State S V)
  startState : Nat
  nextStateID : Nat
  nextAcceptIndex : Nat

section
variable {S V : Type}

/-- The struct literal of `newState` and `NewState`: everything but the id is zero,
the accept index is `-1`. -/
def State.fresh [Inhabited V] (id : Nat) : State S V :=
  { id := id, edge := none, transitions := none, predicateTransitions := [],
    eTransitions := [], acceptIdx := -1, value := default }

instance [Inhabited V] : Inhabited (State S V) := ⟨State.fresh 0⟩

/-- Dereference a state pointer in the arena. -/
def deref [Inhabited V] (heap : List (State S V)) (r : Nat) : State S V := heap.getD r default

/-- Write through a state pointer: replace the state `r` by `f` of it. -/
def update (heap : List (State S V)) (r : Nat) (f : State S V → State S V) :
    List (State S V) :=
  match heap[r]? with
  | some s => heap.set r (f s)
  | none => heap

/-- Go `State.ID`. -/
def State.ID (state : State S V) : Nat := state.id

/-- Go `State.AcceptIdx`. -/
def State.AcceptIdx (state : State S V) : Int := state.acceptIdx

/-- Go `State.IsAccepting`. -/
def State.IsAccepting (state : State S V) : Bool := decide (state.AcceptIdx > -1)

/-- Go `State.AcceptValue`. -/
def State.AcceptValue [Inhabited V] (state : State S V) : V :=
  if state.acceptIdx ≤ -1 then default else state.value

/-- Go `State.Epsilon`. -/
def State.Epsilon (state : State S V) : List Nat := state.eTransitions

/-- Go `State.OutgoingSymbols`. -/
def State.OutgoingSymbols (state : State S V) : List S :=
  match state.transitions with
  | none =>
    match state.edge with
    | none => []
    | some e => [e.1]
  | some m => m.Keys

/-- Go `State.OutgoingFor`. -/
def State.OutgoingFor [DecidableEq S] (state : State S V) (symbol : S) : List Nat :=
  match state.transitions with
  | none =>
    match state.edge with
    | some e => if e.1 = symbol then [e.2] else []
    | none => []
  | some m => m.Get symbol

/-- Go `State.resetEdge`. -/
def State.resetEdge (state : State S V) : State S V := { state with edge := none }

/-- Go `State.put`. -/
def State.put [DecidableEq S] (state : State S V) (symbol : S) (endState : Nat) : State S V :=
  match state.edge, state.transitions with
  | none, none => { state with edge := some (symbol, endState) }
  | some e, t =>
    let m := (t.getD mvmap.New).Put e.1 e.2
    { state.resetEdge with transitions := some (m.Put symbol endState) }
  | none, some m => { state with transitions := some (m.Put symbol endState) }

/-- Go `Nfa.newState`: allocate a state with the next id. -/
def Nfa.newState [Inhabited V] (machine : Nfa S V) : Nfa S V × Nat :=
  ({ machine with states := machine.states ++ [State.fresh machine.nextStateID],
                  nextStateID := machine.nextStateID + 1 }, machine.states.length)

/-- Go `Nfa.NewState`. -/
def Nfa.NewState [Inhabited V] (machine : Nfa S V) : Nfa S V × Nat :=
  ({ machine with states := machine.states ++ [State.fresh machine.nextStateID],
                  nextStateID := machine.nextStateID + 1 }, machine.states.length)

/-- Go `nfa.New`. -/
def New [Inhabited V] : Nfa S V :=
  let machine : Nfa S V := { states := [], startState := 0, nextStateID := 0, nextAcceptIndex := 0 }
  let r := machine.newState
  { r.1 with startState := r.2 }

/-- Go `Nfa.Start`. -/
def Nfa.Start (machine : Nfa S V) : Nat := machine.startState

/-- Go `Nfa.Add`. -/
def Nfa.Add [Inhabited V] [DecidableEq S] (machine : Nfa S V) (startState : Nat) (symbol : S) :
    Nfa S V × Nat :=
  let r := machine.newState
  ({ r.1 with states := update r.1.states startState (fun s => s.put symbol r.2) }, r.2)

/-- Go `Nfa.ConnectEpsilon`. -/
def Nfa.ConnectEpsilon (machine : Nfa S V) (startState endState : Nat) : Nfa S V :=
  { machine with
    states := update machine.states startState
      (fun s => { s with eTransitions := s.eTransitions ++ [endState] }) }

/-- Go `Nfa.AddEpsilonTransition`. -/
def Nfa.AddEpsilonTransition [Inhabited V] (machine : Nfa S V) (startState : Nat) :
    Nfa S V × Nat :=
  let r := machine.NewState
  (r.1.ConnectEpsilon startState r.2, r.2)

/-- Go `Nfa.markAccepting`. -/
def Nfa.markAccepting (machine : Nfa S V) (state : Nat) (value : V) : Nfa S V :=
  { machine with
    nextAcceptIndex := machine.nextAcceptIndex + 1,
    states := update machine.states state
      (fun s => { s with acceptIdx := (machine.nextAcceptIndex : Int), value := value }) }

/-- Go `Nfa.newAcceptingState`. -/
def Nfa.newAcceptingState [Inhabited V] (machine : Nfa S V) (value : V) : Nfa S V × Nat :=
  let m1 : Nfa S V :=
    { machine with states := machine.states ++ [State.fresh machine.nextStateID],
                   nextStateID := machine.nextStateID + 1 }
  (m1.markAccepting machine.states.length value, machine.states.length)

/-- Go `Nfa.AddAcceptingEpsilonTransition`. -/
def Nfa.AddAcceptingEpsilonTransition [Inhabited V] (machine : Nfa S V) (startState : Nat)
    (value : V) : Nfa S V × Nat :=
  let r := machine.newAcceptingState value
  ({ r.1 with
     states := update r.1.states startState
       (fun s => { s with eTransitions := s.eTransitions ++ [r.2] }) }, r.2)

/-- Go `Nfa.AddPredicateTransition`. -/
def Nfa.AddPredicateTransition (machine : Nfa S V) (startState endState : Nat)
    (fn : S → Bool) : Nfa S V :=
  { machine with
    states := update machine.states startState
      (fun s => { s with
        predicateTransitions := s.predicateTransitions ++ [{ EndState := endState, Fn := fn }] }) }

end

end nfa

/-! ## automata/dfa -/

namespace dfa

/-- Go `dfa.State`. -/
structure State (S V : Type) where
  id : Nat
  transitions : List (S × Nat)
  acceptIdx : Int
  value : V
deriving DecidableEq, Repr

/-- Go `dfa.Dfa`, with the arena of the states created for it so far; `start` is `none`
while the Go pointer is nil. -/
structure Dfa (S V : Type) where
  states : List (State S V)
  start : Option Nat
  nextStateID : Nat
deriving DecidableEq, Repr

/-- Go `dfaBuilder`. -/
structure dfaBuilder (S V : Type) where
  dfa : Dfa S V
  workingQueue : queue.Queue (List Nat)
  subsetKeyToStateMap : List (String × Nat)
deriving DecidableEq, Repr

section
variable {S V : Type}

instance [Inhabited V] : Inhabited (State S V) :=
  ⟨{ id := 0, transitions := [], acceptIdx := -1, value := default }⟩

/-- Dereference a DFA state pointer in the arena. -/
def Dfa.deref [Inhabited V] (d : Dfa S V) (r : Nat) : State S V := d.states.getD r default

/-- Go `Dfa.Start`. -/
def Dfa.Start (d : Dfa S V) : Option Nat := d.start

/-- Go `State.IsAccepting`. -/
def State.IsAccepting (s : State S V) : Bool := decide (s.acceptIdx > -1)

/-- Go `State.AcceptValue`. -/
def State.AcceptValue (s : State S V) : V := s.value

/-- Go `State.OutgoingFor`: `none` is the nil pointer. -/
def State.OutgoingFor [DecidableEq S] (s : State S V) (symbol : S) : Option Nat :=
  gomap.get s.transitions symbol

/-- Go `Dfa.newState`. -/
def Dfa.newState [Inhabited V] (d : Dfa S V) : Dfa S V × Nat :=
  ({ d with
     states := d.states ++ [{ id := d.nextStateID, transitions := [], acceptIdx := -1,
                              value := default }],
     nextStateID := d.nextStateID + 1 }, d.states.length)

/-- Go `Dfa.newAcceptingState`. -/
def Dfa.newAcceptingState [Inhabited V] (d : Dfa S V) (acceptIdx : Int) (value : V) :
    Dfa S V × Nat :=
  let r := d.newState
  ({ r.1 with
     states := match r.1.states[r.2]? with
       | some s => r.1.states.set r.2 { s with acceptIdx := acceptIdx, value := value }
       | none => r.1.states }, r.2)

/-- The assignment `from.transitions[sym] = to` of the main loop. -/
def Dfa.setTransition [DecidableEq S] (d : Dfa S V) (src : Nat) (sym : S) (dst : Nat) :
    Dfa S V :=
  { d with
    states := match d.states[src]? with
      | some s => d.states.set src { s with transitions := gomap.set s.transitions sym dst }
      | none => d.states }

/-- The `for workingQueue.Len() > 0` loop of Go `findPossibleStates`. -/
def findPossibleStates.loop [Inhabited V] (heap : List (nfa.State S V)) :
    Nat → queue.Queue Nat → List Nat → Except Fault (List Nat)
  | 0, _, _ => .error .outOfFuel
  | fuel + 1, workingQueue, reachableStates =>
    if workingQueue.Len > 0 then
      match workingQueue.Dequeue with
      | (none, _) => .error .nilDeref
      | (some queuedState, q1) =>
        let r := (nfa.deref heap queuedState).Epsilon.foldl
          (fun (acc : queue.Queue Nat × List Nat) nState => (acc.1.Enqueue nState, acc.2 ++ [nState]))
          (q1, reachableStates)
        findPossibleStates.loop heap fuel r.1 r.2
    else .ok reachableStates

/-- Go `findPossibleStates`: the states reachable from `states` by epsilon transitions. -/
def findPossibleStates [Inhabited V] (fuel : Nat) (heap : List (nfa.State S V))
    (states : List Nat) : Except Fault (List Nat) :=
  let r := states.foldl
    (fun (acc : queue.Queue Nat × List Nat) s => (acc.1.Enqueue s, acc.2 ++ [s]))
    (queue.New, [])
  findPossibleStates.loop heap fuel r.1 r.2

/-- Go `strconv.Itoa` on a non-negative int. -/
def Itoa (n : Nat) : String := String.mk (Nat.toDigits 10 n)

/-- Go `calculateStatesKey`. The map `seen` is filled and never read. -/
def calculateStatesKey [Inhabited V] (heap : List (nfa.State S V)) (states : List Nat) :
    String :=
  let r := states.foldl
    (fun (acc : set.Set Nat × List Nat) state =>
      let id := (nfa.deref heap state).ID
      (acc.1.Add id, acc.2 ++ [id]))
    (set.New, [])
  let stateIDs := r.2.insertionSort (fun a b => a ≤ b)
  let b := stateIDs.foldl
    (fun (acc : String × Nat) id =>
      ((if acc.2 > 0 then acc.1.push (Char.ofNat 44) else acc.1) ++ Itoa id, acc.2 + 1))
    ("", 0)
  b.1

/-- Go `findReachableStatesForSymbol`. -/
def findReachableStatesForSymbol [Inhabited V] [DecidableEq S] (heap : List (nfa.State S V))
    (states : List Nat) (symbol : S) : List Nat :=
  states.foldl (fun reachableStates state =>
    reachableStates ++ (nfa.deref heap state).OutgoingFor symbol) []

/-- The second loop of Go `expandStatesPerSymbol`, over the values of the alphabet. -/
def expandStatesPerSymbol.loop [Inhabited V] [DecidableEq S] (fuel : Nat)
    (heap : List (nfa.State S V)) (states : List Nat) :
    List S → List (S × List Nat) → Except Fault (List (S × List Nat))
  | [], statesPerSymbol => .ok statesPerSymbol
  | sym :: rest, statesPerSymbol =>
    let symbolStates := findReachableStatesForSymbol heap states sym
    match findPossibleStates fuel heap symbolStates with
    | .error e => .error e
    | .ok epsilonStates =>
      if epsilonStates.length > 0 then
        expandStatesPerSymbol.loop fuel heap states rest (gomap.set statesPerSymbol sym epsilonStates)
      else
        expandStatesPerSymbol.loop fuel heap states rest statesPerSymbol

/-- Go `expandStatesPerSymbol`. -/
def expandStatesPerSymbol [Inhabited V] [DecidableEq S] (fuel : Nat)
    (heap : List (nfa.State S V)) (states : List Nat) : Except Fault (List (S × List Nat)) :=
  let alphabet := states.foldl
    (fun (alphabet : set.Set S) state =>
      (nfa.deref heap state).OutgoingSymbols.foldl (fun a symbol => a.Add symbol) alphabet)
    set.New
  expandStatesPerSymbol.loop fuel heap states alphabet.Values []

/-- Go `findAcceptanceIdx`. -/
def findAcceptanceIdx [Inhabited V] (heap : List (nfa.State S V)) (states : List Nat) :
    Int × V :=
  states.foldl
    (fun (acc : Int × V) s =>
      let idx := (nfa.deref heap s).AcceptIdx
      if idx = -1 then acc
      else if acc.1 = -1 ∨ idx < acc.1 then (idx, (nfa.deref heap s).AcceptValue)
      else acc)
    (-1, default)

/-- Go `dfaBuilder.buildStartState`. -/
def dfaBuilder.buildStartState [Inhabited V] (builder : dfaBuilder S V)
    (heap : List (nfa.State S V)) (states : List Nat) : dfaBuilder S V × Nat :=
  let acc := findAcceptanceIdx heap states
  let sState : State S V := { id := 0, transitions := [], acceptIdx := acc.1, value := acc.2 }
  let sKey := calculateStatesKey heap states
  ({ dfa := { builder.dfa with states := builder.dfa.states ++ [sState] },
     subsetKeyToStateMap := gomap.set builder.subsetKeyToStateMap sKey builder.dfa.states.length,
     workingQueue := builder.workingQueue.Enqueue states }, builder.dfa.states.length)

/-- Go `dfaBuilder.ensureState`. -/
def dfaBuilder.ensureState [Inhabited V] (builder : dfaBuilder S V)
    (heap : List (nfa.State S V)) (states : List Nat) : dfaBuilder S V × Nat :=
  let sKey := calculateStatesKey heap states
  match gomap.get builder.subsetKeyToStateMap sKey with
  | some state => (builder, state)
  | none =>
    let acc := findAcceptanceIdx heap states
    if acc.1 > -1 then
      let r := builder.dfa.newAcceptingState acc.1 acc.2
      ({ dfa := r.1,
         subsetKeyToStateMap := gomap.set builder.subsetKeyToStateMap sKey r.2,
         workingQueue := builder.workingQueue.Enqueue states }, r.2)
    else
      let r := builder.dfa.newState
      ({ dfa := r.1,
         subsetKeyToStateMap := gomap.set builder.subsetKeyToStateMap sKey r.2,
         workingQueue := builder.workingQueue.Enqueue states }, r.2)

/-- The `for sym, nextSubset := range ...` loop in the body of the main loop of Go
`buildFromNfa`; `src` is the pointer `from`, nil when the key was not in the map. -/
def dfaBuilder.connect [Inhabited V] [DecidableEq S] (heap : List (nfa.State S V))
    (src : Option Nat) : List (S × List Nat) → dfaBuilder S V → Except Fault (dfaBuilder S V)
  | [], builder => .ok builder
  | (sym, nextSubset) :: rest, builder =>
    let r := builder.ensureState heap nextSubset
    match src with
    | none => .error .nilDeref
    | some f =>
      dfaBuilder.connect heap src rest { r.1 with dfa := r.1.dfa.setTransition f sym r.2 }

/-- The main loop `for builder.workingQueue.Len() > 0` of Go `buildFromNfa`. The closures
computed in the body get the fuel `closureFuel`; the loop itself runs on its own fuel. -/
def dfaBuilder.loop [Inhabited V] [DecidableEq S] (heap : List (nfa.State S V))
    (closureFuel : Nat) : Nat → dfaBuilder S V → Except Fault (dfaBuilder S V)
  | 0, _ => .error .outOfFuel
  | fuel + 1, builder =>
    if builder.workingQueue.Len > 0 then
      let dq := builder.workingQueue.Dequeue
      let currentSubset := dq.1.getD []
      let b1 : dfaBuilder S V := { builder with workingQueue := dq.2 }
      let sKey := calculateStatesKey heap currentSubset
      let src := gomap.get b1.subsetKeyToStateMap sKey
      match expandStatesPerSymbol closureFuel heap currentSubset with
      | .error e => .error e
      | .ok expanded =>
        match dfaBuilder.connect heap src expanded b1 with
        | .error e => .error e
        | .ok b2 => dfaBuilder.loop heap closureFuel fuel b2
    else .ok builder

/-- Go `dfaBuilder.buildFromNfa`, returning the builder as it is when the Go function
returns `builder.dfa`. -/
def dfaBuilder.run [Inhabited V] [DecidableEq S] (fuel : Nat) (builder : dfaBuilder S V)
    (machine : nfa.Nfa S V) : Except Fault (dfaBuilder S V) :=
  match findPossibleStates fuel machine.states [machine.Start] with
  | .error e => .error e
  | .ok startStates =>
    let r := builder.buildStartState machine.states startStates
    dfaBuilder.loop machine.states fuel fuel
      { r.1 with dfa := { r.1.dfa with start := some r.2 } }

/-- Go `dfaBuilder.buildFromNfa`. -/
def dfaBuilder.buildFromNfa [Inhabited V] [DecidableEq S] (fuel : Nat) (builder : dfaBuilder S V)
    (machine : nfa.Nfa S V) : Except Fault (Dfa S V) :=
  match builder.run fuel machine with
  | .error e => .error e
  | .ok b => .ok b.dfa

/-- The builder that Go `FromNfa` starts from. -/
def dfaBuilder.initial : dfaBuilder S V :=
  { dfa := { states := [], start := none, nextStateID := 1 },
    workingQueue := queue.New,
    subsetKeyToStateMap := [] }

/-- Go `FromNfa`. -/
def FromNfa [Inhabited V] [DecidableEq S] (fuel : Nat) (n : nfa.Nfa S V) :
    Except Fault (Dfa S V) :=
  dfaBuilder.initial.buildFromNfa fuel n

end

end dfa

/-! ## scanner: the predicate-set fragment -/

namespace scanner

/-- Go `fragSymbolSet`. -/
structure fragSymbolSet (S : Type) where
  fn : S → Bool

/-- Go `SymbolSet`. -/
def SymbolSet {S : Type} (fn : S → Bool) : fragSymbolSet S := { fn := fn }

/-- Go `fragSymbolSet.Build`. -/
def fragSymbolSet.Build {S V : Type} [Inhabited V] (frag : fragSymbolSet S)
    (machine : nfa.Nfa S V) (startState : Nat) : nfa.Nfa S V × Nat :=
  let r := machine.NewState
  (r.1.AddPredicateTransition startState r.2 frag.fn, r.2)

end scanner

/-! ## Specification-level notions: epsilon closure, move, well-formed machines, languages -/

namespace dfa

section
variable {S V : Type} [Inhabited V]

/-- One epsilon hop in the arena: `y` is a direct epsilon target of `x`. -/
def EpsStep (heap : List (nfa.State S V)) (x y : Nat) : Prop :=
  y ∈ (nfa.deref heap x).Epsilon

/-- The closure of the spec: `y` is reachable from a state of `seeds` by zero or more
epsilon hops. -/
def EpsReachable (heap : List (nfa.State S V)) (seeds : List Nat) (y : Nat) : Prop :=
  ∃ x ∈ seeds, Relation.ReflTransGen (EpsStep heap) x y

end

end dfa

namespace dfa

section
variable {S V : Type} [Inhabited V] [DecidableEq S]

/-- The move of the spec: the concrete-symbol targets on `a` of the states of a list, in
order. -/
def moveOn (heap : List (nfa.State S V)) (states : List Nat) (a : S) : List Nat :=
  states.flatMap (fun s => (nfa.deref heap s).OutgoingFor a)

end

end dfa

namespace nfa

section
variable {S V : Type}

/-- The state at position `i` of an arena of `len` states carries the id `i`, points into the
arena only, and its accept index is `-1` or more: what holds of every state that the machine
API creates. -/
def State.WF [DecidableEq S] (len i : Nat) (s : State S V) : Prop :=
  s.id = i ∧ (∀ y ∈ s.eTransitions, y < len) ∧
    (∀ a ∈ s.OutgoingSymbols, ∀ y ∈ s.OutgoingFor a, y < len) ∧
    (∀ pt ∈ s.predicateTransitions, pt.EndState < len) ∧ -1 ≤ s.acceptIdx

/-- A machine as the API builds it (`built_wf`): the start pointer and all pointers of all
states are valid and the ids are the positions. -/
def Nfa.WF [Inhabited V] [DecidableEq S] (n : Nfa S V) : Prop :=
  n.startState < n.states.length ∧
    ∀ i, i < n.states.length → State.WF n.states.length i (deref n.states i)

/-- No state of the machine has a predicate transition. -/
def Nfa.NoPredicates (n : Nfa S V) : Prop :=
  ∀ s ∈ n.states, s.predicateTransitions.isEmpty = true

/-- The state `y` is reached from `x` by consuming the symbol `a`: through a concrete
transition on `a` or through a predicate transition whose function holds of `a`. -/
def SymStep [Inhabited V] [DecidableEq S] (heap : List (State S V)) (a : S) (x y : Nat) :
    Prop :=
  y ∈ (deref heap x).OutgoingFor a ∨
    ∃ pt ∈ (deref heap x).predicateTransitions, pt.Fn a = true ∧ pt.EndState = y

/-- The state `x` is reachable from the start state by consuming the symbols of `w`, with any
number of epsilon hops before, between and after them. -/
inductive Reaches [Inhabited V] [DecidableEq S] (n : Nfa S V) : List S → Nat → Prop
  | start : Reaches n [] n.Start
  | eps {w : List S} {x y : Nat} : Reaches n w x → y ∈ (deref n.states x).Epsilon →
      Reaches n w y
  | sym {w : List S} {a : S} {x y : Nat} : Reaches n w x → SymStep n.states a x y →
      Reaches n (w ++ [a]) y

end

end nfa

namespace dfa

section
variable {S V : Type}

/-- Follow the symbols of `w` from the start state with `OutgoingFor`; `none` when a
transition is missing. -/
def Dfa.follow [Inhabited V] [DecidableEq S] (d : Dfa S V) (w : List S) : Option Nat :=
  w.foldl (fun cur a => cur.bind (fun r => (d.deref r).OutgoingFor a)) d.Start

/-- The acceptance rule of the spec for a DFA state `st` and the list `l` of NFA states it
stands for: if no state of `l` is accepting, `st` is not accepting and its accept value is
the zero value; otherwise `st` is accepting and its accept value is that of an accepting state
of `l` whose accept index is the smallest. -/
def LowestAcceptWins [Inhabited V] (heap : List (nfa.State S V)) (st : State S V)
    (l : List Nat) : Prop :=
  ((∀ x ∈ l, (nfa.deref heap x).IsAccepting = false) →
    st.IsAccepting = false ∧ st.AcceptValue = default) ∧
  ((∃ x ∈ l, (nfa.deref heap x).IsAccepting = true) →
    st.IsAccepting = true ∧
    ∃ s ∈ l, (nfa.deref heap s).IsAccepting = true ∧
      (∀ t ∈ l, (nfa.deref heap t).IsAccepting = true →
        (nfa.deref heap s).AcceptIdx ≤ (nfa.deref heap t).AcceptIdx) ∧
      st.AcceptValue = (nfa.deref heap s).AcceptValue)

/-- The subsets of the spec along a word: the closure of the start state, then for each
symbol the closure of the move of the subset before. -/
def subsetAfter [Inhabited V] [DecidableEq S] (fuel : Nat) (n : nfa.Nfa S V) (w : List S) :
    Except Fault (List Nat) :=
  w.foldl
    (fun cur a =>
      match cur with
      | .error e => .error e
      | .ok l => findPossibleStates fuel n.states (moveOn n.states l a))
    (findPossibleStates fuel n.states [n.Start])

end

end dfa

namespace dfa

/-- The lists of NFA states that the main loop of `buildFromNfa` can enqueue: the closure of
the start state, and every non-empty closure of the move of such a list on a symbol. -/
inductive Enqueued {S V : Type} [Inhabited V] [DecidableEq S] (n : nfa.Nfa S V) :
    List Nat → Prop
  | start {fuel : Nat} {l0 : List Nat} :
      findPossibleStates fuel n.states [n.Start] = .ok l0 → Enqueued n l0
  | step {fuel : Nat} {l l1 : List Nat} {a : S} : Enqueued n l →
      findPossibleStates fuel n.states (moveOn n.states l a) = .ok l1 → l1 ≠ [] →
      Enqueued n l1

end dfa

namespace nfa

/-- The machines that the API builds: a new machine, and the result of every operation on
such a machine with states of that machine. -/
inductive Built {S V : Type} [Inhabited V] [DecidableEq S] : Nfa S V → Prop
  | new : Built New
  | newState {n : Nfa S V} : Built n → Built n.NewState.1
  | add {n : Nfa S V} {s : Nat} {a : S} : Built n → s < n.states.length → Built (n.Add s a).1
  | addEpsilon {n : Nfa S V} {s : Nat} : Built n → s < n.states.length →
      Built (n.AddEpsilonTransition s).1
  | addAccepting {n : Nfa S V} {s : Nat} {v : V} : Built n → s < n.states.length →
      Built (n.AddAcceptingEpsilonTransition s v).1
  | addPredicate {n : Nfa S V} {s t : Nat} {fn : S → Bool} : Built n → s < n.states.length →
      t < n.states.length → Built (n.AddPredicateTransition s t fn)
  | connect {n : Nfa S V} {s t : Nat} : Built n → s < n.states.length →
      t < n.states.length → Built (n.ConnectEpsilon s t)

/-- What the API keeps of every state, next to its id: the pointers are valid, the accept
index is `-1` or more, and the single-edge slot is only in use while there is no map. -/
def State.Sound {S V : Type} [DecidableEq S] (len i : Nat) (s : State S V) : Prop :=
  s.id = i ∧ (∀ y ∈ s.eTransitions, y < len) ∧ (∀ a, ∀ y ∈ s.OutgoingFor a, y < len) ∧
    (∀ pt ∈ s.predicateTransitions, pt.EndState < len) ∧ -1 ≤ s.acceptIdx ∧
    (s.edge.isSome = true → s.transitions = none)

/-- What the API keeps of a machine: the next id is the number of states, the start pointer
is valid and every state is sound. -/
def Nfa.Sound {S V : Type} [Inhabited V] [DecidableEq S] (n : Nfa S V) : Prop :=
  n.nextStateID = n.states.length ∧ n.startState < n.states.length ∧
    ∀ i, i < n.states.length → State.Sound n.states.length i (deref n.states i)

end nfa

/-! ## Notions of the proofs: levels of the closure, text of a key, loop invariants -/

namespace dfa

section
variable {S V : Type} [Inhabited V]

/-- The direct epsilon targets of the states of a list, in order. -/
def epsTargets (heap : List (nfa.State S V)) (q : List Nat) : List Nat :=
  q.flatMap (fun x => (nfa.deref heap x).Epsilon)

/-- The states at epsilon distance exactly `k` of the list `q`, with multiplicity. -/
def epsLevel (heap : List (nfa.State S V)) : Nat → List Nat → List Nat
  | 0, q => q
  | k + 1, q => epsLevel heap k (epsTargets heap q)

/-- The levels `1 .. n` of the list `q`, one after the other. -/
def epsLevels (heap : List (nfa.State S V)) : Nat → List Nat → List Nat
  | 0, _ => []
  | n + 1, q => epsTargets heap q ++ epsLevels heap n (epsTargets heap q)

/-- The number of loop iterations (plus one) that walk through `n` levels of `q`. -/
def epsCost (heap : List (nfa.State S V)) : Nat → List Nat → Nat
  | 0, _ => 1
  | n + 1, q => q.length + epsCost heap n (epsTargets heap q)

end

end dfa

namespace dfa

/-- The text of a key: the decimal numbers of the list, separated by commas. -/
def joinIDs : List Nat → List Char
  | [] => []
  | a :: r => Nat.toDigits 10 a ++ r.flatMap (fun id => Char.ofNat 44 :: Nat.toDigits 10 id)

end dfa

namespace dfa

section
variable {S V : Type} [Inhabited V]

/-- The ids of a list of states, in order. -/
def idsOf (heap : List (nfa.State S V)) (states : List Nat) : List Nat :=
  states.map (fun s => (nfa.deref heap s).ID)

/-- The pair that `findAcceptanceIdx` holds after the states `seen`: either no state of
`seen` is accepting and the pair is `(-1, zero)`, or the pair is the accept index and value
of an accepting state of `seen` whose accept index is the smallest. -/
def AccInv (heap : List (nfa.State S V)) (seen : List Nat) (acc : Int × V) : Prop :=
  (acc.1 = -1 ∧ acc.2 = default ∧ ∀ x ∈ seen, (nfa.deref heap x).acceptIdx = -1) ∨
  (acc.1 > -1 ∧ ∃ s ∈ seen, (nfa.deref heap s).acceptIdx = acc.1 ∧
    acc.2 = (nfa.deref heap s).AcceptValue ∧
    ∀ t ∈ seen, (nfa.deref heap t).acceptIdx > -1 → acc.1 ≤ (nfa.deref heap t).acceptIdx)

end

end dfa

namespace dfa

section
variable {S V : Type} [Inhabited V] [DecidableEq S]

/-- The acceptance data of a DFA state is the one that `findAcceptanceIdx` computes for the
list of NFA states. -/
def AcceptsFor (heap : List (nfa.State S V)) (st : State S V) (states : List Nat) : Prop :=
  st.IsAccepting = decide ((findAcceptanceIdx heap states).1 > -1) ∧
    st.AcceptValue = (findAcceptanceIdx heap states).2

/-- The transitions of a DFA state are those of the expansion `expanded` of its subset: no
transition on a symbol without entry, and on a symbol with entry a transition to the state
that is registered, in `reg`, with the key of the entry. -/
def TransFor (heap : List (nfa.State S V)) (reg : List (List Nat)) (st : State S V)
    (expanded : List (S × List Nat)) : Prop :=
  ∀ a, match gomap.get expanded a with
    | none => st.OutgoingFor a = none
    | some l1 => ∃ j l2, st.OutgoingFor a = some j ∧ reg[j]? = some l2 ∧
        calculateStatesKey heap l2 = calculateStatesKey heap l1

/-- What holds of the builder inside the main loop, in terms of the list `reg` of the subsets
registered so far (the subset of the DFA state `i` at position `i`): the part about the
registry. -/
structure RegInv (heap : List (nfa.State S V)) (b : dfaBuilder S V)
    (reg : List (List Nat)) : Prop where
  len : b.dfa.states.length = reg.length
  nextID : b.dfa.nextStateID = reg.length
  start : b.dfa.start = some 0
  pos : 0 < reg.length
  ids : ∀ (i : Nat) (st : State S V), b.dfa.states[i]? = some st → st.id = i
  keyOf : ∀ (i : Nat) (l : List Nat), reg[i]? = some l →
    gomap.get b.subsetKeyToStateMap (calculateStatesKey heap l) = some i
  ofKey : ∀ (k : String) (i : Nat), gomap.get b.subsetKeyToStateMap k = some i →
    ∃ l, reg[i]? = some l ∧ k = calculateStatesKey heap l
  nonempty : ∀ l ∈ reg, l ≠ []
  accept : ∀ (i : Nat) (l : List Nat) (st : State S V), reg[i]? = some l →
    b.dfa.states[i]? = some st → AcceptsFor heap st l
  nodupT : ∀ (i : Nat) (st : State S V), b.dfa.states[i]? = some st →
    (st.transitions.map Prod.fst).Nodup

/-- The invariant of the main loop of `buildFromNfa`: the subsets before position `p` are
expanded, those from `p` on are the queue. -/
structure LoopInv (heap : List (nfa.State S V)) (closureFuel : Nat) (b : dfaBuilder S V)
    (reg : List (List Nat)) (p : Nat) : Prop where
  base : RegInv heap b reg
  queue : b.workingQueue.data = reg.drop p
  done : ∀ (i : Nat) (l : List Nat) (st : State S V), i < p → reg[i]? = some l →
    b.dfa.states[i]? = some st →
    ∃ expanded, expandStatesPerSymbol closureFuel heap l = .ok expanded ∧
      TransFor heap reg st expanded
  todo : ∀ (i : Nat) (st : State S V), p ≤ i → b.dfa.states[i]? = some st →
    st.transitions = []

/-- The invariant of the inner loop of `buildFromNfa` while the subset at position `p` is
expanded: `seen` lists the entries of the expansion that are connected already. -/
structure ConnInv (heap : List (nfa.State S V)) (closureFuel : Nat) (b : dfaBuilder S V)
    (reg : List (List Nat)) (p : Nat) (seen : List (S × List Nat)) : Prop where
  base : RegInv heap b reg
  queue : b.workingQueue.data = reg.drop (p + 1)
  done : ∀ (i : Nat) (l : List Nat) (st : State S V), i < p → reg[i]? = some l →
    b.dfa.states[i]? = some st →
    ∃ expanded, expandStatesPerSymbol closureFuel heap l = .ok expanded ∧
      TransFor heap reg st expanded
  cur : ∃ st, b.dfa.states[p]? = some st ∧ TransFor heap reg st seen
  todo : ∀ (i : Nat) (st : State S V), p < i → b.dfa.states[i]? = some st →
    st.transitions = []

end

end dfa

namespace dfa

/-- Two arenas that the converter cannot tell apart: every pointer answers the queries that
the converter makes (`ID`, `AcceptIdx`, `AcceptValue`, `Epsilon`, `OutgoingSymbols`,
`OutgoingFor`) in the same way. -/
def SameView {S V : Type} [Inhabited V] [DecidableEq S] (h1 h2 : List (nfa.State S V)) :
    Prop :=
  ∀ r, (nfa.deref h1 r).ID = (nfa.deref h2 r).ID ∧
    (nfa.deref h1 r).AcceptIdx = (nfa.deref h2 r).AcceptIdx ∧
    (nfa.deref h1 r).AcceptValue = (nfa.deref h2 r).AcceptValue ∧
    (nfa.deref h1 r).Epsilon = (nfa.deref h2 r).Epsilon ∧
    (nfa.deref h1 r).OutgoingSymbols = (nfa.deref h2 r).OutgoingSymbols ∧
    ∀ a, (nfa.deref h1 r).OutgoingFor a = (nfa.deref h2 r).OutgoingFor a

end dfa

/-! ## Sequences of calls of the machine API -/

namespace nfa

/-- A call of a public operation of a machine, with its arguments. -/
inductive Call (S V : Type) where
  | NewState
  | Add (startState : Nat) (symbol : S)
  | AddEpsilonTransition (startState : Nat)
  | AddAcceptingEpsilonTransition (startState : Nat) (value : V)
  | AddPredicateTransition (startState endState : Nat) (fn : S → Bool)
  | ConnectEpsilon (startState endState : Nat)

section
variable {S V : Type}

/-- Perform a call: the machine after it, and the state that the call returns when it
returns one. -/
def Nfa.call [Inhabited V] [DecidableEq S] (machine : Nfa S V) : Call S V → Nfa S V × Option Nat
  | .NewState => (machine.NewState.1, some machine.NewState.2)
  | .Add s a => ((machine.Add s a).1, some (machine.Add s a).2)
  | .AddEpsilonTransition s =>
    ((machine.AddEpsilonTransition s).1, some (machine.AddEpsilonTransition s).2)
  | .AddAcceptingEpsilonTransition s v =>
    ((machine.AddAcceptingEpsilonTransition s v).1,
      some (machine.AddAcceptingEpsilonTransition s v).2)
  | .AddPredicateTransition s t fn => (machine.AddPredicateTransition s t fn, none)
  | .ConnectEpsilon s t => (machine.ConnectEpsilon s t, none)

/-- The machine after a sequence of calls. -/
def Nfa.run [Inhabited V] [DecidableEq S] (machine : Nfa S V) : List (Call S V) → Nfa S V
  | [] => machine
  | c :: cs => Nfa.run (machine.call c).1 cs

/-- The calls of a sequence, each with the state it returned. -/
def Nfa.log [Inhabited V] [DecidableEq S] (machine : Nfa S V) :
    List (Call S V) → List (Call S V × Option Nat)
  | [] => []
  | c :: cs => (c, (machine.call c).2) :: Nfa.log (machine.call c).1 cs

/-- The state arguments of a call are states of a machine with `len` states. -/
def Call.valid (len : Nat) : Call S V → Bool
  | .NewState => true
  | .Add s _ => decide (s < len)
  | .AddEpsilonTransition s => decide (s < len)
  | .AddAcceptingEpsilonTransition s _ => decide (s < len)
  | .AddPredicateTransition s t _ => decide (s < len) && decide (t < len)
  | .ConnectEpsilon s t => decide (s < len) && decide (t < len)

/-- Every call of the sequence is given states that the machine has allocated before that
call. -/
def Nfa.validCalls [Inhabited V] [DecidableEq S] (machine : Nfa S V) : List (Call S V) → Bool
  | [] => true
  | c :: cs => c.valid machine.states.length && Nfa.validCalls (machine.call c).1 cs

/-- The states returned by the calls `Add(s, a)` of a log, in call order. -/
def addedOn [DecidableEq S] (log : List (Call S V × Option Nat)) (s : Nat) (a : S) : List Nat :=
  log.filterMap fun e =>
    match e with
    | (.Add s1 a1, some t) => if s1 = s ∧ a1 = a then some t else none
    | _ => none

/-- The states attached to `s` by the calls `AddEpsilonTransition(s)`,
`AddAcceptingEpsilonTransition(s, v)` and `ConnectEpsilon(s, t)` of a log, in call order. -/
def attachedTo (log : List (Call S V × Option Nat)) (s : Nat) : List Nat :=
  log.filterMap fun e =>
    match e with
    | (.AddEpsilonTransition s1, some t) => if s1 = s then some t else none
    | (.AddAcceptingEpsilonTransition s1 _, some t) => if s1 = s then some t else none
    | (.ConnectEpsilon s1 t, _) => if s1 = s then some t else none
    | _ => none

/-- The states that the calls of a log returned, in call order. -/
def returned (log : List (Call S V × Option Nat)) : List Nat :=
  log.filterMap fun e => e.2

/-- The states that the calls `AddAcceptingEpsilonTransition` of a log returned, in call
order. -/
def returnedAccepting (log : List (Call S V × Option Nat)) : List Nat :=
  log.filterMap fun e =>
    match e with
    | (.AddAcceptingEpsilonTransition _ _, some t) => some t
    | _ => none

end

end nfa

namespace examples

/-- The calls of the tests of `OutgoingFor` and `OutgoingSymbols` after `nfa.New`: two
states, then transitions on 1, 1, 10 and 100 from the first and on 1000 from the second. -/
def symbolCalls : List (nfa.Call Nat Nat) :=
  [.NewState, .NewState, .Add 1 1, .Add 1 1, .Add 1 10, .Add 1 100, .Add 2 1000]

end examples

namespace examples

/-- The calls of the test of `Epsilon` after `nfa.New`: four states, then the epsilon
transitions 1 to 2, 1 to 3 and 2 to 4. -/
def epsilonCalls : List (nfa.Call Nat Nat) :=
  [.NewState, .NewState, .NewState, .NewState, .ConnectEpsilon 1 2, .ConnectEpsilon 1 3,
    .ConnectEpsilon 2 4]

end examples

/-! ## automata/dfa: the converter as a step on the machine and the builder -/

namespace dfa

/-- The objects that a call of Go `FromNfa(machine)` can reach through its pointers: the
machine with its states, and the builder with the DFA under construction. -/
structure World (S V : Type) where
  machine : nfa.Nfa S V
  builder : dfaBuilder S V

section
variable {S V : Type}

/-- Go `dfaBuilder.buildStartState`, on the world: it reads the states of the machine and
writes the builder. -/
def World.buildStartState [Inhabited V] (w : World S V) (states : List Nat) : World S V × Nat :=
  let r := w.builder.buildStartState w.machine.states states
  ({ w with builder := r.1 }, r.2)

/-- Go `dfaBuilder.ensureState`, on the world: it reads the states of the machine and writes
the builder. -/
def World.ensureState [Inhabited V] (w : World S V) (states : List Nat) : World S V × Nat :=
  let r := w.builder.ensureState w.machine.states states
  ({ w with builder := r.1 }, r.2)

/-- The `for sym, nextSubset := range ...` loop in the body of the main loop of Go
`buildFromNfa`, on the world. -/
def World.connect [Inhabited V] [DecidableEq S] (src : Option Nat) :
    List (S × List Nat) → World S V → Except Fault (World S V)
  | [], w => .ok w
  | (sym, nextSubset) :: rest, w =>
    let r := w.ensureState nextSubset
    match src with
    | none => .error .nilDeref
    | some f =>
      World.connect src rest
        { r.1 with builder := { r.1.builder with dfa := r.1.builder.dfa.setTransition f sym r.2 } }

/-- The main loop `for builder.workingQueue.Len() > 0` of Go `buildFromNfa`, on the
world. -/
def World.loop [Inhabited V] [DecidableEq S] (closureFuel : Nat) :
    Nat → World S V → Except Fault (World S V)
  | 0, _ => .error .outOfFuel
  | fuel + 1, w =>
    if w.builder.workingQueue.Len > 0 then
      let dq := w.builder.workingQueue.Dequeue
      let currentSubset := dq.1.getD []
      let w1 : World S V := { w with builder := { w.builder with workingQueue := dq.2 } }
      let sKey := calculateStatesKey w1.machine.states currentSubset
      let src := gomap.get w1.builder.subsetKeyToStateMap sKey
      match expandStatesPerSymbol closureFuel w1.machine.states currentSubset with
      | .error e => .error e
      | .ok expanded =>
        match World.connect src expanded w1 with
        | .error e => .error e
        | .ok w2 => World.loop closureFuel fuel w2
    else .ok w

/-- Go `dfaBuilder.buildFromNfa`, on the world. -/
def World.buildFromNfa [Inhabited V] [DecidableEq S] (fuel : Nat) (w : World S V) :
    Except Fault (World S V) :=
  match findPossibleStates fuel w.machine.states [w.machine.Start] with
  | .error e => .error e
  | .ok startStates =>
    let r := w.buildStartState startStates
    World.loop fuel fuel
      { r.1 with
        builder := { r.1.builder with dfa := { r.1.builder.dfa with start := some r.2 } } }

/-- Go `FromNfa`, returning next to the DFA the machine as the call leaves it. -/
def FromNfaIn [Inhabited V] [DecidableEq S] (fuel : Nat) (n : nfa.Nfa S V) :
    Except Fault (Dfa S V × nfa.Nfa S V) :=
  match World.buildFromNfa fuel { machine := n, builder := dfaBuilder.initial } with
  | .error e => .error e
  | .ok w => .ok (w.builder.dfa, w.machine)

end

end dfa

/-! ## scanner: fragments and their constructors -/

namespace scanner

/-- Go `Fragment`: the interface, as the sum of its implementations `fragLiteral`,
`fragSequence`, `fragAnyOf`, `fragRepeat` and `fragSymbolSet`, each with the fields of its
struct. -/
inductive Fragment (S : Type) where
  | fragLiteral (symbols : List S)
  | fragSequence (fragments : List (Fragment S))
  | fragAnyOf (fragments : List (Fragment S))
  | fragRepeat (fragment : Fragment S) (minOccurence maxOccurence : Int) (hasMax : Bool)
  | fragSymbolSet (frag : fragSymbolSet S)

section
variable {S : Type}

/-- Go `Literal`. A panic is `Except.error` with the panic message. -/
def Literal (symbols : List S) : Except String (Fragment S) :=
  if symbols.length = 0 then .error "Literal: symbols must have elements"
  else .ok (.fragLiteral symbols)

/-- Go `Sequence`. -/
def Sequence (fragments : List (Fragment S)) : Fragment S := .fragSequence fragments

/-- Go `AnyOf`. A panic is `Except.error` with the panic message. -/
def AnyOf (fragments : List (Fragment S)) : Except String (Fragment S) :=
  if fragments.length < 2 then .error "AnyOf: at least 2 fragments are required"
  else .ok (.fragAnyOf fragments)

/-- Go `RepeatAtLeast`. A panic is `Except.error` with the panic message. -/
def RepeatAtLeast (min : Int) (fragment : Fragment S) : Except String (Fragment S) :=
  if min < 0 then .error "RepeatAtLeast: min cannot be negative"
  else .ok (.fragRepeat fragment min 0 false)

/-- Go `RepeatBetween`. A panic is `Except.error` with the panic message. -/
def RepeatBetween (min max : Int) (fragment : Fragment S) : Except String (Fragment S) :=
  if min < 0 then .error "RepeatBetween: min cannot be negative"
  else if max < min then .error "RepeatBetween: max cannot be less than min"
  else .ok (.fragRepeat fragment min max true)

end

end scanner

/-! ## scanner: building fragments -/

namespace scanner

section
variable {S V : Type}

/-- The first loop of Go `fragRepeat.Build`: thread `build` through `count` copies, each
starting at the exit of the one before. -/
def fragRepeat.thread (build : nfa.Nfa S V → Nat → nfa.Nfa S V × Nat) (count : Nat)
    (machine : nfa.Nfa S V) (startState : Nat) : nfa.Nfa S V × Nat :=
  (List.range count).foldl (fun r _ => build r.1 r.2) (machine, startState)

/-- The last loop of Go `fragRepeat.Build`: `count` optional copies, each entered by an
epsilon transition from the exit of the one before and left by one to `endState`. -/
def fragRepeat.optional [Inhabited V] (build : nfa.Nfa S V → Nat → nfa.Nfa S V × Nat)
    (endState count : Nat) (machine : nfa.Nfa S V) (currentState : Nat) : nfa.Nfa S V × Nat :=
  (List.range count).foldl
    (fun r _ =>
      let optStartState := r.1.AddEpsilonTransition r.2
      let optEndState := build optStartState.1 optStartState.2
      (optEndState.1.ConnectEpsilon optEndState.2 endState, optEndState.2))
    (machine, currentState)

mutual

/-- Go `Fragment.Build`, by implementation: `fragLiteral.Build`, `fragSequence.Build`,
`fragAnyOf.Build`, `fragRepeat.Build` and `fragSymbolSet.Build`. The result is the machine
after the call and the state that the call returns. -/
def Fragment.Build [Inhabited V] [DecidableEq S] :
    Fragment S → nfa.Nfa S V → Nat → nfa.Nfa S V × Nat
  | .fragLiteral symbols, machine, startState =>
    symbols.foldl (fun last sym => last.1.Add last.2 sym) (machine, startState)
  | .fragSequence fragments, machine, startState =>
    fragSequence.loop fragments machine startState
  | .fragAnyOf fragments, machine, startState =>
    let endState := machine.NewState
    (fragAnyOf.loop fragments endState.1 startState endState.2, endState.2)
  | .fragRepeat fragment minOccurence maxOccurence hasMax, machine, startState =>
    let current := fragRepeat.thread fragment.Build minOccurence.toNat machine startState
    let endState := current.1.NewState
    let m1 := endState.1.ConnectEpsilon current.2 endState.2
    if !hasMax then
      let m2 := m1.ConnectEpsilon current.2 endState.2
      let bodyStartState := m2.AddEpsilonTransition current.2
      let bodyEndState := fragment.Build bodyStartState.1 bodyStartState.2
      let m3 := bodyEndState.1.ConnectEpsilon bodyEndState.2 bodyStartState.2
      (m3.ConnectEpsilon bodyEndState.2 endState.2, endState.2)
    else if maxOccurence - minOccurence = 0 then (m1, endState.2)
    else
      ((fragRepeat.optional fragment.Build endState.2 (maxOccurence - minOccurence).toNat m1
        current.2).1, endState.2)
  | .fragSymbolSet frag, machine, startState => frag.Build machine startState

/-- The loop of Go `fragSequence.Build`. -/
def fragSequence.loop [Inhabited V] [DecidableEq S] :
    List (Fragment S) → nfa.Nfa S V → Nat → nfa.Nfa S V × Nat
  | [], machine, last => (machine, last)
  | sub :: rest, machine, last =>
    let r := sub.Build machine last
    fragSequence.loop rest r.1 r.2

/-- The loop of Go `fragAnyOf.Build`. -/
def fragAnyOf.loop [Inhabited V] [DecidableEq S] :
    List (Fragment S) → nfa.Nfa S V → Nat → Nat → nfa.Nfa S V
  | [], machine, _, _ => machine
  | sFrag :: rest, machine, startState, endState =>
    let branchStart := machine.AddEpsilonTransition startState
    let branchEnd := sFrag.Build branchStart.1 branchStart.2
    fragAnyOf.loop rest (branchEnd.1.ConnectEpsilon branchEnd.2 endState) startState endState

end

end

end scanner

namespace nfa

/-- Every epsilon transition of the first machine is one of the second. -/
def EpsLe {S V : Type} [Inhabited V] (m1 m2 : Nfa S V) : Prop :=
  ∀ r y, y ∈ (deref m1.states r).eTransitions → y ∈ (deref m2.states r).eTransitions

end nfa

namespace scanner

/-- What a build step keeps of a machine of the API and a state of it: the result is a
machine of the API, the returned state is one of its states, and no state is lost. -/
def Extends {S V : Type} [Inhabited V] [DecidableEq S] (machine : nfa.Nfa S V)
    (r : nfa.Nfa S V × Nat) : Prop :=
  nfa.Built r.1 ∧ r.2 < r.1.states.length ∧ machine.states.length ≤ r.1.states.length

end scanner

namespace nfa

/-- Two states that differ at most in their id and in their concrete-symbol transitions. -/
def SameButOut {S V : Type} (s1 s2 : State S V) : Prop :=
  s1.eTransitions = s2.eTransitions ∧ s1.acceptIdx = s2.acceptIdx ∧ s1.value = s2.value ∧
    s1.predicateTransitions = s2.predicateTransitions

/-- Two states that differ at most in their id and in their epsilon transitions. -/
def SameButEps {S V : Type} (s1 s2 : State S V) : Prop :=
  s1.edge = s2.edge ∧ s1.transitions = s2.transitions ∧ s1.acceptIdx = s2.acceptIdx ∧
    s1.value = s2.value ∧ s1.predicateTransitions = s2.predicateTransitions

end nfa

namespace scanner

/-- The transitions of the chain of a literal, built from the state `start` on a machine
with `len` states, that leave the state `q` on the symbol `a`: the state `len` when `q` is
`start` and `a` is the first symbol; the state `q + 1` when `q` is the state `len + i` of
the chain and `a` is the symbol after the one that leads to `q`. -/
def literalEdges {S : Type} [DecidableEq S] (start len : Nat) (symbols : List S) (q : Nat)
    (a : S) : List Nat :=
  if q = start then (if symbols[0]? = some a then [len] else [])
  else if len ≤ q ∧ symbols[q - len + 1]? = some a then [q + 1] else []

end scanner

namespace nfa

/-- The second machine has the states of the first, with the ids, accept indices and values
they have there. -/
def Frozen {S V : Type} [Inhabited V] (m1 m2 : Nfa S V) : Prop :=
  m1.states.length ≤ m2.states.length ∧
    ∀ q, q < m1.states.length →
      (deref m2.states q).id = (deref m1.states q).id ∧
      (deref m2.states q).acceptIdx = (deref m1.states q).acceptIdx ∧
      (deref m2.states q).value = (deref m1.states q).value

end nfa

namespace scanner

/-- The entries of the branches of an alternative of literals that is built on a machine
with `len` states: one fresh state per branch, each followed by the states of its chain. -/
def anyOfEntries {S : Type} (len : Nat) : List (List S) → List Nat
  | [] => []
  | l :: rest => len :: anyOfEntries (len + 1 + l.length) rest

/-- The exits of the branches of an alternative of literals that is built on a machine with
`len` states: the last state of each chain. -/
def anyOfExits {S : Type} (len : Nat) : List (List S) → List Nat
  | [] => []
  | l :: rest => (len + l.length) :: anyOfExits (len + 1 + l.length) rest

end scanner

namespace nfa

/-- A machine of the API with `len` states and the start state 0, described state by state:
`eps q` are the epsilon targets of the state `q`, `out q a` its concrete-symbol targets on
`a`, `acc q` tells whether it is accepting; no state has a predicate transition. -/
structure Table {S V : Type} [Inhabited V] [DecidableEq S] (m : Nfa S V) (len : Nat)
    (eps : Nat → List Nat) (out : Nat → S → List Nat) (acc : Nat → Bool) : Prop where
  built : Built m
  len : m.states.length = len
  start : m.startState = 0
  eps : ∀ q, (deref m.states q).eTransitions = eps q
  out : ∀ q a, (deref m.states q).OutgoingFor a = out q a
  acc : ∀ q, (deref m.states q).IsAccepting = acc q
  preds : ∀ q, (deref m.states q).predicateTransitions = []

end nfa

namespace examples

/-- The machine of `benchmarkFromNfa_Linear`: `count` calls `Add(current, i)` for
`i = 0, 1, ...`, the first from the start state, each next one from the state that the call
before returned. -/
def linearNfa (count : Nat) : nfa.Nfa Int Int :=
  ((List.range count).foldl (fun current i => current.1.Add current.2 (i : Int))
    ((nfa.New : nfa.Nfa Int Int), (nfa.New : nfa.Nfa Int Int).Start)).1

end examples

namespace examples

/-- The machine of `benchmarkFromNfa_FanOut`: `count` calls `Add(nStart, 1)`, all from the
start state. -/
def fanOutNfa (count : Nat) : nfa.Nfa Int Int :=
  let nStart := (nfa.New : nfa.Nfa Int Int).Start
  (List.range count).foldl (fun nMachine _ => (nMachine.Add nStart 1).1) nfa.New

end examples

namespace examples

/-- The machine of the repetition scenario: `RepeatBetween(min, max, Literal(x))` built at
the start state of a new machine, with an accepting state attached to the exit by
`AddAcceptingEpsilonTransition`. A panic of a constructor is `Except.error`. -/
def repeatBetweenNfa {S V : Type} [Inhabited V] [DecidableEq S] (x : S) (min max : Int)
    (value : V) : Except String (nfa.Nfa S V) := do
  let literal ← scanner.Literal [x]
  let fragment ← scanner.RepeatBetween min max literal
  let machine : nfa.Nfa S V := nfa.New
  let exit := fragment.Build machine machine.Start
  pure (exit.1.AddAcceptingEpsilonTransition exit.2 value).1

end examples

namespace scanner

/-- The machine of the build of `RepeatBetween(mn, mn + d, Literal(x))` on a new machine
before the optional copies: the chain of the `mn` mandatory copies, the exit `mn + 1`, and
the epsilon transition from the end `mn` of the chain to the exit. -/
def repeatExitMachine {S V : Type} [Inhabited V] [DecidableEq S] (x : S) (mn : Nat) :
    nfa.Nfa S V :=
  (fragRepeat.thread (Fragment.fragLiteral [x]).Build mn
    (nfa.New : nfa.Nfa S V) 0).1.NewState.1.ConnectEpsilon mn (mn + 1)

/-- The current state of the build of `RepeatBetween(mn, mn + d, Literal(x))` on a new
machine after `j` optional copies: the end of the chain of the `mn` mandatory copies, or the
end of the last optional copy. -/
def repeatCur (mn j : Nat) : Nat := if j = 0 then mn else mn + 1 + 2 * j

/-- The epsilon targets of the state `q` after `j` optional copies: the end of the chain
points to the exit `mn + 1` and to the start of the first optional copy, the end of every
optional copy to the exit and to the start of the next copy. -/
def repeatEps (mn j q : Nat) : List Nat :=
  if q = mn then (if 0 < j then [mn + 1, mn + 2] else [mn + 1])
  else if mn + 3 ≤ q ∧ (q - mn) % 2 = 1 ∧ q < mn + 2 + 2 * j then
    (if q + 1 < mn + 2 + 2 * j then [mn + 1, q + 1] else [mn + 1])
  else []

/-- The targets on the symbol `a` of the state `q` after `j` optional copies: the states of
the chain and the starts of the optional copies go to the next state on `x`. -/
def repeatOut {S : Type} [DecidableEq S] (x : S) (mn j q : Nat) (a : S) : List Nat :=
  if a = x ∧ (q < mn ∨ (mn + 2 ≤ q ∧ (q - mn) % 2 = 0 ∧ q < mn + 2 + 2 * j)) then [q + 1]
  else []

/-- The epsilon targets in the finished machine, with the accepting state `mn + 2 + 2 * d`
attached to the exit. -/
def repeatEpsFinal (mn d q : Nat) : List Nat :=
  repeatEps mn d q ++ if q = mn + 1 then [mn + 2 + 2 * d] else []

/-- The numbers `k` of symbols `x` that lead to the state `q` of the finished machine. -/
def repeatCount (mn d k q : Nat) : Prop :=
  (q ≤ mn ∧ k = q) ∨ ((q = mn + 1 ∨ q = mn + 2 + 2 * d) ∧ mn ≤ k ∧ k ≤ mn + d) ∨
    (mn + 2 ≤ q ∧ q < mn + 2 + 2 * d ∧ (2 * k + 2 = q + mn ∨ 2 * k + 1 = q + mn))

/-- The closure of the current state after `j` optional copies, in the order of
`findPossibleStates`. -/
def repeatClosure (mn d j : Nat) : List Nat :=
  repeatCur mn j :: (mn + 1) ::
    (if j < d then [mn + 2 + 2 * j, mn + 2 + 2 * d] else [mn + 2 + 2 * d])

end scanner

namespace dfa

/-- The builders at the head of the main loop of `buildFromNfa` on the machine `n`: the one
that `buildStartState` leaves, with the start pointer set, and the one that each completed
iteration of the loop leaves. -/
inductive dfaBuilder.AtHead {S V : Type} [Inhabited V] [DecidableEq S] (closureFuel : Nat)
    (n : nfa.Nfa S V) : dfaBuilder S V → Prop
  | start {startStates : List Nat} :
      findPossibleStates closureFuel n.states [n.Start] = .ok startStates →
      dfaBuilder.AtHead closureFuel n
        { (dfaBuilder.initial.buildStartState n.states startStates).1 with
          dfa := { (dfaBuilder.initial.buildStartState n.states startStates).1.dfa with
                   start := some (dfaBuilder.initial.buildStartState n.states startStates).2 } }
  | step {b b2 : dfaBuilder S V} {currentSubset : List Nat} {rest : List (List Nat)}
      {expanded : List (S × List Nat)} :
      dfaBuilder.AtHead closureFuel n b → b.workingQueue.data = currentSubset :: rest →
      expandStatesPerSymbol closureFuel n.states currentSubset = .ok expanded →
      dfaBuilder.connect n.states
        (gomap.get b.subsetKeyToStateMap (calculateStatesKey n.states currentSubset)) expanded
        { b with workingQueue := ⟨rest⟩ } = .ok b2 →
      dfaBuilder.AtHead closureFuel n b2

end dfa

namespace nfa

/-- The concrete transitions that the calls `Add(s, a)` of a log attached to the state `s`,
in call order: the symbol, and the state that the call returned. -/
def attachedOn {S V : Type} (log : List (Call S V × Option Nat)) (s : Nat) : List (S × Nat) :=
  log.filterMap fun e =>
    match e with
    | (.Add s1 a, some t) => if s1 = s then some (a, t) else none
    | _ => none

/-- The storage of the concrete transitions `ps` of a state, attached in that order: nothing
for none, the single-edge slot for one, and for two or more the map filled in the order of
`ps`, so with the former entry of the slot first. -/
def State.Stores {S V : Type} [DecidableEq S] (st : State S V) (ps : List (S × Nat)) : Prop :=
  match ps with
  | [] => st.edge = none ∧ st.transitions = none
  | [p] => st.edge = some p ∧ st.transitions = none
  | p :: q :: rest =>
    st.edge = none ∧
      st.transitions = some ((p :: q :: rest).foldl (fun m e => m.Put e.1 e.2) mvmap.New)

end nfa

/-! ## Example machines -/

namespace examples

/-- The machine of `TestFromNfa_Complex`. -/
def complexNfa : nfa.Nfa String String :=
  let m0 : nfa.Nfa String String := nfa.New
  let s0 := m0.Start
  let r1 := m0.Add s0 "a"
  let r2 := r1.1.Add s0 "a"
  let r4 := r2.1.AddAcceptingEpsilonTransition r2.2 "WIN"
  let r3 := r4.1.AddAcceptingEpsilonTransition r1.2 "LOSE"
  let r5 := r3.1.Add r4.2 "b"
  let r5Loop := r5.1.Add r5.2 "c"
  let m1 := r5Loop.1.ConnectEpsilon r5Loop.2 r5.2
  let r3Loop := m1.Add r3.2 "b"
  r3Loop.1.ConnectEpsilon r3Loop.2 s0

/-- The state after `a` of the DFA of `TestFromNfa_Complex`. -/
def complexStateA : dfa.State String String :=
  { id := 1, transitions := [("b", 2)], acceptIdx := 0, value := "WIN" }

/-- The state after `a`, `b` of the DFA of `TestFromNfa_Complex`. -/
def complexStateAB : dfa.State String String :=
  { id := 2, transitions := [("c", 3), ("a", 1)], acceptIdx := -1, value := "" }

/-- The DFA that `FromNfa` builds for the machine of `TestFromNfa_Complex`. -/
def complexDfa : dfa.Dfa String String :=
  { states := [{ id := 0, transitions := [("a", 1)], acceptIdx := -1, value := "" },
               complexStateA, complexStateAB,
               { id := 3, transitions := [("c", 3)], acceptIdx := -1, value := "" }],
    start := some 0,
    nextStateID := 4 }

/-- A machine whose start state has an epsilon transition to itself:
`ConnectEpsilon(start, start)` on a new machine. -/
def epsSelfLoop : nfa.Nfa Nat Nat :=
  let m0 : nfa.Nfa Nat Nat := nfa.New
  m0.ConnectEpsilon m0.Start m0.Start

/-- A machine with one epsilon transition: `AddEpsilonTransition(start)` on a new machine. -/
def epsEdge : nfa.Nfa Nat Nat :=
  let m0 : nfa.Nfa Nat Nat := nfa.New
  (m0.AddEpsilonTransition m0.Start).1

/-- A machine with one concrete transition followed by one epsilon transition:
`s1 := Add(start, 5)`, `AddEpsilonTransition(s1)`. -/
def chain : nfa.Nfa Nat Nat :=
  let m0 : nfa.Nfa Nat Nat := nfa.New
  let s1 := m0.Add m0.Start 5
  (s1.1.AddEpsilonTransition s1.2).1

/-- A machine in which two words lead to the same state along epsilon paths of different
multiplicity: `x := Add(start, 1)`, `y := Add(start, 2)`, `m := AddEpsilonTransition(x)`,
`ConnectEpsilon(y, m)` twice, `z := Add(m, 0)`. The ids are start 0, x 1, y 2, m 3, z 4. -/
def diamond : nfa.Nfa Nat Nat :=
  let m0 : nfa.Nfa Nat Nat := nfa.New
  let x := m0.Add m0.Start 1
  let y := x.1.Add m0.Start 2
  let m := y.1.AddEpsilonTransition x.2
  let m2 := (m.1.ConnectEpsilon y.2 m.2).ConnectEpsilon y.2 m.2
  (m2.Add m.2 0).1

/-- The DFA that `FromNfa` builds for `diamond`. -/
def diamondDfa : dfa.Dfa Nat Nat :=
  { states := [{ id := 0, transitions := [(1, 1), (2, 2)], acceptIdx := -1, value := 0 },
               { id := 1, transitions := [(0, 3)], acceptIdx := -1, value := 0 },
               { id := 2, transitions := [(0, 4)], acceptIdx := -1, value := 0 },
               { id := 3, transitions := [], acceptIdx := -1, value := 0 },
               { id := 4, transitions := [], acceptIdx := -1, value := 0 }],
    start := some 0,
    nextStateID := 5 }

/-- A machine without epsilon cycle on which the lists of the converter grow without bound:
`q := Add(start, 7)`, then `ConnectEpsilon(q, start)` twice. -/
def amplifier : nfa.Nfa Nat Nat :=
  let m0 : nfa.Nfa Nat Nat := nfa.New
  let q := m0.Add m0.Start 7
  (q.1.ConnectEpsilon q.2 m0.Start).ConnectEpsilon q.2 m0.Start

end examples
/-! # Theorems -/

/-! ## The epsilon closure -/

namespace dfa

section
variable {S V : Type} [Inhabited V]

theorem enqueue_foldl (l : List Nat) (q : queue.Queue Nat) (reach : List Nat) :
    l.foldl (fun (acc : queue.Queue Nat × List Nat) s => (acc.1.Enqueue s, acc.2 ++ [s]))
      (q, reach) = (⟨q.data ++ l⟩, reach ++ l) := by
  induction l generalizing q reach with
  | nil => simp
  | cons a l ih =>
    rw [List.foldl_cons, ih]
    simp [queue.Queue.Enqueue]

theorem loop_zero (heap : List (nfa.State S V)) (q : queue.Queue Nat) (reach : List Nat) :
    findPossibleStates.loop heap 0 q reach = .error .outOfFuel := rfl

theorem loop_nil (heap : List (nfa.State S V)) (fuel : Nat) (reach : List Nat) :
    findPossibleStates.loop heap (fuel + 1) ⟨[]⟩ reach = .ok reach := by
  simp [findPossibleStates.loop, queue.Queue.Len]

theorem loop_cons (heap : List (nfa.State S V)) (fuel : Nat) (x : Nat) (q reach : List Nat) :
    findPossibleStates.loop heap (fuel + 1) ⟨x :: q⟩ reach =
      findPossibleStates.loop heap fuel ⟨q ++ (nfa.deref heap x).Epsilon⟩
        (reach ++ (nfa.deref heap x).Epsilon) := by
  simp [findPossibleStates.loop, queue.Queue.Len, queue.Queue.Dequeue, enqueue_foldl]

theorem findPossibleStates_eq (heap : List (nfa.State S V)) (fuel : Nat) (states : List Nat) :
    findPossibleStates fuel heap states = findPossibleStates.loop heap fuel ⟨states⟩ states := by
  simp [findPossibleStates, enqueue_foldl, queue.New]


theorem epsTargets_append (heap : List (nfa.State S V)) (a b : List Nat) :
    epsTargets heap (a ++ b) = epsTargets heap a ++ epsTargets heap b := by
  simp [epsTargets]

theorem epsTargets_cons (heap : List (nfa.State S V)) (x : Nat) (a : List Nat) :
    epsTargets heap (x :: a) = (nfa.deref heap x).Epsilon ++ epsTargets heap a := by
  simp [epsTargets]

theorem epsTargets_nil (heap : List (nfa.State S V)) : epsTargets heap [] = [] := rfl

/-- Walking through the front part `a` of the queue enqueues its epsilon targets. -/
theorem loop_prefix (heap : List (nfa.State S V)) (a : List Nat) :
    ∀ (fuel : Nat) (b reach : List Nat),
      findPossibleStates.loop heap (fuel + a.length) ⟨a ++ b⟩ reach =
        findPossibleStates.loop heap fuel ⟨b ++ epsTargets heap a⟩
          (reach ++ epsTargets heap a) := by
  induction a with
  | nil => intro fuel b reach; simp [epsTargets_nil]
  | cons x a ih =>
    intro fuel b reach
    have h1 : fuel + (x :: a).length = (fuel + a.length) + 1 := by simp; omega
    rw [h1, List.cons_append, loop_cons, List.append_assoc, ih, epsTargets_cons]
    simp [List.append_assoc]

theorem loop_fuel_succ (heap : List (nfa.State S V)) (fuel : Nat) :
    ∀ (q : queue.Queue Nat) (reach r : List Nat),
      findPossibleStates.loop heap fuel q reach = .ok r →
      findPossibleStates.loop heap (fuel + 1) q reach = .ok r := by
  induction fuel with
  | zero => intro q reach r h; simp [loop_zero] at h
  | succ n ih =>
    intro q reach r h
    obtain ⟨d⟩ := q
    cases d with
    | nil => rw [loop_nil] at h ⊢; exact h
    | cons x d =>
      rw [loop_cons] at h ⊢
      exact ih _ _ _ h

theorem loop_fuel_mono (heap : List (nfa.State S V)) {fuel fuel1 : Nat} (hle : fuel ≤ fuel1)
    (q : queue.Queue Nat) (reach r : List Nat)
    (h : findPossibleStates.loop heap fuel q reach = .ok r) :
    findPossibleStates.loop heap fuel1 q reach = .ok r := by
  induction hle with
  | refl => exact h
  | step _ ih => exact loop_fuel_succ heap _ _ _ _ ih

/-- The loop only faults by running out of fuel. -/
theorem loop_error (heap : List (nfa.State S V)) (fuel : Nat) :
    ∀ (q : queue.Queue Nat) (reach : List Nat) (e : Fault),
      findPossibleStates.loop heap fuel q reach = .error e → e = .outOfFuel := by
  induction fuel with
  | zero => intro q reach e h; simp [loop_zero] at h; exact h.symm
  | succ n ih =>
    intro q reach e h
    obtain ⟨d⟩ := q
    cases d with
    | nil => rw [loop_nil] at h; cases h
    | cons x d => rw [loop_cons] at h; exact ih _ _ _ h

theorem epsLevel_targets (heap : List (nfa.State S V)) (k : Nat) :
    ∀ q, epsLevel heap k (epsTargets heap q) = epsTargets heap (epsLevel heap k q) := by
  induction k with
  | zero => intro q; rfl
  | succ k ih => intro q; simp only [epsLevel]; rw [ih]

theorem epsLevel_succ (heap : List (nfa.State S V)) (k : Nat) (q : List Nat) :
    epsLevel heap (k + 1) q = epsTargets heap (epsLevel heap k q) := by
  simp only [epsLevel]; exact epsLevel_targets heap k q

theorem epsLevel_append (heap : List (nfa.State S V)) (k : Nat) :
    ∀ a b, epsLevel heap k (a ++ b) = epsLevel heap k a ++ epsLevel heap k b := by
  induction k with
  | zero => intro a b; rfl
  | succ k ih => intro a b; simp only [epsLevel]; rw [epsTargets_append, ih]

theorem epsLevel_nil (heap : List (nfa.State S V)) (k : Nat) : epsLevel heap k [] = [] := by
  induction k with
  | zero => rfl
  | succ k ih => simp only [epsLevel, epsTargets_nil]; exact ih

theorem epsLevel_add (heap : List (nfa.State S V)) (j k : Nat) (q : List Nat) :
    epsLevel heap (j + k) q = epsLevel heap j (epsLevel heap k q) := by
  induction j with
  | zero => simp [epsLevel]
  | succ j ih =>
    rw [Nat.succ_add, epsLevel_succ, ih, ← epsLevel_succ]

theorem epsLevel_empty_mono (heap : List (nfa.State S V)) {k n : Nat} (hkn : k ≤ n)
    (q : List Nat) (h : epsLevel heap k q = []) : epsLevel heap n q = [] := by
  obtain ⟨j, rfl⟩ := Nat.exists_eq_add_of_le hkn
  rw [Nat.add_comm, epsLevel_add, h, epsLevel_nil]

/-- When level `n` of the queue is empty, the loop returns, having appended the levels
`1 .. n`. -/
theorem loop_of_level_empty (heap : List (nfa.State S V)) (n : Nat) :
    ∀ (q reach : List Nat), epsLevel heap n q = [] →
      findPossibleStates.loop heap (epsCost heap n q) ⟨q⟩ reach =
        .ok (reach ++ epsLevels heap n q) := by
  induction n with
  | zero =>
    intro q reach h
    simp only [epsLevel] at h
    subst h
    simp [epsCost, epsLevels, loop_nil]
  | succ n ih =>
    intro q reach h
    simp only [epsLevel] at h
    have h1 := loop_prefix heap q (epsCost heap n (epsTargets heap q)) [] reach
    simp only [List.append_nil, List.nil_append] at h1
    simp only [epsCost, epsLevels]
    rw [Nat.add_comm, h1, ih _ _ h, List.append_assoc]

theorem loop_ok_fuel (heap : List (nfa.State S V)) (fuel : Nat) :
    ∀ (q reach r : List Nat), findPossibleStates.loop heap fuel ⟨q⟩ reach = .ok r →
      q.length < fuel := by
  induction fuel with
  | zero => intro q reach r h; simp [loop_zero] at h
  | succ f ih =>
    intro q reach r h
    cases q with
    | nil => simp
    | cons x q =>
      rw [loop_cons] at h
      have := ih _ _ _ h
      simp at this ⊢
      omega

/-- When the loop returns, some level of the queue is empty and the result is the input plus
the levels up to it. -/
theorem level_empty_of_loop (heap : List (nfa.State S V)) (fuel : Nat) :
    ∀ (q reach r : List Nat), findPossibleStates.loop heap fuel ⟨q⟩ reach = .ok r →
      ∃ n, epsLevel heap n q = [] ∧ r = reach ++ epsLevels heap n q := by
  induction fuel using Nat.strong_induction_on with
  | _ fuel ih =>
    intro q reach r h
    cases q with
    | nil =>
      refine ⟨0, rfl, ?_⟩
      cases fuel with
      | zero => simp [loop_zero] at h
      | succ f => rw [loop_nil] at h; simp [epsLevels]; cases h; rfl
    | cons x q =>
      have hlt := loop_ok_fuel heap fuel _ _ _ h
      obtain ⟨f, rfl⟩ := Nat.exists_eq_add_of_le (Nat.le_of_lt hlt)
      have h1 := loop_prefix heap (x :: q) f [] reach
      simp only [List.append_nil, List.nil_append] at h1
      rw [Nat.add_comm, h1] at h
      have hf : f < (x :: q).length + f := by simp
      obtain ⟨n, hn, hr⟩ := ih f hf _ _ _ h
      refine ⟨n + 1, hn, ?_⟩
      rw [hr]
      simp [epsLevels]


theorem mem_epsTargets (heap : List (nfa.State S V)) (q : List Nat) (y : Nat) :
    y ∈ epsTargets heap q ↔ ∃ z ∈ q, EpsStep heap z y := by
  simp [epsTargets, EpsStep]

theorem mem_epsLevel_succ (heap : List (nfa.State S V)) (k : Nat) (q : List Nat) (y : Nat) :
    y ∈ epsLevel heap (k + 1) q ↔ ∃ z ∈ epsLevel heap k q, EpsStep heap z y := by
  rw [epsLevel_succ, mem_epsTargets]

theorem mem_epsLevels (heap : List (nfa.State S V)) (n : Nat) :
    ∀ (q : List Nat) (y : Nat),
      y ∈ epsLevels heap n q ↔ ∃ k, k < n ∧ y ∈ epsLevel heap (k + 1) q := by
  induction n with
  | zero => intro q y; simp [epsLevels]
  | succ n ih =>
    intro q y
    simp only [epsLevels, List.mem_append, ih]
    constructor
    · rintro (h | ⟨k, hk, h⟩)
      · exact ⟨0, Nat.succ_pos _, h⟩
      · exact ⟨k + 1, Nat.succ_lt_succ hk, h⟩
    · rintro ⟨k, hk, h⟩
      cases k with
      | zero => exact Or.inl h
      | succ k => exact Or.inr ⟨k, Nat.lt_of_succ_lt_succ hk, h⟩

theorem reachable_iff_level (heap : List (nfa.State S V)) (q : List Nat) (y : Nat) :
    EpsReachable heap q y ↔ ∃ k, y ∈ epsLevel heap k q := by
  constructor
  · rintro ⟨x, hx, hxy⟩
    induction hxy with
    | refl => exact ⟨0, hx⟩
    | tail _ hstep ih =>
      obtain ⟨k, hk⟩ := ih
      exact ⟨k + 1, (mem_epsLevel_succ heap k q _).2 ⟨_, hk, hstep⟩⟩
  · rintro ⟨k, hk⟩
    induction k generalizing y with
    | zero => exact ⟨y, hk, Relation.ReflTransGen.refl⟩
    | succ k ih =>
      obtain ⟨z, hz, hstep⟩ := (mem_epsLevel_succ heap k q y).1 hk
      obtain ⟨x, hx, hxz⟩ := ih z hz
      exact ⟨x, hx, hxz.tail hstep⟩

/-- The list of a walk through all levels holds exactly the reachable states. -/
theorem mem_levels_iff_reachable (heap : List (nfa.State S V)) (n : Nat) (q : List Nat)
    (hn : epsLevel heap n q = []) (y : Nat) :
    y ∈ q ++ epsLevels heap n q ↔ EpsReachable heap q y := by
  rw [reachable_iff_level, List.mem_append, mem_epsLevels]
  constructor
  · rintro (h | ⟨k, _, h⟩)
    · exact ⟨0, h⟩
    · exact ⟨k + 1, h⟩
  · rintro ⟨k, hk⟩
    have hkn : k < n := by
      by_contra hge
      have := epsLevel_empty_mono heap (Nat.le_of_not_lt hge) q hn
      rw [this] at hk
      cases hk
    cases k with
    | zero => exact Or.inl hk
    | succ k => exact Or.inr ⟨k, Nat.lt_of_succ_lt hkn, hk⟩

theorem findPossibleStates_iff_level (heap : List (nfa.State S V)) (states : List Nat) :
    (∃ fuel r, findPossibleStates fuel heap states = .ok r) ↔
      ∃ n, epsLevel heap n states = [] := by
  constructor
  · rintro ⟨fuel, r, h⟩
    rw [findPossibleStates_eq] at h
    obtain ⟨n, hn, _⟩ := level_empty_of_loop heap fuel _ _ _ h
    exact ⟨n, hn⟩
  · rintro ⟨n, hn⟩
    exact ⟨_, _, by rw [findPossibleStates_eq]; exact loop_of_level_empty heap n _ _ hn⟩

theorem findPossibleStates_fuel_mono (heap : List (nfa.State S V)) {fuel fuel1 : Nat}
    (hle : fuel ≤ fuel1) (states r : List Nat)
    (h : findPossibleStates fuel heap states = .ok r) :
    findPossibleStates fuel1 heap states = .ok r := by
  rw [findPossibleStates_eq] at h ⊢
  exact loop_fuel_mono heap hle _ _ _ h

theorem findPossibleStates_mem (heap : List (nfa.State S V)) (fuel : Nat)
    (states r : List Nat) (h : findPossibleStates fuel heap states = .ok r) (y : Nat) :
    y ∈ r ↔ EpsReachable heap states y := by
  rw [findPossibleStates_eq] at h
  obtain ⟨n, hn, hr⟩ := level_empty_of_loop heap fuel _ _ _ h
  rw [hr]
  exact mem_levels_iff_reachable heap n states hn y

theorem epsLevel_exists_of_forall (heap : List (nfa.State S V)) (l : List Nat)
    (h : ∀ y ∈ l, ∃ n, epsLevel heap n [y] = []) : ∃ n, epsLevel heap n l = [] := by
  induction l with
  | nil => exact ⟨0, rfl⟩
  | cons a l ih =>
    obtain ⟨n1, h1⟩ := h a (List.mem_cons_self _ _)
    obtain ⟨n2, h2⟩ := ih (fun y hy => h y (List.mem_cons_of_mem _ hy))
    refine ⟨max n1 n2, ?_⟩
    have : a :: l = [a] ++ l := rfl
    rw [this, epsLevel_append,
      epsLevel_empty_mono heap (Nat.le_max_left n1 n2) _ h1,
      epsLevel_empty_mono heap (Nat.le_max_right n1 n2) _ h2]
    rfl

theorem deref_of_length_le (heap : List (nfa.State S V)) (y : Nat) (h : heap.length ≤ y) :
    nfa.deref heap y = default := by
  simp [nfa.deref, List.getElem?_eq_none h]

theorem epsLevel_one_of_length_le (heap : List (nfa.State S V)) (y : Nat)
    (h : heap.length ≤ y) : epsLevel heap 1 [y] = [] := by
  simp [epsLevel, epsTargets, deref_of_length_le heap y h]
  rfl

/-- Without an epsilon cycle below the seeds, some level is empty. -/
theorem level_empty_of_acyclic (heap : List (nfa.State S V)) (seeds : List Nat)
    (hac : ∀ x, EpsReachable heap seeds x → ¬ Relation.TransGen (EpsStep heap) x x) :
    ∃ n, epsLevel heap n seeds = [] := by
  let α := {x : Nat // x < heap.length ∧ EpsReachable heap seeds x}
  let r : α → α → Prop := fun a b => Relation.TransGen (EpsStep heap) b.1 a.1
  haveI : Finite α :=
    Finite.of_injective (fun a : α => (⟨a.1, a.2.1⟩ : Fin heap.length))
      (by intro a b hab; exact Subtype.ext (by simpa using congrArg Fin.val hab))
  haveI : IsTrans α r := ⟨fun a b c hab hbc => Relation.TransGen.trans hbc hab⟩
  haveI : IsIrrefl α r := ⟨fun a haa => hac a.1 a.2.2 haa⟩
  have wf : WellFounded r := Finite.wellFounded_of_trans_of_irrefl r
  have one : ∀ y, EpsReachable heap seeds y →
      (∀ b : α, b.1 = y → ∃ n, epsLevel heap n [b.1] = []) → ∃ n, epsLevel heap n [y] = [] := by
    intro y hy hb
    by_cases hlt : y < heap.length
    · exact hb ⟨y, hlt, hy⟩ rfl
    · exact ⟨1, epsLevel_one_of_length_le heap y (Nat.le_of_not_lt hlt)⟩
  have key : ∀ a : α, ∃ n, epsLevel heap n [a.1] = [] := by
    intro a
    induction a using wf.induction with
    | _ a ih =>
      have hch : ∀ y ∈ (nfa.deref heap a.1).Epsilon, ∃ n, epsLevel heap n [y] = [] := by
        intro y hy
        have hreach : EpsReachable heap seeds y := by
          obtain ⟨x, hx, hxa⟩ := a.2.2
          exact ⟨x, hx, hxa.tail hy⟩
        refine one y hreach ?_
        rintro b rfl
        exact ih b (Relation.TransGen.single hy)
      obtain ⟨n, hn⟩ := epsLevel_exists_of_forall heap _ hch
      refine ⟨n + 1, ?_⟩
      simp only [epsLevel]
      have : epsTargets heap [a.1] = (nfa.deref heap a.1).Epsilon := by simp [epsTargets]
      rw [this]; exact hn
  apply epsLevel_exists_of_forall
  intro y hy
  exact one y ⟨y, hy, Relation.ReflTransGen.refl⟩ (fun b hb => hb ▸ key b)

/-- A state on an epsilon cycle occurs in levels of arbitrary depth. -/
theorem level_unbounded_of_cycle (heap : List (nfa.State S V)) (seeds : List Nat) (x : Nat)
    (hx : EpsReachable heap seeds x) (hc : Relation.TransGen (EpsStep heap) x x) :
    ∀ m, ∃ k, m ≤ k ∧ x ∈ epsLevel heap k seeds := by
  have step : ∀ k, x ∈ epsLevel heap k seeds → ∃ j, k < j ∧ x ∈ epsLevel heap j seeds := by
    intro k hk
    have gen : ∀ y, Relation.TransGen (EpsStep heap) x y →
        ∃ j, k < j ∧ y ∈ epsLevel heap j seeds := by
      intro y hxy
      induction hxy with
      | single h => exact ⟨k + 1, Nat.lt_succ_self k, (mem_epsLevel_succ heap k _ _).2 ⟨x, hk, h⟩⟩
      | tail _ h ih =>
        obtain ⟨j, hj, hmem⟩ := ih
        exact ⟨j + 1, Nat.lt_succ_of_lt hj, (mem_epsLevel_succ heap j _ _).2 ⟨_, hmem, h⟩⟩
    exact gen x hc
  intro m
  induction m with
  | zero =>
    obtain ⟨k, hk⟩ := (reachable_iff_level heap seeds x).1 hx
    exact ⟨k, Nat.zero_le _, hk⟩
  | succ m ih =>
    obtain ⟨k, hk, hmem⟩ := ih
    obtain ⟨j, hj, hmem1⟩ := step k hmem
    exact ⟨j, by omega, hmem1⟩

theorem findPossibleStates_iff_acyclic (heap : List (nfa.State S V)) (seeds : List Nat) :
    (∃ fuel r, findPossibleStates fuel heap seeds = .ok r) ↔
      ∀ x, EpsReachable heap seeds x → ¬ Relation.TransGen (EpsStep heap) x x := by
  rw [findPossibleStates_iff_level]
  constructor
  · rintro ⟨n, hn⟩ x hx hc
    obtain ⟨k, hk, hmem⟩ := level_unbounded_of_cycle heap seeds x hx hc n
    rw [epsLevel_empty_mono heap hk seeds hn] at hmem
    cases hmem
  · exact level_empty_of_acyclic heap seeds

end

end dfa

/-! ## The subset key -/

namespace dfa

theorem toDigitsCore_acc (f : Nat) : ∀ (n : Nat) (ds : List Char),
    Nat.toDigitsCore 10 f n ds = Nat.toDigitsCore 10 f n [] ++ ds := by
  induction f with
  | zero => intro n ds; simp [Nat.toDigitsCore]
  | succ f ih =>
    intro n ds
    simp only [Nat.toDigitsCore]
    split
    · simp
    · rw [ih (n / 10) (_ :: ds), ih (n / 10) [_]]
      simp

theorem toDigitsCore_fuel (f : Nat) : ∀ (n g : Nat), n < f → n < g →
    Nat.toDigitsCore 10 f n [] = Nat.toDigitsCore 10 g n [] := by
  induction f with
  | zero => intro n g h; omega
  | succ f ih =>
    intro n g hf hg
    cases g with
    | zero => omega
    | succ g =>
      simp only [Nat.toDigitsCore]
      split
      · rfl
      · rename_i hne
        have hlt : n / 10 < n := Nat.div_lt_self (by omega) (by decide)
        rw [toDigitsCore_acc f, toDigitsCore_acc g, ih (n / 10) g (by omega) (by omega)]

theorem toDigits_small (n : Nat) (h : n < 10) : Nat.toDigits 10 n = [Nat.digitChar n] := by
  have h0 : n / 10 = 0 := Nat.div_eq_of_lt h
  simp [Nat.toDigits, Nat.toDigitsCore, h0, Nat.mod_eq_of_lt h]

theorem toDigits_large (n : Nat) (h : 10 ≤ n) :
    Nat.toDigits 10 n = Nat.toDigits 10 (n / 10) ++ [Nat.digitChar (n % 10)] := by
  have h0 : n / 10 ≠ 0 := by omega
  have hlt : n / 10 < n := Nat.div_lt_self (by omega) (by decide)
  have h1 : Nat.toDigitsCore 10 (n + 1) n [] =
      Nat.toDigitsCore 10 n (n / 10) [Nat.digitChar (n % 10)] := by
    simp [Nat.toDigitsCore, h0]
  unfold Nat.toDigits
  rw [h1, toDigitsCore_acc, toDigitsCore_fuel n (n / 10) (n / 10 + 1) hlt (Nat.lt_succ_self _)]

theorem digitChar_ne_comma (n : Nat) (h : n < 10) : Nat.digitChar n ≠ Char.ofNat 44 := by
  interval_cases n <;> decide

theorem digitChar_inj (n m : Nat) (hn : n < 10) (hm : m < 10)
    (h : Nat.digitChar n = Nat.digitChar m) : n = m := by
  interval_cases n <;> interval_cases m <;> first | rfl | (exfalso; revert h; decide)

theorem toDigits_ne_nil (n : Nat) : Nat.toDigits 10 n ≠ [] := by
  by_cases h : n < 10
  · rw [toDigits_small n h]; simp
  · rw [toDigits_large n (by omega)]; simp

theorem toDigits_no_comma (n : Nat) : ∀ c ∈ Nat.toDigits 10 n, c ≠ Char.ofNat 44 := by
  induction n using Nat.strong_induction_on with
  | _ n ih =>
    by_cases h : n < 10
    · rw [toDigits_small n h]
      intro c hc
      simp at hc
      rw [hc]; exact digitChar_ne_comma n h
    · rw [toDigits_large n (by omega)]
      intro c hc
      rw [List.mem_append] at hc
      rcases hc with hc | hc
      · exact ih (n / 10) (Nat.div_lt_self (by omega) (by decide)) c hc
      · simp at hc
        rw [hc]; exact digitChar_ne_comma _ (Nat.mod_lt _ (by decide))

theorem toDigits_length_large (n : Nat) (h : 10 ≤ n) : 2 ≤ (Nat.toDigits 10 n).length := by
  rw [toDigits_large n h]
  have := toDigits_ne_nil (n / 10)
  have : 0 < (Nat.toDigits 10 (n / 10)).length := List.length_pos.2 this
  simp; omega

theorem toDigits_inj : ∀ (n m : Nat), Nat.toDigits 10 n = Nat.toDigits 10 m → n = m := by
  intro n
  induction n using Nat.strong_induction_on with
  | _ n ih =>
    intro m h
    by_cases hn : n < 10
    · by_cases hm : m < 10
      · rw [toDigits_small n hn, toDigits_small m hm] at h
        exact digitChar_inj n m hn hm (by simpa using h)
      · have := toDigits_length_large m (by omega)
        rw [← h, toDigits_small n hn] at this
        simp at this
    · by_cases hm : m < 10
      · have := toDigits_length_large n (by omega)
        rw [h, toDigits_small m hm] at this
        simp at this
      · rw [toDigits_large n (by omega), toDigits_large m (by omega)] at h
        obtain ⟨h1, h2⟩ := List.append_inj' h rfl
        have e1 := ih (n / 10) (Nat.div_lt_self (by omega) (by decide)) (m / 10) h1
        have e2 := digitChar_inj _ _ (Nat.mod_lt n (by decide)) (Nat.mod_lt m (by decide))
          (by simpa using h2)
        omega


/-- Two comma-free blocks that are followed by nothing or by a comma agree as soon as the
whole texts agree. -/
theorem block_split (a : List Char) : ∀ (b x y : List Char),
    (∀ c ∈ a, c ≠ Char.ofNat 44) → (∀ c ∈ b, c ≠ Char.ofNat 44) →
    (x = [] ∨ ∃ t, x = Char.ofNat 44 :: t) → (y = [] ∨ ∃ t, y = Char.ofNat 44 :: t) →
    a ++ x = b ++ y → a = b ∧ x = y := by
  induction a with
  | nil =>
    intro b x y _ hb hx hy h
    cases b with
    | nil => exact ⟨rfl, by simpa using h⟩
    | cons c b =>
      exfalso
      rcases hx with rfl | ⟨t, rfl⟩
      · simp at h
      · simp at h
        exact hb c (List.mem_cons_self _ _) h.1.symm
  | cons c a ih =>
    intro b x y ha hb hx hy h
    cases b with
    | nil =>
      exfalso
      rcases hy with rfl | ⟨t, rfl⟩
      · simp at h
      · simp at h
        exact ha c (List.mem_cons_self _ _) h.1
    | cons d b =>
      simp only [List.cons_append, List.cons.injEq] at h
      obtain ⟨h1, h2⟩ := ih b x y (fun c hc => ha c (List.mem_cons_of_mem _ hc))
        (fun c hc => hb c (List.mem_cons_of_mem _ hc)) hx hy h.2
      exact ⟨by rw [h.1, h1], h2⟩

theorem commaBlocks_shape (r : List Nat) :
    r.flatMap (fun id => Char.ofNat 44 :: Nat.toDigits 10 id) = [] ∨
      ∃ t, r.flatMap (fun id => Char.ofNat 44 :: Nat.toDigits 10 id) = Char.ofNat 44 :: t := by
  cases r with
  | nil => exact Or.inl rfl
  | cons a r =>
    simp only [List.flatMap_cons, List.cons_append]
    exact Or.inr ⟨_, rfl⟩

theorem commaBlocks_inj (r1 : List Nat) : ∀ r2 : List Nat,
    r1.flatMap (fun id => Char.ofNat 44 :: Nat.toDigits 10 id) =
      r2.flatMap (fun id => Char.ofNat 44 :: Nat.toDigits 10 id) → r1 = r2 := by
  induction r1 with
  | nil =>
    intro r2 h
    cases r2 with
    | nil => rfl
    | cons b r2 => simp [List.flatMap_cons] at h
  | cons a r1 ih =>
    intro r2 h
    cases r2 with
    | nil => simp [List.flatMap_cons] at h
    | cons b r2 =>
      simp only [List.flatMap_cons, List.cons_append, List.cons.injEq, true_and] at h
      obtain ⟨h1, h2⟩ := block_split _ _ _ _ (toDigits_no_comma a) (toDigits_no_comma b)
        (commaBlocks_shape r1) (commaBlocks_shape r2) h
      rw [toDigits_inj a b h1, ih r2 h2]

theorem joinIDs_inj (l1 l2 : List Nat) (h : joinIDs l1 = joinIDs l2) : l1 = l2 := by
  cases l1 with
  | nil =>
    cases l2 with
    | nil => rfl
    | cons b r2 =>
      exfalso
      simp only [joinIDs] at h
      exact toDigits_ne_nil b (List.append_eq_nil.1 h.symm).1
  | cons a r1 =>
    cases l2 with
    | nil =>
      exfalso
      simp only [joinIDs] at h
      exact toDigits_ne_nil a (List.append_eq_nil.1 h).1
    | cons b r2 =>
      simp only [joinIDs] at h
      obtain ⟨h1, h2⟩ := block_split _ _ _ _ (toDigits_no_comma a) (toDigits_no_comma b)
        (commaBlocks_shape r1) (commaBlocks_shape r2) h
      rw [toDigits_inj a b h1, commaBlocks_inj r1 r2 h2]

section
variable {S V : Type} [Inhabited V]

theorem key_collect (heap : List (nfa.State S V)) (states : List Nat) :
    ∀ (seen : set.Set Nat) (ids : List Nat),
      (states.foldl
        (fun (acc : set.Set Nat × List Nat) state =>
          let id := (nfa.deref heap state).ID
          (acc.1.Add id, acc.2 ++ [id]))
        (seen, ids)).2 = ids ++ idsOf heap states := by
  induction states with
  | nil => intro seen ids; simp [idsOf]
  | cons a l ih =>
    intro seen ids
    rw [List.foldl_cons, ih]
    simp [idsOf]

theorem key_write_pos (ids : List Nat) : ∀ (acc : String) (i : Nat), 0 < i →
    (ids.foldl
      (fun (acc : String × Nat) id =>
        ((if acc.2 > 0 then acc.1.push (Char.ofNat 44) else acc.1) ++ Itoa id, acc.2 + 1))
      (acc, i)).1.data =
      acc.data ++ ids.flatMap (fun id => Char.ofNat 44 :: Nat.toDigits 10 id) := by
  induction ids with
  | nil => intro acc i _; simp
  | cons a l ih =>
    intro acc i hi
    rw [List.foldl_cons, ih _ _ (Nat.succ_pos i)]
    simp [hi, Itoa, List.flatMap_cons]

theorem key_write (ids : List Nat) :
    (ids.foldl
      (fun (acc : String × Nat) id =>
        ((if acc.2 > 0 then acc.1.push (Char.ofNat 44) else acc.1) ++ Itoa id, acc.2 + 1))
      ("", 0)).1.data = joinIDs ids := by
  cases ids with
  | nil => rfl
  | cons a l =>
    rw [List.foldl_cons, key_write_pos _ _ _ (by decide)]
    simp [Itoa, joinIDs]

/-- The key is the text of the sorted ids, every occurrence included. -/
theorem calculateStatesKey_data (heap : List (nfa.State S V)) (states : List Nat) :
    (calculateStatesKey heap states).data =
      joinIDs ((idsOf heap states).insertionSort (fun a b => a ≤ b)) := by
  unfold calculateStatesKey
  simp only
  rw [key_write, key_collect]
  simp

theorem calculateStatesKey_eq_iff (heap : List (nfa.State S V)) (s1 s2 : List Nat) :
    calculateStatesKey heap s1 = calculateStatesKey heap s2 ↔
      (idsOf heap s1).Perm (idsOf heap s2) := by
  constructor
  · intro h
    have h1 := congrArg String.data h
    rw [calculateStatesKey_data, calculateStatesKey_data] at h1
    have h2 := joinIDs_inj _ _ h1
    have h3 := List.perm_insertionSort (fun a b : Nat => a ≤ b) (idsOf heap s2)
    rw [← h2] at h3
    exact (List.perm_insertionSort _ _).symm.trans h3
  · intro h
    apply String.ext
    rw [calculateStatesKey_data, calculateStatesKey_data]
    congr 1
    exact List.eq_of_perm_of_sorted
      (((List.perm_insertionSort _ _).trans h).trans (List.perm_insertionSort _ _).symm)
      (List.sorted_insertionSort _ _) (List.sorted_insertionSort _ _)

end

end dfa

/-! ## Go maps -/

namespace gomap

theorem get_set {K V : Type} [DecidableEq K] (m : List (K × V)) (k : K) (v : V) (k1 : K) :
    get (set m k v) k1 = if k = k1 then some v else get m k1 := by
  induction m with
  | nil => simp [set, get]
  | cons e m ih =>
    obtain ⟨k0, v0⟩ := e
    simp only [set]
    by_cases h0 : k0 = k
    · subst h0
      simp only [if_true, get]
      by_cases h1 : k0 = k1 <;> simp [h1]
    · simp only [h0, if_false, get, ih]
      by_cases h1 : k0 = k1
      · subst h1
        simp [Ne.symm h0]
      · simp [h1]

theorem get_eq_none_iff {K V : Type} [DecidableEq K] (m : List (K × V)) (k : K) :
    get m k = none ↔ k ∉ m.map Prod.fst := by
  induction m with
  | nil => simp [get]
  | cons e m ih =>
    obtain ⟨k0, v0⟩ := e
    simp only [get, List.map_cons, List.mem_cons, not_or]
    by_cases h : k0 = k
    · subst h; simp
    · simp [h, ih, Ne.symm h]

theorem keys_set {K V : Type} [DecidableEq K] (m : List (K × V)) (k : K) (v : V) :
    (set m k v).map Prod.fst =
      if k ∈ m.map Prod.fst then m.map Prod.fst else m.map Prod.fst ++ [k] := by
  induction m with
  | nil => simp [set]
  | cons e m ih =>
    obtain ⟨k0, v0⟩ := e
    simp only [set]
    by_cases h0 : k0 = k
    · subst h0; simp
    · simp only [h0, if_false, List.map_cons, ih, List.mem_cons]
      by_cases h1 : k ∈ m.map Prod.fst
      · simp [h1]
      · simp [h1, Ne.symm h0]

theorem nodup_keys_set {K V : Type} [DecidableEq K] (m : List (K × V)) (k : K) (v : V)
    (h : (m.map Prod.fst).Nodup) : ((set m k v).map Prod.fst).Nodup := by
  rw [keys_set]
  by_cases h1 : k ∈ m.map Prod.fst
  · simp only [h1, if_true]; exact h
  · simp only [h1, if_false]
    exact List.Nodup.append h (List.nodup_singleton k) (by simpa using h1)

end gomap

/-! ## The expansion of a subset -/

namespace set

theorem mem_Add {T : Type} [DecidableEq T] (s : Set T) (v x : T) :
    x ∈ (s.Add v).elems ↔ x ∈ s.elems ∨ x = v := by
  unfold Set.Add
  by_cases h : v ∈ s.elems
  · simp only [h, if_true]
    constructor
    · exact Or.inl
    · rintro (h1 | rfl)
      · exact h1
      · exact h
  · simp [h]

theorem nodup_Add {T : Type} [DecidableEq T] (s : Set T) (v : T) (h : s.elems.Nodup) :
    (s.Add v).elems.Nodup := by
  unfold Set.Add
  by_cases h1 : v ∈ s.elems
  · simp only [h1, if_true]; exact h
  · simp only [h1, if_false]
    exact List.Nodup.append h (List.nodup_singleton v) (by simpa using h1)

theorem foldl_Add {T : Type} [DecidableEq T] (l : List T) :
    ∀ s : Set T, s.elems.Nodup →
      (l.foldl (fun a symbol => a.Add symbol) s).elems.Nodup ∧
      ∀ x, x ∈ (l.foldl (fun a symbol => a.Add symbol) s).elems ↔ x ∈ s.elems ∨ x ∈ l := by
  induction l with
  | nil => intro s h; simp [h]
  | cons v l ih =>
    intro s h
    obtain ⟨h1, h2⟩ := ih (s.Add v) (nodup_Add s v h)
    refine ⟨h1, fun x => ?_⟩
    rw [List.foldl_cons, h2, mem_Add]
    simp only [List.mem_cons]
    tauto

end set

namespace dfa

section
variable {S V : Type} [DecidableEq S]

theorem outgoingFor_nil_of_not_symbol (st : nfa.State S V) (a : S)
    (h : a ∉ st.OutgoingSymbols) : st.OutgoingFor a = [] := by
  unfold nfa.State.OutgoingFor
  unfold nfa.State.OutgoingSymbols at h
  cases ht : st.transitions with
  | none =>
    rw [ht] at h
    cases he : st.edge with
    | none => rfl
    | some e =>
      rw [he] at h
      simp only [List.mem_singleton] at h
      simp [Ne.symm h]
  | some m =>
    rw [ht] at h
    simp only
    unfold mvmap.MvMap.Get
    rw [(gomap.get_eq_none_iff m.data a).2 h]
    rfl

end

section
variable {S V : Type} [Inhabited V]

theorem epsLevels_nil (heap : List (nfa.State S V)) (n : Nat) : epsLevels heap n [] = [] := by
  induction n with
  | zero => rfl
  | succ n ih => simp [epsLevels, epsTargets_nil, ih]

theorem findPossibleStates_prefix (heap : List (nfa.State S V)) (fuel : Nat)
    (states r : List Nat) (h : findPossibleStates fuel heap states = .ok r) :
    ∃ t, r = states ++ t := by
  rw [findPossibleStates_eq] at h
  obtain ⟨n, _, hr⟩ := level_empty_of_loop heap fuel _ _ _ h
  exact ⟨_, hr⟩

theorem findPossibleStates_nil (heap : List (nfa.State S V)) (fuel : Nat)
    (r : List Nat) (h : findPossibleStates fuel heap [] = .ok r) : r = [] := by
  rw [findPossibleStates_eq] at h
  obtain ⟨n, _, hr⟩ := level_empty_of_loop heap fuel _ _ _ h
  rw [hr, epsLevels_nil]; rfl

theorem findPossibleStates_error (heap : List (nfa.State S V)) (fuel : Nat)
    (states : List Nat) (e : Fault) (h : findPossibleStates fuel heap states = .error e) :
    e = .outOfFuel := by
  rw [findPossibleStates_eq] at h
  exact loop_error heap fuel _ _ e h

end

section
variable {S V : Type} [Inhabited V] [DecidableEq S]

theorem findReachableStatesForSymbol_eq (heap : List (nfa.State S V)) (states : List Nat)
    (a : S) : findReachableStatesForSymbol heap states a = moveOn heap states a := by
  have gen : ∀ (l acc : List Nat),
      l.foldl (fun reachableStates state =>
        reachableStates ++ (nfa.deref heap state).OutgoingFor a) acc =
        acc ++ moveOn heap l a := by
    intro l
    induction l with
    | nil => intro acc; simp [moveOn]
    | cons x l ih => intro acc; rw [List.foldl_cons, ih]; simp [moveOn]
  simpa using gen states []

theorem alphabet_spec (heap : List (nfa.State S V)) (states : List Nat) :
    ∀ s : set.Set S, s.elems.Nodup →
      (states.foldl
        (fun (alphabet : set.Set S) state =>
          (nfa.deref heap state).OutgoingSymbols.foldl (fun a symbol => a.Add symbol) alphabet)
        s).elems.Nodup ∧
      ∀ x, x ∈ (states.foldl
        (fun (alphabet : set.Set S) state =>
          (nfa.deref heap state).OutgoingSymbols.foldl (fun a symbol => a.Add symbol) alphabet)
        s).elems ↔ x ∈ s.elems ∨ ∃ st ∈ states, x ∈ (nfa.deref heap st).OutgoingSymbols := by
  induction states with
  | nil => intro s h; simp [h]
  | cons st l ih =>
    intro s h
    obtain ⟨h1, h2⟩ := set.foldl_Add (nfa.deref heap st).OutgoingSymbols s h
    obtain ⟨h3, h4⟩ := ih _ h1
    refine ⟨h3, fun x => ?_⟩
    rw [List.foldl_cons, h4, h2]
    simp only [List.mem_cons, exists_eq_or_imp]
    tauto

theorem moveOn_nil_of_not_symbol (heap : List (nfa.State S V)) (states : List Nat) (a : S)
    (h : ∀ st ∈ states, a ∉ (nfa.deref heap st).OutgoingSymbols) : moveOn heap states a = [] := by
  unfold moveOn
  rw [List.flatMap_eq_nil_iff]
  intro st hst
  exact outgoingFor_nil_of_not_symbol _ a (h st hst)

/-- What the second loop of `expandStatesPerSymbol` leaves in the map. -/
theorem expand_loop_spec (fuel : Nat) (heap : List (nfa.State S V)) (states : List Nat)
    (syms : List S) :
    ∀ (acc expanded : List (S × List Nat)), syms.Nodup →
      expandStatesPerSymbol.loop fuel heap states syms acc = .ok expanded →
      ((acc.map Prod.fst).Nodup → (expanded.map Prod.fst).Nodup) ∧
      ∀ a, (a ∉ syms → gomap.get expanded a = gomap.get acc a) ∧
        (a ∈ syms → ∃ l1, findPossibleStates fuel heap (moveOn heap states a) = .ok l1 ∧
          gomap.get expanded a = if l1 = [] then gomap.get acc a else some l1) := by
  induction syms with
  | nil =>
    intro acc expanded _ h
    simp only [expandStatesPerSymbol.loop] at h
    cases h
    exact ⟨id, fun a => ⟨fun _ => rfl, fun h => absurd h (List.not_mem_nil a)⟩⟩
  | cons sym rest ih =>
    intro acc expanded hnd h
    simp only [expandStatesPerSymbol.loop, findReachableStatesForSymbol_eq] at h
    have hnd1 : rest.Nodup := (List.nodup_cons.1 hnd).2
    have hsym : sym ∉ rest := (List.nodup_cons.1 hnd).1
    cases hf : findPossibleStates fuel heap (moveOn heap states sym) with
    | error e => rw [hf] at h; cases h
    | ok eps =>
      rw [hf] at h
      simp only at h
      by_cases hlen : eps.length > 0
      · simp only [hlen, if_true] at h
        have hne : eps ≠ [] := List.length_pos.1 hlen
        obtain ⟨h1, h2⟩ := ih _ _ hnd1 h
        refine ⟨fun hacc => h1 (gomap.nodup_keys_set _ _ _ hacc), fun a => ⟨?_, ?_⟩⟩
        · intro ha
          simp only [List.mem_cons, not_or] at ha
          rw [(h2 a).1 ha.2, gomap.get_set]
          simp [Ne.symm ha.1]
        · intro ha
          by_cases hEq : a = sym
          · subst hEq
            refine ⟨eps, hf, ?_⟩
            rw [(h2 a).1 hsym, gomap.get_set]
            simp [hne]
          · have hmem : a ∈ rest := by
              rcases List.mem_cons.1 ha with h0 | h0
              · exact absurd h0 hEq
              · exact h0
            obtain ⟨l1, hl1, hg⟩ := (h2 a).2 hmem
            refine ⟨l1, hl1, ?_⟩
            rw [hg, gomap.get_set]
            simp [Ne.symm hEq]
      · simp only [hlen, if_false] at h
        have hnil : eps = [] := by
          cases eps with
          | nil => rfl
          | cons x t => simp at hlen
        obtain ⟨h1, h2⟩ := ih _ _ hnd1 h
        refine ⟨h1, fun a => ⟨?_, ?_⟩⟩
        · intro ha
          simp only [List.mem_cons, not_or] at ha
          exact (h2 a).1 ha.2
        · intro ha
          by_cases hEq : a = sym
          · subst hEq
            refine ⟨eps, hf, ?_⟩
            rw [(h2 a).1 hsym]
            simp [hnil]
          · have hmem : a ∈ rest := by
              rcases List.mem_cons.1 ha with h0 | h0
              · exact absurd h0 hEq
              · exact h0
            exact (h2 a).2 hmem

/-- The map of `expandStatesPerSymbol`: an entry for exactly the symbols with a target, whose
value is the closure of the targets; every symbol once. -/
theorem expandStatesPerSymbol_spec (fuel : Nat) (heap : List (nfa.State S V))
    (states : List Nat) (expanded : List (S × List Nat))
    (h : expandStatesPerSymbol fuel heap states = .ok expanded) :
    (expanded.map Prod.fst).Nodup ∧
    ∀ a, (moveOn heap states a = [] → gomap.get expanded a = none) ∧
      (moveOn heap states a ≠ [] →
        ∃ l1, findPossibleStates fuel heap (moveOn heap states a) = .ok l1 ∧ l1 ≠ [] ∧
          gomap.get expanded a = some l1) := by
  unfold expandStatesPerSymbol at h
  simp only at h
  obtain ⟨hnd, hmem⟩ := alphabet_spec heap states set.New (by simp [set.New])
  obtain ⟨h1, h2⟩ := expand_loop_spec fuel heap states _ _ _ hnd h
  refine ⟨h1 (by simp), fun a => ?_⟩
  by_cases ha : a ∈ (states.foldl
        (fun (alphabet : set.Set S) state =>
          (nfa.deref heap state).OutgoingSymbols.foldl (fun a symbol => a.Add symbol) alphabet)
        set.New).Values
  · obtain ⟨l1, hl1, hg⟩ := (h2 a).2 ha
    constructor
    · intro hm
      rw [hm] at hl1
      have := findPossibleStates_nil heap fuel l1 hl1
      rw [hg, this]
      rfl
    · intro hm
      obtain ⟨t, ht⟩ := findPossibleStates_prefix heap fuel _ _ hl1
      have hne : l1 ≠ [] := by
        rw [ht]
        intro hcontra
        exact hm (List.append_eq_nil.1 hcontra).1
      exact ⟨l1, hl1, hne, by rw [hg]; simp [hne]⟩
  · have hm : moveOn heap states a = [] := by
      apply moveOn_nil_of_not_symbol
      intro st hst hsym
      exact ha ((hmem a).2 (Or.inr ⟨st, hst, hsym⟩))
    constructor
    · intro _
      rw [(h2 a).1 ha]; rfl
    · intro hne; exact absurd hm hne

end

end dfa

/-! ## The builder: registering subsets -/

namespace dfa

section
variable {S V : Type} [Inhabited V]

theorem findAcceptanceIdx_default_gen (heap : List (nfa.State S V)) (states : List Nat) :
    ∀ init : Int × V, (init.1 ≤ -1 → init.2 = default) →
      ((states.foldl
        (fun (acc : Int × V) s =>
          let idx := (nfa.deref heap s).AcceptIdx
          if idx = -1 then acc
          else if acc.1 = -1 ∨ idx < acc.1 then (idx, (nfa.deref heap s).AcceptValue)
          else acc) init).1 ≤ -1 →
       (states.foldl
        (fun (acc : Int × V) s =>
          let idx := (nfa.deref heap s).AcceptIdx
          if idx = -1 then acc
          else if acc.1 = -1 ∨ idx < acc.1 then (idx, (nfa.deref heap s).AcceptValue)
          else acc) init).2 = default) := by
  induction states with
  | nil => intro init h; exact h
  | cons s l ih =>
    intro init h
    rw [List.foldl_cons]
    apply ih
    simp only
    split
    · exact h
    · split
      · intro hle
        simp only [nfa.State.AcceptIdx] at hle
        simp [nfa.State.AcceptValue, hle]
      · exact h

theorem findAcceptanceIdx_default (heap : List (nfa.State S V)) (states : List Nat)
    (h : ¬ (findAcceptanceIdx heap states).1 > -1) :
    (findAcceptanceIdx heap states).2 = default :=
  findAcceptanceIdx_default_gen heap states (-1, default) (fun _ => rfl)
    (by unfold findAcceptanceIdx at h; omega)

theorem set_concat_length {α : Type} (l : List α) (x y : α) :
    (l ++ [x]).set l.length y = l ++ [y] := by
  induction l with
  | nil => rfl
  | cons a l ih => simp [List.set, ih]

theorem newAcceptingState_eq (d : Dfa S V) (acceptIdx : Int) (value : V) :
    d.newAcceptingState acceptIdx value =
      ({ states := d.states ++
           [{ id := d.nextStateID, transitions := [], acceptIdx := acceptIdx, value := value }],
         start := d.start, nextStateID := d.nextStateID + 1 }, d.states.length) := by
  simp [Dfa.newAcceptingState, Dfa.newState, List.getElem?_concat_length, set_concat_length]

theorem ensureState_hit (b : dfaBuilder S V) (heap : List (nfa.State S V)) (states : List Nat)
    (j : Nat) (h : gomap.get b.subsetKeyToStateMap (calculateStatesKey heap states) = some j) :
    b.ensureState heap states = (b, j) := by
  simp [dfaBuilder.ensureState, h]

theorem ensureState_miss (b : dfaBuilder S V) (heap : List (nfa.State S V))
    (states : List Nat)
    (h : gomap.get b.subsetKeyToStateMap (calculateStatesKey heap states) = none) :
    ∃ st : State S V, st.id = b.dfa.nextStateID ∧ st.transitions = [] ∧
      AcceptsFor heap st states ∧
      b.ensureState heap states =
        ({ dfa := { states := b.dfa.states ++ [st], start := b.dfa.start,
                    nextStateID := b.dfa.nextStateID + 1 },
           workingQueue := ⟨b.workingQueue.data ++ [states]⟩,
           subsetKeyToStateMap :=
             gomap.set b.subsetKeyToStateMap (calculateStatesKey heap states)
               b.dfa.states.length }, b.dfa.states.length) := by
  by_cases hacc : (findAcceptanceIdx heap states).1 > -1
  · refine ⟨{ id := b.dfa.nextStateID, transitions := [],
              acceptIdx := (findAcceptanceIdx heap states).1,
              value := (findAcceptanceIdx heap states).2 }, rfl, rfl, ?_, ?_⟩
    · exact ⟨rfl, rfl⟩
    · simp [dfaBuilder.ensureState, h, hacc, newAcceptingState_eq, queue.Queue.Enqueue]
  · refine ⟨{ id := b.dfa.nextStateID, transitions := [], acceptIdx := -1, value := default },
      rfl, rfl, ?_, ?_⟩
    · refine ⟨?_, ?_⟩
      · simp [State.IsAccepting, hacc]
      · exact (findAcceptanceIdx_default heap states hacc).symm
    · simp [dfaBuilder.ensureState, h, hacc, Dfa.newState, queue.Queue.Enqueue]

/-- Registering a non-empty subset keeps the registry invariant; the registry grows by at
most the subset, which is then also in the queue; old states are untouched and a new one has
no transitions. -/
theorem ensureState_spec (heap : List (nfa.State S V)) (b : dfaBuilder S V)
    (reg : List (List Nat)) (states : List Nat) (hinv : RegInv heap b reg)
    (hne : states ≠ []) :
    ∃ reg1 t, RegInv heap (b.ensureState heap states).1 reg1 ∧ reg1 = reg ++ t ∧
      (t = [] ∨ t = [states]) ∧
      (b.ensureState heap states).1.workingQueue.data = b.workingQueue.data ++ t ∧
      (∃ l2, reg1[(b.ensureState heap states).2]? = some l2 ∧
        calculateStatesKey heap l2 = calculateStatesKey heap states) ∧
      (∀ i, i < reg.length →
        (b.ensureState heap states).1.dfa.states[i]? = b.dfa.states[i]?) ∧
      (∀ (i : Nat) (st : State S V), reg.length ≤ i →
        (b.ensureState heap states).1.dfa.states[i]? = some st → st.transitions = []) := by
  cases hget : gomap.get b.subsetKeyToStateMap (calculateStatesKey heap states) with
  | some j =>
    rw [ensureState_hit b heap states j hget]
    obtain ⟨l2, hl2, hk⟩ := hinv.ofKey _ _ hget
    refine ⟨reg, [], hinv, by simp, Or.inl rfl, by simp, ⟨l2, hl2, hk.symm⟩,
      fun _ _ => rfl, ?_⟩
    intro i st hi hst
    have : b.dfa.states[i]? = none := List.getElem?_eq_none (by rw [hinv.len]; exact hi)
    simp only at hst
    rw [this] at hst; cases hst
  | none =>
    obtain ⟨st, hid, htr, hacc, heq⟩ := ensureState_miss b heap states hget
    rw [heq]
    refine ⟨reg ++ [states], [states], ?_, rfl, Or.inr rfl, rfl, ⟨states, ?_, rfl⟩, ?_, ?_⟩
    · constructor
      · simp [hinv.len]
      · simp [hinv.nextID]
      · exact hinv.start
      · simp
      · intro i st1 h1
        simp only at h1
        by_cases hi : i < b.dfa.states.length
        · rw [List.getElem?_append_left hi] at h1
          exact hinv.ids i st1 h1
        · have hi1 : b.dfa.states.length ≤ i := Nat.le_of_not_lt hi
          rw [List.getElem?_append_right hi1] at h1
          have hi0 : i - b.dfa.states.length = 0 := by
            by_contra hc
            rw [List.getElem?_eq_none (by simp; omega)] at h1
            cases h1
          rw [hi0] at h1
          simp at h1
          rw [← h1, hid, hinv.nextID, ← hinv.len]
          omega
      · intro i l hl
        simp only
        rw [gomap.get_set]
        by_cases hi : i < reg.length
        · rw [List.getElem?_append_left hi] at hl
          have hold := hinv.keyOf i l hl
          have hneq : calculateStatesKey heap states ≠ calculateStatesKey heap l := by
            intro hc
            rw [hc, hold] at hget
            cases hget
          simp [hneq, hold]
        · have hi1 : reg.length ≤ i := Nat.le_of_not_lt hi
          rw [List.getElem?_append_right hi1] at hl
          have hi0 : i - reg.length = 0 := by
            by_contra hc
            rw [List.getElem?_eq_none (by simp; omega)] at hl
            cases hl
          rw [hi0] at hl
          simp at hl
          subst hl
          simp [hinv.len]
          omega
      · intro k i hk
        simp only at hk
        rw [gomap.get_set] at hk
        by_cases hkey : calculateStatesKey heap states = k
        · simp only [hkey, if_true, Option.some.injEq] at hk
          refine ⟨states, ?_, hkey.symm⟩
          rw [← hk, hinv.len]
          exact List.getElem?_concat_length _ _
        · simp only [hkey, if_false] at hk
          obtain ⟨l, hl, hkl⟩ := hinv.ofKey k i hk
          refine ⟨l, ?_, hkl⟩
          have hi : i < reg.length := (List.getElem?_eq_some.1 hl).1
          rw [List.getElem?_append_left hi]; exact hl
      · intro l hl
        rcases List.mem_append.1 hl with h1 | h1
        · exact hinv.nonempty l h1
        · simp at h1; rw [h1]; exact hne
      · intro i l st1 hl hst
        simp only at hst
        by_cases hi : i < reg.length
        · rw [List.getElem?_append_left hi] at hl
          rw [List.getElem?_append_left (by rw [hinv.len]; exact hi)] at hst
          exact hinv.accept i l st1 hl hst
        · have hi1 : reg.length ≤ i := Nat.le_of_not_lt hi
          rw [List.getElem?_append_right hi1] at hl
          rw [List.getElem?_append_right (by rw [hinv.len]; exact hi1)] at hst
          have hi0 : i - reg.length = 0 := by
            by_contra hc
            rw [List.getElem?_eq_none (by simp; omega)] at hl
            cases hl
          rw [hinv.len, hi0] at hst
          rw [hi0] at hl
          simp at hl hst
          rw [← hl, ← hst]; exact hacc
      · intro i st1 hst
        simp only at hst
        by_cases hi : i < b.dfa.states.length
        · rw [List.getElem?_append_left hi] at hst
          exact hinv.nodupT i st1 hst
        · have hi1 : b.dfa.states.length ≤ i := Nat.le_of_not_lt hi
          rw [List.getElem?_append_right hi1] at hst
          have hi0 : i - b.dfa.states.length = 0 := by
            by_contra hc
            rw [List.getElem?_eq_none (by simp; omega)] at hst
            cases hst
          rw [hi0] at hst
          simp at hst
          rw [← hst, htr]; simp
    · simp only
      rw [hinv.len]
      exact List.getElem?_concat_length _ _
    · intro i hi
      simp only
      rw [List.getElem?_append_left (by rw [hinv.len]; exact hi)]
    · intro i st1 hi hst
      simp only at hst
      rw [List.getElem?_append_right (by rw [hinv.len]; exact hi)] at hst
      have hi0 : i - b.dfa.states.length = 0 := by
        by_contra hc
        rw [List.getElem?_eq_none (by simp; omega)] at hst
        cases hst
      rw [hi0] at hst
      simp at hst
      rw [← hst]; exact htr

end

section
variable {S V : Type} [Inhabited V] [DecidableEq S]

theorem TransFor.mono {heap : List (nfa.State S V)} {reg : List (List Nat)} {st : State S V}
    {expanded : List (S × List Nat)} (h : TransFor heap reg st expanded) (t : List (List Nat)) :
    TransFor heap (reg ++ t) st expanded := by
  intro a
  have := h a
  cases hg : gomap.get expanded a with
  | none => rw [hg] at this; exact this
  | some l1 =>
    rw [hg] at this
    obtain ⟨j, l2, h1, h2, h3⟩ := this
    refine ⟨j, l2, h1, ?_, h3⟩
    have hj : j < reg.length := by
      rcases List.getElem?_eq_some.1 h2 with ⟨hj, _⟩
      exact hj
    rw [List.getElem?_append_left hj]; exact h2

end

end dfa

/-! ## The builder: connecting a subset -/

namespace gomap

theorem get_append_singleton {K V : Type} [DecidableEq K] (m : List (K × V)) (k : K) (v : V)
    (k1 : K) :
    get (m ++ [(k, v)]) k1 =
      match get m k1 with
      | some x => some x
      | none => if k = k1 then some v else none := by
  induction m with
  | nil => simp [get]
  | cons e m ih =>
    obtain ⟨k0, v0⟩ := e
    simp only [List.cons_append, get]
    by_cases h : k0 = k1
    · simp [h]
    · simp [h, ih]

end gomap

namespace dfa

section
variable {S V : Type} [DecidableEq S]

theorem setTransition_getElem_ne (d : Dfa S V) (p : Nat) (a : S) (j i : Nat) (h : i ≠ p) :
    (d.setTransition p a j).states[i]? = d.states[i]? := by
  unfold Dfa.setTransition
  cases hp : d.states[p]? with
  | none => rfl
  | some s => simp only; rw [List.getElem?_set_ne (Ne.symm h)]

theorem setTransition_getElem_self (d : Dfa S V) (p : Nat) (a : S) (j : Nat) (st : State S V)
    (h : d.states[p]? = some st) :
    (d.setTransition p a j).states[p]? =
      some { st with transitions := gomap.set st.transitions a j } := by
  unfold Dfa.setTransition
  simp only [h]
  rw [List.getElem?_set_self (List.getElem?_eq_some.1 h).1]

theorem setTransition_getElem (d : Dfa S V) (p : Nat) (a : S) (j i : Nat) (st1 : State S V)
    (h : (d.setTransition p a j).states[i]? = some st1) :
    ∃ st, d.states[i]? = some st ∧ st1.id = st.id ∧ st1.acceptIdx = st.acceptIdx ∧
      st1.value = st.value ∧
      (st1.transitions = st.transitions ∨ st1.transitions = gomap.set st.transitions a j) := by
  by_cases hi : i = p
  · subst hi
    cases hp : d.states[i]? with
    | none =>
      have : (d.setTransition i a j).states = d.states := by
        unfold Dfa.setTransition; simp [hp]
      rw [this, hp] at h; cases h
    | some st =>
      rw [setTransition_getElem_self d i a j st hp] at h
      cases h
      exact ⟨st, rfl, rfl, rfl, rfl, Or.inr rfl⟩
  · rw [setTransition_getElem_ne d p a j i hi] at h
    exact ⟨st1, h, rfl, rfl, rfl, Or.inl rfl⟩

theorem setTransition_length (d : Dfa S V) (p : Nat) (a : S) (j : Nat) :
    (d.setTransition p a j).states.length = d.states.length := by
  unfold Dfa.setTransition
  cases hp : d.states[p]? with
  | none => rfl
  | some s => simp

theorem outgoingFor_set (st : State S V) (a : S) (j : Nat) (a1 : S) :
    State.OutgoingFor { st with transitions := gomap.set st.transitions a j } a1 =
      if a = a1 then some j else st.OutgoingFor a1 := by
  simp [State.OutgoingFor, gomap.get_set]

end

section
variable {S V : Type} [Inhabited V] [DecidableEq S]

theorem regInv_setTransition (heap : List (nfa.State S V)) (b : dfaBuilder S V)
    (reg : List (List Nat)) (p : Nat) (a : S) (j : Nat) (hinv : RegInv heap b reg) :
    RegInv heap { b with dfa := b.dfa.setTransition p a j } reg := by
  constructor
  · simp only; rw [setTransition_length]; exact hinv.len
  · exact hinv.nextID
  · exact hinv.start
  · exact hinv.pos
  · intro i st1 h
    obtain ⟨st, hst, hid, _⟩ := setTransition_getElem _ _ _ _ _ _ h
    rw [hid]; exact hinv.ids i st hst
  · exact hinv.keyOf
  · exact hinv.ofKey
  · exact hinv.nonempty
  · intro i l st1 hl h
    obtain ⟨st, hst, _, hacc, hval, _⟩ := setTransition_getElem _ _ _ _ _ _ h
    have := hinv.accept i l st hl hst
    unfold AcceptsFor State.IsAccepting State.AcceptValue at this ⊢
    rw [hacc, hval]; exact this
  · intro i st1 h
    obtain ⟨st, hst, _, _, _, htr⟩ := setTransition_getElem _ _ _ _ _ _ h
    rcases htr with htr | htr
    · rw [htr]; exact hinv.nodupT i st hst
    · rw [htr]; exact gomap.nodup_keys_set _ _ _ (hinv.nodupT i st hst)

/-- The inner loop of `buildFromNfa` returns, and connects the state at position `p` to the
states of all entries of the expansion. -/
theorem connect_spec (heap : List (nfa.State S V)) (closureFuel p : Nat)
    (rest : List (S × List Nat)) :
    ∀ (seen : List (S × List Nat)) (b : dfaBuilder S V) (reg : List (List Nat)),
      ConnInv heap closureFuel b reg p seen → ((seen ++ rest).map Prod.fst).Nodup →
      (∀ e ∈ rest, e.2 ≠ []) →
      ∃ b1 t, dfaBuilder.connect heap (some p) rest b = .ok b1 ∧
        ConnInv heap closureFuel b1 (reg ++ t) p (seen ++ rest) ∧
        ∀ l ∈ t, ∃ e ∈ rest, l = e.2 := by
  induction rest with
  | nil =>
    intro seen b reg hinv _ _
    exact ⟨b, [], rfl, by simpa using hinv, fun l hl => absurd hl (List.not_mem_nil l)⟩
  | cons e rest ih =>
    intro seen b reg hinv hnd hne
    obtain ⟨a, l⟩ := e
    obtain ⟨stp, hstp, htrans⟩ := hinv.cur
    have hp : p < reg.length := by
      rw [← hinv.base.len]; exact (List.getElem?_eq_some.1 hstp).1
    have hseen : gomap.get seen a = none := by
      rw [gomap.get_eq_none_iff]
      intro hmem
      rw [List.map_append, List.map_cons] at hnd
      exact (List.nodup_append.1 hnd).2.2 hmem (List.mem_cons_self _ _)
    obtain ⟨reg1, t, hreg1, hreg1eq, ht, hq, ⟨l2, hl2, hkey⟩, hold, hnew⟩ :=
      ensureState_spec heap b reg l hinv.base (hne (a, l) (List.mem_cons_self _ _))
    subst hreg1eq
    have hstp1 : (b.ensureState heap l).1.dfa.states[p]? = some stp := by
      rw [hold p hp]; exact hstp
    have hstep : ConnInv heap closureFuel
        { (b.ensureState heap l).1 with
          dfa := (b.ensureState heap l).1.dfa.setTransition p a (b.ensureState heap l).2 }
        (reg ++ t) p (seen ++ [(a, l)]) := by
      constructor
      · exact regInv_setTransition heap _ _ p a _ hreg1
      · simp only
        rw [hq, hinv.queue, List.drop_append_of_le_length (by omega)]
      · intro i l0 st hi hl0 hst
        simp only at hst
        rw [setTransition_getElem_ne _ _ _ _ _ (by omega), hold i (by omega)] at hst
        rw [List.getElem?_append_left (by omega)] at hl0
        obtain ⟨expanded, hexp, htr⟩ := hinv.done i l0 st hi hl0 hst
        exact ⟨expanded, hexp, htr.mono t⟩
      · refine ⟨_, setTransition_getElem_self _ p a _ stp hstp1, ?_⟩
        intro a1
        rw [gomap.get_append_singleton, outgoingFor_set]
        have hold1 := htrans.mono t a1
        cases hg : gomap.get seen a1 with
        | some l1 =>
          rw [hg] at hold1
          simp only
          have hne1 : a ≠ a1 := by
            intro hc; subst hc; rw [hseen] at hg; cases hg
          simp only [hne1, if_false]
          exact hold1
        | none =>
          rw [hg] at hold1
          simp only
          by_cases hc : a = a1
          · simp only [hc, if_true]
            exact ⟨_, l2, rfl, hl2, hkey⟩
          · simp only [hc, if_false]
            exact hold1
      · intro i st hi hst
        simp only at hst
        rw [setTransition_getElem_ne _ _ _ _ _ (by omega)] at hst
        by_cases hlt : i < reg.length
        · rw [hold i hlt] at hst
          exact hinv.todo i st hi hst
        · exact hnew i st (Nat.le_of_not_lt hlt) hst
    have hnd1 : (((seen ++ [(a, l)]) ++ rest).map Prod.fst).Nodup := by
      simpa [List.append_assoc] using hnd
    obtain ⟨b1, t1, hb1, hfin, horig⟩ := ih (seen ++ [(a, l)]) _ (reg ++ t) hstep hnd1
      (fun e he => hne e (List.mem_cons_of_mem _ he))
    refine ⟨b1, t ++ t1, ?_, ?_, ?_⟩
    · simp only [dfaBuilder.connect]
      exact hb1
    · simpa [List.append_assoc] using hfin
    · intro l0 hl0
      rcases List.mem_append.1 hl0 with h1 | h1
      · rcases ht with ht | ht
        · rw [ht] at h1; cases h1
        · rw [ht] at h1
          exact ⟨(a, l), List.mem_cons_self _ _, by simpa using h1⟩
      · obtain ⟨e, he, hle⟩ := horig l0 h1
        exact ⟨e, List.mem_cons_of_mem _ he, hle⟩

end

end dfa

/-! ## The builder: the main loop -/

namespace gomap

theorem get_of_mem_nodup {K V : Type} [DecidableEq K] (m : List (K × V)) (k : K) (v : V)
    (hnd : (m.map Prod.fst).Nodup) (h : (k, v) ∈ m) : get m k = some v := by
  induction m with
  | nil => cases h
  | cons e m ih =>
    obtain ⟨k0, v0⟩ := e
    simp only [List.map_cons, List.nodup_cons] at hnd
    rcases List.mem_cons.1 h with h1 | h1
    · cases h1; simp [get]
    · have hne : k0 ≠ k := by
        intro hc
        subst hc
        exact hnd.1 (List.mem_map_of_mem Prod.fst h1)
      simp only [get, hne, if_false]
      exact ih hnd.2 h1

end gomap

namespace dfa

section
variable {S V : Type} [Inhabited V] [DecidableEq S]

theorem loop_step (heap : List (nfa.State S V)) (closureFuel fuel : Nat) (b : dfaBuilder S V)
    (l : List Nat) (rest : List (List Nat)) (h : b.workingQueue.data = l :: rest) :
    dfaBuilder.loop heap closureFuel (fuel + 1) b =
      match expandStatesPerSymbol closureFuel heap l with
      | .error e => .error e
      | .ok expanded =>
        match dfaBuilder.connect heap
            (gomap.get b.subsetKeyToStateMap (calculateStatesKey heap l)) expanded
            { b with workingQueue := ⟨rest⟩ } with
        | .error e => .error e
        | .ok b2 => dfaBuilder.loop heap closureFuel fuel b2 := by
  simp only [dfaBuilder.loop, queue.Queue.Len, queue.Queue.Dequeue, h, List.length_cons,
    gt_iff_lt, Nat.zero_lt_succ, if_true, Option.getD_some]

theorem loop_done (heap : List (nfa.State S V)) (closureFuel fuel : Nat) (b : dfaBuilder S V)
    (h : b.workingQueue.data = []) :
    dfaBuilder.loop heap closureFuel (fuel + 1) b = .ok b := by
  simp [dfaBuilder.loop, queue.Queue.Len, h]

theorem LoopInv.finish {heap : List (nfa.State S V)} {closureFuel : Nat} {b : dfaBuilder S V}
    {reg : List (List Nat)} {p : Nat} (hinv : LoopInv heap closureFuel b reg p)
    (h : b.workingQueue.data = []) : LoopInv heap closureFuel b reg reg.length := by
  have hp : reg.length ≤ p := by
    have := hinv.queue
    rw [h] at this
    exact List.drop_eq_nil_iff.1 this.symm
  constructor
  · exact hinv.base
  · rw [h]; simp
  · intro i l st hi hl hst
    exact hinv.done i l st (by omega) hl hst
  · intro i st hi hst
    rw [List.getElem?_eq_none (by rw [hinv.base.len]; exact hi)] at hst
    cases hst

/-- One iteration of the main loop: the subset at position `p` is expanded and connected. -/
theorem LoopInv.step {heap : List (nfa.State S V)} {closureFuel : Nat} {b : dfaBuilder S V}
    {reg : List (List Nat)} {p : Nat} (hinv : LoopInv heap closureFuel b reg p)
    (l : List Nat) (rest : List (List Nat)) (h : b.workingQueue.data = l :: rest)
    (expanded : List (S × List Nat))
    (hexp : expandStatesPerSymbol closureFuel heap l = .ok expanded) :
    ∃ b2 t, dfaBuilder.connect heap
        (gomap.get b.subsetKeyToStateMap (calculateStatesKey heap l)) expanded
        { b with workingQueue := ⟨rest⟩ } = .ok b2 ∧
      LoopInv heap closureFuel b2 (reg ++ t) (p + 1) ∧
      ∀ l1 ∈ t, ∃ a, gomap.get expanded a = some l1 := by
  have hq := hinv.queue
  rw [h] at hq
  have hp : p < reg.length := by
    by_contra hc
    rw [List.drop_eq_nil_iff.2 (Nat.le_of_not_lt hc)] at hq
    cases hq
  rw [List.drop_eq_getElem_cons hp] at hq
  have hl : reg[p]? = some l := by
    rw [List.getElem?_eq_getElem hp]
    exact congrArg some (List.cons.inj hq).1.symm
  have hrest : rest = reg.drop (p + 1) := (List.cons.inj hq).2
  have hsrc := hinv.base.keyOf p l hl
  rw [hsrc]
  obtain ⟨hnd, hspec⟩ := expandStatesPerSymbol_spec closureFuel heap l expanded hexp
  have hstp : ∃ st, b.dfa.states[p]? = some st := by
    have : p < b.dfa.states.length := by rw [hinv.base.len]; exact hp
    exact ⟨_, List.getElem?_eq_getElem this⟩
  obtain ⟨stp, hstp⟩ := hstp
  have hconn : ConnInv heap closureFuel { b with workingQueue := ⟨rest⟩ } reg p [] := by
    constructor
    · exact ⟨hinv.base.len, hinv.base.nextID, hinv.base.start, hinv.base.pos, hinv.base.ids,
        hinv.base.keyOf, hinv.base.ofKey, hinv.base.nonempty, hinv.base.accept,
        hinv.base.nodupT⟩
    · exact hrest
    · exact hinv.done
    · refine ⟨stp, hstp, ?_⟩
      intro a
      have := hinv.todo p stp (Nat.le_refl p) hstp
      simp [gomap.get, State.OutgoingFor, this]
    · intro i st hi hst
      exact hinv.todo i st (Nat.le_of_lt hi) hst
  have hne : ∀ e ∈ expanded, e.2 ≠ [] := by
    intro e he
    have hg := gomap.get_of_mem_nodup expanded e.1 e.2 hnd he
    by_cases hm : moveOn heap l e.1 = []
    · rw [(hspec e.1).1 hm] at hg; cases hg
    · obtain ⟨l1, _, hl1, hg1⟩ := (hspec e.1).2 hm
      rw [hg1] at hg
      cases hg
      exact hl1
  obtain ⟨b2, t, hb2, hfin, horig⟩ := connect_spec heap closureFuel p expanded [] _ reg hconn
    (by simpa using hnd) hne
  refine ⟨b2, t, hb2, ?_, ?_⟩
  swap
  · intro l1 hl1
    obtain ⟨e, he, hle⟩ := horig l1 hl1
    exact ⟨e.1, by rw [hle]; exact gomap.get_of_mem_nodup expanded e.1 e.2 hnd he⟩
  simp only [List.nil_append] at hfin
  constructor
  · exact hfin.base
  · exact hfin.queue
  · intro i l0 st hi hl0 hst
    by_cases hip : i < p
    · exact hfin.done i l0 st hip hl0 hst
    · have hi0 : i = p := by omega
      subst hi0
      obtain ⟨st1, hst1, htr⟩ := hfin.cur
      rw [hst] at hst1
      cases hst1
      rw [List.getElem?_append_left hp, hl] at hl0
      cases hl0
      exact ⟨expanded, hexp, htr⟩
  · intro i st hi hst
    exact hfin.todo i st hi hst

/-- When the main loop returns, every registered subset is expanded. -/
theorem loop_spec (heap : List (nfa.State S V)) (closureFuel fuel : Nat)
    (P : List Nat → Prop)
    (hP : ∀ l expanded a l1, P l → expandStatesPerSymbol closureFuel heap l = .ok expanded →
      gomap.get expanded a = some l1 → P l1) :
    ∀ (b : dfaBuilder S V) (reg : List (List Nat)) (p : Nat) (bF : dfaBuilder S V),
      LoopInv heap closureFuel b reg p → (∀ l ∈ reg, P l) →
      dfaBuilder.loop heap closureFuel fuel b = .ok bF →
      ∃ t, LoopInv heap closureFuel bF (reg ++ t) (reg ++ t).length ∧
        ∀ l ∈ reg ++ t, P l := by
  induction fuel with
  | zero => intro b reg p bF _ _ h; simp [dfaBuilder.loop] at h
  | succ fuel ih =>
    intro b reg p bF hinv hreg h
    cases hq : b.workingQueue.data with
    | nil =>
      rw [loop_done heap closureFuel fuel b hq] at h
      cases h
      exact ⟨[], by simpa using hinv.finish hq, by simpa using hreg⟩
    | cons l rest =>
      rw [loop_step heap closureFuel fuel b l rest hq] at h
      cases hexp : expandStatesPerSymbol closureFuel heap l with
      | error e => rw [hexp] at h; cases h
      | ok expanded =>
        rw [hexp] at h
        simp only at h
        obtain ⟨b2, t, hb2, hinv2, horig⟩ := hinv.step l rest hq expanded hexp
        rw [hb2] at h
        simp only at h
        have hl : l ∈ reg := by
          have hmem : l ∈ reg.drop p := by
            rw [← hinv.queue, hq]; exact List.mem_cons_self _ _
          exact List.mem_of_mem_drop hmem
        have hreg2 : ∀ l1 ∈ reg ++ t, P l1 := by
          intro l1 hl1
          rcases List.mem_append.1 hl1 with h1 | h1
          · exact hreg l1 h1
          · obtain ⟨a, ha⟩ := horig l1 h1
            exact hP l expanded a l1 (hreg l hl) hexp ha
        obtain ⟨t2, hfin, hPfin⟩ := ih b2 (reg ++ t) (p + 1) bF hinv2 hreg2 h
        exact ⟨t ++ t2, by simpa [List.append_assoc] using hfin,
          by simpa [List.append_assoc] using hPfin⟩

/-- The builder after `buildStartState`, with the start pointer set. -/
theorem init_spec (heap : List (nfa.State S V)) (closureFuel : Nat) (states : List Nat)
    (hne : states ≠ []) :
    LoopInv heap closureFuel
      { (dfaBuilder.initial.buildStartState heap states).1 with
        dfa := { (dfaBuilder.initial.buildStartState heap states).1.dfa with
                 start := some (dfaBuilder.initial.buildStartState heap states).2 } }
      [states] 0 := by
  constructor
  · constructor
    · rfl
    · rfl
    · rfl
    · simp
    · intro i st h
      cases i with
      | zero =>
        simp [dfaBuilder.buildStartState, dfaBuilder.initial] at h
        rw [← h]
      | succ i => simp [dfaBuilder.buildStartState, dfaBuilder.initial] at h
    · intro i l h
      cases i with
      | zero =>
        simp at h
        subst h
        simp [dfaBuilder.buildStartState, dfaBuilder.initial, gomap.set, gomap.get]
      | succ i => simp at h
    · intro k i h
      simp only [dfaBuilder.buildStartState, dfaBuilder.initial, gomap.set, gomap.get] at h
      by_cases hk : calculateStatesKey heap states = k
      · simp only [hk, if_true, Option.some.injEq] at h
        exact ⟨states, by rw [← h]; rfl, hk.symm⟩
      · simp [hk] at h
    · intro l hl
      simp at hl
      rw [hl]; exact hne
    · intro i l st hl hst
      cases i with
      | zero =>
        simp at hl
        subst hl
        simp [dfaBuilder.buildStartState, dfaBuilder.initial] at hst
        rw [← hst]
        exact ⟨rfl, rfl⟩
      | succ i => simp at hl
    · intro i st h
      cases i with
      | zero =>
        simp [dfaBuilder.buildStartState, dfaBuilder.initial] at h
        rw [← h]; simp
      | succ i => simp [dfaBuilder.buildStartState, dfaBuilder.initial] at h
  · simp [dfaBuilder.buildStartState, dfaBuilder.initial, queue.Queue.Enqueue, queue.New]
  · intro i l st hi; omega
  · intro i st _ h
    cases i with
    | zero =>
      simp [dfaBuilder.buildStartState, dfaBuilder.initial] at h
      rw [← h]
    | succ i => simp [dfaBuilder.buildStartState, dfaBuilder.initial] at h

/-- When `buildFromNfa` returns, the builder satisfies the loop invariant with an empty
queue, for a registry that starts with the closure of the start state. -/
theorem run_spec (fuel : Nat) (n : nfa.Nfa S V) (bF : dfaBuilder S V)
    (P : List Nat → Prop)
    (hP : ∀ l expanded a l1, P l → expandStatesPerSymbol fuel n.states l = .ok expanded →
      gomap.get expanded a = some l1 → P l1)
    (hP0 : ∀ l0, findPossibleStates fuel n.states [n.Start] = .ok l0 → P l0)
    (h : dfaBuilder.initial.run fuel n = .ok bF) :
    ∃ l0 t, findPossibleStates fuel n.states [n.Start] = .ok l0 ∧
      LoopInv n.states fuel bF (l0 :: t) (l0 :: t).length ∧ ∀ l ∈ l0 :: t, P l := by
  unfold dfaBuilder.run at h
  cases hf : findPossibleStates fuel n.states [n.Start] with
  | error e => rw [hf] at h; cases h
  | ok l0 =>
    rw [hf] at h
    simp only at h
    have hne : l0 ≠ [] := by
      obtain ⟨t, ht⟩ := findPossibleStates_prefix n.states fuel _ _ hf
      rw [ht]; simp
    obtain ⟨t, hfin, hPfin⟩ := loop_spec n.states fuel fuel P hP _ [l0] 0 bF
      (init_spec n.states fuel l0 hne) (by intro l hl; simp at hl; rw [hl]; exact hP0 l0 hf) h
    exact ⟨l0, t, rfl, by simpa using hfin, by simpa using hPfin⟩

end

end dfa

/-! ## The language of the DFA -/

namespace dfa

section
variable {S V : Type} [Inhabited V] [DecidableEq S]

theorem deref_default_wf (heap : List (nfa.State S V)) (x : Nat) (h : heap.length ≤ x) :
    (nfa.deref heap x).eTransitions = [] ∧ (∀ a, (nfa.deref heap x).OutgoingFor a = []) ∧
      (nfa.deref heap x).predicateTransitions = [] ∧ (nfa.deref heap x).acceptIdx = -1 := by
  rw [deref_of_length_le heap x h]
  exact ⟨rfl, fun _ => rfl, rfl, rfl⟩

theorem wf_eps_lt {n : nfa.Nfa S V} (hwf : n.WF) {x y : Nat}
    (h : y ∈ (nfa.deref n.states x).Epsilon) : y < n.states.length := by
  by_cases hx : x < n.states.length
  · exact (hwf.2 x hx).2.1 y h
  · rw [nfa.State.Epsilon, (deref_default_wf n.states x (Nat.le_of_not_lt hx)).1] at h
    cases h

theorem wf_out_lt {n : nfa.Nfa S V} (hwf : n.WF) {x y : Nat} {a : S}
    (h : y ∈ (nfa.deref n.states x).OutgoingFor a) : y < n.states.length := by
  by_cases hx : x < n.states.length
  · have hsym : a ∈ (nfa.deref n.states x).OutgoingSymbols := by
      by_contra hc
      rw [outgoingFor_nil_of_not_symbol _ a hc] at h
      cases h
    exact (hwf.2 x hx).2.2.1 a hsym y h
  · rw [(deref_default_wf n.states x (Nat.le_of_not_lt hx)).2.1 a] at h
    cases h

theorem wf_pred_lt {n : nfa.Nfa S V} (hwf : n.WF) {x : Nat} {pt : nfa.predicateTransition S}
    (h : pt ∈ (nfa.deref n.states x).predicateTransitions) : pt.EndState < n.states.length := by
  by_cases hx : x < n.states.length
  · exact (hwf.2 x hx).2.2.2.1 pt h
  · rw [(deref_default_wf n.states x (Nat.le_of_not_lt hx)).2.2.1] at h
    cases h

theorem wf_acceptIdx_ge {n : nfa.Nfa S V} (hwf : n.WF) (x : Nat) :
    -1 ≤ (nfa.deref n.states x).acceptIdx := by
  by_cases hx : x < n.states.length
  · exact (hwf.2 x hx).2.2.2.2
  · rw [(deref_default_wf n.states x (Nat.le_of_not_lt hx)).2.2.2]

theorem wf_reaches_lt {n : nfa.Nfa S V} (hwf : n.WF) {w : List S} {x : Nat}
    (h : nfa.Reaches n w x) : x < n.states.length := by
  induction h with
  | start => exact hwf.1
  | eps _ hstep _ => exact wf_eps_lt hwf hstep
  | sym _ hstep _ =>
    rcases hstep with h1 | ⟨pt, hpt, _, rfl⟩
    · exact wf_out_lt hwf h1
    · exact wf_pred_lt hwf hpt

theorem wf_idsOf_eq {n : nfa.Nfa S V} (hwf : n.WF) (l : List Nat)
    (h : ∀ x ∈ l, x < n.states.length) : idsOf n.states l = l := by
  unfold idsOf
  induction l with
  | nil => rfl
  | cons x l ih =>
    rw [List.map_cons, ih (fun y hy => h y (List.mem_cons_of_mem _ hy))]
    have := (hwf.2 x (h x (List.mem_cons_self _ _))).1
    simp [nfa.State.ID, this]

theorem wf_mem_of_key_eq {n : nfa.Nfa S V} (hwf : n.WF) (l1 l2 : List Nat)
    (h1 : ∀ x ∈ l1, x < n.states.length) (h2 : ∀ x ∈ l2, x < n.states.length)
    (hkey : calculateStatesKey n.states l1 = calculateStatesKey n.states l2) :
    l1.Perm l2 := by
  have := (calculateStatesKey_eq_iff n.states l1 l2).1 hkey
  rwa [wf_idsOf_eq hwf l1 h1, wf_idsOf_eq hwf l2 h2] at this

theorem reaches_nil_iff (n : nfa.Nfa S V) (x : Nat) :
    nfa.Reaches n [] x ↔ EpsReachable n.states [n.Start] x := by
  constructor
  · intro h
    have gen : ∀ w y, nfa.Reaches n w y → w = [] → EpsReachable n.states [n.Start] y := by
      intro w y hr
      induction hr with
      | start => intro _; exact ⟨n.Start, List.mem_singleton_self _, Relation.ReflTransGen.refl⟩
      | eps _ hstep ih =>
        intro hw
        obtain ⟨s, hs, hsx⟩ := ih hw
        exact ⟨s, hs, hsx.tail hstep⟩
      | sym _ _ _ => intro hw; simp at hw
    exact gen [] x h rfl
  · rintro ⟨s, hs, hsx⟩
    rw [List.mem_singleton] at hs
    subst hs
    induction hsx with
    | refl => exact nfa.Reaches.start
    | tail _ hstep ih => exact nfa.Reaches.eps ih hstep

theorem reaches_snoc_iff (n : nfa.Nfa S V) (w : List S) (a : S) (y : Nat) :
    nfa.Reaches n (w ++ [a]) y ↔
      ∃ x x1, nfa.Reaches n w x ∧ nfa.SymStep n.states a x x1 ∧
        Relation.ReflTransGen (EpsStep n.states) x1 y := by
  constructor
  · intro h
    have gen : ∀ u z, nfa.Reaches n u z → u = w ++ [a] →
        ∃ x x1, nfa.Reaches n w x ∧ nfa.SymStep n.states a x x1 ∧
          Relation.ReflTransGen (EpsStep n.states) x1 z := by
      intro u z hr
      induction hr with
      | start => intro hu; simp at hu
      | eps _ hstep ih =>
        intro hu
        obtain ⟨x, x1, h1, h2, h3⟩ := ih hu
        exact ⟨x, x1, h1, h2, h3.tail hstep⟩
      | sym hprev hstep _ =>
        intro hu
        obtain ⟨hw, ha⟩ := List.append_inj' hu rfl
        simp only [List.cons.injEq, and_true] at ha
        subst hw
        subst ha
        exact ⟨_, _, hprev, hstep, Relation.ReflTransGen.refl⟩
    exact gen _ y h rfl
  · rintro ⟨x, x1, h1, h2, h3⟩
    induction h3 with
    | refl => exact nfa.Reaches.sym h1 h2
    | tail _ hstep ih => exact nfa.Reaches.eps ih hstep

theorem symStep_iff_of_noPredicates {n : nfa.Nfa S V} (hnp : n.NoPredicates) (a : S)
    (x y : Nat) : nfa.SymStep n.states a x y ↔ y ∈ (nfa.deref n.states x).OutgoingFor a := by
  constructor
  · rintro (h | ⟨pt, hpt, _⟩)
    · exact h
    · exfalso
      by_cases hx : x < n.states.length
      · have hmem : nfa.deref n.states x ∈ n.states := by
          unfold nfa.deref
          rw [List.getD_eq_getElem _ _ hx]
          exact List.getElem_mem _
        have := hnp _ hmem
        rw [List.isEmpty_iff] at this
        rw [this] at hpt
        cases hpt
      · rw [(deref_default_wf n.states x (Nat.le_of_not_lt hx)).2.2.1] at hpt
        cases hpt
  · exact Or.inl

theorem mem_moveOn (heap : List (nfa.State S V)) (l : List Nat) (a : S) (y : Nat) :
    y ∈ moveOn heap l a ↔ ∃ x ∈ l, y ∈ (nfa.deref heap x).OutgoingFor a := by
  simp [moveOn]

end

end dfa

/-! ## Acceptance of a subset -/

namespace dfa

theorem isAccepting_iff {S V : Type} (st : nfa.State S V) :
    st.IsAccepting = true ↔ st.acceptIdx > -1 := by
  simp [nfa.State.IsAccepting, nfa.State.AcceptIdx]

section
variable {S V : Type} [Inhabited V]

theorem findAcceptanceIdx_gen (heap : List (nfa.State S V))
    (hge : ∀ x, -1 ≤ (nfa.deref heap x).acceptIdx) (l : List Nat) :
    ∀ (seen : List Nat) (init : Int × V), AccInv heap seen init →
      AccInv heap (seen ++ l)
        (l.foldl
          (fun (acc : Int × V) s =>
            let idx := (nfa.deref heap s).AcceptIdx
            if idx = -1 then acc
            else if acc.1 = -1 ∨ idx < acc.1 then (idx, (nfa.deref heap s).AcceptValue)
            else acc) init) := by
  induction l with
  | nil => intro seen init h; simpa using h
  | cons s l ih =>
    intro seen init h
    rw [List.foldl_cons]
    have hs : seen ++ s :: l = (seen ++ [s]) ++ l := by simp
    rw [hs]
    apply ih
    simp only [nfa.State.AcceptIdx]
    by_cases h1 : (nfa.deref heap s).acceptIdx = -1
    · simp only [h1, if_true]
      rcases h with ⟨ha, hb, hc⟩ | ⟨ha, s0, hs0, hb, hc, hd⟩
      · refine Or.inl ⟨ha, hb, ?_⟩
        intro x hx
        rcases List.mem_append.1 hx with hx | hx
        · exact hc x hx
        · simp at hx; rw [hx]; exact h1
      · refine Or.inr ⟨ha, s0, List.mem_append_left _ hs0, hb, hc, ?_⟩
        intro t ht hpos
        rcases List.mem_append.1 ht with ht | ht
        · exact hd t ht hpos
        · simp at ht; rw [ht, h1] at hpos; omega
    · have hpos : (nfa.deref heap s).acceptIdx > -1 := by
        have := hge s
        omega
      simp only [h1, if_false]
      by_cases h2 : init.1 = -1 ∨ (nfa.deref heap s).acceptIdx < init.1
      · simp only [h2, if_true]
        refine Or.inr ⟨hpos, s, by simp, rfl, rfl, ?_⟩
        intro t ht htpos
        rcases List.mem_append.1 ht with ht | ht
        · rcases h with ⟨_, _, hc⟩ | ⟨ha, s0, _, _, _, hd⟩
          · have := hc t ht; omega
          · have := hd t ht htpos
            rcases h2 with h2 | h2
            · omega
            · simp only; omega
        · simp at ht; rw [ht]
      · simp only [h2, if_false]
        rw [not_or] at h2
        rcases h with ⟨ha, _, _⟩ | ⟨ha, s0, hs0, hb, hc, hd⟩
        · exact absurd ha h2.1
        · refine Or.inr ⟨ha, s0, List.mem_append_left _ hs0, hb, hc, ?_⟩
          intro t ht htpos
          rcases List.mem_append.1 ht with ht | ht
          · exact hd t ht htpos
          · simp at ht; rw [ht]; omega

theorem findAcceptanceIdx_spec (heap : List (nfa.State S V))
    (hge : ∀ x, -1 ≤ (nfa.deref heap x).acceptIdx) (l : List Nat) :
    AccInv heap l (findAcceptanceIdx heap l) := by
  have := findAcceptanceIdx_gen heap hge l [] (-1, default)
    (Or.inl ⟨rfl, rfl, fun x hx => absurd hx (List.not_mem_nil x)⟩)
  simpa [findAcceptanceIdx] using this

theorem AccInv.perm {heap : List (nfa.State S V)} {l1 l2 : List Nat} {acc : Int × V}
    (h : AccInv heap l1 acc) (hp : l1.Perm l2) : AccInv heap l2 acc := by
  rcases h with ⟨ha, hb, hc⟩ | ⟨ha, s0, hs0, hb, hc, hd⟩
  · exact Or.inl ⟨ha, hb, fun x hx => hc x (hp.mem_iff.2 hx)⟩
  · exact Or.inr ⟨ha, s0, hp.mem_iff.1 hs0, hb, hc, fun t ht => hd t (hp.mem_iff.2 ht)⟩

/-- The accept index found is above `-1` exactly when the list has an accepting state. -/
theorem findAcceptanceIdx_pos_iff (heap : List (nfa.State S V))
    (hge : ∀ x, -1 ≤ (nfa.deref heap x).acceptIdx) (l : List Nat) :
    (findAcceptanceIdx heap l).1 > -1 ↔ ∃ x ∈ l, (nfa.deref heap x).IsAccepting = true := by
  rcases findAcceptanceIdx_spec heap hge l with ⟨ha, _, hc⟩ | ⟨ha, s0, hs0, hb, _, _⟩
  · constructor
    · intro h; omega
    · rintro ⟨x, hx, hacc⟩
      rw [isAccepting_iff, hc x hx] at hacc
      omega
  · constructor
    · intro _
      exact ⟨s0, hs0, by rw [isAccepting_iff, hb]; exact ha⟩
    · intro _; exact ha

end

end dfa

/-! ## The DFA follows the subsets of the NFA -/

namespace dfa

theorem deref_of_getElem? {S V : Type} [Inhabited V] (d : Dfa S V) (r : Nat) (st : State S V)
    (h : d.states[r]? = some st) : d.deref r = st := by
  simp [Dfa.deref, List.getD_eq_getElem?_getD, h]

section
variable {S V : Type} [Inhabited V] [DecidableEq S]

theorem wf_epsReachable_lt {n : nfa.Nfa S V} (hwf : n.WF) (seeds : List Nat)
    (hs : ∀ s ∈ seeds, s < n.states.length) (x : Nat)
    (h : EpsReachable n.states seeds x) : x < n.states.length := by
  obtain ⟨s, hmem, hsx⟩ := h
  induction hsx with
  | refl => exact hs s hmem
  | tail _ hstep _ => exact wf_eps_lt hwf hstep

theorem wf_moveOn_lt {n : nfa.Nfa S V} (hwf : n.WF) (l : List Nat) (a : S) :
    ∀ y ∈ moveOn n.states l a, y < n.states.length := by
  intro y hy
  obtain ⟨x, _, hx⟩ := (mem_moveOn n.states l a y).1 hy
  exact wf_out_lt hwf hx

/-- The registry of a finished run: every subset is expanded, the first one is the closure
of the start state, and all of them hold valid pointers only. -/
theorem run_final (fuel : Nat) (n : nfa.Nfa S V) (bF : dfaBuilder S V) (hwf : n.WF)
    (h : dfaBuilder.initial.run fuel n = .ok bF) :
    ∃ reg, LoopInv n.states fuel bF reg reg.length ∧
      (∃ l0, findPossibleStates fuel n.states [n.Start] = .ok l0 ∧ reg[0]? = some l0) ∧
      ∀ l ∈ reg, ∀ x ∈ l, x < n.states.length := by
  obtain ⟨l0, t, hl0, hinv, hP⟩ := run_spec fuel n bF
    (fun l => ∀ x ∈ l, x < n.states.length)
    (by
      intro l expanded a l1 _ hexp hget x hx
      obtain ⟨_, hspec⟩ := expandStatesPerSymbol_spec fuel n.states l expanded hexp
      by_cases hm : moveOn n.states l a = []
      · rw [(hspec a).1 hm] at hget; cases hget
      · obtain ⟨l2, hl2, _, hg⟩ := (hspec a).2 hm
        rw [hg] at hget
        cases hget
        exact wf_epsReachable_lt hwf _ (wf_moveOn_lt hwf l a) x
          ((findPossibleStates_mem n.states fuel _ _ hl2 x).1 hx))
    (by
      intro l0 hl0 x hx
      refine wf_epsReachable_lt hwf [n.Start] ?_ x
        ((findPossibleStates_mem n.states fuel _ _ hl0 x).1 hx)
      intro s hs
      rw [List.mem_singleton] at hs
      rw [hs]; exact hwf.1)
    h
  exact ⟨l0 :: t, hinv, ⟨l0, hl0, by simp⟩, hP⟩

theorem follow_snoc (d : Dfa S V) (w : List S) (a : S) :
    d.follow (w ++ [a]) = (d.follow w).bind (fun r => (d.deref r).OutgoingFor a) := by
  simp [Dfa.follow, List.foldl_append]

/-- Following a word in the DFA leads to the state of the subset that the word reaches in the
NFA, and leads nowhere exactly when the word reaches no state. -/
theorem follow_spec (fuel : Nat) (n : nfa.Nfa S V) (bF : dfaBuilder S V)
    (reg : List (List Nat)) (hwf : n.WF) (hnp : n.NoPredicates)
    (hinv : LoopInv n.states fuel bF reg reg.length)
    (hstart : ∃ l0, findPossibleStates fuel n.states [n.Start] = .ok l0 ∧ reg[0]? = some l0)
    (hvalid : ∀ l ∈ reg, ∀ x ∈ l, x < n.states.length) (w : List S) :
    (∀ r, bF.dfa.follow w = some r →
      ∃ l, reg[r]? = some l ∧ ∀ x, x ∈ l ↔ nfa.Reaches n w x) ∧
    (bF.dfa.follow w = none → ∀ x, ¬ nfa.Reaches n w x) := by
  induction w using List.reverseRecOn with
  | nil =>
    obtain ⟨l0, hl0, hreg0⟩ := hstart
    have hs : bF.dfa.follow [] = some 0 := by
      simp [Dfa.follow, Dfa.Start, hinv.base.start]
    rw [hs]
    refine ⟨?_, fun hc => by cases hc⟩
    intro r hr
    cases hr
    refine ⟨l0, hreg0, fun x => ?_⟩
    rw [reaches_nil_iff]
    exact findPossibleStates_mem n.states fuel _ _ hl0 x
  | append_singleton w a ih =>
    rw [follow_snoc]
    cases hf : bF.dfa.follow w with
    | none =>
      refine ⟨fun r hr => (by simp at hr), fun _ y hy => ?_⟩
      obtain ⟨x, _, hx, _⟩ := (reaches_snoc_iff n w a y).1 hy
      exact ih.2 hf x hx
    | some r =>
      obtain ⟨l, hl, hmem⟩ := ih.1 r hf
      have hr : r < reg.length := (List.getElem?_eq_some.1 hl).1
      have hst : ∃ st, bF.dfa.states[r]? = some st :=
        ⟨_, List.getElem?_eq_getElem (by rw [hinv.base.len]; exact hr)⟩
      obtain ⟨st, hst⟩ := hst
      obtain ⟨expanded, hexp, htr⟩ := hinv.done r l st hr hl hst
      obtain ⟨_, hspec⟩ := expandStatesPerSymbol_spec fuel n.states l expanded hexp
      have hstep : ∀ y, nfa.Reaches n (w ++ [a]) y ↔
          EpsReachable n.states (moveOn n.states l a) y := by
        intro y
        rw [reaches_snoc_iff]
        constructor
        · rintro ⟨x, x1, hx, hsym, hreach⟩
          rw [symStep_iff_of_noPredicates hnp] at hsym
          exact ⟨x1, (mem_moveOn _ _ _ _).2 ⟨x, (hmem x).2 hx, hsym⟩, hreach⟩
        · rintro ⟨x1, hx1, hreach⟩
          obtain ⟨x, hx, hsym⟩ := (mem_moveOn _ _ _ _).1 hx1
          exact ⟨x, x1, (hmem x).1 hx, (symStep_iff_of_noPredicates hnp a x x1).2 hsym, hreach⟩
      simp only [Option.some_bind, deref_of_getElem? _ _ _ hst]
      have htra := htr a
      by_cases hm : moveOn n.states l a = []
      · rw [(hspec a).1 hm] at htra
        simp only at htra
        rw [htra]
        refine ⟨fun r1 hr1 => (by cases hr1), fun _ y hy => ?_⟩
        obtain ⟨x1, hx1, _⟩ := (hstep y).1 hy
        rw [hm] at hx1
        cases hx1
      · obtain ⟨l1, hl1, _, hg⟩ := (hspec a).2 hm
        rw [hg] at htra
        simp only at htra
        obtain ⟨j, l2, hout, hl2, hkey⟩ := htra
        rw [hout]
        refine ⟨?_, fun hc => by cases hc⟩
        intro r1 hr1
        cases hr1
        refine ⟨l2, hl2, fun y => ?_⟩
        have hv1 : ∀ x ∈ l1, x < n.states.length := fun x hx =>
          wf_epsReachable_lt hwf _ (wf_moveOn_lt hwf l a) x
            ((findPossibleStates_mem n.states fuel _ _ hl1 x).1 hx)
        have hv2 : ∀ x ∈ l2, x < n.states.length :=
          hvalid l2 (List.getElem?_mem hl2)
        have hperm := wf_mem_of_key_eq hwf l2 l1 hv2 hv1 hkey
        rw [hperm.mem_iff, findPossibleStates_mem n.states fuel _ _ hl1 y, hstep]

end

end dfa

/-! ## The claims about the converter -/

namespace gomap

theorem mem_of_get {K V : Type} [DecidableEq K] (m : List (K × V)) (k : K) (v : V)
    (h : get m k = some v) : (k, v) ∈ m := by
  induction m with
  | nil => simp [get] at h
  | cons e m ih =>
    obtain ⟨k0, v0⟩ := e
    simp only [get] at h
    by_cases h0 : k0 = k
    · simp only [h0, if_true, Option.some.injEq] at h
      rw [h0, h]; exact List.mem_cons_self _ _
    · simp only [h0, if_false] at h
      exact List.mem_cons_of_mem _ (ih h)

theorem filter_key_length_le {K V : Type} [DecidableEq K] (m : List (K × V)) (k : K)
    (hnd : (m.map Prod.fst).Nodup) :
    (m.filter (fun e => decide (e.1 = k))).length ≤ 1 := by
  induction m with
  | nil => simp
  | cons e m ih =>
    obtain ⟨k0, v0⟩ := e
    simp only [List.map_cons, List.nodup_cons] at hnd
    by_cases h0 : k0 = k
    · subst h0
      have hnone : m.filter (fun e => decide (e.1 = k0)) = [] := by
        rw [List.filter_eq_nil_iff]
        intro e he hc
        simp only [decide_eq_true_eq] at hc
        exact hnd.1 (hc ▸ List.mem_map_of_mem Prod.fst he)
      simp [List.filter_cons, hnone]
    · simp only [List.filter_cons, h0, decide_False, Bool.false_eq_true, if_false]
      exact ih hnd.2

end gomap

namespace dfa

section
variable {S V : Type} [Inhabited V] [DecidableEq S]

theorem fromNfa_ok_iff (fuel : Nat) (n : nfa.Nfa S V) (d : Dfa S V) :
    FromNfa fuel n = .ok d ↔ ∃ b, dfaBuilder.initial.run fuel n = .ok b ∧ b.dfa = d := by
  unfold FromNfa dfaBuilder.buildFromNfa
  cases hrun : dfaBuilder.initial.run fuel n with
  | error e => simp
  | ok b => simp

end

end dfa

section
variable {S V : Type} [Inhabited V] [DecidableEq S]

/-- C1: for a well-formed NFA without predicate transitions on which `FromNfa` returns, and
every word `w`, following `w` from the DFA start reaches a DFA state iff some NFA state is
reachable from the NFA start by consuming `w` (epsilon hops before, between and after the
symbols), and the DFA state reached is accepting iff one of those NFA states is. -/
theorem C1_fromNfa_equivalent (n : nfa.Nfa S V) (fuel : Nat) (d : dfa.Dfa S V)
    (hwf : n.WF) (hnp : n.NoPredicates) (h : dfa.FromNfa fuel n = .ok d) (w : List S) :
    ((∃ r, d.follow w = some r) ↔ ∃ x, nfa.Reaches n w x) ∧
    ∀ r, d.follow w = some r →
      ((d.deref r).IsAccepting = true ↔
        ∃ x, nfa.Reaches n w x ∧ (nfa.deref n.states x).IsAccepting = true) := by
  obtain ⟨b, hrun, rfl⟩ := (dfa.fromNfa_ok_iff fuel n d).1 h
  obtain ⟨reg, hinv, hstart, hvalid⟩ := dfa.run_final fuel n b hwf hrun
  obtain ⟨hsome, hnone⟩ := dfa.follow_spec fuel n b reg hwf hnp hinv hstart hvalid w
  constructor
  · constructor
    · rintro ⟨r, hr⟩
      obtain ⟨l, hl, hmem⟩ := hsome r hr
      have hne := hinv.base.nonempty l (List.getElem?_mem hl)
      obtain ⟨x, hx⟩ := List.exists_mem_of_ne_nil l hne
      exact ⟨x, (hmem x).1 hx⟩
    · rintro ⟨x, hx⟩
      cases hf : b.dfa.follow w with
      | none => exact absurd hx (hnone hf x)
      | some r => exact ⟨r, rfl⟩
  · intro r hr
    obtain ⟨l, hl, hmem⟩ := hsome r hr
    have hlt : r < reg.length := (List.getElem?_eq_some.1 hl).1
    have hex : ∃ st, b.dfa.states[r]? = some st :=
      ⟨_, List.getElem?_eq_getElem (by rw [hinv.base.len]; exact hlt)⟩
    obtain ⟨st, hst⟩ := hex
    have hacc := hinv.base.accept r l st hl hst
    rw [dfa.deref_of_getElem? _ _ _ hst, hacc.1, decide_eq_true_iff,
      dfa.findAcceptanceIdx_pos_iff n.states (dfa.wf_acceptIdx_ge hwf) l]
    constructor
    · rintro ⟨x, hx, hxa⟩
      exact ⟨x, (hmem x).1 hx, hxa⟩
    · rintro ⟨x, hx, hxa⟩
      exact ⟨x, (hmem x).2 hx, hxa⟩

/-- C1 at the machine of `TestFromNfa_Complex` and the word `a`. -/
theorem C1_fromNfa_equivalent_witness :
    examples.complexNfa.WF ∧ examples.complexNfa.NoPredicates ∧
    dfa.FromNfa 20 examples.complexNfa = .ok examples.complexDfa ∧
    (((∃ r, examples.complexDfa.follow ["a"] = some r) ↔
        ∃ x, nfa.Reaches examples.complexNfa ["a"] x) ∧
      ∀ r, examples.complexDfa.follow ["a"] = some r →
        ((examples.complexDfa.deref r).IsAccepting = true ↔
          ∃ x, nfa.Reaches examples.complexNfa ["a"] x ∧
            (nfa.deref examples.complexNfa.states x).IsAccepting = true)) :=
  ⟨by unfold nfa.Nfa.WF nfa.State.WF; decide,
   by unfold nfa.Nfa.NoPredicates; decide,
   by rfl,
   C1_fromNfa_equivalent examples.complexNfa 20 examples.complexDfa
     (by unfold nfa.Nfa.WF nfa.State.WF; decide)
     (by unfold nfa.Nfa.NoPredicates; decide) (by rfl) ["a"]⟩

/-- C2: when `FromNfa` returns for a well-formed NFA, every DFA state is registered under a
key of the map of the builder, some list of NFA states has that key, and for every list `l`
of NFA states with that key (the list the state was created from is one) the lowest accept
index wins: if no state of `l` is accepting, the DFA state is not accepting and its accept
value is the zero value; otherwise it is accepting and its accept value is that of an
accepting state of `l` whose accept index is the smallest. -/
theorem C2_lowest_accept_index_wins (n : nfa.Nfa S V) (fuel : Nat) (d : dfa.Dfa S V)
    (hwf : n.WF) (h : dfa.FromNfa fuel n = .ok d) :
    ∃ b, dfa.dfaBuilder.initial.run fuel n = .ok b ∧ b.dfa = d ∧
      ∀ (r : Nat) (st : dfa.State S V), d.states[r]? = some st →
        ∃ k, gomap.get b.subsetKeyToStateMap k = some r ∧
          (∃ l, (∀ x ∈ l, x < n.states.length) ∧ dfa.calculateStatesKey n.states l = k) ∧
          ∀ l, (∀ x ∈ l, x < n.states.length) → dfa.calculateStatesKey n.states l = k →
            dfa.LowestAcceptWins n.states st l := by
  obtain ⟨b, hrun, rfl⟩ := (dfa.fromNfa_ok_iff fuel n d).1 h
  refine ⟨b, hrun, rfl, ?_⟩
  intro r st hst
  obtain ⟨reg, hinv, _, hvalid⟩ := dfa.run_final fuel n b hwf hrun
  have hlt : r < reg.length := by
    rw [← hinv.base.len]; exact (List.getElem?_eq_some.1 hst).1
  have hl0 : reg[r]? = some reg[r] := List.getElem?_eq_getElem hlt
  refine ⟨_, hinv.base.keyOf r _ hl0, ⟨reg[r], hvalid _ (List.getElem?_mem hl0), rfl⟩, ?_⟩
  intro l hl hkey
  have hperm := dfa.wf_mem_of_key_eq hwf reg[r] l (hvalid _ (List.getElem?_mem hl0)) hl
    hkey.symm
  have hacc := hinv.base.accept r _ st hl0 hst
  have hspec := (dfa.findAcceptanceIdx_spec n.states (dfa.wf_acceptIdx_ge hwf) reg[r]).perm
    hperm
  constructor
  · intro hnone
    rcases hspec with ⟨ha, hb, _⟩ | ⟨ha, s0, hs0, hb, _, _⟩
    · refine ⟨?_, by rw [hacc.2, hb]⟩
      rw [hacc.1, ha]; rfl
    · exfalso
      have := hnone s0 hs0
      have hpos : (nfa.deref n.states s0).IsAccepting = true := by
        rw [dfa.isAccepting_iff, hb]; exact ha
      rw [this] at hpos
      cases hpos
  · rintro ⟨x, hx, hxa⟩
    rcases hspec with ⟨_, _, hc⟩ | ⟨ha, s0, hs0, hb, hv, hd⟩
    · exfalso
      rw [dfa.isAccepting_iff, hc x hx] at hxa
      omega
    · refine ⟨by rw [hacc.1]; exact decide_eq_true ha, s0, hs0, ?_, ?_, by rw [hacc.2, hv]⟩
      · rw [dfa.isAccepting_iff, hb]; exact ha
      · intro t ht hta
        rw [dfa.isAccepting_iff] at hta
        simp only [nfa.State.AcceptIdx]
        rw [hb]
        exact hd t ht hta

/-- C2 at the machine of `TestFromNfa_Complex`, whose DFA state after `a` is created from the
states `s1`, `s2`, `s4` ("WIN", index 0) and `s3` ("LOSE", index 1). -/
theorem C2_lowest_accept_index_wins_witness :
    examples.complexNfa.WF ∧
    dfa.FromNfa 20 examples.complexNfa = .ok examples.complexDfa ∧
    ∃ b, dfa.dfaBuilder.initial.run 20 examples.complexNfa = .ok b ∧
      b.dfa = examples.complexDfa ∧
      ∀ (r : Nat) (st : dfa.State String String), examples.complexDfa.states[r]? = some st →
        ∃ k, gomap.get b.subsetKeyToStateMap k = some r ∧
          (∃ l, (∀ x ∈ l, x < examples.complexNfa.states.length) ∧
            dfa.calculateStatesKey examples.complexNfa.states l = k) ∧
          ∀ l, (∀ x ∈ l, x < examples.complexNfa.states.length) →
            dfa.calculateStatesKey examples.complexNfa.states l = k →
            dfa.LowestAcceptWins examples.complexNfa.states st l :=
  ⟨by unfold nfa.Nfa.WF nfa.State.WF; decide,
   by rfl,
   C2_lowest_accept_index_wins examples.complexNfa 20 examples.complexDfa
     (by unfold nfa.Nfa.WF nfa.State.WF; decide) (by rfl)⟩

/-- C7: in the DFA that `FromNfa` returns, the transition map of every state has every symbol
at most once, and `OutgoingFor` returns a state exactly when it is the one target stored for
the symbol. -/
theorem C7_deterministic (n : nfa.Nfa S V) (fuel : Nat) (d : dfa.Dfa S V)
    (h : dfa.FromNfa fuel n = .ok d) (st : dfa.State S V) (hst : st ∈ d.states) (a : S) :
    (st.transitions.filter (fun e => decide (e.1 = a))).length ≤ 1 ∧
    ∀ r, st.OutgoingFor a = some r ↔ (a, r) ∈ st.transitions := by
  obtain ⟨b, hrun, rfl⟩ := (dfa.fromNfa_ok_iff fuel n d).1 h
  obtain ⟨l0, t, _, hinv, _⟩ := dfa.run_spec fuel n b (fun _ => True)
    (fun _ _ _ _ _ _ _ => trivial) (fun _ _ => trivial) hrun
  obtain ⟨i, hi⟩ := List.mem_iff_getElem?.1 hst
  have hnd := hinv.base.nodupT i st hi
  exact ⟨gomap.filter_key_length_le st.transitions a hnd,
    fun r => ⟨gomap.mem_of_get st.transitions a r,
      gomap.get_of_mem_nodup st.transitions a r hnd⟩⟩

/-- C7 at the machine of `TestFromNfa_Complex`, the DFA state after `a`, `b` and the symbol
`c`. -/
theorem C7_deterministic_witness :
    dfa.FromNfa 20 examples.complexNfa = .ok examples.complexDfa ∧
    examples.complexStateAB ∈ examples.complexDfa.states ∧
    ((examples.complexStateAB.transitions.filter (fun e => decide (e.1 = "c"))).length ≤ 1 ∧
      ∀ r, examples.complexStateAB.OutgoingFor "c" = some r ↔
        ("c", r) ∈ examples.complexStateAB.transitions) :=
  ⟨by rfl, by simp [examples.complexDfa],
   C7_deterministic examples.complexNfa 20 examples.complexDfa (by rfl)
     examples.complexStateAB (by simp [examples.complexDfa]) "c"⟩

end

/-! ## The claims about the epsilon closure -/

namespace dfa

section
variable {S V : Type} [Inhabited V]

theorem findPossibleStates_unique (heap : List (nfa.State S V)) (seeds : List Nat)
    (f1 f2 : Nat) (r1 r2 : List Nat) (h1 : findPossibleStates f1 heap seeds = .ok r1)
    (h2 : findPossibleStates f2 heap seeds = .ok r2) : r1 = r2 := by
  have e1 := findPossibleStates_fuel_mono heap (Nat.le_max_left f1 f2) _ _ h1
  have e2 := findPossibleStates_fuel_mono heap (Nat.le_max_right f1 f2) _ _ h2
  rw [e1] at e2
  cases e2
  rfl

theorem epsReachable_trans (heap : List (nfa.State S V)) (seeds mid : List Nat) (y : Nat)
    (hmid : ∀ x ∈ mid, EpsReachable heap seeds x) (h : EpsReachable heap mid y) :
    EpsReachable heap seeds y := by
  obtain ⟨x, hx, hxy⟩ := h
  obtain ⟨s, hs, hsx⟩ := hmid x hx
  exact ⟨s, hs, hsx.trans hxy⟩

end

end dfa

section
variable {S V : Type} [Inhabited V]

/-- C8: when `findPossibleStates` returns for the seeds, a state is in the result iff it is
reachable from a seed by zero or more epsilon transitions: every seed is in the result, every
epsilon target of a state of the result is in the result, and nothing else is. -/
theorem C8_findPossibleStates_closure (heap : List (nfa.State S V)) (fuel : Nat)
    (seeds r : List Nat) (h : dfa.findPossibleStates fuel heap seeds = .ok r) :
    (∀ s ∈ seeds, s ∈ r) ∧
    (∀ x ∈ r, ∀ y ∈ (nfa.deref heap x).Epsilon, y ∈ r) ∧
    ∀ y, y ∈ r ↔ dfa.EpsReachable heap seeds y := by
  have hmem := dfa.findPossibleStates_mem heap fuel seeds r h
  refine ⟨?_, ?_, hmem⟩
  · intro s hs
    exact (hmem s).2 ⟨s, hs, Relation.ReflTransGen.refl⟩
  · intro x hx y hy
    obtain ⟨s, hs, hsx⟩ := (hmem x).1 hx
    exact (hmem y).2 ⟨s, hs, hsx.tail hy⟩

/-- C8 at the machine of `TestFromNfa_Complex` and the seeds `s1`, `s2`. -/
theorem C8_findPossibleStates_closure_witness :
    dfa.findPossibleStates 5 examples.complexNfa.states [1, 2] = .ok [1, 2, 4, 3] ∧
    ((∀ s ∈ [1, 2], s ∈ [1, 2, 4, 3]) ∧
     (∀ x ∈ [1, 2, 4, 3], ∀ y ∈ (nfa.deref examples.complexNfa.states x).Epsilon,
        y ∈ [1, 2, 4, 3]) ∧
     ∀ y, y ∈ [1, 2, 4, 3] ↔ dfa.EpsReachable examples.complexNfa.states [1, 2] y) :=
  ⟨by rfl, C8_findPossibleStates_closure examples.complexNfa.states 5 [1, 2] [1, 2, 4, 3]
    (by rfl)⟩

/-- C4, as the code has it: `findPossibleStates` returns for the seeds exactly when no state
that is reachable from a seed by epsilon transitions lies on an epsilon cycle; the traversal
does not deduplicate. -/
theorem C4_findPossibleStates_terminates_iff (heap : List (nfa.State S V))
    (seeds : List Nat) :
    (∃ fuel r, dfa.findPossibleStates fuel heap seeds = .ok r) ↔
      ∀ x, dfa.EpsReachable heap seeds x → ¬ Relation.TransGen (dfa.EpsStep heap) x x :=
  dfa.findPossibleStates_iff_acyclic heap seeds

/-- C9, as the code has it: when `findPossibleStates` returns `r` for the seeds, it also
returns for `r`, and that result holds the same states as `r` (it repeats those that have an
epsilon predecessor in `r`). -/
theorem C9_closure_idempotent_as_set (heap : List (nfa.State S V)) (fuel : Nat)
    (seeds r : List Nat) (h : dfa.findPossibleStates fuel heap seeds = .ok r) :
    ∃ fuel2 r2, dfa.findPossibleStates fuel2 heap r = .ok r2 ∧ ∀ y, y ∈ r2 ↔ y ∈ r := by
  have hmem := dfa.findPossibleStates_mem heap fuel seeds r h
  have hac := (dfa.findPossibleStates_iff_acyclic heap seeds).1 ⟨fuel, r, h⟩
  obtain ⟨fuel2, r2, h2⟩ := (dfa.findPossibleStates_iff_acyclic heap r).2
    (fun x hx => hac x (dfa.epsReachable_trans heap seeds r x (fun z hz => (hmem z).1 hz) hx))
  refine ⟨fuel2, r2, h2, fun y => ?_⟩
  rw [dfa.findPossibleStates_mem heap fuel2 r r2 h2 y]
  constructor
  · intro hy
    exact (hmem y).2 (dfa.epsReachable_trans heap seeds r y (fun z hz => (hmem z).1 hz) hy)
  · intro hy
    exact ⟨y, hy, Relation.ReflTransGen.refl⟩

end

/-- C4 fails as stated: on the machine whose start state has an epsilon transition to itself,
`findPossibleStates` returns for no amount of fuel. -/
theorem C4_counterexample :
    ¬ ∃ fuel r, dfa.findPossibleStates fuel examples.epsSelfLoop.states
        [examples.epsSelfLoop.Start] = .ok r := by
  intro h
  have hac := (dfa.findPossibleStates_iff_acyclic examples.epsSelfLoop.states
    [examples.epsSelfLoop.Start]).1 h
  refine hac 0 ⟨0, by decide, Relation.ReflTransGen.refl⟩ (Relation.TransGen.single ?_)
  show 0 ∈ (nfa.deref examples.epsSelfLoop.states 0).Epsilon
  decide

/-- C9 fails as stated: on the machine with one epsilon transition, the closure of the start
state is `[0, 1]`, and the closure of `[0, 1]` is `[0, 1, 1]`, for no fuel `[0, 1]`. -/
theorem C9_counterexample :
    dfa.findPossibleStates 5 examples.epsEdge.states [0] = .ok [0, 1] ∧
    dfa.findPossibleStates 5 examples.epsEdge.states [0, 1] = .ok [0, 1, 1] ∧
    ¬ ∃ fuel, dfa.findPossibleStates fuel examples.epsEdge.states [0, 1] = .ok [0, 1] := by
  refine ⟨by rfl, by rfl, ?_⟩
  rintro ⟨fuel, h⟩
  have := dfa.findPossibleStates_unique examples.epsEdge.states [0, 1] fuel 5 _ _ h (by rfl)
  cases this

/-- C9 at the machine with one epsilon transition and the start state as seed. -/
theorem C9_closure_idempotent_as_set_witness :
    dfa.findPossibleStates 5 examples.epsEdge.states [0] = .ok [0, 1] ∧
    ∃ fuel2 r2, dfa.findPossibleStates fuel2 examples.epsEdge.states [0, 1] = .ok r2 ∧
      ∀ y, y ∈ r2 ↔ y ∈ [0, 1] :=
  ⟨by rfl, C9_closure_idempotent_as_set examples.epsEdge.states 5 [0] [0, 1] (by rfl)⟩

/-! ## The claims about the subset key -/

namespace dfa

section
variable {S V : Type} [Inhabited V] [DecidableEq S]

theorem subsetAfter_snoc (fuel : Nat) (n : nfa.Nfa S V) (w : List S) (a : S) :
    subsetAfter fuel n (w ++ [a]) =
      match subsetAfter fuel n w with
      | .error e => .error e
      | .ok l => findPossibleStates fuel n.states (moveOn n.states l a) := by
  simp [subsetAfter, List.foldl_append]

/-- The subsets of the spec hold exactly the states that the word reaches. -/
theorem subsetAfter_spec (fuel : Nat) (n : nfa.Nfa S V) (hnp : n.NoPredicates) (w : List S) :
    ∀ l, subsetAfter fuel n w = .ok l → ∀ x, x ∈ l ↔ nfa.Reaches n w x := by
  induction w using List.reverseRecOn with
  | nil =>
    intro l h x
    rw [reaches_nil_iff]
    exact findPossibleStates_mem n.states fuel _ _ h x
  | append_singleton w a ih =>
    intro l1 h y
    rw [subsetAfter_snoc] at h
    cases hprev : subsetAfter fuel n w with
    | error e => rw [hprev] at h; cases h
    | ok l =>
      rw [hprev] at h
      simp only at h
      have hmem := ih l hprev
      rw [findPossibleStates_mem n.states fuel _ _ h y, reaches_snoc_iff]
      constructor
      · rintro ⟨x1, hx1, hreach⟩
        obtain ⟨x, hx, hsym⟩ := (mem_moveOn _ _ _ _).1 hx1
        exact ⟨x, x1, (hmem x).1 hx, (symStep_iff_of_noPredicates hnp a x x1).2 hsym, hreach⟩
      · rintro ⟨x, x1, hx, hsym, hreach⟩
        rw [symStep_iff_of_noPredicates hnp] at hsym
        exact ⟨x1, (mem_moveOn _ _ _ _).2 ⟨x, (hmem x).2 hx, hsym⟩, hreach⟩

end

end dfa

/-- C5, at the failing input: the key of the list `[z, z]` of the machine `diamond` differs
from the key of `[z]`, and so does the key of a list with a state twice from the key of the
list with that state once in every machine. -/
theorem C5_key_counts_duplicates :
    dfa.calculateStatesKey examples.diamond.states [4, 4] = "4,4" ∧
    dfa.calculateStatesKey examples.diamond.states [4] = "4" ∧
    ∀ (heap : List (nfa.State Nat Nat)) (x : Nat),
      dfa.calculateStatesKey heap [x, x] ≠ dfa.calculateStatesKey heap [x] := by
  refine ⟨by rfl, by rfl, ?_⟩
  intro heap x h
  have := ((dfa.calculateStatesKey_eq_iff heap [x, x] [x]).1 h).length_eq
  simp [dfa.idsOf] at this

/-- C6, at the failing input: on the machine `diamond` the words `1, 0` and `2, 0` reach the
same non-empty set of NFA states, the state `z` alone, and following them in the DFA that
`FromNfa` returns ends in two different DFA states. -/
theorem C6_same_subset_two_states :
    dfa.FromNfa 20 examples.diamond = .ok examples.diamondDfa ∧
    (∀ x, nfa.Reaches examples.diamond [1, 0] x ↔ x = 4) ∧
    (∀ x, nfa.Reaches examples.diamond [2, 0] x ↔ x = 4) ∧
    examples.diamondDfa.follow [1, 0] = some 3 ∧
    examples.diamondDfa.follow [2, 0] = some 4 := by
  have hnp : examples.diamond.NoPredicates := by
    unfold nfa.Nfa.NoPredicates; decide
  refine ⟨by rfl, ?_, ?_, by rfl, by rfl⟩
  · intro x
    rw [← dfa.subsetAfter_spec 20 examples.diamond hnp [1, 0] [4] (by rfl) x]
    simp
  · intro x
    rw [← dfa.subsetAfter_spec 20 examples.diamond hnp [2, 0] [4, 4] (by rfl) x]
    simp

/-! ## Predicate transitions and the converter -/

namespace dfa

theorem deref_update {S V : Type} [Inhabited V] (heap : List (nfa.State S V)) (p : Nat)
    (f : nfa.State S V → nfa.State S V) (r : Nat) :
    nfa.deref (nfa.update heap p f) r =
      if r = p ∧ p < heap.length then f (nfa.deref heap r) else nfa.deref heap r := by
  unfold nfa.update nfa.deref
  by_cases hp : p < heap.length
  · rw [List.getElem?_eq_getElem hp]
    simp only [hp, and_true]
    by_cases hr : r = p
    · subst hr
      simp [List.getD_eq_getElem?_getD, hp]
    · simp only [hr, if_false]
      simp [List.getD_eq_getElem?_getD, List.getElem?_set_ne (Ne.symm hr)]
  · rw [List.getElem?_eq_none (Nat.le_of_not_lt hp)]
    simp [hp]

section
variable {S V : Type} [Inhabited V] [DecidableEq S]

theorem sameView_loop {h1 h2 : List (nfa.State S V)} (hv : SameView h1 h2) (fuel : Nat) :
    ∀ (q : queue.Queue Nat) (reach : List Nat),
      findPossibleStates.loop h1 fuel q reach = findPossibleStates.loop h2 fuel q reach := by
  induction fuel with
  | zero => intro q reach; rfl
  | succ fuel ih =>
    intro q reach
    obtain ⟨d⟩ := q
    cases d with
    | nil => rw [loop_nil, loop_nil]
    | cons x d => rw [loop_cons, loop_cons, (hv x).2.2.2.1, ih]

theorem sameView_findPossibleStates {h1 h2 : List (nfa.State S V)} (hv : SameView h1 h2)
    (fuel : Nat) (states : List Nat) :
    findPossibleStates fuel h1 states = findPossibleStates fuel h2 states := by
  rw [findPossibleStates_eq, findPossibleStates_eq, sameView_loop hv]

theorem sameView_key {h1 h2 : List (nfa.State S V)} (hv : SameView h1 h2)
    (states : List Nat) : calculateStatesKey h1 states = calculateStatesKey h2 states := by
  have hid : ∀ r, (nfa.deref h1 r).ID = (nfa.deref h2 r).ID := fun r => (hv r).1
  unfold calculateStatesKey
  simp only [hid]

theorem sameView_accept {h1 h2 : List (nfa.State S V)} (hv : SameView h1 h2)
    (states : List Nat) : findAcceptanceIdx h1 states = findAcceptanceIdx h2 states := by
  have hidx : ∀ r, (nfa.deref h1 r).AcceptIdx = (nfa.deref h2 r).AcceptIdx :=
    fun r => (hv r).2.1
  have hval : ∀ r, (nfa.deref h1 r).AcceptValue = (nfa.deref h2 r).AcceptValue :=
    fun r => (hv r).2.2.1
  unfold findAcceptanceIdx
  simp only [hidx, hval]

theorem sameView_moveOn {h1 h2 : List (nfa.State S V)} (hv : SameView h1 h2)
    (states : List Nat) (a : S) : moveOn h1 states a = moveOn h2 states a := by
  have hout : ∀ r, (nfa.deref h1 r).OutgoingFor a = (nfa.deref h2 r).OutgoingFor a :=
    fun r => (hv r).2.2.2.2.2 a
  unfold moveOn
  simp only [hout]

theorem sameView_expand_loop {h1 h2 : List (nfa.State S V)} (hv : SameView h1 h2)
    (fuel : Nat) (states : List Nat) (syms : List S) :
    ∀ acc, expandStatesPerSymbol.loop fuel h1 states syms acc =
      expandStatesPerSymbol.loop fuel h2 states syms acc := by
  induction syms with
  | nil => intro acc; rfl
  | cons sym rest ih =>
    intro acc
    simp only [expandStatesPerSymbol.loop, findReachableStatesForSymbol_eq,
      sameView_moveOn hv, sameView_findPossibleStates hv, ih]

theorem sameView_expand {h1 h2 : List (nfa.State S V)} (hv : SameView h1 h2)
    (fuel : Nat) (states : List Nat) :
    expandStatesPerSymbol fuel h1 states = expandStatesPerSymbol fuel h2 states := by
  have hsym : ∀ r, (nfa.deref h1 r).OutgoingSymbols = (nfa.deref h2 r).OutgoingSymbols :=
    fun r => (hv r).2.2.2.2.1
  unfold expandStatesPerSymbol
  simp only [hsym, sameView_expand_loop hv]

theorem sameView_ensureState {h1 h2 : List (nfa.State S V)} (hv : SameView h1 h2)
    (b : dfaBuilder S V) (states : List Nat) :
    b.ensureState h1 states = b.ensureState h2 states := by
  unfold dfaBuilder.ensureState
  simp only [sameView_key hv, sameView_accept hv]

theorem sameView_connect {h1 h2 : List (nfa.State S V)} (hv : SameView h1 h2)
    (src : Option Nat) (expanded : List (S × List Nat)) :
    ∀ b : dfaBuilder S V,
      dfaBuilder.connect h1 src expanded b = dfaBuilder.connect h2 src expanded b := by
  induction expanded with
  | nil => intro b; rfl
  | cons e rest ih =>
    intro b
    obtain ⟨sym, next⟩ := e
    simp only [dfaBuilder.connect, sameView_ensureState hv]
    cases src with
    | none => rfl
    | some f => exact ih _

theorem sameView_builder_loop {h1 h2 : List (nfa.State S V)} (hv : SameView h1 h2)
    (closureFuel fuel : Nat) :
    ∀ b : dfaBuilder S V,
      dfaBuilder.loop h1 closureFuel fuel b = dfaBuilder.loop h2 closureFuel fuel b := by
  induction fuel with
  | zero => intro b; rfl
  | succ fuel ih =>
    intro b
    simp only [dfaBuilder.loop, sameView_key hv, sameView_expand hv, sameView_connect hv, ih]

theorem sameView_fromNfa (n1 n2 : nfa.Nfa S V) (hv : SameView n1.states n2.states)
    (hs : n1.Start = n2.Start) (fuel : Nat) : FromNfa fuel n1 = FromNfa fuel n2 := by
  unfold FromNfa dfaBuilder.buildFromNfa dfaBuilder.run dfaBuilder.buildStartState
  simp only [hs, sameView_findPossibleStates hv, sameView_key hv, sameView_accept hv,
    sameView_builder_loop hv]

theorem sameView_addPredicate (n : nfa.Nfa S V) (p q : Nat) (fn : S → Bool) :
    SameView (n.AddPredicateTransition p q fn).states n.states := by
  intro r
  unfold nfa.Nfa.AddPredicateTransition
  simp only
  rw [deref_update]
  split <;> exact ⟨rfl, rfl, rfl, rfl, rfl, fun _ => rfl⟩

/-- The main loop on a queue of one subset without outgoing symbols. -/
theorem loop_last (heap : List (nfa.State S V)) (closureFuel fuel : Nat) (b : dfaBuilder S V)
    (l : List Nat) (hq : b.workingQueue.data = [l])
    (hexp : expandStatesPerSymbol closureFuel heap l = .ok []) :
    dfaBuilder.loop heap closureFuel (fuel + 2) b = .ok { b with workingQueue := ⟨[]⟩ } := by
  show dfaBuilder.loop heap closureFuel ((fuel + 1) + 1) b = _
  rw [loop_step heap closureFuel (fuel + 1) b l [] hq, hexp]
  simp only [dfaBuilder.connect]
  rw [loop_done heap closureFuel fuel _ rfl]

end

end dfa

/-- C10: a predicate transition does not change what the converter does: for every machine,
states `p` and `q`, function `fn` and fuel, `FromNfa` gives the same result (the same DFA
when it returns) with and without `AddPredicateTransition(p, q, fn)`; and the DFA of the
machine built from `SymbolSet(fn)` alone is one start state, not accepting, without
transitions. -/
theorem C10_predicates_not_expanded {S V : Type} [Inhabited V] [DecidableEq S] :
    (∀ (n : nfa.Nfa S V) (p q : Nat) (fn : S → Bool) (fuel : Nat),
      dfa.FromNfa fuel (n.AddPredicateTransition p q fn) = dfa.FromNfa fuel n) ∧
    ∀ (fn : S → Bool) (fuel : Nat),
      dfa.FromNfa (fuel + 2)
          ((scanner.SymbolSet fn).Build (nfa.New : nfa.Nfa S V)
            (nfa.New : nfa.Nfa S V).Start).1 =
        .ok { states := [{ id := 0, transitions := [], acceptIdx := -1, value := default }],
              start := some 0, nextStateID := 1 } := by
  constructor
  · intro n p q fn fuel
    exact dfa.sameView_fromNfa _ _ (dfa.sameView_addPredicate n p q fn) rfl fuel
  · intro fn fuel
    have h1 : dfa.FromNfa (fuel + 2)
        ((scanner.SymbolSet fn).Build (nfa.New : nfa.Nfa S V)
          (nfa.New : nfa.Nfa S V).Start).1 =
        dfa.FromNfa (fuel + 2) ((nfa.New : nfa.Nfa S V).NewState).1 :=
      dfa.sameView_fromNfa _ _ (dfa.sameView_addPredicate _ _ _ fn) rfl (fuel + 2)
    rw [h1]
    have hf : dfa.findPossibleStates (fuel + 2) ((nfa.New : nfa.Nfa S V).NewState).1.states
        [((nfa.New : nfa.Nfa S V).NewState).1.Start] = .ok [0] := by
      rw [dfa.findPossibleStates_eq]
      show dfa.findPossibleStates.loop _ ((fuel + 1) + 1) ⟨[0]⟩ [0] = _
      rw [dfa.loop_cons]
      show dfa.findPossibleStates.loop _ (fuel + 1) ⟨[]⟩ [0] = _
      rw [dfa.loop_nil]
    have hexp : dfa.expandStatesPerSymbol (fuel + 2)
        ((nfa.New : nfa.Nfa S V).NewState).1.states [0] = .ok [] := by
      simp [dfa.expandStatesPerSymbol, dfa.expandStatesPerSymbol.loop, nfa.New,
        nfa.Nfa.newState, nfa.Nfa.NewState, nfa.deref, nfa.State.fresh,
        nfa.State.OutgoingSymbols, set.New, set.Set.Values]
    unfold dfa.FromNfa dfa.dfaBuilder.buildFromNfa dfa.dfaBuilder.run
    rw [hf]
    simp only
    have hq : ({ (dfa.dfaBuilder.initial.buildStartState
          ((nfa.New : nfa.Nfa S V).NewState).1.states [0]).1 with
        dfa := { (dfa.dfaBuilder.initial.buildStartState
            ((nfa.New : nfa.Nfa S V).NewState).1.states [0]).1.dfa with
          start := some (dfa.dfaBuilder.initial.buildStartState
            ((nfa.New : nfa.Nfa S V).NewState).1.states [0]).2 } } :
        dfa.dfaBuilder S V).workingQueue.data = [0] :: [] := rfl
    rw [dfa.loop_last _ _ _ _ [0] hq hexp]
    rfl

/-! ## Termination of the converter -/

namespace dfa

section
variable {S V : Type} [Inhabited V]

theorem epsCost_eq (heap : List (nfa.State S V)) (n : Nat) :
    ∀ q, epsLevel heap n q = [] → epsCost heap n q = (q ++ epsLevels heap n q).length + 1 := by
  induction n with
  | zero =>
    intro q h
    simp only [epsLevel] at h
    subst h
    rfl
  | succ n ih =>
    intro q h
    simp only [epsLevel] at h
    simp only [epsCost, epsLevels, ih _ h, List.length_append]
    omega

/-- The closure needs one unit of fuel per state of its result, and one more. -/
theorem findPossibleStates_min_fuel (heap : List (nfa.State S V)) (fuel : Nat)
    (seeds r : List Nat) (h : findPossibleStates fuel heap seeds = .ok r) (fuel1 : Nat)
    (hf : r.length + 1 ≤ fuel1) : findPossibleStates fuel1 heap seeds = .ok r := by
  rw [findPossibleStates_eq] at h
  obtain ⟨n, hn, hr⟩ := level_empty_of_loop heap fuel _ _ _ h
  have h1 := loop_of_level_empty heap n seeds seeds hn
  rw [epsCost_eq heap n seeds hn, ← hr] at h1
  rw [findPossibleStates_eq]
  exact loop_fuel_mono heap hf _ _ _ h1

theorem length_le_of_nodup_lt (l : List Nat) (len : Nat) (hnd : l.Nodup)
    (h : ∀ x ∈ l, x < len) : l.length ≤ len := by
  have hsub : l ⊆ List.range len := fun x hx => List.mem_range.2 (h x hx)
  have := (List.subperm_of_subset hnd hsub).length_le
  simpa using this

/-- The registry of duplicate-free lists of valid pointers is no longer than the number of
sets of states. -/
theorem reg_length_le (n : nfa.Nfa S V) (b : dfaBuilder S V) (reg : List (List Nat))
    (hinv : RegInv n.states b reg)
    (hreg : ∀ l ∈ reg, l.Nodup ∧ ∀ x ∈ l, x < n.states.length) :
    reg.length ≤ 2 ^ n.states.length := by
  have hnd : (reg.map List.toFinset).Nodup := by
    rw [List.nodup_iff_getElem?_ne_getElem?]
    intro i j hij hj hc
    rw [List.length_map] at hj
    rw [List.getElem?_map, List.getElem?_map, List.getElem?_eq_getElem (by omega),
      List.getElem?_eq_getElem hj] at hc
    simp only [Option.map_some', Option.some.injEq] at hc
    have hi : i < reg.length := by omega
    have hperm : (reg[i]).Perm (reg[j]) :=
      List.perm_of_nodup_nodup_toFinset_eq (hreg _ (List.getElem_mem _)).1
        (hreg _ (List.getElem_mem _)).1 hc
    have hkey : calculateStatesKey n.states reg[i] = calculateStatesKey n.states reg[j] :=
      (calculateStatesKey_eq_iff n.states _ _).2 (hperm.map _)
    have h1 := hinv.keyOf i reg[i] (List.getElem?_eq_getElem hi)
    have h2 := hinv.keyOf j reg[j] (List.getElem?_eq_getElem hj)
    rw [hkey, h2] at h1
    cases h1
    omega
  have hsub : (reg.map List.toFinset).toFinset ⊆ (Finset.range n.states.length).powerset := by
    intro s hs
    rw [List.mem_toFinset, List.mem_map] at hs
    obtain ⟨l, hl, rfl⟩ := hs
    rw [Finset.mem_powerset]
    intro x hx
    rw [List.mem_toFinset] at hx
    exact Finset.mem_range.2 ((hreg l hl).2 x hx)
  have := Finset.card_le_card hsub
  rw [List.toFinset_card_of_nodup hnd, Finset.card_powerset, Finset.card_range,
    List.length_map] at this
  exact this

end

section
variable {S V : Type} [Inhabited V] [DecidableEq S]

theorem expand_loop_total (fuel : Nat) (heap : List (nfa.State S V)) (states : List Nat)
    (h : ∀ a, ∃ r, findPossibleStates fuel heap (moveOn heap states a) = .ok r)
    (syms : List S) :
    ∀ acc, ∃ expanded, expandStatesPerSymbol.loop fuel heap states syms acc = .ok expanded := by
  induction syms with
  | nil => intro acc; exact ⟨acc, rfl⟩
  | cons sym rest ih =>
    intro acc
    obtain ⟨r, hr⟩ := h sym
    simp only [expandStatesPerSymbol.loop, findReachableStatesForSymbol_eq, hr]
    split
    · exact ih _
    · exact ih _

theorem expand_total (fuel : Nat) (heap : List (nfa.State S V)) (states : List Nat)
    (h : ∀ a, ∃ r, findPossibleStates fuel heap (moveOn heap states a) = .ok r) :
    ∃ expanded, expandStatesPerSymbol fuel heap states = .ok expanded := by
  unfold expandStatesPerSymbol
  exact expand_loop_total fuel heap states h _ _

/-- On a well-formed machine without epsilon cycle whose enqueued lists are free of
duplicates, a closure fuel above the number of states is enough for every closure. -/
theorem closure_total (n : nfa.Nfa S V) (hwf : n.WF)
    (hac : ∀ x, ¬ Relation.TransGen (EpsStep n.states) x x)
    (hnd : ∀ l, Enqueued n l → l.Nodup) (fuel : Nat) (hf : n.states.length + 1 ≤ fuel) :
    (∃ l0, findPossibleStates fuel n.states [n.Start] = .ok l0) ∧
    ∀ l, Enqueued n l → ∀ a,
      ∃ r, findPossibleStates fuel n.states (moveOn n.states l a) = .ok r := by
  constructor
  · obtain ⟨f, l0, h0⟩ := (findPossibleStates_iff_acyclic n.states [n.Start]).2
      (fun x _ => hac x)
    refine ⟨l0, findPossibleStates_min_fuel n.states f _ _ h0 fuel ?_⟩
    have hv : ∀ x ∈ l0, x < n.states.length := fun x hx =>
      wf_epsReachable_lt hwf [n.Start]
        (fun s hs => by rw [List.mem_singleton] at hs; rw [hs]; exact hwf.1) x
        ((findPossibleStates_mem n.states f _ _ h0 x).1 hx)
    have := length_le_of_nodup_lt l0 _ (hnd l0 (Enqueued.start h0)) hv
    omega
  · intro l hl a
    obtain ⟨f, r, hr⟩ := (findPossibleStates_iff_acyclic n.states (moveOn n.states l a)).2
      (fun x _ => hac x)
    refine ⟨r, findPossibleStates_min_fuel n.states f _ _ hr fuel ?_⟩
    by_cases hnil : r = []
    · rw [hnil]; simp; omega
    · have hv : ∀ x ∈ r, x < n.states.length := fun x hx =>
        wf_epsReachable_lt hwf _ (wf_moveOn_lt hwf l a) x
          ((findPossibleStates_mem n.states f _ _ hr x).1 hx)
      have := length_le_of_nodup_lt r _ (hnd r (Enqueued.step hl hr hnil)) hv
      omega

/-- With enough closure fuel the main loop returns after at most one iteration per set of
states. -/
theorem loop_total (n : nfa.Nfa S V) (hwf : n.WF)
    (hac : ∀ x, ¬ Relation.TransGen (EpsStep n.states) x x)
    (hnd : ∀ l, Enqueued n l → l.Nodup) (closureFuel : Nat)
    (hf : n.states.length + 1 ≤ closureFuel) (mu : Nat) :
    ∀ (b : dfaBuilder S V) (reg : List (List Nat)) (p : Nat),
      LoopInv n.states closureFuel b reg p →
      (∀ l ∈ reg, Enqueued n l ∧ ∀ x ∈ l, x < n.states.length) →
      2 ^ n.states.length - p ≤ mu →
      ∃ bF, dfaBuilder.loop n.states closureFuel (mu + 1) b = .ok bF := by
  induction mu with
  | zero =>
    intro b reg p hinv hreg hmu
    cases hq : b.workingQueue.data with
    | nil => exact ⟨b, loop_done _ _ _ _ hq⟩
    | cons l rest =>
      exfalso
      have hlen := reg_length_le n b reg hinv.base (fun l hl => ⟨hnd l (hreg l hl).1, (hreg l hl).2⟩)
      have hp : p < reg.length := by
        by_contra hc
        have := hinv.queue
        rw [hq, List.drop_eq_nil_iff.2 (Nat.le_of_not_lt hc)] at this
        cases this
      omega
  | succ mu ih =>
    intro b reg p hinv hreg hmu
    cases hq : b.workingQueue.data with
    | nil => exact ⟨b, loop_done _ _ _ _ hq⟩
    | cons l rest =>
      have hl : l ∈ reg := by
        have hmem : l ∈ reg.drop p := by
          rw [← hinv.queue, hq]; exact List.mem_cons_self _ _
        exact List.mem_of_mem_drop hmem
      obtain ⟨expanded, hexp⟩ := expand_total closureFuel n.states l
        ((closure_total n hwf hac hnd closureFuel hf).2 l (hreg l hl).1)
      obtain ⟨b2, t, hb2, hinv2, horig⟩ := hinv.step l rest hq expanded hexp
      have hreg2 : ∀ l1 ∈ reg ++ t, Enqueued n l1 ∧ ∀ x ∈ l1, x < n.states.length := by
        intro l1 hl1
        rcases List.mem_append.1 hl1 with h1 | h1
        · exact hreg l1 h1
        · obtain ⟨a, ha⟩ := horig l1 h1
          obtain ⟨_, hspec⟩ := expandStatesPerSymbol_spec closureFuel n.states l expanded hexp
          by_cases hm : moveOn n.states l a = []
          · rw [(hspec a).1 hm] at ha; cases ha
          · obtain ⟨l2, hl2, hne, hg⟩ := (hspec a).2 hm
            rw [hg] at ha
            cases ha
            exact ⟨Enqueued.step (hreg l hl).1 hl2 hne, fun x hx =>
              wf_epsReachable_lt hwf _ (wf_moveOn_lt hwf l a) x
                ((findPossibleStates_mem n.states closureFuel _ _ hl2 x).1 hx)⟩
      obtain ⟨bF, hbF⟩ := ih b2 (reg ++ t) (p + 1) hinv2 hreg2 (by omega)
      refine ⟨bF, ?_⟩
      rw [loop_step n.states closureFuel (mu + 1) b l rest hq, hexp]
      simp only
      rw [hb2]
      exact hbF

end

end dfa

/-- C3, as the code has it: `FromNfa` terminates on every well-formed machine that has no
epsilon cycle and on which no list of states that the main loop enqueues holds a state twice;
one unit of fuel per set of states, and one more, is enough. -/
theorem C3_fromNfa_terminates {S V : Type} [Inhabited V] [DecidableEq S] (n : nfa.Nfa S V)
    (hwf : n.WF) (hac : ∀ x, ¬ Relation.TransGen (dfa.EpsStep n.states) x x)
    (hnd : ∀ l, dfa.Enqueued n l → l.Nodup) :
    ∃ d, dfa.FromNfa (2 ^ n.states.length + 1) n = .ok d := by
  have hf : n.states.length + 1 ≤ 2 ^ n.states.length + 1 :=
    Nat.succ_le_succ (Nat.le_of_lt (Nat.lt_two_pow _))
  obtain ⟨⟨l0, h0⟩, _⟩ := dfa.closure_total n hwf hac hnd _ hf
  have hne : l0 ≠ [] := by
    obtain ⟨t, ht⟩ := dfa.findPossibleStates_prefix n.states _ _ _ h0
    rw [ht]; simp
  have hv : ∀ x ∈ l0, x < n.states.length := fun x hx =>
    dfa.wf_epsReachable_lt hwf [n.Start]
      (fun s hs => by rw [List.mem_singleton] at hs; rw [hs]; exact hwf.1) x
      ((dfa.findPossibleStates_mem n.states _ _ _ h0 x).1 hx)
  obtain ⟨bF, hbF⟩ := dfa.loop_total n hwf hac hnd _ hf (2 ^ n.states.length) _ [l0] 0
    (dfa.init_spec n.states _ l0 hne)
    (by intro l hl; simp at hl; rw [hl]; exact ⟨dfa.Enqueued.start h0, hv⟩)
    (by omega)
  refine ⟨bF.dfa, ?_⟩
  unfold dfa.FromNfa dfa.dfaBuilder.buildFromNfa dfa.dfaBuilder.run
  rw [h0]
  simp only
  rw [hbF]

/-! ## The converter on the example machines -/

namespace dfa

section
variable {S V : Type} [Inhabited V]

/-- An arena with a rank that grows along every epsilon transition has no epsilon cycle. -/
theorem acyclic_of_rank (heap : List (nfa.State S V)) (rank : Nat → Nat)
    (h : ∀ x, x < heap.length → ∀ y ∈ (nfa.deref heap x).Epsilon, rank x < rank y) :
    ∀ x, ¬ Relation.TransGen (EpsStep heap) x x := by
  have hstep : ∀ x y, EpsStep heap x y → rank x < rank y := by
    intro x y hxy
    by_cases hx : x < heap.length
    · exact h x hx y hxy
    · unfold EpsStep at hxy
      rw [deref_of_length_le heap x (Nat.le_of_not_lt hx)] at hxy
      cases hxy
  have hgen : ∀ x y, Relation.TransGen (EpsStep heap) x y → rank x < rank y := by
    intro x y hxy
    induction hxy with
    | single h1 => exact hstep _ _ h1
    | tail _ h1 ih => exact Nat.lt_trans ih (hstep _ _ h1)
  intro x hx
  exact Nat.lt_irrefl (rank x) (hgen x x hx)

end

theorem amplifier_out (x a : Nat) :
    (nfa.deref examples.amplifier.states x).OutgoingFor a =
      if x = 0 ∧ a = 7 then [1] else [] := by
  by_cases hx : x < 2
  · interval_cases x
    · by_cases ha : a = 7
      · subst ha; rfl
      · simp only [ha, and_false, if_false]
        apply outgoingFor_nil_of_not_symbol
        show a ∉ [7]
        simpa using ha
    · rfl
  · rw [deref_of_length_le _ x (by simpa [examples.amplifier] using Nat.le_of_not_lt hx)]
    have : ¬ (x = 0 ∧ a = 7) := by omega
    simp only [this, if_false]
    rfl

theorem amplifier_eps (x : Nat) :
    (nfa.deref examples.amplifier.states x).Epsilon = if x = 1 then [0, 0] else [] := by
  by_cases hx : x < 2
  · interval_cases x <;> rfl
  · rw [deref_of_length_le _ x (by simpa [examples.amplifier] using Nat.le_of_not_lt hx)]
    have : ¬ x = 1 := by omega
    simp only [this, if_false]
    rfl

theorem amplifier_move (l : List Nat) (a : Nat) :
    moveOn examples.amplifier.states l a =
      if a = 7 then List.replicate (l.count 0) 1 else [] := by
  induction l with
  | nil => simp [moveOn]
  | cons x l ih =>
    have hc : moveOn examples.amplifier.states (x :: l) a =
        (nfa.deref examples.amplifier.states x).OutgoingFor a ++
          moveOn examples.amplifier.states l a := by
      simp [moveOn]
    rw [hc, ih, amplifier_out]
    by_cases ha : a = 7
    · by_cases hx : x = 0
      · subst hx
        simp [ha, List.replicate_succ]
      · have hx1 : ¬ (x = 0 ∧ a = 7) := fun h => hx h.1
        have hx2 : ¬ (x == 0) = true := by simpa using hx
        simp [ha, hx, List.count_cons, hx2]
    · simp [ha]

theorem amplifier_targets_ones (k : Nat) :
    epsTargets examples.amplifier.states (List.replicate k 1) = List.replicate (2 * k) 0 := by
  induction k with
  | zero => rfl
  | succ k ih =>
    rw [List.replicate_succ, epsTargets_cons, ih, amplifier_eps]
    have : 2 * (k + 1) = (2 * k + 1) + 1 := by omega
    simp [this, List.replicate_succ]

theorem amplifier_targets_zeros (k : Nat) :
    epsTargets examples.amplifier.states (List.replicate k 0) = [] := by
  induction k with
  | zero => rfl
  | succ k ih =>
    rw [List.replicate_succ, epsTargets_cons, ih, amplifier_eps]
    simp

/-- On the amplifier the closure of `k` copies of the state 1 is these followed by `2 * k`
copies of the state 0. -/
theorem amplifier_closure (fuel k : Nat) (r : List Nat)
    (h : findPossibleStates fuel examples.amplifier.states (List.replicate k 1) = .ok r) :
    r = List.replicate k 1 ++ List.replicate (2 * k) 0 := by
  rw [findPossibleStates_eq] at h
  obtain ⟨n, hn, hr⟩ := level_empty_of_loop _ fuel _ _ _ h
  rw [hr]
  congr 1
  cases n with
  | zero =>
    simp only [epsLevel] at hn
    have hk : k = 0 := by
      cases k with
      | zero => rfl
      | succ k => simp [List.replicate_succ] at hn
    subst hk
    rfl
  | succ n =>
    simp only [epsLevels, amplifier_targets_ones]
    cases n with
    | zero => simp [epsLevels]
    | succ n =>
      simp only [epsLevels, amplifier_targets_zeros, epsLevels_nil, List.append_nil]

theorem amplifier_wf : examples.amplifier.WF := by
  unfold nfa.Nfa.WF nfa.State.WF
  decide

/-- On the amplifier every list that the converter registers holds the state 0 at least once,
and its successor on the symbol 7 holds the state 0 twice as often. -/
theorem amplifier_double (fuel : Nat) (l l1 : List Nat) (expanded : List (Nat × List Nat))
    (a : Nat) (hexp : expandStatesPerSymbol fuel examples.amplifier.states l = .ok expanded)
    (hget : gomap.get expanded a = some l1) :
    l1.count 0 = 2 * l.count 0 ∧ ∀ x ∈ l1, x < examples.amplifier.states.length := by
  obtain ⟨_, hspec⟩ := expandStatesPerSymbol_spec fuel _ l expanded hexp
  by_cases hm : moveOn examples.amplifier.states l a = []
  · rw [(hspec a).1 hm] at hget; cases hget
  · obtain ⟨l2, hl2, _, hg⟩ := (hspec a).2 hm
    rw [hg] at hget
    cases hget
    have hv : ∀ x ∈ l1, x < examples.amplifier.states.length := fun x hx =>
      wf_epsReachable_lt amplifier_wf _ (wf_moveOn_lt amplifier_wf l a) x
        ((findPossibleStates_mem _ fuel _ _ hl2 x).1 hx)
    refine ⟨?_, hv⟩
    have ha : a = 7 := by
      by_contra hc
      rw [amplifier_move] at hm
      simp [hc] at hm
    subst ha
    rw [amplifier_move] at hl2
    simp only [if_true] at hl2
    rw [amplifier_closure fuel _ l1 hl2]
    simp [List.count_replicate]

theorem amplifier_acyclic :
    ∀ x, ¬ Relation.TransGen (EpsStep examples.amplifier.states) x x :=
  acyclic_of_rank examples.amplifier.states (fun x => 2 - x) (by decide)

/-- The converter returns on the amplifier for no amount of fuel. -/
theorem amplifier_diverges :
    ¬ ∃ fuel d, FromNfa fuel examples.amplifier = .ok d := by
  rintro ⟨fuel, d, h⟩
  obtain ⟨b, hrun, _⟩ := (fromNfa_ok_iff fuel _ d).1 h
  obtain ⟨l0, t, _, hinv, hP⟩ := run_spec fuel examples.amplifier b
    (fun l => 1 ≤ l.count 0 ∧ ∀ x ∈ l, x < examples.amplifier.states.length)
    (by
      intro l expanded a l1 hl hexp hget
      obtain ⟨hc, hv⟩ := amplifier_double fuel l l1 expanded a hexp hget
      exact ⟨by omega, hv⟩)
    (by
      intro l0 hl0
      have := findPossibleStates_unique examples.amplifier.states _ fuel 2 l0 [0] hl0 (by rfl)
      subst this
      decide)
    hrun
  obtain ⟨l, hl, hmax⟩ := Finset.exists_max_image (l0 :: t).toFinset (fun l => l.count 0)
    ⟨l0, by simp⟩
  rw [List.mem_toFinset] at hl
  obtain ⟨i, hi⟩ := List.mem_iff_getElem?.1 hl
  have hlt : i < (l0 :: t).length := (List.getElem?_eq_some.1 hi).1
  have hex : ∃ st, b.dfa.states[i]? = some st :=
    ⟨_, List.getElem?_eq_getElem (by rw [hinv.base.len]; exact hlt)⟩
  obtain ⟨st, hst⟩ := hex
  obtain ⟨expanded, hexp, htr⟩ := hinv.done i l st hlt hi hst
  obtain ⟨_, hspec⟩ := expandStatesPerSymbol_spec fuel _ l expanded hexp
  have hm : moveOn examples.amplifier.states l 7 ≠ [] := by
    rw [amplifier_move]
    simp only [if_true]
    intro hc
    have := congrArg List.length hc
    simp at this
    have := (hP l hl).1
    omega
  obtain ⟨l1, _, _, hg⟩ := (hspec 7).2 hm
  have htr7 := htr 7
  rw [hg] at htr7
  simp only at htr7
  obtain ⟨j, l2, _, hl2, hkey⟩ := htr7
  obtain ⟨hc, hv1⟩ := amplifier_double fuel l l1 expanded 7 hexp hg
  have hmem2 : l2 ∈ l0 :: t := List.getElem?_mem hl2
  have hperm := wf_mem_of_key_eq amplifier_wf l2 l1 (hP l2 hmem2).2 hv1 hkey
  have h1 := hmax l2 (List.mem_toFinset.2 hmem2)
  simp only at h1
  rw [hperm.count_eq, hc] at h1
  have := (hP l hl).1
  omega

theorem chain_enqueued (l : List Nat) (h : Enqueued examples.chain l) :
    l = [0] ∨ l = [1, 2] := by
  induction h with
  | start h0 =>
    exact Or.inl (findPossibleStates_unique examples.chain.states _ _ 3 _ [0] h0 (by rfl))
  | @step fuel l l1 a _ hf hne ih =>
    have hnil : moveOn examples.chain.states l a = [] → False := by
      intro hm
      rw [hm] at hf
      exact hne (findPossibleStates_nil _ _ _ hf)
    rcases ih with rfl | rfl
    · by_cases ha : a = 5
      · subst ha
        exact Or.inr (findPossibleStates_unique examples.chain.states _ _ 3 _ [1, 2] hf (by rfl))
      · exfalso
        apply hnil
        apply moveOn_nil_of_not_symbol
        intro st hst
        rw [List.mem_singleton] at hst
        subst hst
        show a ∉ [5]
        simpa using ha
    · exfalso
      apply hnil
      apply moveOn_nil_of_not_symbol
      intro st hst
      simp only [List.mem_cons, List.mem_singleton, List.not_mem_nil, or_false] at hst
      rcases hst with rfl | rfl
      · show a ∉ []
        simp
      · show a ∉ []
        simp

end dfa

/-- C3 fails as stated: `FromNfa` returns for no amount of fuel on the machine whose start
state has an epsilon transition to itself, and neither on the amplifier, which has no epsilon
cycle but on which the enqueued lists keep growing. -/
theorem C3_counterexample :
    (¬ ∃ fuel d, dfa.FromNfa fuel examples.epsSelfLoop = .ok d) ∧
    (∀ x, ¬ Relation.TransGen (dfa.EpsStep examples.amplifier.states) x x) ∧
    ¬ ∃ fuel d, dfa.FromNfa fuel examples.amplifier = .ok d := by
  refine ⟨?_, dfa.amplifier_acyclic, dfa.amplifier_diverges⟩
  rintro ⟨fuel, d, h⟩
  obtain ⟨b, hrun, _⟩ := (dfa.fromNfa_ok_iff fuel _ d).1 h
  obtain ⟨l0, _, hl0, _, _⟩ := dfa.run_spec fuel examples.epsSelfLoop b (fun _ => True)
    (fun _ _ _ _ _ _ _ => trivial) (fun _ _ => trivial) hrun
  have hac := (dfa.findPossibleStates_iff_acyclic examples.epsSelfLoop.states
    [examples.epsSelfLoop.Start]).1 ⟨fuel, l0, hl0⟩
  refine hac 0 ⟨0, by decide, Relation.ReflTransGen.refl⟩ (Relation.TransGen.single ?_)
  show 0 ∈ (nfa.deref examples.epsSelfLoop.states 0).Epsilon
  decide

/-- C3 at the machine `chain`, whose enqueued lists are `[0]` and `[1, 2]`. -/
theorem C3_fromNfa_terminates_witness :
    examples.chain.WF ∧
    (∀ x, ¬ Relation.TransGen (dfa.EpsStep examples.chain.states) x x) ∧
    (∀ l, dfa.Enqueued examples.chain l → l.Nodup) ∧
    ∃ d, dfa.FromNfa (2 ^ examples.chain.states.length + 1) examples.chain = .ok d :=
  ⟨by unfold nfa.Nfa.WF nfa.State.WF; decide,
   dfa.acyclic_of_rank examples.chain.states (fun x => x) (by decide),
   fun l hl => by rcases dfa.chain_enqueued l hl with rfl | rfl <;> decide,
   C3_fromNfa_terminates examples.chain (by unfold nfa.Nfa.WF nfa.State.WF; decide)
     (dfa.acyclic_of_rank examples.chain.states (fun x => x) (by decide))
     (fun l hl => by rcases dfa.chain_enqueued l hl with rfl | rfl <;> decide)⟩

/-! ## The machines of the API are well-formed -/

namespace mvmap

theorem get_put {K V : Type} [DecidableEq K] (m : MvMap K V) (k : K) (v : V) (k1 : K) :
    (m.Put k v).Get k1 = m.Get k1 ++ (if k = k1 then [v] else []) := by
  unfold MvMap.Put MvMap.Get
  simp only [gomap.get_set]
  by_cases h : k = k1
  · subst h; simp
  · simp [h]

theorem get_new {K V : Type} [DecidableEq K] (k : K) : (New : MvMap K V).Get k = [] := rfl

end mvmap

namespace nfa

section
variable {S V : Type} [DecidableEq S]

/-- The targets on a symbol after `put`: the old ones, then the new one if the symbol is the
one of the new transition. -/
theorem outgoingFor_put (s : State S V) (hs : s.edge.isSome = true → s.transitions = none)
    (a : S) (t : Nat) (a1 : S) :
    (s.put a t).OutgoingFor a1 = s.OutgoingFor a1 ++ (if a = a1 then [t] else []) := by
  unfold State.put State.OutgoingFor
  cases he : s.edge with
  | none =>
    cases ht : s.transitions with
    | none => simp
    | some m => simp [mvmap.get_put]
  | some e =>
    have := hs (by rw [he]; rfl)
    rw [this]
    simp only [State.resetEdge, Option.getD_none, mvmap.get_put, mvmap.get_new, List.nil_append]

theorem put_slot (s : State S V) (a : S) (t : Nat) :
    (s.put a t).edge.isSome = true → (s.put a t).transitions = none := by
  unfold State.put
  cases he : s.edge with
  | none =>
    cases ht : s.transitions with
    | none => intro _; simp [ht]
    | some m => intro h; simp [he] at h
  | some e => intro h; simp [State.resetEdge] at h

theorem put_fields (s : State S V) (a : S) (t : Nat) :
    (s.put a t).id = s.id ∧ (s.put a t).eTransitions = s.eTransitions ∧
      (s.put a t).predicateTransitions = s.predicateTransitions ∧
      (s.put a t).acceptIdx = s.acceptIdx ∧ (s.put a t).value = s.value := by
  unfold State.put
  cases s.edge <;> cases s.transitions <;> exact ⟨rfl, rfl, rfl, rfl, rfl⟩

theorem sound_mono {len len1 i : Nat} {s : State S V} (h : State.Sound len i s)
    (hle : len ≤ len1) : State.Sound len1 i s :=
  ⟨h.1, fun y hy => Nat.lt_of_lt_of_le (h.2.1 y hy) hle,
    fun a y hy => Nat.lt_of_lt_of_le (h.2.2.1 a y hy) hle,
    fun pt hpt => Nat.lt_of_lt_of_le (h.2.2.2.1 pt hpt) hle, h.2.2.2.2.1, h.2.2.2.2.2⟩

theorem fresh_sound [Inhabited V] (len i : Nat) :
    State.Sound len i (State.fresh i : State S V) :=
  ⟨rfl, fun _ hy => (by cases hy), fun _ _ hy => (by cases hy), fun _ hpt => (by cases hpt),
    (by show (-1 : Int) ≤ -1; exact Int.le_refl _), fun h => (by cases h)⟩

end

theorem length_update {S V : Type} (heap : List (State S V)) (p : Nat) (f : State S V → State S V) :
    (update heap p f).length = heap.length := by
  unfold update
  cases heap[p]? <;> simp

theorem deref_append {S V : Type} [Inhabited V] (heap : List (State S V)) (s : State S V) (r : Nat) :
    deref (heap ++ [s]) r =
      if r < heap.length then deref heap r else if r = heap.length then s else default := by
  unfold deref
  by_cases h1 : r < heap.length
  · simp [h1, List.getD_eq_getElem?_getD, List.getElem?_append_left h1]
  · by_cases h2 : r = heap.length
    · subst h2
      simp [List.getD_eq_getElem?_getD]
    · have h3 : (heap ++ [s]).length ≤ r := by simp; omega
      simp [h1, h2, List.getD_eq_getElem?_getD, List.getElem?_eq_none h3]

section
variable {S V : Type} [Inhabited V] [DecidableEq S]

/-- Allocating a state keeps the machine sound. -/
theorem sound_alloc (n : Nfa S V) (h : n.Sound) (s : State S V)
    (hs : State.Sound (n.states.length + 1) n.states.length s) :
    Nfa.Sound { n with states := n.states ++ [s], nextStateID := n.nextStateID + 1 } := by
  refine ⟨by simp [h.1], by simp; exact Nat.lt_succ_of_lt h.2.1, ?_⟩
  intro i hi
  simp only [List.length_append, List.length_singleton] at hi ⊢
  rw [deref_append]
  by_cases h1 : i < n.states.length
  · simp only [h1, if_true]
    exact sound_mono (h.2.2 i h1) (Nat.le_succ _)
  · have h2 : i = n.states.length := by omega
    subst h2
    simp only [Nat.lt_irrefl, if_false, if_true]
    exact hs

/-- Writing through a valid pointer keeps the machine sound when the state stays sound. -/
theorem sound_update (n : Nfa S V) (h : n.Sound) (p : Nat) (f : State S V → State S V)
    (hf : ∀ s, State.Sound n.states.length p s → State.Sound n.states.length p (f s)) :
    Nfa.Sound { n with states := update n.states p f } := by
  refine ⟨by simp [length_update, h.1], by simp [length_update, h.2.1], ?_⟩
  intro i hi
  simp only [length_update] at hi ⊢
  rw [dfa.deref_update]
  by_cases hc : i = p ∧ p < n.states.length
  · simp only [hc, and_self, if_true]
    obtain ⟨rfl, _⟩ := hc
    exact hf _ (h.2.2 i hi)
  · simp only [hc, if_false]
    exact h.2.2 i hi

theorem sound_new : (New : Nfa S V).Sound := by
  refine ⟨rfl, by simp [New, Nfa.newState], ?_⟩
  intro i hi
  have h0 : i = 0 := by simp [New, Nfa.newState] at hi; exact hi
  subst h0
  exact fresh_sound _ 0

/-- Every machine that the API builds is sound. -/
theorem built_sound (n : Nfa S V) (h : Built n) : n.Sound := by
  induction h with
  | new => exact sound_new
  | @newState n _ ih =>
    exact sound_alloc n ih (State.fresh n.nextStateID) (by rw [ih.1]; exact fresh_sound _ _)
  | @add n s a _ hs ih =>
    have h1 := sound_alloc n ih (State.fresh n.nextStateID)
      (by rw [ih.1]; exact fresh_sound _ _)
    refine sound_update _ h1 s (fun st => st.put a n.states.length) ?_
    intro st hst
    show State.Sound _ s (st.put a n.states.length)
    obtain ⟨hid, hfe, hfp, hfa, _⟩ := put_fields st a n.states.length
    refine ⟨by rw [hid]; exact hst.1, by rw [hfe]; exact hst.2.1, ?_,
      by rw [hfp]; exact hst.2.2.2.1, by rw [hfa]; exact hst.2.2.2.2.1, put_slot st a _⟩
    intro a1 y hy
    rw [outgoingFor_put st hst.2.2.2.2.2] at hy
    rcases List.mem_append.1 hy with hy | hy
    · exact hst.2.2.1 a1 y hy
    · by_cases hc : a = a1
      · simp only [hc, if_true, List.mem_singleton] at hy
        rw [hy]; simp
      · simp [hc] at hy
  | @addEpsilon n s _ hs ih =>
    have h1 := sound_alloc n ih (State.fresh n.nextStateID)
      (by rw [ih.1]; exact fresh_sound _ _)
    refine sound_update _ h1 s _ ?_
    intro st hst
    refine ⟨hst.1, ?_, hst.2.2.1, hst.2.2.2.1, hst.2.2.2.2.1, hst.2.2.2.2.2⟩
    intro y hy
    rcases List.mem_append.1 hy with hy | hy
    · exact hst.2.1 y hy
    · simp only [List.mem_singleton] at hy
      rw [hy]; simp [Nfa.NewState]
  | @addAccepting n s v _ hs ih =>
    have h1 := sound_alloc n ih (State.fresh n.nextStateID)
      (by rw [ih.1]; exact fresh_sound _ _)
    have h2 : Nfa.Sound (n.newAcceptingState v).1 := by
      have := sound_update _ h1 n.states.length
        (fun st => { st with acceptIdx := (n.nextAcceptIndex : Int), value := v })
        (fun st hst => ⟨hst.1, hst.2.1, hst.2.2.1, hst.2.2.2.1, by simp; omega, hst.2.2.2.2.2⟩)
      exact ⟨this.1, this.2.1, this.2.2⟩
    refine sound_update _ h2 s _ ?_
    intro st hst
    refine ⟨hst.1, ?_, hst.2.2.1, hst.2.2.2.1, hst.2.2.2.2.1, hst.2.2.2.2.2⟩
    intro y hy
    rcases List.mem_append.1 hy with hy | hy
    · exact hst.2.1 y hy
    · simp only [List.mem_singleton] at hy
      rw [hy]
      simp [Nfa.newAcceptingState, Nfa.markAccepting, length_update]
  | @addPredicate n s t fn _ hs ht ih =>
    refine sound_update _ ih s _ ?_
    intro st hst
    refine ⟨hst.1, hst.2.1, hst.2.2.1, ?_, hst.2.2.2.2.1, hst.2.2.2.2.2⟩
    intro pt hpt
    rcases List.mem_append.1 hpt with hpt | hpt
    · exact hst.2.2.2.1 pt hpt
    · simp only [List.mem_singleton] at hpt
      rw [hpt]; exact ht
  | @connect n s t _ hs ht ih =>
    refine sound_update _ ih s _ ?_
    intro st hst
    refine ⟨hst.1, ?_, hst.2.2.1, hst.2.2.2.1, hst.2.2.2.2.1, hst.2.2.2.2.2⟩
    intro y hy
    rcases List.mem_append.1 hy with hy | hy
    · exact hst.2.1 y hy
    · simp only [List.mem_singleton] at hy
      rw [hy]; exact ht

/-- Every machine that the API builds is well-formed. -/
theorem built_wf (n : Nfa S V) (h : Built n) : n.WF := by
  have hs := built_sound n h
  refine ⟨hs.2.1, fun i hi => ?_⟩
  have := hs.2.2 i hi
  exact ⟨this.1, this.2.1, fun a _ y hy => this.2.2.1 a y hy, this.2.2.2.1, this.2.2.2.2.1⟩

end

end nfa

/-! ## Sequences of calls of the machine API -/

namespace nfa

theorem deref_alloc {S V : Type} [Inhabited V] (heap : List (State S V)) (s : State S V)
    (r : Nat) :
    deref (heap ++ [s]) r = if r = heap.length then s else deref heap r := by
  rw [deref_append]
  by_cases h1 : r < heap.length
  · have : r ≠ heap.length := Nat.ne_of_lt h1
    simp [h1, this]
  · by_cases h2 : r = heap.length
    · simp [h2]
    · simp only [h1, h2, if_false]
      unfold deref
      simp [List.getD_eq_getElem?_getD, List.getElem?_eq_none (Nat.le_of_not_lt h1)]

section
variable {S V : Type} [Inhabited V] [DecidableEq S]

theorem built_call {n : Nfa S V} (h : Built n) (c : Call S V)
    (hc : c.valid n.states.length = true) : Built (n.call c).1 := by
  cases c with
  | NewState => exact Built.newState h
  | Add s a => exact Built.add h (by simpa [Call.valid] using hc)
  | AddEpsilonTransition s => exact Built.addEpsilon h (by simpa [Call.valid] using hc)
  | AddAcceptingEpsilonTransition s v =>
    exact Built.addAccepting h (by simpa [Call.valid] using hc)
  | AddPredicateTransition s t fn =>
    simp only [Call.valid, Bool.and_eq_true, decide_eq_true_eq] at hc
    exact Built.addPredicate h hc.1 hc.2
  | ConnectEpsilon s t =>
    simp only [Call.valid, Bool.and_eq_true, decide_eq_true_eq] at hc
    exact Built.connect h hc.1 hc.2

theorem built_run {n : Nfa S V} (h : Built n) (cs : List (Call S V))
    (hv : n.validCalls cs = true) : Built (n.run cs) := by
  induction cs generalizing n with
  | nil => exact h
  | cons c cs ih =>
    simp only [Nfa.validCalls, Bool.and_eq_true] at hv
    exact ih (built_call h c hv.1) hv.2

/-- The state behind a pointer after a call. -/
theorem deref_call (n : Nfa S V) (c : Call S V) (r : Nat) :
    deref (n.call c).1.states r =
      match c with
      | .NewState =>
        if r = n.states.length then State.fresh n.nextStateID else deref n.states r
      | .Add s a =>
        if r = s ∧ s < n.states.length + 1 then
          (if r = n.states.length then State.fresh n.nextStateID
            else deref n.states r).put a n.states.length
        else if r = n.states.length then State.fresh n.nextStateID else deref n.states r
      | .AddEpsilonTransition s =>
        if r = s ∧ s < n.states.length + 1 then
          { (if r = n.states.length then State.fresh n.nextStateID else deref n.states r) with
            eTransitions :=
              (if r = n.states.length then (State.fresh n.nextStateID : State S V)
                else deref n.states r).eTransitions ++ [n.states.length] }
        else if r = n.states.length then State.fresh n.nextStateID else deref n.states r
      | .AddAcceptingEpsilonTransition s v =>
        if r = s ∧ s < n.states.length + 1 then
          { (if r = n.states.length then
              { (State.fresh n.nextStateID : State S V) with
                acceptIdx := (n.nextAcceptIndex : Int), value := v }
              else deref n.states r) with
            eTransitions :=
              (if r = n.states.length then
                { (State.fresh n.nextStateID : State S V) with
                  acceptIdx := (n.nextAcceptIndex : Int), value := v }
                else deref n.states r).eTransitions ++ [n.states.length] }
        else if r = n.states.length then
          { (State.fresh n.nextStateID : State S V) with
            acceptIdx := (n.nextAcceptIndex : Int), value := v }
        else deref n.states r
      | .AddPredicateTransition s t fn =>
        if r = s ∧ s < n.states.length then
          { deref n.states r with
            predicateTransitions :=
              (deref n.states r).predicateTransitions ++ [{ EndState := t, Fn := fn }] }
        else deref n.states r
      | .ConnectEpsilon s t =>
        if r = s ∧ s < n.states.length then
          { deref n.states r with eTransitions := (deref n.states r).eTransitions ++ [t] }
        else deref n.states r := by
  cases c with
  | NewState => simp only [Nfa.call, Nfa.NewState, deref_alloc]
  | Add s a =>
    simp only [Nfa.call, Nfa.Add, Nfa.newState, dfa.deref_update, deref_alloc,
      List.length_append, List.length_singleton]
  | AddEpsilonTransition s =>
    simp only [Nfa.call, Nfa.AddEpsilonTransition, Nfa.NewState, Nfa.ConnectEpsilon,
      dfa.deref_update, deref_alloc, List.length_append, List.length_singleton]
  | AddAcceptingEpsilonTransition s v =>
    simp only [Nfa.call, Nfa.AddAcceptingEpsilonTransition, Nfa.newAcceptingState,
      Nfa.markAccepting, dfa.deref_update, deref_alloc, List.length_append,
      List.length_singleton, length_update]
    by_cases h1 : r = n.states.length <;> simp [h1]
  | AddPredicateTransition s t fn =>
    simp only [Nfa.call, Nfa.AddPredicateTransition, dfa.deref_update]
  | ConnectEpsilon s t =>
    simp only [Nfa.call, Nfa.ConnectEpsilon, dfa.deref_update]

end

end nfa

namespace nfa
theorem deref_ge {S V : Type} [Inhabited V] (heap : List (State S V)) (r : Nat) (h : heap.length ≤ r) :
    deref heap r = State.fresh 0 := by
  unfold deref
  simp [List.getD_eq_getElem?_getD, List.getElem?_eq_none h]
  rfl

theorem addedOn_cons {S V : Type} [DecidableEq S] (e : Call S V × Option Nat) (l : List (Call S V × Option Nat)) (r : Nat)
    (a : S) : addedOn (e :: l) r a = addedOn [e] r a ++ addedOn l r a :=
  List.filterMap_append [e] l _

section
variable {S V : Type} [Inhabited V] [DecidableEq S]

theorem outgoingFor_call {n : Nfa S V} (h : Built n) (c : Call S V)
    (hc : c.valid n.states.length = true) (r : Nat) (a : S) :
    (deref (n.call c).1.states r).OutgoingFor a =
      (deref n.states r).OutgoingFor a ++ addedOn [(c, (n.call c).2)] r a := by
  have hfresh : ∀ i : Nat, (State.fresh i : State S V).OutgoingFor a = [] := fun _ => rfl
  have hlen : (deref n.states n.states.length).OutgoingFor a = [] := by
    rw [deref_ge _ _ (Nat.le_refl _)]; rfl
  rw [deref_call]
  cases c with
  | NewState =>
    simp only [addedOn, List.filterMap_cons, List.filterMap_nil, List.append_nil, Nfa.call]
    split
    · next h1 => rw [h1, hlen]; rfl
    · rfl
  | Add s b =>
    have hs : s < n.states.length := by simpa [Call.valid] using hc
    have hs1 : s < n.states.length + 1 := Nat.lt_succ_of_lt hs
    have hne : s ≠ n.states.length := Nat.ne_of_lt hs
    simp only [addedOn, List.filterMap_cons, List.filterMap_nil, Nfa.call, Nfa.Add, Nfa.newState,
      hs1, and_true]
    by_cases h1 : r = s
    · subst h1
      simp only [hne, if_false, if_true]
      rw [outgoingFor_put _ ((built_sound n h).2.2 r hs).2.2.2.2.2]
      by_cases h2 : b = a <;> simp [h2]
    · have h1' : ¬ s = r := fun e => h1 e.symm
      simp only [h1, if_false, h1', false_and, List.append_nil]
      split
      · next h3 => rw [h3, hlen]; rfl
      · rfl
  | AddEpsilonTransition s =>
    simp only [addedOn, List.filterMap_cons, List.filterMap_nil, List.append_nil, Nfa.call]
    by_cases h1 : r = n.states.length
    · simp only [h1, if_true, hlen]
      split <;> rfl
    · simp only [h1, if_false]
      split <;> rfl
  | AddAcceptingEpsilonTransition s v =>
    simp only [addedOn, List.filterMap_cons, List.filterMap_nil, List.append_nil, Nfa.call]
    by_cases h1 : r = n.states.length
    · simp only [h1, if_true, hlen]
      split <;> rfl
    · simp only [h1, if_false]
      split <;> rfl
  | AddPredicateTransition s t fn =>
    simp only [addedOn, List.filterMap_cons, List.filterMap_nil, List.append_nil, Nfa.call]
    split <;> rfl
  | ConnectEpsilon s t =>
    simp only [addedOn, List.filterMap_cons, List.filterMap_nil, List.append_nil, Nfa.call]
    split <;> rfl

theorem outgoingFor_run {n : Nfa S V} (h : Built n) (cs : List (Call S V))
    (hv : n.validCalls cs = true) (r : Nat) (a : S) :
    (deref (n.run cs).states r).OutgoingFor a =
      (deref n.states r).OutgoingFor a ++ addedOn (n.log cs) r a := by
  induction cs generalizing n with
  | nil => simp [Nfa.run, Nfa.log, addedOn]
  | cons c cs ih =>
    simp only [Nfa.validCalls, Bool.and_eq_true] at hv
    rw [Nfa.run, ih (built_call h c hv.1) hv.2, outgoingFor_call h c hv.1, List.append_assoc]
    rw [Nfa.log, addedOn_cons (c, (n.call c).2) ((n.call c).1.log cs)]

end
end nfa

namespace nfa
section
variable {S V : Type} [Inhabited V] [DecidableEq S]

/-- A fresh state keeps its first transition in the single-edge slot, and moves it to the map
together with the second one. -/
theorem slot_then_map (n : Nfa S V) (a b : S) :
    ((deref (n.NewState.1.Add n.NewState.2 a).1.states n.NewState.2).edge =
        some (a, (n.NewState.1.Add n.NewState.2 a).2) ∧
      (deref (n.NewState.1.Add n.NewState.2 a).1.states n.NewState.2).transitions = none ∧
      (deref (n.NewState.1.Add n.NewState.2 a).1.states n.NewState.2).OutgoingFor a =
        [(n.NewState.1.Add n.NewState.2 a).2]) ∧
    ((deref ((n.NewState.1.Add n.NewState.2 a).1.Add n.NewState.2 b).1.states
        n.NewState.2).edge = none ∧
      (deref ((n.NewState.1.Add n.NewState.2 a).1.Add n.NewState.2 b).1.states
        n.NewState.2).transitions.isSome = true ∧
      (deref ((n.NewState.1.Add n.NewState.2 a).1.Add n.NewState.2 b).1.states
        n.NewState.2).OutgoingFor a =
        (n.NewState.1.Add n.NewState.2 a).2 ::
          (if b = a then [((n.NewState.1.Add n.NewState.2 a).1.Add n.NewState.2 b).2]
            else [])) := by
  have e1 : (n.NewState.1.Add n.NewState.2 a).2 = n.states.length + 1 := by
    simp [Nfa.Add, Nfa.newState, Nfa.NewState]
  have e2 : ((n.NewState.1.Add n.NewState.2 a).1.Add n.NewState.2 b).2 =
      n.states.length + 2 := by
    simp [Nfa.Add, Nfa.newState, Nfa.NewState, length_update]
  have h1 : deref (n.NewState.1.Add n.NewState.2 a).1.states n.NewState.2 =
      (State.fresh n.nextStateID : State S V).put a (n.states.length + 1) := by
    simp only [Nfa.Add, Nfa.newState, Nfa.NewState, dfa.deref_update, deref_alloc,
      List.length_append, List.length_singleton]
    split_ifs <;> first | rfl | (exfalso; simp at * <;> omega)
  have h2 : deref ((n.NewState.1.Add n.NewState.2 a).1.Add n.NewState.2 b).1.states
      n.NewState.2 =
      ((State.fresh n.nextStateID : State S V).put a (n.states.length + 1)).put b
        (n.states.length + 2) := by
    simp only [Nfa.Add, Nfa.newState, Nfa.NewState, dfa.deref_update, deref_alloc,
      List.length_append, List.length_singleton, length_update]
    split_ifs <;> first | rfl | (exfalso; simp at * <;> omega)
  rw [h1, h2, e1, e2]
  refine ⟨⟨rfl, rfl, ?_⟩, rfl, rfl, ?_⟩
  · simp [State.put, State.fresh, State.OutgoingFor]
  · simp [State.put, State.fresh, State.OutgoingFor, State.resetEdge, mvmap.get_put,
      mvmap.get_new]

end
end nfa

namespace nfa

theorem outgoingSymbols_congr {S V : Type} (s1 s2 : State S V) (he : s1.edge = s2.edge)
    (ht : s1.transitions = s2.transitions) : s1.OutgoingSymbols = s2.OutgoingSymbols := by
  unfold State.OutgoingSymbols
  rw [he, ht]

section
variable {S V : Type} [DecidableEq S]

theorem keys_put (m : mvmap.MvMap S Nat) (a : S) (t : Nat) :
    (m.Put a t).Keys = if a ∈ m.Keys then m.Keys else m.Keys ++ [a] := by
  unfold mvmap.MvMap.Put mvmap.MvMap.Keys
  exact gomap.keys_set _ _ _

/-- The symbols of a state after `put`: the old ones and the symbol of the new transition. -/
theorem mem_outgoingSymbols_put (s : State S V)
    (hs : s.edge.isSome = true → s.transitions = none) (a : S) (t : Nat) (a1 : S) :
    a1 ∈ (s.put a t).OutgoingSymbols ↔ a1 ∈ s.OutgoingSymbols ∨ a1 = a := by
  unfold State.put State.OutgoingSymbols
  cases he : s.edge with
  | none =>
    cases ht : s.transitions with
    | none => simp
    | some m =>
      simp only [keys_put]
      by_cases h : a ∈ m.Keys
      · simp only [h, if_true]
        constructor
        · exact Or.inl
        · rintro (h1 | h1)
          · exact h1
          · rw [h1]; exact h
      · simp [h]
  | some e =>
    have := hs (by rw [he]; rfl)
    rw [this]
    simp only [State.resetEdge, Option.getD_none, keys_put]
    have hk : (mvmap.New : mvmap.MvMap S Nat).Keys = [] := rfl
    simp only [hk, List.not_mem_nil, if_false, List.nil_append, List.mem_singleton]
    by_cases h : a = e.1
    · simp [h]
    · simp [h]

theorem nodup_outgoingSymbols_put (s : State S V) (hn : s.OutgoingSymbols.Nodup) (a : S)
    (t : Nat) : (s.put a t).OutgoingSymbols.Nodup := by
  have hset : ∀ m : mvmap.MvMap S Nat, m.Keys.Nodup → (m.Put a t).Keys.Nodup := by
    intro m hm
    unfold mvmap.MvMap.Put mvmap.MvMap.Keys
    exact gomap.nodup_keys_set _ _ _ hm
  unfold State.put
  unfold State.OutgoingSymbols at hn
  cases he : s.edge with
  | none =>
    cases ht : s.transitions with
    | none => simp [State.OutgoingSymbols]
    | some m =>
      rw [ht] at hn
      simp only [State.OutgoingSymbols]
      exact hset m hn
  | some e =>
    simp only [State.OutgoingSymbols, State.resetEdge]
    apply hset
    unfold mvmap.MvMap.Put mvmap.MvMap.Keys
    apply gomap.nodup_keys_set
    cases ht : s.transitions with
    | none => exact List.nodup_nil
    | some m => rw [ht] at hn; exact hn

end

section
variable {S V : Type} [Inhabited V] [DecidableEq S]

/-- The call `Add(s, a)` puts the transition on the state `s`. -/
theorem deref_call_add (n : Nfa S V) (s : Nat) (a : S) (hs : s < n.states.length) :
    deref (n.call (.Add s a)).1.states s = (deref n.states s).put a n.states.length := by
  rw [deref_call]
  simp only [and_true, Nat.lt_succ_of_lt hs, if_true, Nat.ne_of_lt hs, if_false]

/-- A call that is not `Add(r, a)` leaves the slot and the map of the state `r` as they
are. -/
theorem store_call (n : Nfa S V) (c : Call S V) (r : Nat)
    (hc : c.valid n.states.length = true) (hne : ∀ a, c ≠ .Add r a) :
    (deref (n.call c).1.states r).edge = (deref n.states r).edge ∧
      (deref (n.call c).1.states r).transitions = (deref n.states r).transitions := by
  have hlen : deref n.states n.states.length = State.fresh 0 := deref_ge _ _ (Nat.le_refl _)
  rw [deref_call]
  cases c with
  | NewState =>
    simp only
    split
    · next h1 => rw [h1, hlen]; exact ⟨rfl, rfl⟩
    · exact ⟨rfl, rfl⟩
  | Add s b =>
    have hs : s < n.states.length := by simpa [Call.valid] using hc
    have h1 : ¬ r = s := fun e => hne b (by rw [e])
    simp only [h1, false_and, if_false]
    split
    · next h1 => rw [h1, hlen]; exact ⟨rfl, rfl⟩
    · exact ⟨rfl, rfl⟩
  | AddEpsilonTransition s =>
    simp only
    by_cases h1 : r = n.states.length
    · simp only [h1, if_true, hlen]
      split <;> exact ⟨rfl, rfl⟩
    · simp only [h1, if_false]
      split <;> exact ⟨rfl, rfl⟩
  | AddAcceptingEpsilonTransition s v =>
    simp only
    by_cases h1 : r = n.states.length
    · simp only [h1, if_true, hlen]
      split <;> exact ⟨rfl, rfl⟩
    · simp only [h1, if_false]
      split <;> exact ⟨rfl, rfl⟩
  | AddPredicateTransition s t fn =>
    simp only
    split <;> exact ⟨rfl, rfl⟩
  | ConnectEpsilon s t =>
    simp only
    split <;> exact ⟨rfl, rfl⟩

theorem mem_outgoingSymbols_run {n : Nfa S V} (h : Built n) (cs : List (Call S V))
    (hv : n.validCalls cs = true) (r : Nat) (a : S) :
    a ∈ (deref (n.run cs).states r).OutgoingSymbols ↔
      a ∈ (deref n.states r).OutgoingSymbols ∨ Call.Add r a ∈ cs := by
  induction cs generalizing n with
  | nil => simp [Nfa.run]
  | cons c cs ih =>
    simp only [Nfa.validCalls, Bool.and_eq_true] at hv
    rw [Nfa.run, ih (built_call h c hv.1) hv.2, List.mem_cons]
    by_cases hc : ∃ b, c = Call.Add r b
    · obtain ⟨b, rfl⟩ := hc
      have hs : r < n.states.length := by simpa [Call.valid] using hv.1
      rw [deref_call_add n r b hs,
        mem_outgoingSymbols_put _ ((built_sound n h).2.2 r hs).2.2.2.2.2]
      constructor
      · rintro ((h1 | h1) | h1)
        · exact Or.inl h1
        · exact Or.inr (Or.inl (by rw [h1]))
        · exact Or.inr (Or.inr h1)
      · rintro (h1 | h1 | h1)
        · exact Or.inl (Or.inl h1)
        · injection h1 with _ h2
          exact Or.inl (Or.inr h2)
        · exact Or.inr h1
    · have hne : ∀ b, c ≠ Call.Add r b := fun b e => hc ⟨b, e⟩
      obtain ⟨he, ht⟩ := store_call n c r hv.1 hne
      rw [outgoingSymbols_congr _ _ he ht]
      constructor
      · rintro (h1 | h1)
        · exact Or.inl h1
        · exact Or.inr (Or.inr h1)
      · rintro (h1 | h1 | h1)
        · exact Or.inl h1
        · exact absurd h1.symm (hne a)
        · exact Or.inr h1

theorem nodup_outgoingSymbols_run {n : Nfa S V} (cs : List (Call S V))
    (hv : n.validCalls cs = true)
    (hn : ∀ r, (deref n.states r).OutgoingSymbols.Nodup) (r : Nat) :
    (deref (n.run cs).states r).OutgoingSymbols.Nodup := by
  induction cs generalizing n with
  | nil => exact hn r
  | cons c cs ih =>
    simp only [Nfa.validCalls, Bool.and_eq_true] at hv
    rw [Nfa.run]
    refine ih hv.2 (fun q => ?_)
    by_cases hc : ∃ b, c = Call.Add q b
    · obtain ⟨b, rfl⟩ := hc
      have hs : q < n.states.length := by simpa [Call.valid] using hv.1
      rw [deref_call_add n q b hs]
      exact nodup_outgoingSymbols_put _ (hn q) _ _
    · obtain ⟨he, ht⟩ := store_call n c q hv.1 (fun b e => hc ⟨b, e⟩)
      rw [outgoingSymbols_congr _ _ he ht]
      exact hn q

end

theorem deref_new {S V : Type} [Inhabited V] (r : Nat) :
    deref (New : Nfa S V).states r = State.fresh 0 := by
  cases r with
  | zero => rfl
  | succ k => exact deref_ge _ _ (by simp [New, Nfa.newState])

end nfa

/-! ## The claims about the queries on a state -/

/-- C12: the slot/map storage is invisible to queries. After any sequence of API calls on a
new machine, `OutgoingFor(s, a)` is the list of the states returned by the calls
`Add(s, a)`, in call order (empty when there is none). On every machine, a fresh state with
one transition, on `a` to `t`, keeps it in the single-edge slot and answers `[t]`; after a
second `Add` it keeps both in the map, the slot is empty, and it answers `[t]` when the
second symbol is not `a` (both targets in call order when it is). -/
theorem C12_outgoingFor_hides_storage {S V : Type} [Inhabited V] [DecidableEq S]
    (cs : List (nfa.Call S V)) (hv : (nfa.New : nfa.Nfa S V).validCalls cs = true) :
    (∀ (s : Nat) (a : S),
      (nfa.deref ((nfa.New : nfa.Nfa S V).run cs).states s).OutgoingFor a =
        nfa.addedOn ((nfa.New : nfa.Nfa S V).log cs) s a) ∧
    ∀ (a b : S) (n : nfa.Nfa S V),
      ((nfa.deref (n.NewState.1.Add n.NewState.2 a).1.states n.NewState.2).edge =
          some (a, (n.NewState.1.Add n.NewState.2 a).2) ∧
        (nfa.deref (n.NewState.1.Add n.NewState.2 a).1.states n.NewState.2).transitions =
          none ∧
        (nfa.deref (n.NewState.1.Add n.NewState.2 a).1.states n.NewState.2).OutgoingFor a =
          [(n.NewState.1.Add n.NewState.2 a).2]) ∧
      ((nfa.deref ((n.NewState.1.Add n.NewState.2 a).1.Add n.NewState.2 b).1.states
          n.NewState.2).edge = none ∧
        (nfa.deref ((n.NewState.1.Add n.NewState.2 a).1.Add n.NewState.2 b).1.states
          n.NewState.2).transitions.isSome = true ∧
        (nfa.deref ((n.NewState.1.Add n.NewState.2 a).1.Add n.NewState.2 b).1.states
          n.NewState.2).OutgoingFor a =
          (n.NewState.1.Add n.NewState.2 a).2 ::
            (if b = a then [((n.NewState.1.Add n.NewState.2 a).1.Add n.NewState.2 b).2]
              else [])) := by
  constructor
  · intro s a
    rw [nfa.outgoingFor_run nfa.Built.new cs hv s a, nfa.deref_new]
    rfl
  · intro a b n
    exact nfa.slot_then_map n a b

/-- C12 on the calls of the test: the first state answers the two targets of its
transitions on 1, in call order, and the target of its transition on 100. -/
theorem C12_outgoingFor_hides_storage_witness :
    (nfa.New : nfa.Nfa Nat Nat).validCalls examples.symbolCalls = true ∧
      (nfa.deref ((nfa.New : nfa.Nfa Nat Nat).run examples.symbolCalls).states 1).OutgoingFor 1
        = [3, 4] ∧
      (nfa.deref ((nfa.New : nfa.Nfa Nat Nat).run examples.symbolCalls).states 1).OutgoingFor
        100 = [6] :=
  ⟨by rfl, (C12_outgoingFor_hides_storage examples.symbolCalls (by rfl)).1 1 1,
    (C12_outgoingFor_hides_storage examples.symbolCalls (by rfl)).1 1 100⟩

/-- C13: `OutgoingSymbols` is deduplicated and complete. After any sequence of API calls on
a new machine, `OutgoingSymbols(s)` holds no symbol twice, holds `a` exactly when one of the
calls is `Add(s, a)`, and is empty when no call is an `Add` on `s`. -/
theorem C13_outgoingSymbols_dedup_complete {S V : Type} [Inhabited V] [DecidableEq S]
    (cs : List (nfa.Call S V)) (hv : (nfa.New : nfa.Nfa S V).validCalls cs = true) (s : Nat) :
    (nfa.deref ((nfa.New : nfa.Nfa S V).run cs).states s).OutgoingSymbols.Nodup ∧
    (∀ a : S, a ∈ (nfa.deref ((nfa.New : nfa.Nfa S V).run cs).states s).OutgoingSymbols ↔
      nfa.Call.Add s a ∈ cs) ∧
    ((∀ a : S, nfa.Call.Add s a ∉ cs) →
      (nfa.deref ((nfa.New : nfa.Nfa S V).run cs).states s).OutgoingSymbols = []) := by
  have hmem : ∀ a : S,
      a ∈ (nfa.deref ((nfa.New : nfa.Nfa S V).run cs).states s).OutgoingSymbols ↔
        nfa.Call.Add s a ∈ cs := by
    intro a
    rw [nfa.mem_outgoingSymbols_run nfa.Built.new cs hv s a, nfa.deref_new]
    constructor
    · rintro (h | h)
      · cases h
      · exact h
    · exact Or.inr
  refine ⟨?_, hmem, ?_⟩
  · refine nfa.nodup_outgoingSymbols_run cs hv (fun r => ?_) s
    rw [nfa.deref_new]
    exact List.nodup_nil
  · intro hno
    apply List.eq_nil_iff_forall_not_mem.2
    intro a ha
    exact hno a ((hmem a).1 ha)

/-- C13 on the calls of the test: the first state has the symbols 1, 10 and 100, each
once, and not the symbol 1000 of the other state. -/
theorem C13_outgoingSymbols_dedup_complete_witness :
    (nfa.New : nfa.Nfa Nat Nat).validCalls examples.symbolCalls = true ∧
      (nfa.deref ((nfa.New : nfa.Nfa Nat Nat).run examples.symbolCalls).states 1).OutgoingSymbols
        = [1, 10, 100] ∧
      (nfa.deref ((nfa.New : nfa.Nfa Nat Nat).run
        examples.symbolCalls).states 1).OutgoingSymbols.Nodup :=
  ⟨by rfl, by rfl, (C13_outgoingSymbols_dedup_complete examples.symbolCalls (by rfl) 1).1⟩

namespace nfa

section
variable {S V : Type} [Inhabited V] [DecidableEq S]

/-- A call returns the state it allocates, which is the next one of the arena; a call that
returns no state allocates none; the next id moves with the number of states. -/
theorem alloc_call (n : Nfa S V) (c : Call S V) :
    ((n.call c).2 = none ∨ (n.call c).2 = some n.states.length) ∧
      (n.call c).1.states.length = n.states.length + (returned [(c, (n.call c).2)]).length ∧
      (n.call c).1.nextStateID = n.nextStateID + (returned [(c, (n.call c).2)]).length := by
  cases c <;>
    simp [Nfa.call, Nfa.NewState, Nfa.Add, Nfa.newState, Nfa.AddEpsilonTransition,
      Nfa.ConnectEpsilon, Nfa.AddAcceptingEpsilonTransition, Nfa.newAcceptingState,
      Nfa.markAccepting, Nfa.AddPredicateTransition, length_update, returned]

/-- The accept counter moves with the calls of `AddAcceptingEpsilonTransition` only. -/
theorem nextAcceptIndex_call (n : Nfa S V) (c : Call S V) :
    (n.call c).1.nextAcceptIndex =
      n.nextAcceptIndex + (returnedAccepting [(c, (n.call c).2)]).length := by
  cases c <;>
    simp [Nfa.call, Nfa.NewState, Nfa.Add, Nfa.newState, Nfa.AddEpsilonTransition,
      Nfa.ConnectEpsilon, Nfa.AddAcceptingEpsilonTransition, Nfa.newAcceptingState,
      Nfa.markAccepting, Nfa.AddPredicateTransition, returnedAccepting]

/-- A call changes the id, the accept index and the value of no state but the one it
allocates. -/
theorem frozen_call (n : Nfa S V) (c : Call S V) (r : Nat)
    (h : r ≠ n.states.length ∨ (n.call c).2 = none) :
    (deref (n.call c).1.states r).id = (deref n.states r).id ∧
      (deref (n.call c).1.states r).acceptIdx = (deref n.states r).acceptIdx ∧
      (deref (n.call c).1.states r).value = (deref n.states r).value := by
  rw [deref_call]
  cases c with
  | NewState =>
    have h1 : r ≠ n.states.length := by
      rcases h with h | h
      · exact h
      · simp [Nfa.call] at h
    simp only [h1, if_false, and_self]
  | Add s a =>
    have h1 : r ≠ n.states.length := by
      rcases h with h | h
      · exact h
      · simp [Nfa.call] at h
    simp only [h1, if_false]
    split
    · obtain ⟨q1, _, _, q2, q3⟩ := put_fields (deref n.states r) a n.states.length
      exact ⟨q1, q2, q3⟩
    · exact ⟨rfl, rfl, rfl⟩
  | AddEpsilonTransition s =>
    have h1 : r ≠ n.states.length := by
      rcases h with h | h
      · exact h
      · simp [Nfa.call] at h
    simp only [h1, if_false]
    split <;> exact ⟨rfl, rfl, rfl⟩
  | AddAcceptingEpsilonTransition s v =>
    have h1 : r ≠ n.states.length := by
      rcases h with h | h
      · exact h
      · simp [Nfa.call] at h
    simp only [h1, if_false]
    split <;> exact ⟨rfl, rfl, rfl⟩
  | AddPredicateTransition s t fn =>
    simp only
    split <;> exact ⟨rfl, rfl, rfl⟩
  | ConnectEpsilon s t =>
    simp only
    split <;> exact ⟨rfl, rfl, rfl⟩

/-- The state that a call allocates: it has the next id; it has the next accept index and
the given value when the call is `AddAcceptingEpsilonTransition`, and is not accepting
otherwise. -/
theorem fresh_call (n : Nfa S V) (c : Call S V) (t : Nat) (h : (n.call c).2 = some t) :
    t = n.states.length ∧ (deref (n.call c).1.states t).id = n.nextStateID ∧
      match c with
      | .AddAcceptingEpsilonTransition _ v =>
        (deref (n.call c).1.states t).acceptIdx = (n.nextAcceptIndex : Int) ∧
          (deref (n.call c).1.states t).value = v
      | _ => (deref (n.call c).1.states t).acceptIdx = -1 := by
  have ht : t = n.states.length := by
    rcases (alloc_call n c).1 with h1 | h1
    · rw [h1] at h; cases h
    · rw [h1] at h; injection h with h; exact h.symm
  subst ht
  refine ⟨rfl, ?_⟩
  rw [deref_call]
  cases c with
  | NewState => simp only [if_true]; exact ⟨rfl, rfl⟩
  | Add s a =>
    simp only [if_true, true_and]
    split
    · obtain ⟨q1, _, _, q2, _⟩ :=
        put_fields (State.fresh n.nextStateID : State S V) a n.states.length
      exact ⟨q1, q2⟩
    · exact ⟨rfl, rfl⟩
  | AddEpsilonTransition s =>
    simp only [if_true]
    split <;> exact ⟨rfl, rfl⟩
  | AddAcceptingEpsilonTransition s v =>
    simp only [if_true]
    split <;> exact ⟨rfl, rfl, rfl⟩
  | AddPredicateTransition s t fn => simp [Nfa.call] at h
  | ConnectEpsilon s t => simp [Nfa.call] at h

theorem length_run (n : Nfa S V) (cs : List (Call S V)) :
    (n.run cs).states.length = n.states.length + (returned (n.log cs)).length ∧
      (n.run cs).nextStateID = n.nextStateID + (returned (n.log cs)).length ∧
      (n.run cs).nextAcceptIndex =
        n.nextAcceptIndex + (returnedAccepting (n.log cs)).length := by
  induction cs generalizing n with
  | nil => simp [Nfa.run, Nfa.log, returned, returnedAccepting]
  | cons c cs ih =>
    obtain ⟨h1, h2, h3⟩ := ih (n.call c).1
    obtain ⟨_, q1, q2⟩ := alloc_call n c
    have q3 := nextAcceptIndex_call n c
    have e1 : returned (n.log (c :: cs)) =
        returned [(c, (n.call c).2)] ++ returned ((n.call c).1.log cs) :=
      List.filterMap_append [(c, (n.call c).2)] _ _
    have e2 : returnedAccepting (n.log (c :: cs)) =
        returnedAccepting [(c, (n.call c).2)] ++ returnedAccepting ((n.call c).1.log cs) :=
      List.filterMap_append [(c, (n.call c).2)] _ _
    rw [Nfa.run, h1, h2, h3, q1, q2, q3, e1, e2, List.length_append, List.length_append]
    omega

/-- No sequence of calls changes the id, the accept index or the value of a state that
exists before it. -/
theorem frozen_run (n : Nfa S V) (cs : List (Call S V)) (r : Nat) (h : r < n.states.length) :
    (deref (n.run cs).states r).id = (deref n.states r).id ∧
      (deref (n.run cs).states r).acceptIdx = (deref n.states r).acceptIdx ∧
      (deref (n.run cs).states r).value = (deref n.states r).value := by
  induction cs generalizing n with
  | nil => exact ⟨rfl, rfl, rfl⟩
  | cons c cs ih =>
    have hl : r < (n.call c).1.states.length := by
      rw [(alloc_call n c).2.1]; omega
    obtain ⟨h1, h2, h3⟩ := ih (n.call c).1 hl
    obtain ⟨q1, q2, q3⟩ := frozen_call n c r (Or.inl (Nat.ne_of_lt h))
    rw [Nfa.run, h1, h2, h3]
    exact ⟨q1, q2, q3⟩

end
end nfa

namespace nfa

theorem returned_cons {S V : Type} (e : Call S V × Option Nat)
    (l : List (Call S V × Option Nat)) : returned (e :: l) = returned [e] ++ returned l :=
  List.filterMap_append [e] l _

theorem returnedAccepting_cons {S V : Type} (e : Call S V × Option Nat)
    (l : List (Call S V × Option Nat)) :
    returnedAccepting (e :: l) = returnedAccepting [e] ++ returnedAccepting l :=
  List.filterMap_append [e] l _

theorem attachedTo_cons {S V : Type} (e : Call S V × Option Nat)
    (l : List (Call S V × Option Nat)) (s : Nat) :
    attachedTo (e :: l) s = attachedTo [e] s ++ attachedTo l s :=
  List.filterMap_append [e] l _

section
variable {S V : Type} [Inhabited V] [DecidableEq S]

/-- The `k`-th state that a sequence of calls returns is the `k`-th state after those of the
machine it starts from, and carries the `k`-th id after the next id of that machine. -/
theorem returned_run (n : Nfa S V) (cs : List (Call S V)) (k t : Nat)
    (h : (returned (n.log cs))[k]? = some t) :
    t = n.states.length + k ∧ (deref (n.run cs).states t).id = n.nextStateID + k := by
  induction cs generalizing n k with
  | nil => simp [Nfa.log, returned] at h
  | cons c cs ih =>
    rw [Nfa.log, returned_cons] at h
    obtain ⟨_, q1, q2⟩ := alloc_call n c
    cases hr : (n.call c).2 with
    | none =>
      have e0 : returned [(c, (n.call c).2)] = [] := by simp [returned, hr]
      rw [e0] at h q1 q2
      obtain ⟨h1, h2⟩ := ih (n.call c).1 k h
      rw [Nfa.run, h2, h1, q1, q2]
      simp
    | some t0 =>
      have e0 : returned [(c, (n.call c).2)] = [t0] := by simp [returned, hr]
      rw [e0] at h q1 q2
      obtain ⟨f1, f2, _⟩ := fresh_call n c t0 hr
      cases k with
      | zero =>
        simp only [List.singleton_append, List.getElem?_cons_zero, Option.some.injEq] at h
        subst h
        have hl : t0 < (n.call c).1.states.length := by rw [q1, f1]; simp
        rw [Nfa.run, (frozen_run (n.call c).1 cs t0 hl).1, f2]
        exact ⟨f1, rfl⟩
      | succ k =>
        simp only [List.singleton_append, List.getElem?_cons_succ] at h
        obtain ⟨h1, h2⟩ := ih (n.call c).1 k h
        rw [Nfa.run, h2, h1, q1, q2]
        simp only [List.length_singleton]
        omega

/-- The `k`-th state returned by `AddAcceptingEpsilonTransition` in a sequence of calls is
none of the machine it starts from, and carries the `k`-th accept index after the next one
of that machine. -/
theorem accepting_run (n : Nfa S V) (cs : List (Call S V)) (k t : Nat)
    (h : (returnedAccepting (n.log cs))[k]? = some t) :
    n.states.length ≤ t ∧
      (deref (n.run cs).states t).acceptIdx = ((n.nextAcceptIndex + k : Nat) : Int) := by
  induction cs generalizing n k with
  | nil => simp [Nfa.log, returnedAccepting] at h
  | cons c cs ih =>
    rw [Nfa.log, returnedAccepting_cons] at h
    obtain ⟨_, q1, _⟩ := alloc_call n c
    have q3 := nextAcceptIndex_call n c
    by_cases hc : ∃ s v t0, c = .AddAcceptingEpsilonTransition s v ∧ (n.call c).2 = some t0
    · obtain ⟨s, v, t0, rfl, hr⟩ := hc
      have e0 : returnedAccepting
          [((Call.AddAcceptingEpsilonTransition s v : Call S V),
            (n.call (Call.AddAcceptingEpsilonTransition s v)).2)] = [t0] := by
        simp [returnedAccepting, hr]
      have e1 : returned
          [((Call.AddAcceptingEpsilonTransition s v : Call S V),
            (n.call (Call.AddAcceptingEpsilonTransition s v)).2)] = [t0] := by
        simp [returned, hr]
      rw [e0] at h q3
      rw [e1] at q1
      obtain ⟨f1, _, f3, _⟩ := fresh_call n _ t0 hr
      cases k with
      | zero =>
        simp only [List.singleton_append, List.getElem?_cons_zero, Option.some.injEq] at h
        subst h
        have hl : t0 < (n.call (Call.AddAcceptingEpsilonTransition s v)).1.states.length := by
          rw [q1, f1]; simp
        rw [Nfa.run, (frozen_run _ cs t0 hl).2.1, f3]
        exact ⟨Nat.le_of_eq f1.symm, rfl⟩
      | succ k =>
        simp only [List.singleton_append, List.getElem?_cons_succ] at h
        obtain ⟨h1, h2⟩ := ih _ k h
        rw [Nfa.run, h2, q3]
        rw [q1] at h1
        refine ⟨by simp at h1; omega, ?_⟩
        simp only [List.length_singleton]
        congr 1
        omega
    · have e0 : returnedAccepting [(c, (n.call c).2)] = [] := by
        cases c with
        | AddAcceptingEpsilonTransition s v =>
          exact absurd ⟨s, v, _, rfl, rfl⟩ hc
        | _ => rfl
      rw [e0] at h q3
      obtain ⟨h1, h2⟩ := ih (n.call c).1 k h
      rw [Nfa.run, h2, q3]
      rw [q1] at h1
      exact ⟨by omega, by simp⟩

/-- A state that no `AddAcceptingEpsilonTransition` of a sequence of calls returns has the
accept index it has in the machine the sequence starts from. -/
theorem acceptIdx_run (n : Nfa S V) (cs : List (Call S V)) (r : Nat)
    (h : r ∉ returnedAccepting (n.log cs)) :
    (deref (n.run cs).states r).acceptIdx = (deref n.states r).acceptIdx := by
  induction cs generalizing n with
  | nil => rfl
  | cons c cs ih =>
    rw [Nfa.log, returnedAccepting_cons, List.mem_append, not_or] at h
    rw [Nfa.run, ih (n.call c).1 h.2]
    by_cases hf : r ≠ n.states.length ∨ (n.call c).2 = none
    · exact (frozen_call n c r hf).2.1
    · have hr : r = n.states.length := by
        by_contra h1; exact hf (Or.inl h1)
      have hs : (n.call c).2 = some r := by
        rcases (alloc_call n c).1 with h1 | h1
        · exact absurd (Or.inr h1) hf
        · rw [h1, hr]
      have hd : (deref n.states r).acceptIdx = -1 := by
        rw [hr, deref_ge _ _ (Nat.le_refl _)]; rfl
      rw [hd]
      have f := (fresh_call n c r hs).2.2
      cases c with
      | AddAcceptingEpsilonTransition s v =>
        exact absurd (by simp [returnedAccepting, hs]) h.1
      | NewState => exact f
      | Add s a => exact f
      | AddEpsilonTransition s => exact f
      | AddPredicateTransition s t fn => exact f
      | ConnectEpsilon s t => exact f

/-- The state that a call of a sequence returned is none of the machine the sequence starts
from; after the sequence it has the accept index and the value it was allocated with. -/
theorem entry_run (n : Nfa S V) (cs : List (Call S V)) (c : Call S V) (t : Nat) :
    (c, some t) ∈ n.log cs → n.states.length ≤ t ∧
      match c with
      | .AddAcceptingEpsilonTransition _ v =>
        0 ≤ (deref (n.run cs).states t).acceptIdx ∧ (deref (n.run cs).states t).value = v
      | _ => (deref (n.run cs).states t).acceptIdx = -1 := by
  induction cs generalizing n with
  | nil => intro h; simp [Nfa.log] at h
  | cons c0 cs ih =>
    intro h
    rw [Nfa.log, List.mem_cons] at h
    obtain ⟨_, q1, _⟩ := alloc_call n c0
    rcases h with h | h
    · injection h with h1 h2
      subst h1
      obtain ⟨f1, _, f3⟩ := fresh_call n c t h2.symm
      have e1 : returned [(c, (n.call c).2)] = [t] := by simp [returned, ← h2]
      have hl : t < (n.call c).1.states.length := by rw [q1, e1, f1]; simp
      obtain ⟨_, g2, g3⟩ := frozen_run (n.call c).1 cs t hl
      refine ⟨Nat.le_of_eq f1.symm, ?_⟩
      rw [Nfa.run]
      cases c with
      | AddAcceptingEpsilonTransition s v =>
        simp only at f3 ⊢
        rw [g2, g3, f3.1, f3.2]
        exact ⟨Int.ofNat_nonneg _, rfl⟩
      | NewState => simp only at f3 ⊢; rw [g2, f3]
      | Add s a => simp only at f3 ⊢; rw [g2, f3]
      | AddEpsilonTransition s => simp only at f3 ⊢; rw [g2, f3]
      | AddPredicateTransition s t fn => simp only at f3 ⊢; rw [g2, f3]
      | ConnectEpsilon s t => simp only at f3 ⊢; rw [g2, f3]
    · obtain ⟨h1, h2⟩ := ih (n.call c0).1 h
      rw [q1] at h1
      exact ⟨by omega, h2⟩

end
end nfa

namespace nfa

section
variable {S V : Type} [Inhabited V] [DecidableEq S]

/-- The epsilon list of a state after a call: the old one, then the state that the call
attaches to it. -/
theorem epsilon_call (n : Nfa S V) (c : Call S V) (hc : c.valid n.states.length = true)
    (r : Nat) :
    (deref (n.call c).1.states r).eTransitions =
      (deref n.states r).eTransitions ++ attachedTo [(c, (n.call c).2)] r := by
  have hlen : deref n.states n.states.length = State.fresh 0 := deref_ge _ _ (Nat.le_refl _)
  rw [deref_call]
  cases c with
  | NewState =>
    simp only [attachedTo, List.filterMap_cons, List.filterMap_nil, List.append_nil, Nfa.call]
    split
    · next h1 => rw [h1, hlen]; rfl
    · rfl
  | Add s b =>
    have hs : s < n.states.length := by simpa [Call.valid] using hc
    simp only [attachedTo, List.filterMap_cons, List.filterMap_nil, List.append_nil, Nfa.call]
    by_cases h1 : r = n.states.length
    · have h2 : ¬ (n.states.length = s ∧ s < n.states.length + 1) := by omega
      simp only [h1, if_true, hlen, h2, if_false]
      rfl
    · simp only [h1, if_false]
      split
      · exact (put_fields _ _ _).2.1
      · rfl
  | AddEpsilonTransition s =>
    have hs : s < n.states.length := by simpa [Call.valid] using hc
    simp only [attachedTo, List.filterMap_cons, List.filterMap_nil, Nfa.call,
      Nfa.AddEpsilonTransition, Nfa.NewState]
    by_cases h1 : r = n.states.length
    · have h2 : ¬ (n.states.length = s ∧ s < n.states.length + 1) := by omega
      have h3 : ¬ s = n.states.length := by omega
      simp only [h1, if_true, hlen, h2, if_false, h3]
      rfl
    · simp only [h1, if_false]
      by_cases h4 : r = s
      · subst h4
        simp [Nat.lt_succ_of_lt hs]
      · have h5 : ¬ s = r := fun e => h4 e.symm
        simp [h4, h5]
  | AddAcceptingEpsilonTransition s v =>
    have hs : s < n.states.length := by simpa [Call.valid] using hc
    simp only [attachedTo, List.filterMap_cons, List.filterMap_nil, Nfa.call,
      Nfa.AddAcceptingEpsilonTransition, Nfa.newAcceptingState]
    by_cases h1 : r = n.states.length
    · have h2 : ¬ (n.states.length = s ∧ s < n.states.length + 1) := by omega
      have h3 : ¬ s = n.states.length := by omega
      simp only [h1, if_true, hlen, h2, if_false, h3]
      rfl
    · simp only [h1, if_false]
      by_cases h4 : r = s
      · subst h4
        simp [Nat.lt_succ_of_lt hs]
      · have h5 : ¬ s = r := fun e => h4 e.symm
        simp [h4, h5]
  | AddPredicateTransition s t fn =>
    simp only [attachedTo, List.filterMap_cons, List.filterMap_nil, List.append_nil, Nfa.call]
    split <;> rfl
  | ConnectEpsilon s t =>
    simp only [Call.valid, Bool.and_eq_true, decide_eq_true_eq] at hc
    simp only [attachedTo, List.filterMap_cons, List.filterMap_nil, Nfa.call]
    by_cases h4 : r = s
    · subst h4
      simp [hc.1]
    · have h5 : ¬ s = r := fun e => h4 e.symm
      simp [h4, h5]

theorem epsilon_run (n : Nfa S V) (cs : List (Call S V)) (hv : n.validCalls cs = true)
    (r : Nat) :
    (deref (n.run cs).states r).Epsilon =
      (deref n.states r).Epsilon ++ attachedTo (n.log cs) r := by
  induction cs generalizing n with
  | nil => simp [Nfa.run, Nfa.log, attachedTo]
  | cons c cs ih =>
    simp only [Nfa.validCalls, Bool.and_eq_true] at hv
    rw [Nfa.run, ih _ hv.2, Nfa.log, attachedTo_cons (c, (n.call c).2) ((n.call c).1.log cs)]
    unfold State.Epsilon
    rw [epsilon_call n c hv.1, List.append_assoc]

end
end nfa

/-! ## The claims about ids, accept indices and epsilon lists -/

/-- C14: state ids are assigned in allocation order starting at 0. After any sequence of API
calls on a new machine, the start state has id 0 and the `k`-th state returned by a call
(counting from 0; the calls that return a state are `NewState`, `Add`,
`AddEpsilonTransition` and `AddAcceptingEpsilonTransition`) has id `k + 1`; two states of
the machine with the same id are the same state; `AddPredicateTransition` and
`ConnectEpsilon` leave the next id and the number of states as they are. -/
theorem C14_ids_in_allocation_order {S V : Type} [Inhabited V] [DecidableEq S]
    (cs : List (nfa.Call S V)) :
    (nfa.deref ((nfa.New : nfa.Nfa S V).run cs).states (nfa.New : nfa.Nfa S V).Start).ID = 0 ∧
    (∀ k t : Nat, (nfa.returned ((nfa.New : nfa.Nfa S V).log cs))[k]? = some t →
      (nfa.deref ((nfa.New : nfa.Nfa S V).run cs).states t).ID = k + 1) ∧
    (∀ i j : Nat, i < ((nfa.New : nfa.Nfa S V).run cs).states.length →
      j < ((nfa.New : nfa.Nfa S V).run cs).states.length →
      (nfa.deref ((nfa.New : nfa.Nfa S V).run cs).states i).ID =
        (nfa.deref ((nfa.New : nfa.Nfa S V).run cs).states j).ID → i = j) ∧
    (∀ (n : nfa.Nfa S V) (c : nfa.Call S V),
      (n.call c).2.isSome =
        match c with
        | .AddPredicateTransition _ _ _ => false
        | .ConnectEpsilon _ _ => false
        | _ => true) ∧
    (∀ (n : nfa.Nfa S V) (s t : Nat) (fn : S → Bool),
      (n.AddPredicateTransition s t fn).nextStateID = n.nextStateID ∧
        (n.AddPredicateTransition s t fn).states.length = n.states.length) ∧
    ∀ (n : nfa.Nfa S V) (s t : Nat),
      (n.ConnectEpsilon s t).nextStateID = n.nextStateID ∧
        (n.ConnectEpsilon s t).states.length = n.states.length := by
  have l0 : (nfa.New : nfa.Nfa S V).states.length = 1 := rfl
  have l1 : (nfa.New : nfa.Nfa S V).nextStateID = 1 := rfl
  have hid : ∀ i : Nat, i < ((nfa.New : nfa.Nfa S V).run cs).states.length →
      (nfa.deref ((nfa.New : nfa.Nfa S V).run cs).states i).id = i := by
    intro i hi
    cases i with
    | zero => exact (nfa.frozen_run nfa.New cs 0 (by rw [l0]; exact Nat.one_pos)).1
    | succ k =>
      rw [(nfa.length_run nfa.New cs).1, l0] at hi
      have hk : k < (nfa.returned ((nfa.New : nfa.Nfa S V).log cs)).length := by omega
      obtain ⟨h1, h2⟩ := nfa.returned_run nfa.New cs k _ (List.getElem?_eq_getElem hk)
      rw [l0] at h1
      rw [l1] at h2
      have e1 : 1 + k = k + 1 := Nat.add_comm 1 k
      rw [h1, e1] at h2
      exact h2
  refine ⟨?_, ?_, ?_, ?_, ?_, ?_⟩
  · exact (nfa.frozen_run nfa.New cs 0 (by rw [l0]; exact Nat.one_pos)).1
  · intro k t h
    obtain ⟨_, h2⟩ := nfa.returned_run nfa.New cs k t h
    rw [nfa.State.ID, h2, l1]
    exact Nat.add_comm 1 k
  · intro i j hi hj h
    unfold nfa.State.ID at h
    rw [hid i hi, hid j hj] at h
    exact h
  · intro n c
    cases c <;> rfl
  · intro n s t fn
    exact ⟨rfl, nfa.length_update _ _ _⟩
  · intro n s t
    exact ⟨rfl, nfa.length_update _ _ _⟩

/-- C15: accept indices are never reused and strictly increase. After any sequence of API
calls on a new machine, the `k`-th state returned by `AddAcceptingEpsilonTransition`
(counting from 0) has accept index `k`; an accepting state shares its accept index with no
other state; of two states returned by `AddAcceptingEpsilonTransition` the later one has the
larger index; a call moves `nextAcceptIndex` by one when it is
`AddAcceptingEpsilonTransition` and not at all otherwise. -/
theorem C15_accept_indices_increase {S V : Type} [Inhabited V] [DecidableEq S]
    (cs : List (nfa.Call S V)) :
    (∀ k t : Nat, (nfa.returnedAccepting ((nfa.New : nfa.Nfa S V).log cs))[k]? = some t →
      (nfa.deref ((nfa.New : nfa.Nfa S V).run cs).states t).AcceptIdx = (k : Int)) ∧
    (∀ i j : Nat, (nfa.deref ((nfa.New : nfa.Nfa S V).run cs).states i).IsAccepting = true →
      (nfa.deref ((nfa.New : nfa.Nfa S V).run cs).states i).AcceptIdx =
        (nfa.deref ((nfa.New : nfa.Nfa S V).run cs).states j).AcceptIdx → i = j) ∧
    (∀ k1 k2 t1 t2 : Nat, k1 < k2 →
      (nfa.returnedAccepting ((nfa.New : nfa.Nfa S V).log cs))[k1]? = some t1 →
      (nfa.returnedAccepting ((nfa.New : nfa.Nfa S V).log cs))[k2]? = some t2 →
      (nfa.deref ((nfa.New : nfa.Nfa S V).run cs).states t1).AcceptIdx <
        (nfa.deref ((nfa.New : nfa.Nfa S V).run cs).states t2).AcceptIdx) ∧
    ∀ (n : nfa.Nfa S V) (c : nfa.Call S V),
      (n.call c).1.nextAcceptIndex =
        match c with
        | .AddAcceptingEpsilonTransition _ _ => n.nextAcceptIndex + 1
        | _ => n.nextAcceptIndex := by
  have hk : ∀ k t : Nat,
      (nfa.returnedAccepting ((nfa.New : nfa.Nfa S V).log cs))[k]? = some t →
      (nfa.deref ((nfa.New : nfa.Nfa S V).run cs).states t).acceptIdx = (k : Int) := by
    intro k t h
    rw [(nfa.accepting_run nfa.New cs k t h).2]
    have l2 : (nfa.New : nfa.Nfa S V).nextAcceptIndex = 0 := rfl
    rw [l2, Nat.zero_add]
  have hmem : ∀ r : Nat, 0 ≤ (nfa.deref ((nfa.New : nfa.Nfa S V).run cs).states r).acceptIdx →
      ∃ k : Nat, (nfa.returnedAccepting ((nfa.New : nfa.Nfa S V).log cs))[k]? = some r := by
    intro r hr
    by_contra hno
    have : r ∉ nfa.returnedAccepting ((nfa.New : nfa.Nfa S V).log cs) :=
      fun hm => hno (List.mem_iff_getElem?.1 hm)
    rw [nfa.acceptIdx_run nfa.New cs r this, nfa.deref_new] at hr
    have hr1 : (0 : Int) ≤ -1 := hr
    omega
  refine ⟨hk, ?_, ?_, ?_⟩
  · intro i j hi h
    unfold nfa.State.IsAccepting nfa.State.AcceptIdx at hi
    unfold nfa.State.AcceptIdx at h
    have hi0 : 0 ≤ (nfa.deref ((nfa.New : nfa.Nfa S V).run cs).states i).acceptIdx := by
      simp only [decide_eq_true_eq] at hi; omega
    obtain ⟨k1, h1⟩ := hmem i hi0
    obtain ⟨k2, h2⟩ := hmem j (by rw [← h]; exact hi0)
    rw [hk k1 i h1, hk k2 j h2] at h
    have : k1 = k2 := by exact_mod_cast h
    subst this
    rw [h1] at h2
    injection h2
  · intro k1 k2 t1 t2 hlt h1 h2
    unfold nfa.State.AcceptIdx
    rw [hk k1 t1 h1, hk k2 t2 h2]
    exact_mod_cast hlt
  · intro n c
    cases c <;> rfl

/-- C16: acceptance queries. After any sequence of API calls on a new machine, the start
state and every state returned by `NewState`, `Add` or `AddEpsilonTransition` is not
accepting, with accept index `-1` and the zero value as accept value; the state returned by
`AddAcceptingEpsilonTransition(from, v)` is accepting with accept value `v`. -/
theorem C16_acceptance_queries {S V : Type} [Inhabited V] [DecidableEq S]
    (cs : List (nfa.Call S V)) :
    ((nfa.deref ((nfa.New : nfa.Nfa S V).run cs).states
        (nfa.New : nfa.Nfa S V).Start).IsAccepting = false ∧
      (nfa.deref ((nfa.New : nfa.Nfa S V).run cs).states
        (nfa.New : nfa.Nfa S V).Start).AcceptIdx = -1 ∧
      (nfa.deref ((nfa.New : nfa.Nfa S V).run cs).states
        (nfa.New : nfa.Nfa S V).Start).AcceptValue = default) ∧
    ∀ (c : nfa.Call S V) (t : Nat), (c, some t) ∈ (nfa.New : nfa.Nfa S V).log cs →
      match c with
      | .AddAcceptingEpsilonTransition _ v =>
        (nfa.deref ((nfa.New : nfa.Nfa S V).run cs).states t).IsAccepting = true ∧
          (nfa.deref ((nfa.New : nfa.Nfa S V).run cs).states t).AcceptValue = v
      | _ =>
        (nfa.deref ((nfa.New : nfa.Nfa S V).run cs).states t).IsAccepting = false ∧
          (nfa.deref ((nfa.New : nfa.Nfa S V).run cs).states t).AcceptIdx = -1 ∧
          (nfa.deref ((nfa.New : nfa.Nfa S V).run cs).states t).AcceptValue = default := by
  have hnot : ∀ st : nfa.State S V, st.acceptIdx = -1 →
      st.IsAccepting = false ∧ st.AcceptIdx = -1 ∧ st.AcceptValue = default := by
    intro st h
    unfold nfa.State.IsAccepting nfa.State.AcceptIdx nfa.State.AcceptValue
    rw [h]
    exact ⟨by decide, rfl, by simp⟩
  constructor
  · apply hnot
    have l0 : (nfa.New : nfa.Nfa S V).states.length = 1 := rfl
    show (nfa.deref ((nfa.New : nfa.Nfa S V).run cs).states 0).acceptIdx = -1
    rw [(nfa.frozen_run nfa.New cs 0 (by rw [l0]; exact Nat.one_pos)).2.1]
    rfl
  · intro c t h
    have h2 := (nfa.entry_run nfa.New cs c t h).2
    cases c with
    | AddAcceptingEpsilonTransition s v =>
      simp only at h2 ⊢
      unfold nfa.State.IsAccepting nfa.State.AcceptIdx nfa.State.AcceptValue
      have h3 : ¬ (nfa.deref ((nfa.New : nfa.Nfa S V).run cs).states t).acceptIdx ≤ -1 := by
        omega
      refine ⟨by simp only [decide_eq_true_eq]; omega, ?_⟩
      rw [if_neg h3]
      exact h2.2
    | NewState => exact hnot _ h2
    | Add s a => exact hnot _ h2
    | AddEpsilonTransition s => exact hnot _ h2
    | AddPredicateTransition s t fn => exact hnot _ h2
    | ConnectEpsilon s t => exact hnot _ h2

/-- C17: `Epsilon` returns the direct epsilon targets in insertion order. After any sequence
of API calls on a new machine, `Epsilon(s)` is the list, in call order, of the states
attached to `s` by `AddEpsilonTransition(s)`, `AddAcceptingEpsilonTransition(s, v)` and
`ConnectEpsilon(s, t)`. -/
theorem C17_epsilon_direct_in_order {S V : Type} [Inhabited V] [DecidableEq S]
    (cs : List (nfa.Call S V)) (hv : (nfa.New : nfa.Nfa S V).validCalls cs = true) (s : Nat) :
    (nfa.deref ((nfa.New : nfa.Nfa S V).run cs).states s).Epsilon =
      nfa.attachedTo ((nfa.New : nfa.Nfa S V).log cs) s := by
  rw [nfa.epsilon_run nfa.New cs hv s, nfa.deref_new]
  rfl

/-- C17 on the calls of the test: with the epsilon transitions 1 to 2, 1 to 3 and 2 to 4,
the epsilon list of state 1 is `[2, 3]`; state 4, one hop further, is not in it. -/
theorem C17_epsilon_direct_in_order_witness :
    (nfa.New : nfa.Nfa Nat Nat).validCalls examples.epsilonCalls = true ∧
      (nfa.deref ((nfa.New : nfa.Nfa Nat Nat).run examples.epsilonCalls).states 1).Epsilon =
        [2, 3] :=
  ⟨by rfl, C17_epsilon_direct_in_order examples.epsilonCalls (by rfl) 1⟩

/-! ## The converter leaves the machine as it is -/

namespace dfa

section
variable {S V : Type} [Inhabited V] [DecidableEq S]

theorem world_connect (src : Option Nat) (expanded : List (S × List Nat)) (w : World S V) :
    World.connect src expanded w =
      match dfaBuilder.connect w.machine.states src expanded w.builder with
      | .error e => .error e
      | .ok b => .ok { machine := w.machine, builder := b } := by
  induction expanded generalizing w with
  | nil => rfl
  | cons e rest ih =>
    obtain ⟨sym, nextSubset⟩ := e
    cases src with
    | none => rfl
    | some f =>
      simp only [World.connect, dfaBuilder.connect]
      rw [ih]
      rfl

theorem world_loop (closureFuel fuel : Nat) (w : World S V) :
    World.loop closureFuel fuel w =
      match dfaBuilder.loop w.machine.states closureFuel fuel w.builder with
      | .error e => .error e
      | .ok b => .ok { machine := w.machine, builder := b } := by
  induction fuel generalizing w with
  | zero => rfl
  | succ fuel ih =>
    simp only [World.loop, dfaBuilder.loop]
    by_cases hq : w.builder.workingQueue.Len > 0
    · simp only [hq, if_true]
      cases hx : expandStatesPerSymbol closureFuel w.machine.states
          (w.builder.workingQueue.Dequeue.1.getD []) with
      | error e => rfl
      | ok expanded =>
        simp only [world_connect]
        cases hcn : dfaBuilder.connect w.machine.states
            (gomap.get w.builder.subsetKeyToStateMap
              (calculateStatesKey w.machine.states (w.builder.workingQueue.Dequeue.1.getD [])))
            expanded { w.builder with workingQueue := w.builder.workingQueue.Dequeue.2 } with
        | error e => rfl
        | ok b2 =>
          simp only []
          rw [ih]
    · simp only [hq, if_false]

/-- The converter on the world returns when `FromNfa` returns, with the same DFA and with
the machine it was given. -/
theorem fromNfaIn_eq (fuel : Nat) (n : nfa.Nfa S V) :
    FromNfaIn fuel n =
      match FromNfa fuel n with
      | .error e => .error e
      | .ok d => .ok (d, n) := by
  unfold FromNfaIn World.buildFromNfa FromNfa dfaBuilder.buildFromNfa dfaBuilder.run
  cases hs : findPossibleStates fuel n.states [n.Start] with
  | error e => rfl
  | ok startStates =>
    simp only [world_loop, World.buildStartState]
    cases hl : dfaBuilder.loop n.states fuel fuel
        { (dfaBuilder.initial.buildStartState n.states startStates).1 with
          dfa := { (dfaBuilder.initial.buildStartState n.states startStates).1.dfa with
            start := some (dfaBuilder.initial.buildStartState n.states startStates).2 } } with
    | error e => rfl
    | ok b => rfl

end

end dfa

/-- C11: the converter never modifies the input NFA. When `FromNfa(N)` returns, with the
machine threaded through the call, the machine it leaves has the `nextStateID`, the
`nextAcceptIndex`, the start state and the number of states of `N`, and every state has the
id, single-edge slot, transition map, predicate transitions, epsilon list, accept index and
value it had before the call; the DFA is the one that `FromNfa` returns. -/
theorem C11_fromNfa_leaves_nfa {S V : Type} [Inhabited V] [DecidableEq S] (fuel : Nat)
    (n n1 : nfa.Nfa S V) (d : dfa.Dfa S V) (h : dfa.FromNfaIn fuel n = .ok (d, n1)) :
    dfa.FromNfa fuel n = .ok d ∧ n1.nextStateID = n.nextStateID ∧
      n1.nextAcceptIndex = n.nextAcceptIndex ∧ n1.startState = n.startState ∧
      n1.states.length = n.states.length ∧
      ∀ r : Nat,
        (nfa.deref n1.states r).id = (nfa.deref n.states r).id ∧
        (nfa.deref n1.states r).edge = (nfa.deref n.states r).edge ∧
        (nfa.deref n1.states r).transitions = (nfa.deref n.states r).transitions ∧
        (nfa.deref n1.states r).predicateTransitions =
          (nfa.deref n.states r).predicateTransitions ∧
        (nfa.deref n1.states r).eTransitions = (nfa.deref n.states r).eTransitions ∧
        (nfa.deref n1.states r).acceptIdx = (nfa.deref n.states r).acceptIdx ∧
        (nfa.deref n1.states r).value = (nfa.deref n.states r).value := by
  rw [dfa.fromNfaIn_eq] at h
  cases hf : dfa.FromNfa fuel n with
  | error e => rw [hf] at h; cases h
  | ok d0 =>
    rw [hf] at h
    injection h with h
    injection h with h1 h2
    subst h1 h2
    exact ⟨rfl, rfl, rfl, rfl, rfl, fun _ => ⟨rfl, rfl, rfl, rfl, rfl, rfl, rfl⟩⟩

/-- C11 on the machine of the package documentation: the converter returns the DFA and
leaves the machine as it was given. -/
theorem C11_fromNfa_leaves_nfa_witness :
    dfa.FromNfaIn 20 examples.complexNfa = .ok (examples.complexDfa, examples.complexNfa) ∧
      dfa.FromNfa 20 examples.complexNfa = .ok examples.complexDfa :=
  ⟨by rfl,
    (C11_fromNfa_leaves_nfa 20 examples.complexNfa examples.complexNfa examples.complexDfa
      (by rfl)).1⟩

/-! ## The claims about the constructors of fragments -/

/-- C18: `Literal` panics if and only if it is given no symbol; given one symbol or more it
returns the literal fragment of these symbols. -/
theorem C18_literal_panics_iff_empty {S : Type} (symbols : List S) :
    ((∃ msg, scanner.Literal symbols = .error msg) ↔ symbols.length = 0) ∧
      (scanner.Literal symbols = .ok (.fragLiteral symbols) ↔ 1 ≤ symbols.length) ∧
      ((∃ f, scanner.Literal symbols = .ok f) ↔ 1 ≤ symbols.length) := by
  unfold scanner.Literal
  by_cases h : symbols.length = 0
  · simp [h]
  · have h1 : 1 ≤ symbols.length := Nat.one_le_iff_ne_zero.2 h
    simp [h, h1]

/-- C19: `AnyOf` panics if and only if it is given fewer than two fragments; given two or
more it returns the alternative of these fragments. -/
theorem C19_anyOf_panics_iff_fewer_than_two {S : Type} (fragments : List (scanner.Fragment S)) :
    ((∃ msg, scanner.AnyOf fragments = .error msg) ↔ fragments.length < 2) ∧
      (scanner.AnyOf fragments = .ok (.fragAnyOf fragments) ↔ 2 ≤ fragments.length) ∧
      ((∃ f, scanner.AnyOf fragments = .ok f) ↔ 2 ≤ fragments.length) := by
  unfold scanner.AnyOf
  by_cases h : fragments.length < 2
  · have h1 : ¬ 2 ≤ fragments.length := Nat.not_le.2 h
    simp [h, h1]
  · have h1 : 2 ≤ fragments.length := Nat.not_lt.1 h
    simp [h, h1]

/-- C20: `RepeatBetween(min, max, f)` panics if and only if `min < 0` or `max < min`, and
returns the repetition with these bounds otherwise; `RepeatAtLeast(min, f)` panics if and
only if `min < 0`, and returns the repetition without a maximum otherwise. -/
theorem C20_repeat_rejects_invalid_bounds {S : Type} (min max : Int)
    (f : scanner.Fragment S) :
    ((∃ msg, scanner.RepeatBetween min max f = .error msg) ↔ (min < 0 ∨ max < min)) ∧
      (scanner.RepeatBetween min max f = .ok (.fragRepeat f min max true) ↔
        (0 ≤ min ∧ min ≤ max)) ∧
      ((∃ msg, scanner.RepeatAtLeast min f = .error msg) ↔ min < 0) ∧
      (scanner.RepeatAtLeast min f = .ok (.fragRepeat f min 0 false) ↔ 0 ≤ min) := by
  unfold scanner.RepeatBetween scanner.RepeatAtLeast
  by_cases h1 : min < 0
  · have h2 : ¬ 0 ≤ min := Int.not_le.2 h1
    simp [h1, h2]
  · have h2 : 0 ≤ min := Int.not_lt.1 h1
    by_cases h3 : max < min
    · have h4 : ¬ min ≤ max := Int.not_le.2 h3
      simp [h1, h2, h3, h4]
    · have h4 : min ≤ max := Int.not_lt.1 h3
      simp [h1, h2, h3, h4]

namespace scanner

/-- Induction over fragments: a property holds of every fragment when it holds of the
literals and predicate sets, of a sequence and of an alternative whose members have it, and
of a repetition whose body has it. -/
theorem Fragment.induct {S : Type} {P : Fragment S → Prop}
    (lit : ∀ symbols, P (.fragLiteral symbols))
    (seq : ∀ fs, (∀ f ∈ fs, P f) → P (.fragSequence fs))
    (any : ∀ fs, (∀ f ∈ fs, P f) → P (.fragAnyOf fs))
    (rep : ∀ f mn mx hm, P f → P (.fragRepeat f mn mx hm))
    (set : ∀ frag, P (.fragSymbolSet frag)) : ∀ f, P f := by
  intro f
  exact @Fragment.rec S P (fun fs => ∀ f ∈ fs, P f) lit seq any rep set
    (fun _ h => by cases h)
    (fun head tail hh ht g hg => by
      rcases List.mem_cons.1 hg with h | h
      · rw [h]; exact hh
      · exact ht g h) f

section
variable {S V : Type} [Inhabited V] [DecidableEq S]

theorem build_literal (symbols : List S) (machine : nfa.Nfa S V) (start : Nat) :
    (Fragment.fragLiteral symbols).Build machine start =
      symbols.foldl (fun last sym => last.1.Add last.2 sym) (machine, start) := by
  rw [Fragment.Build]

theorem build_sequence (fs : List (Fragment S)) (machine : nfa.Nfa S V) (start : Nat) :
    (Fragment.fragSequence fs).Build machine start = fragSequence.loop fs machine start := by
  rw [Fragment.Build]

theorem build_anyOf (fs : List (Fragment S)) (machine : nfa.Nfa S V) (start : Nat) :
    (Fragment.fragAnyOf fs).Build machine start =
      (fragAnyOf.loop fs machine.NewState.1 start machine.NewState.2, machine.NewState.2) := by
  rw [Fragment.Build]

theorem sequence_loop_cons (f : Fragment S) (fs : List (Fragment S)) (machine : nfa.Nfa S V)
    (start : Nat) :
    fragSequence.loop (f :: fs) machine start =
      fragSequence.loop fs (f.Build machine start).1 (f.Build machine start).2 := by
  rw [fragSequence.loop]

theorem anyOf_loop_cons (f : Fragment S) (fs : List (Fragment S)) (machine : nfa.Nfa S V)
    (start endState : Nat) :
    fragAnyOf.loop (f :: fs) machine start endState =
      fragAnyOf.loop fs
        ((f.Build (machine.AddEpsilonTransition start).1
          (machine.AddEpsilonTransition start).2).1.ConnectEpsilon
          (f.Build (machine.AddEpsilonTransition start).1
            (machine.AddEpsilonTransition start).2).2 endState) start endState := by
  rw [fragAnyOf.loop]

theorem build_repeat (f : Fragment S) (mn mx : Int) (hasMax : Bool) (machine : nfa.Nfa S V)
    (start : Nat) :
    (Fragment.fragRepeat f mn mx hasMax).Build machine start =
      let current := fragRepeat.thread f.Build mn.toNat machine start
      let endState := current.1.NewState
      let m1 := endState.1.ConnectEpsilon current.2 endState.2
      if !hasMax then
        let m2 := m1.ConnectEpsilon current.2 endState.2
        let bodyStartState := m2.AddEpsilonTransition current.2
        let bodyEndState := f.Build bodyStartState.1 bodyStartState.2
        let m3 := bodyEndState.1.ConnectEpsilon bodyEndState.2 bodyStartState.2
        (m3.ConnectEpsilon bodyEndState.2 endState.2, endState.2)
      else if mx - mn = 0 then (m1, endState.2)
      else
        ((fragRepeat.optional f.Build endState.2 (mx - mn).toNat m1 current.2).1, endState.2) := by
  rw [Fragment.Build]

theorem build_symbolSet (frag : fragSymbolSet S) (machine : nfa.Nfa S V) (start : Nat) :
    (Fragment.fragSymbolSet frag).Build machine start = frag.Build machine start := by
  rw [Fragment.Build]

end
end scanner

namespace scanner

theorem thread_zero {S V : Type} (build : nfa.Nfa S V → Nat → nfa.Nfa S V × Nat)
    (machine : nfa.Nfa S V) (start : Nat) :
    fragRepeat.thread build 0 machine start = (machine, start) := rfl

theorem thread_succ {S V : Type} (build : nfa.Nfa S V → Nat → nfa.Nfa S V × Nat) (k : Nat)
    (machine : nfa.Nfa S V) (start : Nat) :
    fragRepeat.thread build (k + 1) machine start =
      build (fragRepeat.thread build k machine start).1
        (fragRepeat.thread build k machine start).2 := by
  unfold fragRepeat.thread
  rw [List.range_succ, List.foldl_append]
  rfl

theorem optional_zero {S V : Type} [Inhabited V]
    (build : nfa.Nfa S V → Nat → nfa.Nfa S V × Nat) (endState : Nat) (machine : nfa.Nfa S V)
    (current : Nat) :
    fragRepeat.optional build endState 0 machine current = (machine, current) := rfl

theorem optional_succ {S V : Type} [Inhabited V]
    (build : nfa.Nfa S V → Nat → nfa.Nfa S V × Nat) (endState k : Nat) (machine : nfa.Nfa S V)
    (current : Nat) :
    fragRepeat.optional build endState (k + 1) machine current =
      ((build
          ((fragRepeat.optional build endState k machine current).1.AddEpsilonTransition
            (fragRepeat.optional build endState k machine current).2).1
          ((fragRepeat.optional build endState k machine current).1.AddEpsilonTransition
            (fragRepeat.optional build endState k machine current).2).2).1.ConnectEpsilon
        (build
          ((fragRepeat.optional build endState k machine current).1.AddEpsilonTransition
            (fragRepeat.optional build endState k machine current).2).1
          ((fragRepeat.optional build endState k machine current).1.AddEpsilonTransition
            (fragRepeat.optional build endState k machine current).2).2).2 endState,
       (build
          ((fragRepeat.optional build endState k machine current).1.AddEpsilonTransition
            (fragRepeat.optional build endState k machine current).2).1
          ((fragRepeat.optional build endState k machine current).1.AddEpsilonTransition
            (fragRepeat.optional build endState k machine current).2).2).2) := by
  unfold fragRepeat.optional
  rw [List.range_succ, List.foldl_append]
  rfl

end scanner

namespace nfa

theorem add_alloc {S V : Type} [Inhabited V] [DecidableEq S] (n : Nfa S V) (s : Nat) (a : S) :
    (n.Add s a).2 = n.states.length ∧ (n.Add s a).1.states.length = n.states.length + 1 ∧
      (n.Add s a).1.nextStateID = n.nextStateID + 1 := by
  simp [Nfa.Add, Nfa.newState, length_update]

theorem newState_alloc {S V : Type} [Inhabited V] (n : Nfa S V) :
    n.NewState.2 = n.states.length ∧ n.NewState.1.states.length = n.states.length + 1 ∧
      n.NewState.1.nextStateID = n.nextStateID + 1 := by
  simp [Nfa.NewState]

theorem addEpsilon_alloc {S V : Type} [Inhabited V] (n : Nfa S V) (s : Nat) :
    (n.AddEpsilonTransition s).2 = n.states.length ∧
      (n.AddEpsilonTransition s).1.states.length = n.states.length + 1 ∧
      (n.AddEpsilonTransition s).1.nextStateID = n.nextStateID + 1 := by
  simp [Nfa.AddEpsilonTransition, Nfa.NewState, Nfa.ConnectEpsilon, length_update]

theorem addAccepting_alloc {S V : Type} [Inhabited V] (n : Nfa S V) (s : Nat) (v : V) :
    (n.AddAcceptingEpsilonTransition s v).2 = n.states.length ∧
      (n.AddAcceptingEpsilonTransition s v).1.states.length = n.states.length + 1 ∧
      (n.AddAcceptingEpsilonTransition s v).1.nextStateID = n.nextStateID + 1 := by
  simp [Nfa.AddAcceptingEpsilonTransition, Nfa.newAcceptingState, Nfa.markAccepting,
    length_update]

theorem connect_alloc {S V : Type} (n : Nfa S V) (s t : Nat) :
    (n.ConnectEpsilon s t).states.length = n.states.length ∧
      (n.ConnectEpsilon s t).nextStateID = n.nextStateID := by
  simp [Nfa.ConnectEpsilon, length_update]

theorem addPredicate_alloc {S V : Type} (n : Nfa S V) (s t : Nat) (fn : S → Bool) :
    (n.AddPredicateTransition s t fn).states.length = n.states.length ∧
      (n.AddPredicateTransition s t fn).nextStateID = n.nextStateID := by
  simp [Nfa.AddPredicateTransition, length_update]

theorem epsLe_refl {S V : Type} [Inhabited V] (m : Nfa S V) : EpsLe m m := fun _ _ h => h

theorem epsLe_trans {S V : Type} [Inhabited V] {m1 m2 m3 : Nfa S V} (h1 : EpsLe m1 m2)
    (h2 : EpsLe m2 m3) : EpsLe m1 m3 := fun r y h => h2 r y (h1 r y h)

section
variable {S V : Type} [Inhabited V] [DecidableEq S]

/-- No call removes an epsilon transition. -/
theorem epsLe_call (n : Nfa S V) (c : Call S V) : EpsLe n (n.call c).1 := by
  intro r y h
  have hlen : r = n.states.length → False := by
    intro hr
    rw [hr, deref_ge _ _ (Nat.le_refl _)] at h
    cases h
  rw [deref_call]
  cases c with
  | NewState =>
    simp only
    split
    · next h1 => exact absurd h1 hlen
    · exact h
  | Add s a =>
    have hr : ¬ r = n.states.length := hlen
    simp only [hr, if_false]
    split
    · rw [(put_fields _ _ _).2.1]; exact h
    · exact h
  | AddEpsilonTransition s =>
    have hr : ¬ r = n.states.length := hlen
    simp only [hr, if_false]
    split
    · exact List.mem_append_left _ h
    · exact h
  | AddAcceptingEpsilonTransition s v =>
    have hr : ¬ r = n.states.length := hlen
    simp only [hr, if_false]
    split
    · exact List.mem_append_left _ h
    · exact h
  | AddPredicateTransition s t fn =>
    simp only
    split
    · exact h
    · exact h
  | ConnectEpsilon s t =>
    simp only
    split
    · exact List.mem_append_left _ h
    · exact h

theorem epsLe_add (n : Nfa S V) (s : Nat) (a : S) : EpsLe n (n.Add s a).1 :=
  epsLe_call n (.Add s a)

theorem epsLe_newState (n : Nfa S V) : EpsLe n n.NewState.1 := epsLe_call n .NewState

theorem epsLe_addEpsilon (n : Nfa S V) (s : Nat) : EpsLe n (n.AddEpsilonTransition s).1 :=
  epsLe_call n (.AddEpsilonTransition s)

theorem epsLe_connect (n : Nfa S V) (s t : Nat) : EpsLe n (n.ConnectEpsilon s t) :=
  epsLe_call n (.ConnectEpsilon s t)

theorem epsLe_addPredicate (n : Nfa S V) (s t : Nat) (fn : S → Bool) :
    EpsLe n (n.AddPredicateTransition s t fn) :=
  epsLe_call n (.AddPredicateTransition s t fn)

end
end nfa

/-! ## Building fragments: what every fragment keeps -/

namespace scanner

section
variable {S V : Type} [Inhabited V] [DecidableEq S]

theorem literal_cons (a : S) (rest : List S) (machine : nfa.Nfa S V) (start : Nat) :
    (Fragment.fragLiteral (a :: rest)).Build machine start =
      (Fragment.fragLiteral rest).Build (machine.Add start a).1 (machine.Add start a).2 := by
  rw [build_literal, build_literal]
  rfl

theorem literal_nil (machine : nfa.Nfa S V) (start : Nat) :
    (Fragment.fragLiteral ([] : List S)).Build machine start = (machine, start) := by
  rw [build_literal]
  rfl

theorem extends_add {machine : nfa.Nfa S V} (hb : nfa.Built machine) {start : Nat}
    (hs : start < machine.states.length) (a : S) : Extends machine (machine.Add start a) := by
  obtain ⟨h1, h2, _⟩ := nfa.add_alloc machine start a
  exact ⟨nfa.Built.add hb hs, by rw [h1, h2]; exact Nat.lt_succ_self _,
    by rw [h2]; exact Nat.le_succ _⟩

theorem extends_addEpsilon {machine : nfa.Nfa S V} (hb : nfa.Built machine) {start : Nat}
    (hs : start < machine.states.length) :
    Extends machine (machine.AddEpsilonTransition start) := by
  obtain ⟨h1, h2, _⟩ := nfa.addEpsilon_alloc machine start
  exact ⟨nfa.Built.addEpsilon hb hs, by rw [h1, h2]; exact Nat.lt_succ_self _,
    by rw [h2]; exact Nat.le_succ _⟩

theorem extends_newState {machine : nfa.Nfa S V} (hb : nfa.Built machine) :
    Extends machine machine.NewState := by
  obtain ⟨h1, h2, _⟩ := nfa.newState_alloc machine
  exact ⟨nfa.Built.newState hb, by rw [h1, h2]; exact Nat.lt_succ_self _,
    by rw [h2]; exact Nat.le_succ _⟩

theorem built_connect {machine : nfa.Nfa S V} (hb : nfa.Built machine) {s t : Nat}
    (hs : s < machine.states.length) (ht : t < machine.states.length) :
    nfa.Built (machine.ConnectEpsilon s t) ∧
      (machine.ConnectEpsilon s t).states.length = machine.states.length :=
  ⟨nfa.Built.connect hb hs ht, (nfa.connect_alloc _ _ _).1⟩

theorem extends_thread (build : nfa.Nfa S V → Nat → nfa.Nfa S V × Nat)
    (hbuild : ∀ m s, nfa.Built m → s < m.states.length → Extends m (build m s)) (k : Nat)
    (machine : nfa.Nfa S V) (start : Nat) (hb : nfa.Built machine)
    (hs : start < machine.states.length) :
    Extends machine (fragRepeat.thread build k machine start) := by
  induction k with
  | zero => exact ⟨hb, hs, Nat.le_refl _⟩
  | succ k ih =>
    rw [thread_succ]
    obtain ⟨h1, h2, h3⟩ := ih
    obtain ⟨g1, g2, g3⟩ := hbuild _ _ h1 h2
    exact ⟨g1, g2, Nat.le_trans h3 g3⟩

theorem extends_optional (build : nfa.Nfa S V → Nat → nfa.Nfa S V × Nat)
    (hbuild : ∀ m s, nfa.Built m → s < m.states.length → Extends m (build m s))
    (endState k : Nat) (machine : nfa.Nfa S V) (current : Nat) (hb : nfa.Built machine)
    (hc : current < machine.states.length) (he : endState < machine.states.length) :
    Extends machine (fragRepeat.optional build endState k machine current) := by
  induction k with
  | zero => exact ⟨hb, hc, Nat.le_refl _⟩
  | succ k ih =>
    rw [optional_succ]
    obtain ⟨h1, h2, h3⟩ := ih
    obtain ⟨e1, e2, e3⟩ := extends_addEpsilon h1 h2
    obtain ⟨g1, g2, g3⟩ := hbuild _ _ e1 e2
    have he2 : endState <
        (build ((fragRepeat.optional build endState k machine current).1.AddEpsilonTransition
          (fragRepeat.optional build endState k machine current).2).1
          ((fragRepeat.optional build endState k machine current).1.AddEpsilonTransition
          (fragRepeat.optional build endState k machine current).2).2).1.states.length := by
      omega
    refine ⟨nfa.Built.connect g1 g2 he2, ?_, ?_⟩
    · rw [(nfa.connect_alloc _ _ _).1]; exact g2
    · rw [(nfa.connect_alloc _ _ _).1]; omega

/-- Building a fragment on a machine of the API, from a state of it, gives a machine of the
API and returns a state of it; the states of the machine stay. -/
theorem build_extends (f : Fragment S) :
    ∀ (machine : nfa.Nfa S V) (start : Nat), nfa.Built machine →
      start < machine.states.length → Extends machine (f.Build machine start) := by
  induction f using Fragment.induct with
  | lit symbols =>
    induction symbols with
    | nil =>
      intro machine start hb hs
      rw [literal_nil]
      exact ⟨hb, hs, Nat.le_refl _⟩
    | cons a rest ih =>
      intro machine start hb hs
      rw [literal_cons]
      obtain ⟨h1, h2, h3⟩ := extends_add hb hs a
      obtain ⟨g1, g2, g3⟩ := ih _ _ h1 h2
      exact ⟨g1, g2, Nat.le_trans h3 g3⟩
  | seq fs ih =>
    intro machine start hb hs
    rw [build_sequence]
    induction fs generalizing machine start with
    | nil => exact ⟨hb, hs, Nat.le_refl _⟩
    | cons f fs ihl =>
      rw [sequence_loop_cons]
      obtain ⟨h1, h2, h3⟩ := ih f (List.mem_cons_self _ _) machine start hb hs
      obtain ⟨g1, g2, g3⟩ := ihl (fun g hg => ih g (List.mem_cons_of_mem _ hg)) _ _ h1 h2
      exact ⟨g1, g2, Nat.le_trans h3 g3⟩
  | any fs ih =>
    intro machine start hb hs
    rw [build_anyOf]
    obtain ⟨h1, h2, h3⟩ := extends_newState hb
    have hloop : ∀ (fs : List (Fragment S)), (∀ f ∈ fs, ∀ (machine : nfa.Nfa S V) (start : Nat),
        nfa.Built machine → start < machine.states.length →
          Extends machine (f.Build machine start)) →
        ∀ (m : nfa.Nfa S V) (s e : Nat), nfa.Built m → s < m.states.length →
          e < m.states.length →
          nfa.Built (fragAnyOf.loop fs m s e) ∧
            m.states.length ≤ (fragAnyOf.loop fs m s e).states.length := by
      intro fs
      induction fs with
      | nil => intro _ m s e hm _ _; exact ⟨hm, Nat.le_refl _⟩
      | cons f fs ihl =>
        intro hf m s e hm hsm hem
        rw [anyOf_loop_cons]
        obtain ⟨e1, e2, e3⟩ := extends_addEpsilon hm hsm
        obtain ⟨g1, g2, g3⟩ := hf f (List.mem_cons_self _ _) _ _ e1 e2
        have hc := nfa.Built.connect g1 g2 (show e < _ by omega)
        obtain ⟨k1, k2⟩ := ihl (fun g hg => hf g (List.mem_cons_of_mem _ hg)) _ s e hc
          (by rw [(nfa.connect_alloc _ _ _).1]; omega)
          (by rw [(nfa.connect_alloc _ _ _).1]; omega)
        refine ⟨k1, ?_⟩
        rw [(nfa.connect_alloc _ _ _).1] at k2
        omega
    obtain ⟨k1, k2⟩ := hloop fs ih machine.NewState.1 start machine.NewState.2 h1
      (by omega) h2
    exact ⟨k1, by show machine.NewState.2 < (fragAnyOf.loop _ _ _ _).states.length; omega,
      by show machine.states.length ≤ (fragAnyOf.loop _ _ _ _).states.length; omega⟩
  | rep f mn mx hm ih =>
    intro machine start hb hs
    rw [build_repeat]
    obtain ⟨h1, h2, h3⟩ := extends_thread f.Build ih mn.toNat machine start hb hs
    generalize fragRepeat.thread f.Build mn.toNat machine start = cur at h1 h2 h3 ⊢
    obtain ⟨n1, n2, n3⟩ := extends_newState h1
    obtain ⟨c1, l1⟩ := built_connect n1 (show cur.2 < _ by omega) n2
    simp only
    cases hm with
    | false =>
      simp only [Bool.not_false, if_true]
      obtain ⟨c2, l2⟩ := built_connect c1 (show cur.2 < _ by omega)
        (show cur.1.NewState.2 < _ by omega)
      obtain ⟨e1, e2, e3⟩ := extends_addEpsilon c2 (show cur.2 < _ by omega)
      obtain ⟨g1, g2, g3⟩ := ih _ _ e1 e2
      obtain ⟨c3, l3⟩ := built_connect g1 g2 (show _ < _ from Nat.lt_of_lt_of_le e2 g3)
      obtain ⟨c4, l4⟩ := built_connect c3 (show _ < _ by rw [l3]; exact g2)
        (show cur.1.NewState.2 < _ by rw [l3]; omega)
      exact ⟨c4, by show cur.1.NewState.2 < (nfa.Nfa.ConnectEpsilon _ _ _).states.length; omega,
        by show machine.states.length ≤ (nfa.Nfa.ConnectEpsilon _ _ _).states.length; omega⟩
    | true =>
      simp only [Bool.not_true, Bool.false_eq_true, if_false]
      split
      · exact ⟨c1, by show cur.1.NewState.2 < (nfa.Nfa.ConnectEpsilon _ _ _).states.length; omega,
          by show machine.states.length ≤ (nfa.Nfa.ConnectEpsilon _ _ _).states.length; omega⟩
      · obtain ⟨o1, _, o3⟩ := extends_optional f.Build ih cur.1.NewState.2 (mx - mn).toNat _
          cur.2 c1 (show cur.2 < _ by omega) (show cur.1.NewState.2 < _ by omega)
        exact ⟨o1,
          by show cur.1.NewState.2 < (fragRepeat.optional _ _ _ _ _).1.states.length; omega,
          by show machine.states.length ≤ (fragRepeat.optional _ _ _ _ _).1.states.length; omega⟩
  | set frag =>
    intro machine start hb hs
    rw [build_symbolSet]
    unfold fragSymbolSet.Build
    obtain ⟨h1, h2, h3⟩ := extends_newState hb
    refine ⟨nfa.Built.addPredicate h1 (by omega) h2, ?_, ?_⟩
    · rw [(nfa.addPredicate_alloc _ _ _ _).1]; exact h2
    · rw [(nfa.addPredicate_alloc _ _ _ _).1]; exact h3

end
end scanner

namespace scanner

theorem epsLe_thread {S V : Type} [Inhabited V] (build : nfa.Nfa S V → Nat → nfa.Nfa S V × Nat)
    (hbuild : ∀ m s, nfa.EpsLe m (build m s).1) (k : Nat) (machine : nfa.Nfa S V)
    (start : Nat) : nfa.EpsLe machine (fragRepeat.thread build k machine start).1 := by
  induction k with
  | zero => exact nfa.epsLe_refl _
  | succ k ih =>
    rw [thread_succ]
    exact nfa.epsLe_trans ih (hbuild _ _)

section
variable {S V : Type} [Inhabited V] [DecidableEq S]

theorem epsLe_optional (build : nfa.Nfa S V → Nat → nfa.Nfa S V × Nat)
    (hbuild : ∀ m s, nfa.EpsLe m (build m s).1) (endState k : Nat) (machine : nfa.Nfa S V)
    (current : Nat) :
    nfa.EpsLe machine (fragRepeat.optional build endState k machine current).1 := by
  induction k with
  | zero => exact nfa.epsLe_refl _
  | succ k ih =>
    rw [optional_succ]
    exact nfa.epsLe_trans ih (nfa.epsLe_trans (nfa.epsLe_addEpsilon _ _)
      (nfa.epsLe_trans (hbuild _ _) (nfa.epsLe_connect _ _ _)))

/-- Building a fragment removes no epsilon transition. -/
theorem build_epsLe (f : Fragment S) :
    ∀ (machine : nfa.Nfa S V) (start : Nat), nfa.EpsLe machine (f.Build machine start).1 := by
  induction f using Fragment.induct with
  | lit symbols =>
    induction symbols with
    | nil => intro machine start; rw [literal_nil]; exact nfa.epsLe_refl _
    | cons a rest ih =>
      intro machine start
      rw [literal_cons]
      exact nfa.epsLe_trans (nfa.epsLe_add _ _ _) (ih _ _)
  | seq fs ih =>
    intro machine start
    rw [build_sequence]
    induction fs generalizing machine start with
    | nil => exact nfa.epsLe_refl _
    | cons f fs ihl =>
      rw [sequence_loop_cons]
      exact nfa.epsLe_trans (ih f (List.mem_cons_self _ _) machine start)
        (ihl (fun g hg => ih g (List.mem_cons_of_mem _ hg)) _ _)
  | any fs ih =>
    intro machine start
    rw [build_anyOf]
    refine nfa.epsLe_trans (nfa.epsLe_newState machine) ?_
    generalize machine.NewState.1 = m
    generalize machine.NewState.2 = e
    show nfa.EpsLe m (fragAnyOf.loop fs m start e)
    induction fs generalizing m with
    | nil => exact nfa.epsLe_refl _
    | cons f fs ihl =>
      rw [anyOf_loop_cons]
      exact nfa.epsLe_trans (nfa.epsLe_addEpsilon _ _)
        (nfa.epsLe_trans (ih f (List.mem_cons_self _ _) _ _)
          (nfa.epsLe_trans (nfa.epsLe_connect _ _ _)
            (ihl (fun g hg => ih g (List.mem_cons_of_mem _ hg)) _)))
  | rep f mn mx hm ih =>
    intro machine start
    rw [build_repeat]
    have h1 := epsLe_thread f.Build ih mn.toNat machine start
    generalize fragRepeat.thread f.Build mn.toNat machine start = cur at h1 ⊢
    have h2 := nfa.epsLe_trans h1 (nfa.epsLe_trans (nfa.epsLe_newState cur.1)
      (nfa.epsLe_connect _ cur.2 cur.1.NewState.2))
    simp only
    cases hm with
    | false =>
      simp only [Bool.not_false, if_true]
      exact nfa.epsLe_trans h2 (nfa.epsLe_trans (nfa.epsLe_connect _ _ _)
        (nfa.epsLe_trans (nfa.epsLe_addEpsilon _ _)
          (nfa.epsLe_trans (ih _ _)
            (nfa.epsLe_trans (nfa.epsLe_connect _ _ _) (nfa.epsLe_connect _ _ _)))))
    | true =>
      simp only [Bool.not_true, Bool.false_eq_true, if_false]
      split
      · exact h2
      · exact nfa.epsLe_trans h2 (epsLe_optional f.Build ih _ _ _ _)
  | set frag =>
    intro machine start
    rw [build_symbolSet]
    unfold fragSymbolSet.Build
    exact nfa.epsLe_trans (nfa.epsLe_newState machine) (nfa.epsLe_addPredicate _ _ _ _)

end
end scanner

/-- C25: `RepeatAtLeast(0, f)` accepts the empty sequence at the anchor. For every fragment
`f`, machine and state `start` of the machine, the exit that the build returns is a direct
epsilon target of `start` in the machine after the build, hence in the epsilon closure of
`start`. -/
theorem C25_repeatAtLeast_zero_accepts_empty {S V : Type} [Inhabited V] [DecidableEq S]
    (f g : scanner.Fragment S) (hg : scanner.RepeatAtLeast 0 f = .ok g)
    (machine : nfa.Nfa S V) (start : Nat) (hs : start < machine.states.length) :
    (g.Build machine start).2 ∈ (nfa.deref (g.Build machine start).1.states start).Epsilon ∧
      dfa.EpsReachable (g.Build machine start).1.states [start] (g.Build machine start).2 := by
  have hg1 : g = .fragRepeat f 0 0 false := by
    unfold scanner.RepeatAtLeast at hg
    simp only [Int.lt_irrefl, if_false] at hg
    injection hg with hg
    exact hg.symm
  subst hg1
  have hmem : (scanner.Fragment.Build (.fragRepeat f 0 0 false) machine start).2 ∈
      (nfa.deref (scanner.Fragment.Build (.fragRepeat f 0 0 false) machine start).1.states
        start).Epsilon := by
    rw [scanner.build_repeat]
    simp only [Int.toNat_zero, scanner.thread_zero, Bool.not_false, if_true]
    have h0 : machine.NewState.2 ∈
        (nfa.deref (machine.NewState.1.ConnectEpsilon start machine.NewState.2).states
          start).eTransitions := by
      unfold nfa.Nfa.ConnectEpsilon
      simp only [dfa.deref_update]
      rw [if_pos ⟨trivial, by rw [(nfa.newState_alloc machine).2.1]; omega⟩]
      simp
    exact nfa.epsLe_trans (nfa.epsLe_connect _ _ _)
      (nfa.epsLe_trans (nfa.epsLe_addEpsilon _ _)
        (nfa.epsLe_trans (scanner.build_epsLe f _ _)
          (nfa.epsLe_trans (nfa.epsLe_connect _ _ _) (nfa.epsLe_connect _ _ _)))) _ _ h0
  exact ⟨hmem, start, List.mem_singleton.2 rfl,
    Relation.ReflTransGen.single hmem⟩

/-- C25 on a new machine, for the literal of one symbol: the exit, state 1, is an epsilon
target of the start state. -/
theorem C25_repeatAtLeast_zero_accepts_empty_witness :
    scanner.RepeatAtLeast 0 (scanner.Fragment.fragLiteral [7]) =
        .ok (.fragRepeat (.fragLiteral [7]) 0 0 false) ∧
      (0 : Nat) < (nfa.New : nfa.Nfa Nat Nat).states.length ∧
      1 ∈ (nfa.deref (scanner.Fragment.Build (.fragRepeat (.fragLiteral [7]) 0 0 false)
        (nfa.New : nfa.Nfa Nat Nat) 0).1.states 0).Epsilon :=
  ⟨by rfl, by decide,
    (C25_repeatAtLeast_zero_accepts_empty (.fragLiteral [7]) _ (by rfl)
      (nfa.New : nfa.Nfa Nat Nat) 0 (by decide)).1⟩

/-! ## The effect of the operations of a machine on every state -/

namespace nfa

theorem sameButOut_refl {S V : Type} (s : State S V) : SameButOut s s := ⟨rfl, rfl, rfl, rfl⟩

theorem sameButOut_trans {S V : Type} {s1 s2 s3 : State S V} (h1 : SameButOut s1 s2)
    (h2 : SameButOut s2 s3) : SameButOut s1 s3 :=
  ⟨h1.1.trans h2.1, h1.2.1.trans h2.2.1, h1.2.2.1.trans h2.2.2.1, h1.2.2.2.trans h2.2.2.2⟩

theorem sameButEps_refl {S V : Type} (s : State S V) : SameButEps s s :=
  ⟨rfl, rfl, rfl, rfl, rfl⟩

theorem sameButEps_trans {S V : Type} {s1 s2 s3 : State S V} (h1 : SameButEps s1 s2)
    (h2 : SameButEps s2 s3) : SameButEps s1 s3 :=
  ⟨h1.1.trans h2.1, h1.2.1.trans h2.2.1, h1.2.2.1.trans h2.2.2.1,
    h1.2.2.2.1.trans h2.2.2.2.1, h1.2.2.2.2.trans h2.2.2.2.2⟩

theorem outgoingFor_congr {S V : Type} [DecidableEq S] (s1 s2 : State S V)
    (he : s1.edge = s2.edge) (ht : s1.transitions = s2.transitions) (a : S) :
    s1.OutgoingFor a = s2.OutgoingFor a := by
  unfold State.OutgoingFor
  rw [he, ht]

section
variable {S V : Type} [Inhabited V] [DecidableEq S]

/-- `Add(s, a)` on every state: the new transition is attached to `s`, nothing else
changes. -/
theorem add_view {n : Nfa S V} (hb : Built n) {s : Nat} (hs : s < n.states.length) (a : S)
    (q : Nat) :
    SameButOut (deref (n.Add s a).1.states q) (deref n.states q) ∧
      (∀ b, (deref (n.Add s a).1.states q).OutgoingFor b =
        (deref n.states q).OutgoingFor b ++ if q = s ∧ a = b then [n.states.length] else []) ∧
      (q ≠ s → (deref (n.Add s a).1.states q).edge = (deref n.states q).edge ∧
        (deref (n.Add s a).1.states q).transitions = (deref n.states q).transitions) := by
  have hlen : deref n.states n.states.length = State.fresh 0 := deref_ge _ _ (Nat.le_refl _)
  have hd := deref_call n (.Add s a) q
  simp only [Nfa.call] at hd
  rw [hd]
  by_cases h1 : q = s
  · subst h1
    have h2 : ¬ q = n.states.length := Nat.ne_of_lt hs
    rw [if_pos ⟨rfl, Nat.lt_succ_of_lt hs⟩, if_neg h2]
    obtain ⟨_, q2, q3, q4, q5⟩ := put_fields (deref n.states q) a n.states.length
    refine ⟨⟨q2, q4, q5, q3⟩, fun b => ?_, fun h => absurd rfl h⟩
    rw [outgoingFor_put _ ((built_sound n hb).2.2 q hs).2.2.2.2.2]
    by_cases h3 : a = b
    · rw [if_pos h3, if_pos ⟨rfl, h3⟩]
    · rw [if_neg h3, if_neg (fun h => h3 h.2)]
  · rw [if_neg (fun h => h1 h.1)]
    have hno : ∀ b, (if q = s ∧ a = b then [n.states.length] else []) = ([] : List Nat) :=
      fun b => if_neg (fun h => h1 h.1)
    by_cases h2 : q = n.states.length
    · rw [if_pos h2, h2, hlen]
      refine ⟨⟨rfl, rfl, rfl, rfl⟩, fun b => ?_, fun _ => ⟨rfl, rfl⟩⟩
      rw [if_neg (fun h => h1 (h2.trans h.1))]
      rfl
    · rw [if_neg h2]
      refine ⟨sameButOut_refl _, fun b => ?_, fun _ => ⟨rfl, rfl⟩⟩
      rw [hno b, List.append_nil]

/-- `NewState()` on every state: nothing changes. -/
theorem newState_view (n : Nfa S V) (q : Nat) :
    SameButEps (deref n.NewState.1.states q) (deref n.states q) ∧
      (deref n.NewState.1.states q).eTransitions = (deref n.states q).eTransitions := by
  have hlen : deref n.states n.states.length = State.fresh 0 := deref_ge _ _ (Nat.le_refl _)
  have hd := deref_call n .NewState q
  simp only [Nfa.call] at hd
  rw [hd]
  by_cases h2 : q = n.states.length
  · rw [if_pos h2, h2, hlen]
    exact ⟨⟨rfl, rfl, rfl, rfl, rfl⟩, rfl⟩
  · rw [if_neg h2]
    exact ⟨sameButEps_refl _, rfl⟩

/-- `ConnectEpsilon(s, t)` on every state: `t` is attached to `s`, nothing else changes. -/
theorem connect_view (n : Nfa S V) {s : Nat} (hs : s < n.states.length) (t q : Nat) :
    SameButEps (deref (n.ConnectEpsilon s t).states q) (deref n.states q) ∧
      (deref (n.ConnectEpsilon s t).states q).eTransitions =
        (deref n.states q).eTransitions ++ if q = s then [t] else [] := by
  have hd := deref_call n (.ConnectEpsilon s t) q
  simp only [Nfa.call] at hd
  rw [hd]
  by_cases h1 : q = s
  · rw [if_pos ⟨h1, hs⟩, if_pos h1]
    exact ⟨⟨rfl, rfl, rfl, rfl, rfl⟩, rfl⟩
  · rw [if_neg (fun h => h1 h.1), if_neg h1, List.append_nil]
    exact ⟨sameButEps_refl _, rfl⟩

/-- `AddEpsilonTransition(s)` on every state: the new state is attached to `s`, nothing else
changes. -/
theorem addEpsilon_view (n : Nfa S V) {s : Nat} (hs : s < n.states.length) (q : Nat) :
    SameButEps (deref (n.AddEpsilonTransition s).1.states q) (deref n.states q) ∧
      (deref (n.AddEpsilonTransition s).1.states q).eTransitions =
        (deref n.states q).eTransitions ++ if q = s then [n.states.length] else [] := by
  have hlen : deref n.states n.states.length = State.fresh 0 := deref_ge _ _ (Nat.le_refl _)
  have hd := deref_call n (.AddEpsilonTransition s) q
  simp only [Nfa.call] at hd
  rw [hd]
  by_cases h1 : q = s
  · have h2 : ¬ q = n.states.length := by rw [h1]; exact Nat.ne_of_lt hs
    rw [if_pos ⟨h1, Nat.lt_succ_of_lt hs⟩, if_neg h2, if_pos h1]
    exact ⟨⟨rfl, rfl, rfl, rfl, rfl⟩, rfl⟩
  · rw [if_neg (fun h => h1 h.1), if_neg h1, List.append_nil]
    by_cases h2 : q = n.states.length
    · rw [if_pos h2, h2, hlen]
      exact ⟨⟨rfl, rfl, rfl, rfl, rfl⟩, rfl⟩
    · rw [if_neg h2]
      exact ⟨sameButEps_refl _, rfl⟩

/-- `AddAcceptingEpsilonTransition(s, v)` on every state: the new state is attached to `s`
and is accepting with the next accept index and the value `v`, nothing else changes. -/
theorem addAccepting_view (n : Nfa S V) {s : Nat} (hs : s < n.states.length) (v : V)
    (q : Nat) :
    ((deref (n.AddAcceptingEpsilonTransition s v).1.states q).edge = (deref n.states q).edge ∧
      (deref (n.AddAcceptingEpsilonTransition s v).1.states q).transitions =
        (deref n.states q).transitions ∧
      (deref (n.AddAcceptingEpsilonTransition s v).1.states q).predicateTransitions =
        (deref n.states q).predicateTransitions) ∧
    (deref (n.AddAcceptingEpsilonTransition s v).1.states q).eTransitions =
      (deref n.states q).eTransitions ++ (if q = s then [n.states.length] else []) ∧
    (deref (n.AddAcceptingEpsilonTransition s v).1.states q).acceptIdx =
      (if q = n.states.length then (n.nextAcceptIndex : Int)
        else (deref n.states q).acceptIdx) ∧
    (deref (n.AddAcceptingEpsilonTransition s v).1.states q).value =
      (if q = n.states.length then v else (deref n.states q).value) := by
  have hlen : deref n.states n.states.length = State.fresh 0 := deref_ge _ _ (Nat.le_refl _)
  have hd := deref_call n (.AddAcceptingEpsilonTransition s v) q
  simp only [Nfa.call] at hd
  rw [hd]
  by_cases h1 : q = s
  · have h2 : ¬ q = n.states.length := by rw [h1]; exact Nat.ne_of_lt hs
    rw [if_pos ⟨h1, Nat.lt_succ_of_lt hs⟩, if_neg h2, if_pos h1, if_neg h2, if_neg h2]
    exact ⟨⟨rfl, rfl, rfl⟩, rfl, rfl, rfl⟩
  · rw [if_neg (fun h => h1 h.1), if_neg h1, List.append_nil]
    by_cases h2 : q = n.states.length
    · rw [if_pos h2, if_pos h2, if_pos h2, h2, hlen]
      exact ⟨⟨rfl, rfl, rfl⟩, rfl, rfl, rfl⟩
    · rw [if_neg h2, if_neg h2, if_neg h2]
      exact ⟨⟨rfl, rfl, rfl⟩, rfl, rfl, rfl⟩

/-- The id of the state that an operation allocates is the next id; the ids of the states
of the machine stay. -/
theorem id_call (n : Nfa S V) (c : Call S V) (q : Nat) :
    (deref (n.call c).1.states q).id =
      if q = n.states.length ∧ (n.call c).2 = some n.states.length then n.nextStateID
      else (deref n.states q).id := by
  by_cases h : q = n.states.length ∧ (n.call c).2 = some n.states.length
  · rw [if_pos h]
    obtain ⟨h1, h2⟩ := h
    rw [h1]
    exact (fresh_call n c _ h2).2.1
  · rw [if_neg h]
    refine (frozen_call n c q ?_).1
    by_cases h1 : q = n.states.length
    · right
      rcases (alloc_call n c).1 with h2 | h2
      · exact h2
      · exact absurd ⟨h1, h2⟩ h
    · exact Or.inl h1

end
end nfa

/-! ## The chain of a literal -/

namespace scanner

theorem literalEdges_cons {S : Type} [DecidableEq S] (start len : Nat) (hs : start < len)
    (a : S) (rest : List S) (q : Nat) (b : S) :
    literalEdges start len (a :: rest) q b =
      (if q = start ∧ a = b then [len] else []) ++ literalEdges len (len + 1) rest q b := by
  unfold literalEdges
  by_cases h1 : q = start
  · have h2 : ¬ q = len := by omega
    have h3 : ¬ (len + 1 ≤ q ∧ rest[q - (len + 1) + 1]? = some b) := by omega
    simp only [h1, true_and, if_true, List.getElem?_cons_zero, Option.some.injEq]
    rw [← h1, if_neg h2, if_neg h3, List.append_nil]
  · simp only [h1, false_and, if_false, List.nil_append]
    by_cases h2 : q = len
    · rw [if_pos h2]
      have e1 : q - len + 1 = 1 := by omega
      rw [e1, List.getElem?_cons_succ]
      by_cases h4 : rest[0]? = some b
      · rw [if_pos h4, if_pos ⟨by omega, h4⟩, h2]
      · rw [if_neg h4, if_neg (fun h => h4 h.2)]
    · rw [if_neg h2]
      by_cases h5 : len ≤ q
      · have e1 : q - len + 1 = (q - (len + 1) + 1) + 1 := by omega
        rw [e1, List.getElem?_cons_succ]
        by_cases h6 : rest[q - (len + 1) + 1]? = some b
        · rw [if_pos ⟨h5, h6⟩, if_pos ⟨by omega, h6⟩]
        · rw [if_neg (fun h => h6 h.2), if_neg (fun h => h6 h.2)]
      · rw [if_neg (fun h => h5 h.1), if_neg (fun h => h5 (by omega))]

section
variable {S V : Type} [Inhabited V] [DecidableEq S]

/-- The machine after the build of a literal: one state per symbol, in a chain from the
anchor; nothing else changes. -/
theorem literal_shape (symbols : List S) :
    ∀ (machine : nfa.Nfa S V) (start : Nat), nfa.Built machine →
      start < machine.states.length →
      ((Fragment.fragLiteral symbols).Build machine start).1.states.length =
          machine.states.length + symbols.length ∧
        ((Fragment.fragLiteral symbols).Build machine start).1.nextStateID =
          machine.nextStateID + symbols.length ∧
        ((Fragment.fragLiteral symbols).Build machine start).2 =
          (if symbols.length = 0 then start
            else machine.states.length + symbols.length - 1) ∧
        (∀ q, nfa.SameButOut
          (nfa.deref ((Fragment.fragLiteral symbols).Build machine start).1.states q)
          (nfa.deref machine.states q)) ∧
        (∀ q a,
          (nfa.deref ((Fragment.fragLiteral symbols).Build machine start).1.states
            q).OutgoingFor a =
            (nfa.deref machine.states q).OutgoingFor a ++
              literalEdges start machine.states.length symbols q a) ∧
        (∀ i, i < symbols.length →
          (nfa.deref ((Fragment.fragLiteral symbols).Build machine start).1.states
            (machine.states.length + i)).id = machine.nextStateID + i) ∧
        (∀ q, q < machine.states.length →
          (nfa.deref ((Fragment.fragLiteral symbols).Build machine start).1.states q).id =
            (nfa.deref machine.states q).id) ∧
        (0 < symbols.length →
          (nfa.deref ((Fragment.fragLiteral symbols).Build machine start).1.states
            ((Fragment.fragLiteral symbols).Build machine start).2).edge = none ∧
          (nfa.deref ((Fragment.fragLiteral symbols).Build machine start).1.states
            ((Fragment.fragLiteral symbols).Build machine start).2).transitions = none) := by
  induction symbols with
  | nil =>
    intro machine start hb hs
    rw [literal_nil]
    refine ⟨rfl, rfl, rfl, fun q => nfa.sameButOut_refl _, fun q a => ?_,
      fun i hi => absurd hi (Nat.not_lt_zero _), fun q _ => rfl,
      fun h => absurd h (Nat.lt_irrefl _)⟩
    unfold literalEdges
    simp
  | cons a rest ih =>
    intro machine start hb hs
    rw [literal_cons]
    obtain ⟨a1, a2, a3⟩ := nfa.add_alloc machine start a
    obtain ⟨hb1, hs1, _⟩ := extends_add hb hs a
    obtain ⟨i1, i2, i3, i4, i5, i6, i7, i8⟩ := ih (machine.Add start a).1 (machine.Add start a).2
      hb1 hs1
    rw [a2] at i1 i3 i5 i6 i7
    rw [a3] at i2 i6
    have hid : ∀ q, (nfa.deref (machine.Add start a).1.states q).id =
        if q = machine.states.length then machine.nextStateID
        else (nfa.deref machine.states q).id := by
      intro q
      have := nfa.id_call machine (.Add start a) q
      simp only [nfa.Nfa.call, a1, and_true] at this
      exact this
    refine ⟨?_, ?_, ?_, ?_, ?_, ?_, ?_, ?_⟩
    · rw [i1, List.length_cons]; omega
    · rw [i2, List.length_cons]; omega
    · rw [i3, a1, List.length_cons]
      by_cases h0 : rest.length = 0
      · rw [if_pos h0, if_neg (Nat.succ_ne_zero _), h0]
        omega
      · rw [if_neg h0, if_neg (Nat.succ_ne_zero _)]
        omega
    · intro q
      exact nfa.sameButOut_trans (i4 q) (nfa.add_view hb hs a q).1
    · intro q b
      rw [i5 q b, a1, (nfa.add_view hb hs a q).2.1 b, literalEdges_cons start _ hs,
        List.append_assoc]
    · intro i hi
      cases i with
      | zero =>
        rw [Nat.add_zero, i7 _ (Nat.lt_succ_self _), hid, if_pos rfl, Nat.add_zero]
      | succ j =>
        have := i6 j (by rw [List.length_cons] at hi; omega)
        rw [show machine.states.length + (j + 1) = machine.states.length + 1 + j by omega,
          this]
        omega
    · intro q hq
      rw [i7 q (Nat.lt_succ_of_lt hq), hid, if_neg (Nat.ne_of_lt hq)]
    · intro _
      by_cases h0 : rest.length = 0
      · have hr : rest = [] := List.length_eq_zero.1 h0
        subst hr
        rw [literal_nil]
        have hne : (machine.Add start a).2 ≠ start := by rw [a1]; omega
        obtain ⟨e1, e2⟩ := (nfa.add_view hb hs a (machine.Add start a).2).2.2 hne
        rw [e1, e2, a1, nfa.deref_ge _ _ (Nat.le_refl _)]
        exact ⟨rfl, rfl⟩
      · exact i8 (Nat.pos_of_ne_zero h0)

end
end scanner

--THMS
/-! ## The claims about the literal and the sequence -/

/-- C21: `Literal` builds a chain of fresh states. For symbols `sym_1 .. sym_n` (`n >= 1`), a
machine of the API with `len` states and next id `k`, and a state `start` of it, the build
allocates exactly `n` states, with ids `k .. k + n - 1`; it attaches to every state the
transitions of the chain and no other (`sym_1` from `start` to the first new state,
`sym_(i+1)` from the `i`-th new state to the next one) and leaves epsilon transitions,
predicate transitions and acceptance as they are; it returns the last new state, which is
not accepting and has no outgoing transition. -/
theorem C21_literal_builds_chain {S V : Type} [Inhabited V] [DecidableEq S]
    (symbols : List S) (f : scanner.Fragment S) (hf : scanner.Literal symbols = .ok f)
    (machine : nfa.Nfa S V) (hb : nfa.Built machine) (start : Nat)
    (hs : start < machine.states.length) :
    (f.Build machine start).1.states.length = machine.states.length + symbols.length ∧
    (f.Build machine start).1.nextStateID = machine.nextStateID + symbols.length ∧
    (∀ i, i < symbols.length →
      (nfa.deref (f.Build machine start).1.states (machine.states.length + i)).ID =
        machine.nextStateID + i) ∧
    (∀ q a, (nfa.deref (f.Build machine start).1.states q).OutgoingFor a =
      (nfa.deref machine.states q).OutgoingFor a ++
        scanner.literalEdges start machine.states.length symbols q a) ∧
    (∀ q, nfa.SameButOut (nfa.deref (f.Build machine start).1.states q)
      (nfa.deref machine.states q)) ∧
    (f.Build machine start).2 = machine.states.length + symbols.length - 1 ∧
    (nfa.deref (f.Build machine start).1.states (f.Build machine start).2).ID =
      machine.nextStateID + symbols.length - 1 ∧
    (nfa.deref (f.Build machine start).1.states (f.Build machine start).2).IsAccepting =
      false ∧
    (nfa.deref (f.Build machine start).1.states (f.Build machine start).2).OutgoingSymbols =
      [] ∧
    (nfa.deref (f.Build machine start).1.states (f.Build machine start).2).Epsilon = [] ∧
    (nfa.deref (f.Build machine start).1.states
      (f.Build machine start).2).predicateTransitions = [] := by
  have hn : ¬ symbols.length = 0 := by
    intro h0
    unfold scanner.Literal at hf
    rw [if_pos h0] at hf
    cases hf
  have hfe : f = .fragLiteral symbols := by
    unfold scanner.Literal at hf
    rw [if_neg hn] at hf
    injection hf with hf
    exact hf.symm
  subst hfe
  obtain ⟨h1, h2, h3, h4, h5, h6, _, h8⟩ := scanner.literal_shape symbols machine start hb hs
  rw [if_neg hn] at h3
  obtain ⟨e1, e2⟩ := h8 (Nat.pos_of_ne_zero hn)
  have hex : nfa.deref machine.states (machine.states.length + symbols.length - 1) =
      nfa.State.fresh 0 := nfa.deref_ge _ _ (by omega)
  obtain ⟨s1, s2, _, s4⟩ := h4 (machine.states.length + symbols.length - 1)
  rw [hex] at s1 s2 s4
  refine ⟨h1, h2, h6, h5, h4, h3, ?_, ?_, ?_, ?_, ?_⟩
  · have := h6 (symbols.length - 1) (by omega)
    rw [h3, nfa.State.ID,
      show machine.states.length + symbols.length - 1 =
        machine.states.length + (symbols.length - 1) by omega, this]
    omega
  · rw [h3]
    unfold nfa.State.IsAccepting nfa.State.AcceptIdx
    rw [s2]
    rfl
  · unfold nfa.State.OutgoingSymbols
    rw [e1, e2]
  · rw [h3]; exact s1
  · rw [h3]; exact s4

/-- C21 on a new machine, for the literal of the symbols 7 and 8: two states with ids 1
and 2, a transition on 7 from the start state to state 1 and one on 8 from state 1 to
state 2, which is returned. -/
theorem C21_literal_builds_chain_witness :
    scanner.Literal [7, 8] = .ok (.fragLiteral [7, 8]) ∧
      (0 : Nat) < (nfa.New : nfa.Nfa Nat Nat).states.length ∧
      (scanner.Fragment.Build (.fragLiteral [7, 8]) (nfa.New : nfa.Nfa Nat Nat) 0).2 = 2 ∧
      (nfa.deref (scanner.Fragment.Build (.fragLiteral [7, 8])
        (nfa.New : nfa.Nfa Nat Nat) 0).1.states 0).OutgoingFor 7 = [1] ∧
      (nfa.deref (scanner.Fragment.Build (.fragLiteral [7, 8])
        (nfa.New : nfa.Nfa Nat Nat) 0).1.states 1).OutgoingFor 8 = [2] :=
  ⟨by rfl, by decide,
    (C21_literal_builds_chain [7, 8] _ (by rfl) (nfa.New : nfa.Nfa Nat Nat) nfa.Built.new 0
      (by decide)).2.2.2.2.2.1,
    (C21_literal_builds_chain [7, 8] _ (by rfl) (nfa.New : nfa.Nfa Nat Nat) nfa.Built.new 0
      (by decide)).2.2.2.1 0 7,
    (C21_literal_builds_chain [7, 8] _ (by rfl) (nfa.New : nfa.Nfa Nat Nat) nfa.Built.new 0
      (by decide)).2.2.2.1 1 8⟩

/-- C22: `Sequence` threads the anchor through its children. The build of
`Sequence(f_1 .. f_m)` is the build of `f_1` from the anchor, then of `f_2` from the exit of
`f_1`, and so on, each child once and in order, and returns the exit of `f_m`; without
children it returns the anchor and the machine as it was given. -/
theorem C22_sequence_threads_anchor {S V : Type} [Inhabited V] [DecidableEq S]
    (fs : List (scanner.Fragment S)) (machine : nfa.Nfa S V) (start : Nat) :
    (scanner.Sequence fs).Build machine start =
        fs.foldl (fun r f => f.Build r.1 r.2) (machine, start) ∧
      (scanner.Sequence ([] : List (scanner.Fragment S))).Build machine start =
        (machine, start) ∧
      ∀ f : scanner.Fragment S, (scanner.Sequence (fs ++ [f])).Build machine start =
        f.Build ((scanner.Sequence fs).Build machine start).1
          ((scanner.Sequence fs).Build machine start).2 := by
  have hfold : ∀ (l : List (scanner.Fragment S)) (m : nfa.Nfa S V) (s : Nat),
      (scanner.Sequence l).Build m s = l.foldl (fun r f => f.Build r.1 r.2) (m, s) := by
    intro l
    unfold scanner.Sequence
    induction l with
    | nil => intro m s; rw [scanner.build_sequence]; rfl
    | cons f l ih =>
      intro m s
      rw [scanner.build_sequence, scanner.sequence_loop_cons, ← scanner.build_sequence, ih]
      rfl
  refine ⟨hfold fs machine start, hfold [] machine start, fun f => ?_⟩
  rw [hfold, hfold, List.foldl_append]
  rfl
--END

/-! ## Building fragments: relations that every operation keeps -/

namespace scanner

section
variable {S V : Type} [Inhabited V] [DecidableEq S]

/-- A reflexive and transitive relation between machines that holds between a machine and
its successor under every operation holds between a machine and the machine after the build
of a fragment. -/
theorem build_rel (R : nfa.Nfa S V → nfa.Nfa S V → Prop) (hrefl : ∀ m, R m m)
    (htrans : ∀ m1 m2 m3, R m1 m2 → R m2 m3 → R m1 m3)
    (hcall : ∀ m c, R m (m.call c).1) (f : Fragment S) :
    ∀ (machine : nfa.Nfa S V) (start : Nat), R machine (f.Build machine start).1 := by
  have hadd : ∀ (m : nfa.Nfa S V) s a, R m (m.Add s a).1 := fun m s a => hcall m (.Add s a)
  have hnew : ∀ (m : nfa.Nfa S V), R m m.NewState.1 := fun m => hcall m .NewState
  have heps : ∀ (m : nfa.Nfa S V) s, R m (m.AddEpsilonTransition s).1 :=
    fun m s => hcall m (.AddEpsilonTransition s)
  have hcon : ∀ (m : nfa.Nfa S V) s t, R m (m.ConnectEpsilon s t) :=
    fun m s t => hcall m (.ConnectEpsilon s t)
  have hpred : ∀ (m : nfa.Nfa S V) s t fn, R m (m.AddPredicateTransition s t fn) :=
    fun m s t fn => hcall m (.AddPredicateTransition s t fn)
  induction f using Fragment.induct with
  | lit symbols =>
    induction symbols with
    | nil => intro machine start; rw [literal_nil]; exact hrefl _
    | cons a rest ih =>
      intro machine start
      rw [literal_cons]
      exact htrans _ _ _ (hadd _ _ _) (ih _ _)
  | seq fs ih =>
    intro machine start
    rw [build_sequence]
    induction fs generalizing machine start with
    | nil => exact hrefl _
    | cons f fs ihl =>
      rw [sequence_loop_cons]
      exact htrans _ _ _ (ih f (List.mem_cons_self _ _) machine start)
        (ihl (fun g hg => ih g (List.mem_cons_of_mem _ hg)) _ _)
  | any fs ih =>
    intro machine start
    rw [build_anyOf]
    refine htrans _ _ _ (hnew machine) ?_
    generalize machine.NewState.1 = m
    generalize machine.NewState.2 = e
    show R m (fragAnyOf.loop fs m start e)
    induction fs generalizing m with
    | nil => exact hrefl _
    | cons f fs ihl =>
      rw [anyOf_loop_cons]
      exact htrans _ _ _ (heps _ _)
        (htrans _ _ _ (ih f (List.mem_cons_self _ _) _ _)
          (htrans _ _ _ (hcon _ _ _)
            (ihl (fun g hg => ih g (List.mem_cons_of_mem _ hg)) _)))
  | rep f mn mx hm ih =>
    intro machine start
    rw [build_repeat]
    have h1 : R machine (fragRepeat.thread f.Build mn.toNat machine start).1 := by
      induction mn.toNat with
      | zero => exact hrefl _
      | succ k ihk => rw [thread_succ]; exact htrans _ _ _ ihk (ih _ _)
    generalize fragRepeat.thread f.Build mn.toNat machine start = cur at h1 ⊢
    have h2 := htrans _ _ _ h1 (htrans _ _ _ (hnew cur.1) (hcon _ cur.2 cur.1.NewState.2))
    simp only
    cases hm with
    | false =>
      simp only [Bool.not_false, if_true]
      exact htrans _ _ _ h2 (htrans _ _ _ (hcon _ _ _)
        (htrans _ _ _ (heps _ _)
          (htrans _ _ _ (ih _ _) (htrans _ _ _ (hcon _ _ _) (hcon _ _ _)))))
    | true =>
      simp only [Bool.not_true, Bool.false_eq_true, if_false]
      split
      · exact h2
      · refine htrans _ _ _ h2 ?_
        generalize cur.1.NewState.1.ConnectEpsilon cur.2 cur.1.NewState.2 = m1
        induction (mx - mn).toNat with
        | zero => exact hrefl _
        | succ k ihk =>
          rw [optional_succ]
          exact htrans _ _ _ ihk (htrans _ _ _ (heps _ _)
            (htrans _ _ _ (ih _ _) (hcon _ _ _)))
  | set frag =>
    intro machine start
    rw [build_symbolSet]
    unfold fragSymbolSet.Build
    exact htrans _ _ _ (hnew machine) (hpred _ _ _ _)

end
end scanner

namespace nfa

theorem frozen_refl {S V : Type} [Inhabited V] (m : Nfa S V) : Frozen m m :=
  ⟨Nat.le_refl _, fun _ _ => ⟨rfl, rfl, rfl⟩⟩

theorem frozen_trans {S V : Type} [Inhabited V] {m1 m2 m3 : Nfa S V} (h1 : Frozen m1 m2)
    (h2 : Frozen m2 m3) : Frozen m1 m3 := by
  refine ⟨Nat.le_trans h1.1 h2.1, fun q hq => ?_⟩
  obtain ⟨a1, a2, a3⟩ := h1.2 q hq
  obtain ⟨b1, b2, b3⟩ := h2.2 q (Nat.lt_of_lt_of_le hq h1.1)
  exact ⟨b1.trans a1, b2.trans a2, b3.trans a3⟩

theorem frozen_of_call {S V : Type} [Inhabited V] [DecidableEq S] (n : Nfa S V)
    (c : Call S V) : Frozen n (n.call c).1 :=
  ⟨by rw [(alloc_call n c).2.1]; exact Nat.le_add_right _ _,
    fun q hq => frozen_call n c q (Or.inl (Nat.ne_of_lt hq))⟩

end nfa

namespace scanner

/-- Building a fragment keeps the states of the machine, with their ids, accept indices and
values. -/
theorem build_frozen {S V : Type} [Inhabited V] [DecidableEq S] (f : Fragment S)
    (machine : nfa.Nfa S V) (start : Nat) : nfa.Frozen machine (f.Build machine start).1 :=
  build_rel nfa.Frozen nfa.frozen_refl (fun _ _ _ h1 h2 => nfa.frozen_trans h1 h2)
    nfa.frozen_of_call f machine start

end scanner

/-! ## The alternative of literals -/

namespace scanner

theorem anyOfEntries_ge {S : Type} (lits : List (List S)) :
    ∀ (len y : Nat), y ∈ anyOfEntries len lits → len ≤ y := by
  induction lits with
  | nil => intro len y h; cases h
  | cons l rest ih =>
    intro len y h
    rcases List.mem_cons.1 h with h | h
    · exact Nat.le_of_eq h.symm
    · have := ih _ y h
      omega

theorem anyOfExits_ge {S : Type} (lits : List (List S)) :
    ∀ (len y : Nat), y ∈ anyOfExits len lits → len ≤ y := by
  induction lits with
  | nil => intro len y h; cases h
  | cons l rest ih =>
    intro len y h
    rcases List.mem_cons.1 h with h | h
    · omega
    · have := ih _ y h
      omega

theorem anyOfEntries_length {S : Type} (lits : List (List S)) :
    ∀ len : Nat, (anyOfEntries len lits).length = lits.length := by
  induction lits with
  | nil => intro len; rfl
  | cons l rest ih => intro len; simp [anyOfEntries, ih]

theorem anyOfExits_length {S : Type} (lits : List (List S)) :
    ∀ len : Nat, (anyOfExits len lits).length = lits.length := by
  induction lits with
  | nil => intro len; rfl
  | cons l rest ih => intro len; simp [anyOfExits, ih]

theorem anyOfEntries_nodup {S : Type} (lits : List (List S)) :
    ∀ len : Nat, (anyOfEntries len lits).Nodup := by
  induction lits with
  | nil => intro len; exact List.nodup_nil
  | cons l rest ih =>
    intro len
    refine List.nodup_cons.2 ⟨fun h => ?_, ih _⟩
    have := anyOfEntries_ge rest _ _ h
    omega

/-- The exit of a branch is its entry moved by the length of its literal. -/
theorem anyOfExits_getElem? {S : Type} (lits : List (List S)) :
    ∀ (len i : Nat) (e : Nat) (l : List S), (anyOfEntries len lits)[i]? = some e →
      lits[i]? = some l → (anyOfExits len lits)[i]? = some (e + l.length) := by
  induction lits with
  | nil => intro len i e l h; simp [anyOfEntries] at h
  | cons l0 rest ih =>
    intro len i e l h hl
    cases i with
    | zero =>
      simp only [anyOfEntries, anyOfExits, List.getElem?_cons_zero, Option.some.injEq] at h hl ⊢
      rw [← h, ← hl]
    | succ i =>
      simp only [anyOfEntries, anyOfExits, List.getElem?_cons_succ] at h hl ⊢
      exact ih _ i e l h hl

section
variable {S V : Type} [Inhabited V] [DecidableEq S]

/-- The loop of `fragAnyOf.Build` over literals: every branch gets a fresh entry, attached
to the anchor, and the chain of its literal, whose last state is attached to the exit. -/
theorem anyOf_loop_shape (lits : List (List S)) :
    ∀ (m : nfa.Nfa S V) (start e : Nat), nfa.Built m → start < m.states.length →
      e < m.states.length →
      nfa.Built (fragAnyOf.loop (lits.map Fragment.fragLiteral) m start e) ∧
      m.states.length ≤
        (fragAnyOf.loop (lits.map Fragment.fragLiteral) m start e).states.length ∧
      (∀ y ∈ anyOfEntries m.states.length lits,
        y < (fragAnyOf.loop (lits.map Fragment.fragLiteral) m start e).states.length) ∧
      (∀ q,
        (nfa.deref (fragAnyOf.loop (lits.map Fragment.fragLiteral) m start e).states
          q).eTransitions =
          (nfa.deref m.states q).eTransitions ++
            (if q = start then anyOfEntries m.states.length lits
              else if q ∈ anyOfExits m.states.length lits then [e] else [])) ∧
      (∀ q, q < m.states.length → ∀ a,
        (nfa.deref (fragAnyOf.loop (lits.map Fragment.fragLiteral) m start e).states
          q).OutgoingFor a = (nfa.deref m.states q).OutgoingFor a) := by
  induction lits with
  | nil =>
    intro m start e hb hs he
    refine ⟨hb, Nat.le_refl _, fun y hy => (by cases hy), fun q => ?_, fun q _ a => rfl⟩
    show (nfa.deref m.states q).eTransitions = _
    simp [anyOfEntries, anyOfExits]
  | cons l rest ih =>
    intro m start e hb hs he
    rw [List.map_cons, anyOf_loop_cons]
    obtain ⟨b1, b2, b3⟩ := nfa.addEpsilon_alloc m start
    obtain ⟨hb1, hs1, _⟩ := extends_addEpsilon hb hs
    obtain ⟨k1, _, k3, k4, k5, _, _, _⟩ := literal_shape l (m.AddEpsilonTransition start).1
      (m.AddEpsilonTransition start).2 hb1 hs1
    obtain ⟨hb2, hs2, _⟩ := build_extends (Fragment.fragLiteral l) _ _ hb1 hs1
    rw [b2] at k1
    have hx : ((Fragment.fragLiteral l).Build (m.AddEpsilonTransition start).1
        (m.AddEpsilonTransition start).2).2 = m.states.length + l.length := by
      rw [k3, b1, b2]
      by_cases h0 : l.length = 0
      · rw [if_pos h0, h0]; rfl
      · rw [if_neg h0]; omega
    have he2 : e < ((Fragment.fragLiteral l).Build (m.AddEpsilonTransition start).1
        (m.AddEpsilonTransition start).2).1.states.length := by rw [k1]; omega
    obtain ⟨hb3, hl3⟩ := built_connect hb2 hs2 he2
    obtain ⟨r1, r2, r3, r4, r5⟩ := ih _ start e hb3 (by rw [hl3, k1]; omega)
      (by rw [hl3]; exact he2)
    rw [hl3, k1] at r2 r3 r4 r5
    refine ⟨r1, by omega, ?_, ?_, ?_⟩
    · intro y hy
      rcases List.mem_cons.1 hy with h | h
      · omega
      · exact r3 y h
    · intro q
      rw [r4 q, (nfa.connect_view _ hs2 e q).2, (k4 q).1,
        (nfa.addEpsilon_view m hs q).2, hx]
      by_cases h1 : q = start
      · have h2 : ¬ q = m.states.length + l.length := by omega
        simp only [h1, if_true, anyOfEntries]
        rw [← h1, if_neg h2]
        simp
      · simp only [h1, if_false, List.append_nil, anyOfExits, List.mem_cons]
        by_cases h2 : q = m.states.length + l.length
        · have h3 : q ∉ anyOfExits (m.states.length + 1 + l.length) rest := by
            intro hc
            have := anyOfExits_ge rest _ _ hc
            omega
          simp only [h2, if_true, true_or]
          rw [← h2, if_neg h3, List.append_nil]
        · simp only [h2, if_false, List.append_nil, false_or]
    · intro q hq a
      rw [r5 q (by omega) a,
        nfa.outgoingFor_congr _ _ (nfa.connect_view _ hs2 e q).1.1
          (nfa.connect_view _ hs2 e q).1.2.1 a, k5 q a,
        nfa.outgoingFor_congr _ _ (nfa.addEpsilon_view m hs q).1.1
          (nfa.addEpsilon_view m hs q).1.2.1 a]
      have : literalEdges (m.AddEpsilonTransition start).2
          (m.AddEpsilonTransition start).1.states.length l q a = [] := by
        unfold literalEdges
        rw [b1, b2, if_neg (Nat.ne_of_lt hq), if_neg (fun h => by omega)]
      rw [this, List.append_nil]

end
end scanner

--THMS
/-- C23: `AnyOf` builds a Thompson-style alternation. For `m >= 2` branches that are
literals, a machine of the API with `len` states and a state `start` of it, the build
returns the state `len`, which carries the next id of the machine: the common exit, allocated
before every state of a branch. It appends to the epsilon list of `start` exactly the `m`
entries of the branches, in branch order; these are fresh states, pairwise distinct,
allocated after the exit. The exit of the branch `i` (the state that the build of its literal
returns from its entry, which is the entry moved by the length of the literal) has exactly
one epsilon transition, to the common exit. No concrete-symbol transition is added to
`start`. -/
theorem C23_anyOf_thompson_alternation {S V : Type} [Inhabited V] [DecidableEq S]
    (lits : List (List S)) (g : scanner.Fragment S)
    (hg : scanner.AnyOf (lits.map scanner.Fragment.fragLiteral) = .ok g)
    (machine : nfa.Nfa S V) (hb : nfa.Built machine) (start : Nat)
    (hs : start < machine.states.length) :
    (g.Build machine start).2 = machine.states.length ∧
    (nfa.deref (g.Build machine start).1.states (g.Build machine start).2).ID =
      machine.nextStateID ∧
    (nfa.deref (g.Build machine start).1.states start).Epsilon =
      (nfa.deref machine.states start).Epsilon ++
        scanner.anyOfEntries (machine.states.length + 1) lits ∧
    (scanner.anyOfEntries (machine.states.length + 1) lits).length = lits.length ∧
    (scanner.anyOfEntries (machine.states.length + 1) lits).Nodup ∧
    (∀ y ∈ scanner.anyOfEntries (machine.states.length + 1) lits,
      machine.states.length < y ∧ y < (g.Build machine start).1.states.length) ∧
    (∀ (i e : Nat) (l : List S),
      (scanner.anyOfEntries (machine.states.length + 1) lits)[i]? = some e →
      lits[i]? = some l →
      (nfa.deref (g.Build machine start).1.states (e + l.length)).Epsilon =
          [machine.states.length] ∧
        ∀ m1 : nfa.Nfa S V, nfa.Built m1 → m1.states.length = e + 1 →
          ((scanner.Fragment.fragLiteral l).Build m1 e).2 = e + l.length) ∧
    ∀ a, (nfa.deref (g.Build machine start).1.states start).OutgoingFor a =
      (nfa.deref machine.states start).OutgoingFor a := by
  have hge : g = .fragAnyOf (lits.map scanner.Fragment.fragLiteral) := by
    unfold scanner.AnyOf at hg
    split at hg
    · cases hg
    · injection hg with hg
      exact hg.symm
  subst hge
  obtain ⟨n1, n2, n3⟩ := nfa.newState_alloc machine
  obtain ⟨hb1, hs1, _⟩ := scanner.extends_newState hb
  obtain ⟨r1, r2, r3, r4, r5⟩ := scanner.anyOf_loop_shape lits machine.NewState.1 start
    machine.NewState.2 hb1 (by rw [n2]; omega) hs1
  rw [n2] at r2 r3 r4 r5
  have e4 : ∀ q,
      (nfa.deref (scanner.fragAnyOf.loop (lits.map scanner.Fragment.fragLiteral)
        machine.NewState.1 start machine.NewState.2).states q).eTransitions =
        (nfa.deref machine.states q).eTransitions ++
          (if q = start then scanner.anyOfEntries (machine.states.length + 1) lits
            else if q ∈ scanner.anyOfExits (machine.states.length + 1) lits then
              [machine.states.length] else []) := by
    intro q
    rw [r4 q, n1, (nfa.newState_view machine q).2]
  rw [scanner.build_anyOf]
  simp only
  refine ⟨n1, ?_, ?_, scanner.anyOfEntries_length _ _, scanner.anyOfEntries_nodup _ _, ?_, ?_,
    ?_⟩
  · have hid := nfa.id_call machine .NewState machine.states.length
    simp only [nfa.Nfa.call, n1, and_self, if_true] at hid
    have hgen : ∀ (fs : List (scanner.Fragment S)) (m : nfa.Nfa S V) (s e : Nat),
        nfa.Frozen m (scanner.fragAnyOf.loop fs m s e) := by
      intro fs
      induction fs with
      | nil => intro m s e; exact nfa.frozen_refl _
      | cons f fs ihl =>
        intro m s e
        rw [scanner.anyOf_loop_cons]
        exact nfa.frozen_trans (nfa.frozen_of_call m (.AddEpsilonTransition s))
          (nfa.frozen_trans (scanner.build_frozen f _ _)
            (nfa.frozen_trans (nfa.frozen_of_call _ (.ConnectEpsilon _ e)) (ihl _ _ _)))
    rw [nfa.State.ID, ((hgen _ _ _ _).2 machine.NewState.2 hs1).1, n1, hid]
  · unfold nfa.State.Epsilon
    rw [e4 start, if_pos rfl]
  · intro y hy
    exact ⟨by have := scanner.anyOfEntries_ge lits _ _ hy; omega, r3 y hy⟩
  · intro i e l hi hl
    constructor
    · have hx := scanner.anyOfExits_getElem? lits _ i e l hi hl
      have hmem := List.getElem?_mem hx
      have hge := scanner.anyOfEntries_ge lits _ _ (List.getElem?_mem hi)
      unfold nfa.State.Epsilon
      rw [e4 (e + l.length), if_neg (by omega), if_pos hmem, nfa.deref_ge _ _ (by omega)]
      rfl
    · intro m1 hm1 hlen
      rw [(scanner.literal_shape l m1 e hm1 (by omega)).2.2.1, hlen]
      by_cases h0 : l.length = 0
      · rw [if_pos h0, h0]; rfl
      · rw [if_neg h0]; omega
  · intro a
    rw [r5 start (by omega) a]
    exact nfa.outgoingFor_congr _ _ (nfa.newState_view machine start).1.1
      (nfa.newState_view machine start).1.2.1 a

/-- C23 on a new machine, for the alternative of the literals `7 8` and `9`: the exit is
state 1, the entries of the branches are the states 2 and 5, and the exit of the second
branch, state 6, has its one epsilon transition to state 1. -/
theorem C23_anyOf_thompson_alternation_witness :
    scanner.AnyOf ([[7, 8], [9]].map scanner.Fragment.fragLiteral) =
        .ok (.fragAnyOf ([[7, 8], [9]].map scanner.Fragment.fragLiteral)) ∧
      (0 : Nat) < (nfa.New : nfa.Nfa Nat Nat).states.length ∧
      (nfa.deref (scanner.Fragment.Build
        (.fragAnyOf ([[7, 8], [9]].map scanner.Fragment.fragLiteral))
        (nfa.New : nfa.Nfa Nat Nat) 0).1.states 0).Epsilon = [2, 5] ∧
      (nfa.deref (scanner.Fragment.Build
        (.fragAnyOf ([[7, 8], [9]].map scanner.Fragment.fragLiteral))
        (nfa.New : nfa.Nfa Nat Nat) 0).1.states 6).Epsilon = [1] :=
  ⟨by rfl, by decide,
    (C23_anyOf_thompson_alternation [[7, 8], [9]] _ (by rfl) (nfa.New : nfa.Nfa Nat Nat)
      nfa.Built.new 0 (by decide)).2.2.1,
    ((C23_anyOf_thompson_alternation [[7, 8], [9]] _ (by rfl) (nfa.New : nfa.Nfa Nat Nat)
      nfa.Built.new 0 (by decide)).2.2.2.2.2.2.1 1 5 [9] (by rfl) (by rfl)).1⟩
--END

--THMS
/-! ## The unbounded repetition of a literal -/

namespace scanner

section
variable {S V : Type} [Inhabited V] [DecidableEq S]

/-- The epsilon transitions after the build of `RepeatAtLeast` of a literal: with `current`
the state that threading the literal `k` times reaches and `len` the number of states then,
the build returns the state `len`; it appends to the epsilon list of `current` the exit
twice and then the body start `len + 1`, and gives the body exit the epsilon list of the
body start and the exit; no other epsilon list changes. -/
theorem repeatAtLeast_eps (symbols : List S) (k : Nat) (machine : nfa.Nfa S V)
    (hb : nfa.Built machine) (start : Nat) (hs : start < machine.states.length) :
    ((Fragment.fragRepeat (.fragLiteral symbols) (k : Int) 0 false).Build machine start).2 =
      (fragRepeat.thread (Fragment.fragLiteral symbols).Build k machine start).1.states.length ∧
    ∀ q,
      (nfa.deref ((Fragment.fragRepeat (.fragLiteral symbols) (k : Int) 0 false).Build machine
        start).1.states q).eTransitions =
      (nfa.deref (fragRepeat.thread (Fragment.fragLiteral symbols).Build k machine
        start).1.states q).eTransitions ++
        (if q = (fragRepeat.thread (Fragment.fragLiteral symbols).Build k machine start).2 then
          [(fragRepeat.thread (Fragment.fragLiteral symbols).Build k machine
              start).1.states.length,
            (fragRepeat.thread (Fragment.fragLiteral symbols).Build k machine
              start).1.states.length,
            (fragRepeat.thread (Fragment.fragLiteral symbols).Build k machine
              start).1.states.length + 1]
          else []) ++
        (if q = (fragRepeat.thread (Fragment.fragLiteral symbols).Build k machine
            start).1.states.length + 1 + symbols.length then
          [(fragRepeat.thread (Fragment.fragLiteral symbols).Build k machine
              start).1.states.length + 1,
            (fragRepeat.thread (Fragment.fragLiteral symbols).Build k machine
              start).1.states.length]
          else []) := by
  rw [build_repeat]
  obtain ⟨h1, h2, _⟩ := extends_thread (Fragment.fragLiteral symbols).Build
    (fun m s hm hsm => build_extends _ m s hm hsm) k machine start hb hs
  simp only [Int.toNat_ofNat, Bool.not_false, if_true]
  generalize fragRepeat.thread (Fragment.fragLiteral symbols).Build k machine start = cur
    at h1 h2 ⊢
  obtain ⟨n1, n2, _⟩ := nfa.newState_alloc cur.1
  obtain ⟨hb1, hs1, _⟩ := extends_newState h1
  have hc : cur.2 < cur.1.NewState.1.states.length := by omega
  obtain ⟨hb2, l2⟩ := built_connect hb1 hc hs1
  have hc2 : cur.2 < (cur.1.NewState.1.ConnectEpsilon cur.2 cur.1.NewState.2).states.length := by
    omega
  obtain ⟨hb3, l3⟩ := built_connect hb2 hc2 (show cur.1.NewState.2 < _ by omega)
  have hc3 : cur.2 < ((cur.1.NewState.1.ConnectEpsilon cur.2 cur.1.NewState.2).ConnectEpsilon
      cur.2 cur.1.NewState.2).states.length := by omega
  obtain ⟨a1, a2, _⟩ := nfa.addEpsilon_alloc ((cur.1.NewState.1.ConnectEpsilon cur.2
    cur.1.NewState.2).ConnectEpsilon cur.2 cur.1.NewState.2) cur.2
  obtain ⟨hb4, hs4, _⟩ := extends_addEpsilon hb3 hc3
  obtain ⟨k1, _, k3, k4, _, _, _, _⟩ := literal_shape symbols _ _ hb4 hs4
  obtain ⟨hb5, hs5, _⟩ := build_extends (Fragment.fragLiteral symbols) _ _ hb4 hs4
  have hx : ((Fragment.fragLiteral symbols).Build
      (((cur.1.NewState.1.ConnectEpsilon cur.2 cur.1.NewState.2).ConnectEpsilon cur.2
        cur.1.NewState.2).AddEpsilonTransition cur.2).1
      (((cur.1.NewState.1.ConnectEpsilon cur.2 cur.1.NewState.2).ConnectEpsilon cur.2
        cur.1.NewState.2).AddEpsilonTransition cur.2).2).2 =
      cur.1.states.length + 1 + symbols.length := by
    rw [k3, a1, a2, l3, l2, n2]
    by_cases h0 : symbols.length = 0
    · rw [if_pos h0, h0]
    · rw [if_neg h0]; omega
  obtain ⟨hb6, l6⟩ := built_connect hb5 hs5 (show (((cur.1.NewState.1.ConnectEpsilon cur.2
    cur.1.NewState.2).ConnectEpsilon cur.2 cur.1.NewState.2).AddEpsilonTransition cur.2).2 < _
    by rw [k1, a1, a2]; omega)
  refine ⟨n1, fun q => ?_⟩
  rw [(nfa.connect_view _ (show _ < _ by rw [l6]; exact hs5) _ q).2,
    (nfa.connect_view _ hs5 _ q).2, (k4 q).1, (nfa.addEpsilon_view _ hc3 q).2,
    (nfa.connect_view _ hc2 _ q).2, (nfa.connect_view _ hc _ q).2,
    (nfa.newState_view cur.1 q).2, hx, a1, l3, l2, n2, n1]
  by_cases q1 : q = cur.2
  · subst q1
    have q2 : ¬ cur.2 = cur.1.states.length + 1 + symbols.length := by omega
    simp [q2]
  · by_cases q2 : q = cur.1.states.length + 1 + symbols.length
    · subst q2
      have q3 : ¬ cur.1.states.length + 1 + symbols.length = cur.2 := by omega
      simp [q3]
    · simp [q1, q2]

end
end scanner

/-- C24 fails as stated: the build of `RepeatAtLeast(min, f)` connects the state `current` to
the exit twice. On a new machine, for every `min >= 0` and every literal, with `current` the
state that threading the literal `min` times from the start state reaches and `len` the
number of states then, the build returns the exit `len`, appends to the epsilon list of
`current` three targets, the exit, the exit again and the body start `len + 1`, and gives the
body exit the epsilon list of the body start and the exit. For `min = 1` and the literal of
the symbol 7 the epsilon list of `current`, state 1, is `[2, 2, 3]`. -/
theorem C24_repeatAtLeast_connects_exit_twice :
    (∀ (S V : Type) [Inhabited V] [DecidableEq S] (min : Nat) (symbols : List S),
      scanner.RepeatAtLeast (min : Int) (.fragLiteral symbols) =
          .ok (.fragRepeat (.fragLiteral symbols) (min : Int) 0 false) ∧
        ((scanner.Fragment.fragRepeat (.fragLiteral symbols) (min : Int) 0 false).Build
          (nfa.New : nfa.Nfa S V) (nfa.New : nfa.Nfa S V).Start).2 =
          (scanner.fragRepeat.thread (scanner.Fragment.fragLiteral symbols).Build min
            (nfa.New : nfa.Nfa S V) (nfa.New : nfa.Nfa S V).Start).1.states.length ∧
        (nfa.deref ((scanner.Fragment.fragRepeat (.fragLiteral symbols) (min : Int) 0
          false).Build (nfa.New : nfa.Nfa S V) (nfa.New : nfa.Nfa S V).Start).1.states
          (scanner.fragRepeat.thread (scanner.Fragment.fragLiteral symbols).Build min
            (nfa.New : nfa.Nfa S V) (nfa.New : nfa.Nfa S V).Start).2).Epsilon =
          (nfa.deref (scanner.fragRepeat.thread (scanner.Fragment.fragLiteral symbols).Build min
            (nfa.New : nfa.Nfa S V) (nfa.New : nfa.Nfa S V).Start).1.states
            (scanner.fragRepeat.thread (scanner.Fragment.fragLiteral symbols).Build min
              (nfa.New : nfa.Nfa S V) (nfa.New : nfa.Nfa S V).Start).2).Epsilon ++
            [(scanner.fragRepeat.thread (scanner.Fragment.fragLiteral symbols).Build min
                (nfa.New : nfa.Nfa S V) (nfa.New : nfa.Nfa S V).Start).1.states.length,
              (scanner.fragRepeat.thread (scanner.Fragment.fragLiteral symbols).Build min
                (nfa.New : nfa.Nfa S V) (nfa.New : nfa.Nfa S V).Start).1.states.length,
              (scanner.fragRepeat.thread (scanner.Fragment.fragLiteral symbols).Build min
                (nfa.New : nfa.Nfa S V) (nfa.New : nfa.Nfa S V).Start).1.states.length + 1] ∧
        (nfa.deref ((scanner.Fragment.fragRepeat (.fragLiteral symbols) (min : Int) 0
          false).Build (nfa.New : nfa.Nfa S V) (nfa.New : nfa.Nfa S V).Start).1.states
          ((scanner.fragRepeat.thread (scanner.Fragment.fragLiteral symbols).Build min
            (nfa.New : nfa.Nfa S V) (nfa.New : nfa.Nfa S V).Start).1.states.length + 1 +
            symbols.length)).Epsilon =
          [(scanner.fragRepeat.thread (scanner.Fragment.fragLiteral symbols).Build min
              (nfa.New : nfa.Nfa S V) (nfa.New : nfa.Nfa S V).Start).1.states.length + 1,
            (scanner.fragRepeat.thread (scanner.Fragment.fragLiteral symbols).Build min
              (nfa.New : nfa.Nfa S V) (nfa.New : nfa.Nfa S V).Start).1.states.length]) ∧
    (nfa.deref ((scanner.Fragment.fragRepeat (.fragLiteral [7]) 1 0 false).Build
      (nfa.New : nfa.Nfa Nat Nat) 0).1.states 1).Epsilon = [2, 2, 3] := by
  refine ⟨?_, by rfl⟩
  intro S V _ _ min symbols
  have hs : (nfa.New : nfa.Nfa S V).Start < (nfa.New : nfa.Nfa S V).states.length := by
    show 0 < 1
    exact Nat.one_pos
  obtain ⟨h1, h2⟩ := scanner.repeatAtLeast_eps symbols min (nfa.New : nfa.Nfa S V)
    nfa.Built.new _ hs
  obtain ⟨e1, e2, _⟩ := scanner.extends_thread (scanner.Fragment.fragLiteral symbols).Build
    (fun m s hm hsm => scanner.build_extends _ m s hm hsm) min (nfa.New : nfa.Nfa S V) _
    nfa.Built.new hs
  refine ⟨?_, h1, ?_, ?_⟩
  · unfold scanner.RepeatAtLeast
    rw [if_neg (by omega)]
  · unfold nfa.State.Epsilon
    rw [h2, if_pos rfl, if_neg (by omega), List.append_nil]
  · unfold nfa.State.Epsilon
    rw [h2, if_neg (by omega), if_pos rfl, nfa.deref_ge _ _ (by omega)]
    rfl
--END

--THMS
/-! ## The bounded repetition with equal bounds -/

namespace scanner

section
variable {S V : Type} [Inhabited V] [DecidableEq S]

theorem sequence_loop_foldl (l : List (Fragment S)) :
    ∀ (m : nfa.Nfa S V) (s : Nat),
      fragSequence.loop l m s = l.foldl (fun r f => f.Build r.1 r.2) (m, s) := by
  induction l with
  | nil => intro m s; rfl
  | cons f l ih =>
    intro m s
    rw [sequence_loop_cons, ih]
    rfl

/-- Threading a fragment `k` times is building the sequence of `k` copies of it. -/
theorem thread_eq_sequence (f : Fragment S) (k : Nat) (m : nfa.Nfa S V) (s : Nat) :
    fragRepeat.thread f.Build k m s = (Sequence (List.replicate k f)).Build m s := by
  unfold Sequence
  rw [build_sequence, sequence_loop_foldl]
  induction k with
  | zero => rfl
  | succ k ih =>
    rw [thread_succ, ih, List.replicate_succ', List.foldl_append]
    rfl

end
end scanner

namespace nfa

section
variable {S V : Type} [Inhabited V] [DecidableEq S]

/-- A fresh state with one epsilon transition into it, from a state `x` of the machine, is
reached by the words that reach `x`; the other states are reached as before. -/
theorem reaches_extend {n : Nfa S V} (hb : Built n) {x s : Nat} (hx : x < n.states.length)
    (hs : s < n.states.length) (w : List S) (y : Nat) :
    Reaches { n.NewState.1.ConnectEpsilon x n.NewState.2 with startState := s } w y ↔
      Reaches { n with startState := s } w y ∨
        (y = n.states.length ∧ Reaches { n with startState := s } w x) := by
  obtain ⟨n1, n2, _⟩ := newState_alloc n
  have hx1 : x < n.NewState.1.states.length := by omega
  have heps : ∀ q, (deref (n.NewState.1.ConnectEpsilon x n.NewState.2).states q).Epsilon =
      (deref n.states q).Epsilon ++ if q = x then [n.states.length] else [] := by
    intro q
    unfold State.Epsilon
    rw [(connect_view _ hx1 _ q).2, (newState_view n q).2, n1]
  have hsym : ∀ a q z, SymStep (n.NewState.1.ConnectEpsilon x n.NewState.2).states a q z ↔
      SymStep n.states a q z := by
    intro a q z
    have v := sameButEps_trans (connect_view _ hx1 n.NewState.2 q).1 (newState_view n q).1
    unfold SymStep
    rw [outgoingFor_congr _ _ v.1 v.2.1 a, v.2.2.2.2]
  have hwf : Nfa.WF { n with startState := s } := ⟨hs, (built_wf n hb).2⟩
  have hdef : deref n.states n.states.length = State.fresh 0 := deref_ge _ _ (Nat.le_refl _)
  constructor
  · intro h
    induction h with
    | start => exact Or.inl Reaches.start
    | @eps w y0 y _ hy ih =>
      change y ∈ (deref (n.NewState.1.ConnectEpsilon x n.NewState.2).states y0).Epsilon at hy
      rw [heps y0] at hy
      rcases ih with ih | ⟨rfl, _⟩
      · rcases List.mem_append.1 hy with h1 | h1
        · exact Or.inl (Reaches.eps ih h1)
        · by_cases hq : y0 = x
          · rw [if_pos hq, List.mem_singleton] at h1
            subst hq
            exact Or.inr ⟨h1, ih⟩
          · rw [if_neg hq] at h1
            cases h1
      · rw [hdef, if_neg (Nat.ne_of_gt hx)] at hy
        cases hy
    | @sym w a y0 y _ hy ih =>
      change SymStep (n.NewState.1.ConnectEpsilon x n.NewState.2).states a y0 y at hy
      rw [hsym] at hy
      rcases ih with ih | ⟨rfl, _⟩
      · exact Or.inl (Reaches.sym ih hy)
      · unfold SymStep at hy
        rw [hdef] at hy
        rcases hy with hy | ⟨pt, hpt, _⟩
        · cases hy
        · cases hpt
  · have hmono : ∀ w y, Reaches { n with startState := s } w y →
        Reaches { n.NewState.1.ConnectEpsilon x n.NewState.2 with startState := s } w y := by
      intro w y h
      induction h with
      | start => exact Reaches.start
      | @eps w y0 y _ hy ih =>
        refine Reaches.eps ih ?_
        change y ∈ (deref (n.NewState.1.ConnectEpsilon x n.NewState.2).states y0).Epsilon
        rw [heps y0]
        exact List.mem_append_left _ hy
      | @sym w a y0 y _ hy ih =>
        refine Reaches.sym ih ?_
        change SymStep (n.NewState.1.ConnectEpsilon x n.NewState.2).states a y0 y
        rw [hsym]
        exact hy
    rintro (h | ⟨rfl, h⟩)
    · exact hmono w y h
    · refine Reaches.eps (hmono w x h) ?_
      change n.states.length ∈
        (deref (n.NewState.1.ConnectEpsilon x n.NewState.2).states x).Epsilon
      rw [heps x, if_pos rfl]
      exact List.mem_append_right _ (List.mem_singleton.2 rfl)

end
end nfa

/-- C26: `RepeatBetween(k, k, f)` is equivalent to `Sequence(f, ..., f)` with `k` copies. For
every `k >= 0`, fragment `f`, machine of the API and state `start` of it, the build of the
repetition gives the machine that the build of the sequence gives, followed by one fresh
state and one epsilon transition from the exit of the sequence to it, and returns the fresh
state; a word leads from `start` to that state exactly when it leads from `start` to the exit
of the sequence in the machine of the sequence. -/
theorem C26_repeatBetween_equal_bounds {S V : Type} [Inhabited V] [DecidableEq S] (k : Nat)
    (f g : scanner.Fragment S) (hg : scanner.RepeatBetween (k : Int) (k : Int) f = .ok g)
    (machine : nfa.Nfa S V) (hb : nfa.Built machine) (start : Nat)
    (hs : start < machine.states.length) :
    g.Build machine start =
      (((scanner.Sequence (List.replicate k f)).Build machine start).1.NewState.1.ConnectEpsilon
          ((scanner.Sequence (List.replicate k f)).Build machine start).2
          ((scanner.Sequence (List.replicate k f)).Build machine start).1.NewState.2,
        ((scanner.Sequence (List.replicate k f)).Build machine start).1.NewState.2) ∧
    ∀ w : List S,
      nfa.Reaches { (g.Build machine start).1 with startState := start } w
          (g.Build machine start).2 ↔
        nfa.Reaches
          { ((scanner.Sequence (List.replicate k f)).Build machine start).1 with
            startState := start } w
          ((scanner.Sequence (List.replicate k f)).Build machine start).2 := by
  have hge : g = .fragRepeat f (k : Int) (k : Int) true := by
    unfold scanner.RepeatBetween at hg
    rw [if_neg (by omega), if_neg (by omega)] at hg
    injection hg with hg
    exact hg.symm
  subst hge
  have heq : scanner.Fragment.Build (.fragRepeat f (k : Int) (k : Int) true) machine start =
      (((scanner.Sequence (List.replicate k f)).Build machine
            start).1.NewState.1.ConnectEpsilon
          ((scanner.Sequence (List.replicate k f)).Build machine start).2
          ((scanner.Sequence (List.replicate k f)).Build machine start).1.NewState.2,
        ((scanner.Sequence (List.replicate k f)).Build machine start).1.NewState.2) := by
    rw [scanner.build_repeat]
    simp only [Int.toNat_ofNat, Bool.not_true, Bool.false_eq_true, if_false, Int.sub_self,
      if_true, scanner.thread_eq_sequence]
  refine ⟨heq, fun w => ?_⟩
  rw [heq]
  obtain ⟨h1, h2, h3⟩ := scanner.build_extends (scanner.Sequence (List.replicate k f)) machine
    start hb hs
  have hs2 : start < ((scanner.Sequence (List.replicate k f)).Build machine
      start).1.states.length := by omega
  simp only
  rw [nfa.reaches_extend h1 h2 hs2, (nfa.newState_alloc _).1]
  constructor
  · rintro (h | ⟨_, h⟩)
    · have hwf : nfa.Nfa.WF
          { ((scanner.Sequence (List.replicate k f)).Build machine start).1 with
            startState := start } := ⟨hs2, (nfa.built_wf _ h1).2⟩
      exact absurd (dfa.wf_reaches_lt hwf h) (Nat.lt_irrefl _)
    · exact h
  · intro h
    exact Or.inr ⟨rfl, h⟩

/-- C26 on a new machine, for two copies of the literal of the symbol 7: the repetition
returns state 3, the sequence returns state 2, and the word `7 7` leads to both. -/
theorem C26_repeatBetween_equal_bounds_witness :
    scanner.RepeatBetween ((2 : Nat) : Int) ((2 : Nat) : Int) (.fragLiteral [7]) =
        .ok (.fragRepeat (.fragLiteral [7]) 2 2 true) ∧
      (0 : Nat) < (nfa.New : nfa.Nfa Nat Nat).states.length ∧
      (scanner.Fragment.Build (.fragRepeat (.fragLiteral [7]) 2 2 true)
        (nfa.New : nfa.Nfa Nat Nat) 0).2 = 3 ∧
      ((scanner.Sequence (List.replicate 2 (scanner.Fragment.fragLiteral [7]))).Build
        (nfa.New : nfa.Nfa Nat Nat) 0).2 = 2 ∧
      (nfa.Reaches
          { (scanner.Fragment.Build (.fragRepeat (.fragLiteral [7]) 2 2 true)
              (nfa.New : nfa.Nfa Nat Nat) 0).1 with startState := 0 } [7, 7]
          (scanner.Fragment.Build (.fragRepeat (.fragLiteral [7]) 2 2 true)
            (nfa.New : nfa.Nfa Nat Nat) 0).2 ↔
        nfa.Reaches
          { ((scanner.Sequence (List.replicate 2 (scanner.Fragment.fragLiteral [7]))).Build
              (nfa.New : nfa.Nfa Nat Nat) 0).1 with startState := 0 } [7, 7]
          ((scanner.Sequence (List.replicate 2 (scanner.Fragment.fragLiteral [7]))).Build
            (nfa.New : nfa.Nfa Nat Nat) 0).2) :=
  ⟨by rfl, by decide, by rfl, by rfl,
    (C26_repeatBetween_equal_bounds 2 (.fragLiteral [7]) _ (by rfl)
      (nfa.New : nfa.Nfa Nat Nat) nfa.Built.new 0 (by decide)).2 [7, 7]⟩
--END

--THMS
/-- C27: `RepeatBetween(0, 0, f)` accepts the empty sequence and nothing else. For every
fragment `f`, the build at the start state of a new machine gives the new machine with one
more state, state 1, and one epsilon transition from the start state to it, whatever `f`
is, and returns state 1; no state has a concrete-symbol or predicate transition; state 1 is
reached from the start state by the empty word, and no state is reached by a non-empty
word. -/
theorem C27_repeatBetween_zero_zero {S V : Type} [Inhabited V] [DecidableEq S]
    (f g : scanner.Fragment S) (hg : scanner.RepeatBetween 0 0 f = .ok g) :
    g.Build (nfa.New : nfa.Nfa S V) (nfa.New : nfa.Nfa S V).Start =
      ((nfa.New : nfa.Nfa S V).NewState.1.ConnectEpsilon 0 1, 1) ∧
    (g.Build (nfa.New : nfa.Nfa S V) (nfa.New : nfa.Nfa S V).Start).1.states.length = 2 ∧
    (nfa.deref (g.Build (nfa.New : nfa.Nfa S V) (nfa.New : nfa.Nfa S V).Start).1.states
      0).Epsilon = [1] ∧
    (∀ q, q ≠ 0 →
      (nfa.deref (g.Build (nfa.New : nfa.Nfa S V) (nfa.New : nfa.Nfa S V).Start).1.states
        q).Epsilon = []) ∧
    (∀ q a,
      (nfa.deref (g.Build (nfa.New : nfa.Nfa S V) (nfa.New : nfa.Nfa S V).Start).1.states
        q).OutgoingFor a = []) ∧
    (∀ q,
      (nfa.deref (g.Build (nfa.New : nfa.Nfa S V) (nfa.New : nfa.Nfa S V).Start).1.states
        q).predicateTransitions = []) ∧
    nfa.Reaches (g.Build (nfa.New : nfa.Nfa S V) (nfa.New : nfa.Nfa S V).Start).1 []
      (g.Build (nfa.New : nfa.Nfa S V) (nfa.New : nfa.Nfa S V).Start).2 ∧
    ∀ (w : List S) (y : Nat),
      nfa.Reaches (g.Build (nfa.New : nfa.Nfa S V) (nfa.New : nfa.Nfa S V).Start).1 w y →
        w = [] := by
  have hge : g = .fragRepeat f 0 0 true := by
    unfold scanner.RepeatBetween at hg
    rw [if_neg (by omega), if_neg (by omega)] at hg
    injection hg with hg
    exact hg.symm
  subst hge
  have heq : scanner.Fragment.Build (.fragRepeat f 0 0 true) (nfa.New : nfa.Nfa S V)
      (nfa.New : nfa.Nfa S V).Start =
      ((nfa.New : nfa.Nfa S V).NewState.1.ConnectEpsilon 0 1, 1) := by
    rw [scanner.build_repeat]
    simp only [Int.toNat_zero, scanner.thread_zero, Bool.not_true, Bool.false_eq_true,
      if_false, Int.sub_self, if_true]
    rfl
  have hd : ∀ q, nfa.deref ((nfa.New : nfa.Nfa S V).NewState.1.ConnectEpsilon 0 1).states q =
      if q = 0 then { (nfa.State.fresh 0 : nfa.State S V) with eTransitions := [1] }
      else if q = 1 then nfa.State.fresh 1 else nfa.State.fresh 0 := by
    intro q
    match q with
    | 0 => rfl
    | 1 => rfl
    | q + 2 => rfl
  have heps0 : (nfa.deref ((nfa.New : nfa.Nfa S V).NewState.1.ConnectEpsilon 0 1).states
      0).Epsilon = [1] := by rw [hd]; rfl
  have hout : ∀ q a, (nfa.deref ((nfa.New : nfa.Nfa S V).NewState.1.ConnectEpsilon 0
      1).states q).OutgoingFor a = [] := by
    intro q a
    rw [hd]
    split
    · rfl
    · split <;> rfl
  have hpred : ∀ q, (nfa.deref ((nfa.New : nfa.Nfa S V).NewState.1.ConnectEpsilon 0
      1).states q).predicateTransitions = [] := by
    intro q
    rw [hd]
    split
    · rfl
    · split <;> rfl
  rw [heq]
  refine ⟨rfl, rfl, heps0, ?_, hout, hpred, ?_, ?_⟩
  · intro q hq
    rw [hd, if_neg hq]
    split <;> rfl
  · have h0 : nfa.Reaches ((nfa.New : nfa.Nfa S V).NewState.1.ConnectEpsilon 0 1) [] 0 :=
      nfa.Reaches.start
    refine nfa.Reaches.eps h0 ?_
    rw [heps0]
    exact List.mem_singleton.2 rfl
  · intro w y h
    induction h with
    | start => rfl
    | eps _ _ ih => exact ih
    | @sym w a x y _ hy _ =>
      exfalso
      unfold nfa.SymStep at hy
      simp only at hy
      rw [hout, hpred] at hy
      rcases hy with hy | ⟨pt, hpt, _⟩
      · cases hy
      · cases hpt

/-- C27 for the literal of the symbol 7, on a new machine over the natural numbers. -/
theorem C27_repeatBetween_zero_zero_witness :
    scanner.RepeatBetween 0 0 (scanner.Fragment.fragLiteral [7]) =
        .ok (.fragRepeat (.fragLiteral [7]) 0 0 true) ∧
      (scanner.Fragment.Build (.fragRepeat (.fragLiteral [7]) 0 0 true)
        (nfa.New : nfa.Nfa Nat Nat) (nfa.New : nfa.Nfa Nat Nat).Start).1.states.length = 2 :=
  ⟨by rfl, (C27_repeatBetween_zero_zero (.fragLiteral [7]) _ (by rfl)).2.1⟩
--END

/-! ## Machines given state by state, and their conversion -/

namespace nfa

theorem isAccepting_congr {S V : Type} {s1 s2 : State S V} (h : s1.acceptIdx = s2.acceptIdx) :
    s1.IsAccepting = s2.IsAccepting := by
  unfold State.IsAccepting State.AcceptIdx
  rw [h]

theorem outgoingFor_sameButEps {S V : Type} [DecidableEq S] {s1 s2 : State S V}
    (h : SameButEps s1 s2) (a : S) : s1.OutgoingFor a = s2.OutgoingFor a :=
  outgoingFor_congr _ _ h.1 h.2.1 a

section
variable {S V : Type} [Inhabited V] [DecidableEq S]

theorem table_new : Table (New : Nfa S V) 1 (fun _ => []) (fun _ _ => []) (fun _ => false) where
  built := Built.new
  len := rfl
  start := rfl
  eps := fun q => by rw [deref_new]; rfl
  out := fun q a => by rw [deref_new]; rfl
  acc := fun q => by rw [deref_new]; rfl
  preds := fun q => by rw [deref_new]; rfl

theorem table_congr {m : Nfa S V} {len : Nat} {eps eps' : Nat → List Nat}
    {out out' : Nat → S → List Nat} {acc acc' : Nat → Bool}
    (h : Table m len eps out acc) (he : ∀ q, eps q = eps' q) (ho : ∀ q a, out q a = out' q a)
    (ha : ∀ q, acc q = acc' q) : Table m len eps' out' acc' where
  built := h.built
  len := h.len
  start := h.start
  eps := fun q => (h.eps q).trans (he q)
  out := fun q a => (h.out q a).trans (ho q a)
  acc := fun q => (h.acc q).trans (ha q)
  preds := h.preds

theorem table_add {m : Nfa S V} {len : Nat} {eps : Nat → List Nat}
    {out : Nat → S → List Nat} {acc : Nat → Bool} (h : Table m len eps out acc) {s : Nat}
    (hs : s < len) (a : S) :
    Table (m.Add s a).1 (len + 1) eps
      (fun q b => out q b ++ if q = s ∧ a = b then [len] else []) acc where
  built := Built.add h.built (h.len ▸ hs)
  len := by rw [(add_alloc m s a).2.1, h.len]
  start := h.start
  eps := fun q => by
    rw [(add_view h.built (h.len ▸ hs) a q).1.1, h.eps]
  out := fun q b => by
    rw [(add_view h.built (h.len ▸ hs) a q).2.1 b, h.out, h.len]
  acc := fun q => by
    rw [isAccepting_congr (add_view h.built (h.len ▸ hs) a q).1.2.1, h.acc]
  preds := fun q => by
    rw [(add_view h.built (h.len ▸ hs) a q).1.2.2.2, h.preds]

theorem table_newState {m : Nfa S V} {len : Nat} {eps : Nat → List Nat}
    {out : Nat → S → List Nat} {acc : Nat → Bool} (h : Table m len eps out acc) :
    Table m.NewState.1 (len + 1) eps out acc where
  built := Built.newState h.built
  len := by rw [(newState_alloc m).2.1, h.len]
  start := h.start
  eps := fun q => by rw [(newState_view m q).2, h.eps]
  out := fun q b => by rw [outgoingFor_sameButEps (newState_view m q).1, h.out]
  acc := fun q => by rw [isAccepting_congr (newState_view m q).1.2.2.1, h.acc]
  preds := fun q => by rw [(newState_view m q).1.2.2.2.2, h.preds]

theorem table_connect {m : Nfa S V} {len : Nat} {eps : Nat → List Nat}
    {out : Nat → S → List Nat} {acc : Nat → Bool} (h : Table m len eps out acc) {s t : Nat}
    (hs : s < len) (ht : t < len) :
    Table (m.ConnectEpsilon s t) len (fun q => eps q ++ if q = s then [t] else []) out acc where
  built := Built.connect h.built (h.len ▸ hs) (h.len ▸ ht)
  len := by rw [(connect_alloc m s t).1, h.len]
  start := h.start
  eps := fun q => by rw [(connect_view m (h.len ▸ hs) t q).2, h.eps]
  out := fun q b => by rw [outgoingFor_sameButEps (connect_view m (h.len ▸ hs) t q).1, h.out]
  acc := fun q => by
    rw [isAccepting_congr (connect_view m (h.len ▸ hs) t q).1.2.2.1, h.acc]
  preds := fun q => by rw [(connect_view m (h.len ▸ hs) t q).1.2.2.2.2, h.preds]

theorem table_addEpsilon {m : Nfa S V} {len : Nat} {eps : Nat → List Nat}
    {out : Nat → S → List Nat} {acc : Nat → Bool} (h : Table m len eps out acc) {s : Nat}
    (hs : s < len) :
    Table (m.AddEpsilonTransition s).1 (len + 1)
      (fun q => eps q ++ if q = s then [len] else []) out acc where
  built := Built.addEpsilon h.built (h.len ▸ hs)
  len := by rw [(addEpsilon_alloc m s).2.1, h.len]
  start := h.start
  eps := fun q => by rw [(addEpsilon_view m (h.len ▸ hs) q).2, h.eps, h.len]
  out := fun q b => by rw [outgoingFor_sameButEps (addEpsilon_view m (h.len ▸ hs) q).1, h.out]
  acc := fun q => by
    rw [isAccepting_congr (addEpsilon_view m (h.len ▸ hs) q).1.2.2.1, h.acc]
  preds := fun q => by rw [(addEpsilon_view m (h.len ▸ hs) q).1.2.2.2.2, h.preds]

theorem table_addAccepting {m : Nfa S V} {len : Nat} {eps : Nat → List Nat}
    {out : Nat → S → List Nat} {acc : Nat → Bool} (h : Table m len eps out acc) {s : Nat}
    (hs : s < len) (v : V) :
    Table (m.AddAcceptingEpsilonTransition s v).1 (len + 1)
      (fun q => eps q ++ if q = s then [len] else []) out
      (fun q => if q = len then true else acc q) where
  built := Built.addAccepting h.built (h.len ▸ hs)
  len := by rw [(addAccepting_alloc m s v).2.1, h.len]
  start := h.start
  eps := fun q => by rw [(addAccepting_view m (h.len ▸ hs) v q).2.1, h.eps, h.len]
  out := fun q b => by
    rw [outgoingFor_congr _ _ (addAccepting_view m (h.len ▸ hs) v q).1.1
      (addAccepting_view m (h.len ▸ hs) v q).1.2.1 b, h.out]
  acc := fun q => by
    have h1 := (addAccepting_view m (h.len ▸ hs) v q).2.2.1
    rw [h.len] at h1
    by_cases hq : q = len
    · rw [if_pos hq] at h1 ⊢
      unfold State.IsAccepting State.AcceptIdx
      rw [h1]
      simp only [gt_iff_lt, decide_eq_true_eq]
      omega
    · rw [if_neg hq] at h1 ⊢
      rw [isAccepting_congr h1, h.acc]
  preds := fun q => by rw [(addAccepting_view m (h.len ▸ hs) v q).1.2.2, h.preds]

end
end nfa

namespace dfa

section
variable {S V : Type} [Inhabited V] [DecidableEq S]

theorem table_noPredicates {m : nfa.Nfa S V} {len : Nat} {eps : Nat → List Nat}
    {out : Nat → S → List Nat} {acc : Nat → Bool} (h : nfa.Table m len eps out acc) :
    m.NoPredicates := by
  intro s hs
  obtain ⟨i, hi, rfl⟩ := List.getElem_of_mem hs
  have := h.preds i
  unfold nfa.deref at this
  rw [List.getD_eq_getElem _ _ hi] at this
  rw [this]
  rfl

theorem table_epsTargets {m : nfa.Nfa S V} {len : Nat} {eps : Nat → List Nat}
    {out : Nat → S → List Nat} {acc : Nat → Bool} (h : nfa.Table m len eps out acc)
    (q : List Nat) : epsTargets m.states q = q.flatMap eps := by
  unfold epsTargets nfa.State.Epsilon
  simp only [h.eps]

theorem table_moveOn {m : nfa.Nfa S V} {len : Nat} {eps : Nat → List Nat}
    {out : Nat → S → List Nat} {acc : Nat → Bool} (h : nfa.Table m len eps out acc)
    (l : List Nat) (a : S) : moveOn m.states l a = l.flatMap (fun s => out s a) := by
  unfold moveOn
  simp only [h.out]

theorem table_acyclic {m : nfa.Nfa S V} {len : Nat} {eps : Nat → List Nat}
    {out : Nat → S → List Nat} {acc : Nat → Bool} (h : nfa.Table m len eps out acc)
    (rank : Nat → Nat) (hr : ∀ x y, y ∈ eps x → rank x < rank y) :
    ∀ x, ¬ Relation.TransGen (EpsStep m.states) x x := by
  refine acyclic_of_rank m.states rank ?_
  intro x _ y hy
  unfold nfa.State.Epsilon at hy
  rw [h.eps] at hy
  exact hr x y hy

/-- The closure that `findPossibleStates` returns, when the epsilon levels of the seeds are
empty from the level `k` on: the seeds, then the levels before `k`. -/
theorem closure_eval {S V : Type} [Inhabited V] (heap : List (nfa.State S V)) (k : Nat) (seeds r : List Nat) (fuel : Nat)
    (hl : epsLevel heap k seeds = []) (h : findPossibleStates fuel heap seeds = .ok r) :
    r = seeds ++ epsLevels heap k seeds := by
  have h2 := loop_of_level_empty heap k seeds seeds hl
  rw [← findPossibleStates_eq] at h2
  exact findPossibleStates_unique heap seeds _ _ _ _ h h2

/-- The registry of a run of the converter holds lists that the main loop enqueues. -/
theorem run_enqueued (fuel : Nat) (n : nfa.Nfa S V) (bF : dfaBuilder S V) (hwf : n.WF)
    (h : dfaBuilder.initial.run fuel n = .ok bF) :
    ∃ reg, LoopInv n.states fuel bF reg reg.length ∧
      (∃ l0, findPossibleStates fuel n.states [n.Start] = .ok l0 ∧ reg[0]? = some l0) ∧
      ∀ l ∈ reg, Enqueued n l ∧ ∀ x ∈ l, x < n.states.length := by
  obtain ⟨l0, t, hl0, hinv, hP⟩ := run_spec fuel n bF
    (fun l => Enqueued n l ∧ ∀ x ∈ l, x < n.states.length)
    (by
      intro l expanded a l1 hl hexp hget
      obtain ⟨_, hspec⟩ := expandStatesPerSymbol_spec fuel n.states l expanded hexp
      by_cases hm : moveOn n.states l a = []
      · rw [(hspec a).1 hm] at hget; cases hget
      · obtain ⟨l2, hl2, hne, hg⟩ := (hspec a).2 hm
        rw [hg] at hget
        cases hget
        refine ⟨Enqueued.step hl.1 hl2 hne, fun x hx => ?_⟩
        exact wf_epsReachable_lt hwf _ (wf_moveOn_lt hwf l a) x
          ((findPossibleStates_mem n.states fuel _ _ hl2 x).1 hx))
    (by
      intro l0 hl0
      refine ⟨Enqueued.start hl0, fun x hx => ?_⟩
      refine wf_epsReachable_lt hwf [n.Start] ?_ x
        ((findPossibleStates_mem n.states fuel _ _ hl0 x).1 hx)
      intro s hs
      rw [List.mem_singleton] at hs
      rw [hs]; exact hwf.1)
    h
  exact ⟨l0 :: t, hinv, ⟨l0, hl0, by simp⟩, hP⟩

/-- The converter returns on a well-formed machine without epsilon cycle on which no list
that the main loop enqueues holds a state twice. -/
theorem fromNfa_total (n : nfa.Nfa S V) (hwf : n.WF)
    (hac : ∀ x, ¬ Relation.TransGen (EpsStep n.states) x x)
    (hnd : ∀ l, Enqueued n l → l.Nodup) :
    ∃ d, FromNfa (2 ^ n.states.length + 1) n = .ok d := by
  have hf : n.states.length + 1 ≤ 2 ^ n.states.length + 1 :=
    Nat.succ_le_succ (Nat.le_of_lt (Nat.lt_two_pow _))
  obtain ⟨⟨l0, h0⟩, _⟩ := closure_total n hwf hac hnd _ hf
  have hne : l0 ≠ [] := by
    obtain ⟨t, ht⟩ := findPossibleStates_prefix n.states _ _ _ h0
    rw [ht]; simp
  have hv : ∀ x ∈ l0, x < n.states.length := fun x hx =>
    wf_epsReachable_lt hwf [n.Start]
      (fun s hs => by rw [List.mem_singleton] at hs; rw [hs]; exact hwf.1) x
      ((findPossibleStates_mem n.states _ _ _ h0 x).1 hx)
  obtain ⟨bF, hbF⟩ := loop_total n hwf hac hnd _ hf (2 ^ n.states.length) _ [l0] 0
    (init_spec n.states _ l0 hne)
    (by intro l hl; simp at hl; rw [hl]; exact ⟨Enqueued.start h0, hv⟩)
    (by omega)
  refine ⟨bF.dfa, ?_⟩
  unfold FromNfa dfaBuilder.buildFromNfa dfaBuilder.run
  rw [h0]
  simp only
  rw [hbF]

/-- The DFA state of a registered list, at the end of the main loop. -/
theorem final_state (heap : List (nfa.State S V)) (fuel : Nat) (bF : dfaBuilder S V)
    (reg : List (List Nat)) (hinv : LoopInv heap fuel bF reg reg.length) (r : Nat)
    (l : List Nat) (hl : reg[r]? = some l) : bF.dfa.states[r]? = some (bF.dfa.deref r) := by
  have hlt : r < reg.length := (List.getElem?_eq_some.1 hl).1
  have hex : ∃ st, bF.dfa.states[r]? = some st :=
    ⟨_, List.getElem?_eq_getElem (by rw [hinv.base.len]; exact hlt)⟩
  obtain ⟨st, hst⟩ := hex
  rw [deref_of_getElem? _ _ _ hst, hst]

/-- The transitions of the DFA state of a registered list, at the end of the main loop: none
on a symbol on which the list has no move, and otherwise one to the state registered for a
list with the key of the closure of the move. -/
theorem final_transitions (heap : List (nfa.State S V)) (fuel : Nat) (bF : dfaBuilder S V)
    (reg : List (List Nat)) (hinv : LoopInv heap fuel bF reg reg.length) (r : Nat)
    (l : List Nat) (hl : reg[r]? = some l) (a : S) :
    (moveOn heap l a = [] → (bF.dfa.deref r).OutgoingFor a = none) ∧
    (moveOn heap l a ≠ [] → ∃ j l1 l2, (bF.dfa.deref r).OutgoingFor a = some j ∧
      reg[j]? = some l2 ∧ findPossibleStates fuel heap (moveOn heap l a) = .ok l1 ∧
      l1 ≠ [] ∧ calculateStatesKey heap l2 = calculateStatesKey heap l1) := by
  have hlt : r < reg.length := (List.getElem?_eq_some.1 hl).1
  have hst := final_state heap fuel bF reg hinv r l hl
  obtain ⟨expanded, hexp, htf⟩ := hinv.done r l _ hlt hl hst
  obtain ⟨_, hspec⟩ := expandStatesPerSymbol_spec fuel heap l expanded hexp
  have ha := htf a
  constructor
  · intro hm
    rw [(hspec a).1 hm] at ha
    exact ha
  · intro hm
    obtain ⟨l1, hl1, hne, hg⟩ := (hspec a).2 hm
    rw [hg] at ha
    obtain ⟨j, l2, hj, hl2, hk⟩ := ha
    exact ⟨j, l1, l2, hj, hl2, hl1, hne, hk⟩

/-- Two positions of the registry that hold the same list are the same position. -/
theorem reg_injective {S V : Type} [Inhabited V] (heap : List (nfa.State S V)) (bF : dfaBuilder S V)
    (reg : List (List Nat)) (hinv : RegInv heap bF reg) (i j : Nat) (l : List Nat)
    (hi : reg[i]? = some l) (hj : reg[j]? = some l) : i = j := by
  have h1 := hinv.keyOf i l hi
  have h2 := hinv.keyOf j l hj
  rw [h1] at h2
  exact Option.some.inj h2

/-- The DFA state of a registered list is accepting exactly when a state of the list is. -/
theorem final_accepting {n : nfa.Nfa S V} (hwf : n.WF) (fuel : Nat) (bF : dfaBuilder S V)
    (reg : List (List Nat)) (hinv : LoopInv n.states fuel bF reg reg.length) (r : Nat)
    (l : List Nat) (hl : reg[r]? = some l) :
    (bF.dfa.deref r).IsAccepting = true ↔
      ∃ x ∈ l, (nfa.deref n.states x).IsAccepting = true := by
  have hst := final_state n.states fuel bF reg hinv r l hl
  have hacc := hinv.base.accept r l _ hl hst
  rw [hacc.1, decide_eq_true_iff, findAcceptanceIdx_pos_iff n.states (wf_acceptIdx_ge hwf) l]

/-- The symbols of the transitions of a DFA state are those on which `OutgoingFor` gives a
state. -/
theorem mem_keys_iff {S V : Type} [DecidableEq S] (st : State S V) (a : S) :
    a ∈ st.transitions.map Prod.fst ↔ st.OutgoingFor a ≠ none := by
  unfold State.OutgoingFor
  rw [Ne, gomap.get_eq_none_iff, not_not]

end
end dfa

namespace dfa

/-- A list without duplicates whose members are exactly `a` is `[a]`. -/
theorem eq_singleton_of_nodup {T : Type} (l : List T) (a : T) (hnd : l.Nodup)
    (h : ∀ x, x ∈ l ↔ x = a) : l = [a] := by
  match l, hnd, h with
  | [], _, h => exact absurd ((h a).2 rfl) (List.not_mem_nil a)
  | x :: t, hnd, h =>
    have hx : x = a := (h x).1 (List.mem_cons_self _ _)
    have ht : t = [] := by
      rw [List.eq_nil_iff_forall_not_mem]
      intro y hy
      have hya : y = a := (h y).1 (List.mem_cons_of_mem _ hy)
      rw [List.nodup_cons] at hnd
      exact hnd.1 (by rw [hx, ← hya]; exact hy)
    rw [hx, ht]

section
variable {S V : Type} [Inhabited V] [DecidableEq S]

/-- The closure of seeds without epsilon transitions is the list of the seeds. -/
theorem table_closure_plain {m : nfa.Nfa S V} {len : Nat} {eps : Nat → List Nat}
    {out : Nat → S → List Nat} {acc : Nat → Bool} (h : nfa.Table m len eps out acc)
    (seeds : List Nat) (hs : ∀ x ∈ seeds, eps x = []) (fuel : Nat) (r : List Nat)
    (hr : findPossibleStates fuel m.states seeds = .ok r) : r = seeds := by
  have h0 : epsTargets m.states seeds = [] := by
    rw [table_epsTargets h, List.flatMap_eq_nil_iff]
    exact hs
  have h1 := closure_eval m.states 1 seeds r fuel (by simp [epsLevel, h0]) hr
  rw [h1]
  simp [epsLevels, h0]

/-- The registry of a run has no list twice. -/
theorem reg_nodup {S V : Type} [Inhabited V] (heap : List (nfa.State S V)) (bF : dfaBuilder S V)
    (reg : List (List Nat)) (hinv : RegInv heap bF reg) : reg.Nodup := by
  rw [List.nodup_iff_getElem?_ne_getElem?]
  intro i j hij hj heq
  have h2 : reg[j]? = some reg[j] := List.getElem?_eq_getElem hj
  have h1 : reg[i]? = some reg[j] := heq.trans h2
  have := reg_injective heap bF reg hinv i j _ h1 h2
  omega

/-- No DFA state is accepting when no state of the machine is. -/
theorem final_not_accepting {n : nfa.Nfa S V} (hwf : n.WF) (fuel : Nat) (bF : dfaBuilder S V)
    (reg : List (List Nat)) (hinv : LoopInv n.states fuel bF reg reg.length)
    (hacc : ∀ x, (nfa.deref n.states x).IsAccepting = false) :
    ∀ st ∈ bF.dfa.states, st.IsAccepting = false := by
  intro st hst
  obtain ⟨i, hi, rfl⟩ := List.getElem_of_mem hst
  have hi2 : i < reg.length := by rw [← hinv.base.len]; exact hi
  have hl : reg[i]? = some reg[i] := List.getElem?_eq_getElem hi2
  have hiff := final_accepting hwf fuel bF reg hinv i _ hl
  have hd : bF.dfa.deref i = bF.dfa.states[i] :=
    deref_of_getElem? _ _ _ (List.getElem?_eq_getElem hi)
  rw [hd] at hiff
  cases hb : bF.dfa.states[i].IsAccepting with
  | false => rfl
  | true =>
    obtain ⟨x, _, hx⟩ := hiff.1 hb
    rw [hacc x] at hx
    cases hx

end

/-! ## The linear machine -/

theorem linear_fold (c : Nat) :
    nfa.Table
      ((List.range c).foldl (fun current i => current.1.Add current.2 (i : Int))
        ((nfa.New : nfa.Nfa Int Int), (nfa.New : nfa.Nfa Int Int).Start)).1 (c + 1)
      (fun _ => []) (fun q a => if q < c ∧ a = (q : Int) then [q + 1] else [])
      (fun _ => false) ∧
    ((List.range c).foldl (fun current i => current.1.Add current.2 (i : Int))
        ((nfa.New : nfa.Nfa Int Int), (nfa.New : nfa.Nfa Int Int).Start)).2 = c := by
  induction c with
  | zero =>
    refine ⟨nfa.table_congr nfa.table_new (fun _ => rfl) (fun q a => ?_) (fun _ => rfl), rfl⟩
    simp
  | succ c ih =>
    rw [List.range_succ, List.foldl_append]
    simp only [List.foldl_cons, List.foldl_nil]
    obtain ⟨ht, hc⟩ := ih
    rw [hc]
    refine ⟨nfa.table_congr (nfa.table_add ht (Nat.lt_succ_self c) (c : Int)) (fun _ => rfl)
      (fun q a => ?_) (fun _ => rfl), (nfa.add_alloc _ _ _).1.trans ht.len⟩
    by_cases h1 : q < c
    · have h2 : q ≠ c := Nat.ne_of_lt h1
      have h3 : q < c + 1 := Nat.lt_succ_of_lt h1
      simp [h1, h2, h3]
    · by_cases h2 : q = c
      · subst h2
        by_cases h4 : a = (q : Int)
        · simp [h4]
        · have h5 : ¬ (q : Int) = a := fun h => h4 h.symm
          simp [h4, h5]
      · have h3 : ¬ q < c + 1 := by omega
        simp [h1, h2, h3]

theorem linear_table (n : Nat) :
    nfa.Table (examples.linearNfa n) (n + 1) (fun _ => [])
      (fun q a => if q < n ∧ a = (q : Int) then [q + 1] else []) (fun _ => false) :=
  (linear_fold n).1

theorem linear_enqueued (n : Nat) (l : List Nat) (h : Enqueued (examples.linearNfa n) l) :
    ∃ k, k ≤ n ∧ l = [k] := by
  have ht := linear_table n
  induction h with
  | start h0 =>
    refine ⟨0, Nat.zero_le n, ?_⟩
    have hs : (examples.linearNfa n).Start = 0 := ht.start
    rw [hs] at h0
    exact table_closure_plain ht [0] (fun _ _ => rfl) _ _ h0
  | @step fuel l l1 a _ h1 hne ih =>
    obtain ⟨k, hk, rfl⟩ := ih
    rw [table_moveOn ht] at h1
    simp only [List.flatMap_cons, List.flatMap_nil, List.append_nil] at h1
    by_cases hc : k < n ∧ a = (k : Int)
    · rw [if_pos hc] at h1
      exact ⟨k + 1, hc.1, table_closure_plain ht [k + 1] (fun _ _ => rfl) _ _ h1⟩
    · rw [if_neg hc] at h1
      exact absurd (findPossibleStates_nil _ _ _ h1) hne

theorem linear_reaches (n : Nat) (w : List Int) (x : Nat) :
    nfa.Reaches (examples.linearNfa n) w x ↔ x ≤ n ∧ w = (List.range x).map Int.ofNat := by
  have ht := linear_table n
  constructor
  · intro h
    induction h with
    | start =>
      have hs : (examples.linearNfa n).Start = 0 := ht.start
      rw [hs]
      exact ⟨Nat.zero_le n, rfl⟩
    | eps _ hy _ =>
      unfold nfa.State.Epsilon at hy
      rw [ht.eps] at hy
      cases hy
    | @sym w a x y _ hy ih =>
      rcases hy with hy | ⟨pt, hpt, _⟩
      · rw [ht.out] at hy
        by_cases hc : x < n ∧ a = (x : Int)
        · rw [if_pos hc, List.mem_singleton] at hy
          subst hy
          refine ⟨hc.1, ?_⟩
          rw [ih.2, List.range_succ, List.map_append, hc.2]
          rfl
        · rw [if_neg hc] at hy
          cases hy
      · rw [ht.preds] at hpt
        cases hpt
  · rintro ⟨hx, rfl⟩
    induction x with
    | zero =>
      have hs : (examples.linearNfa n).Start = 0 := ht.start
      have := @nfa.Reaches.start _ _ _ _ (examples.linearNfa n)
      rw [hs] at this
      exact this
    | succ x ih =>
      rw [List.range_succ, List.map_append]
      refine nfa.Reaches.sym (ih (Nat.le_of_succ_le hx)) (Or.inl ?_)
      rw [ht.out, if_pos ⟨hx, rfl⟩]
      exact List.mem_singleton.2 rfl

end dfa

/-- C29: the linear machine converts to an isomorphic DFA. For every `n`, `FromNfa` returns
on the machine built by `n` chained calls `Add(current, i)`, `i = 0 .. n-1`; the DFA it
returns has exactly `n + 1` states, none accepting; for every `k <= n` the symbols
`0 .. k-1` lead from its start state to a state, a different one for each `k`, whose only
outgoing symbol is `k`, to the state for `k + 1`, when `k < n`, and which has no transition
when `k = n`. -/
theorem C29_linear_nfa_isomorphic_dfa (n : Nat) :
    (∃ d, dfa.FromNfa (2 ^ (n + 1) + 1) (examples.linearNfa n) = .ok d) ∧
    ∀ fuel d, dfa.FromNfa fuel (examples.linearNfa n) = .ok d →
      d.states.length = n + 1 ∧ (∀ st ∈ d.states, st.IsAccepting = false) ∧
      (∀ k, k ≤ n → ∃ r, d.follow ((List.range k).map Int.ofNat) = some r ∧
        r < d.states.length ∧
        (k < n → (d.deref r).transitions.map Prod.fst = [(k : Int)] ∧
          (d.deref r).OutgoingFor (k : Int) =
            d.follow ((List.range (k + 1)).map Int.ofNat)) ∧
        (k = n → (d.deref r).transitions = [])) ∧
      ∀ j k, j ≤ n → k ≤ n →
        d.follow ((List.range j).map Int.ofNat) = d.follow ((List.range k).map Int.ofNat) →
        j = k := by
  have ht := dfa.linear_table n
  have hwf : (examples.linearNfa n).WF := nfa.built_wf _ ht.built
  have hnp := dfa.table_noPredicates ht
  have hac := dfa.table_acyclic ht (fun _ => 0) (fun x y hy => by cases hy)
  have hnd : ∀ l, dfa.Enqueued (examples.linearNfa n) l → l.Nodup := by
    intro l hl
    obtain ⟨k, _, rfl⟩ := dfa.linear_enqueued n l hl
    exact List.nodup_singleton k
  constructor
  · have := dfa.fromNfa_total (examples.linearNfa n) hwf hac hnd
    rw [ht.len] at this
    exact this
  intro fuel d hd
  obtain ⟨b, hrun, rfl⟩ := (dfa.fromNfa_ok_iff fuel _ d).1 hd
  obtain ⟨reg, hinv, hstart, hE⟩ := dfa.run_enqueued fuel _ b hwf hrun
  have hvalid : ∀ l ∈ reg, ∀ x ∈ l, x < (examples.linearNfa n).states.length :=
    fun l hl => (hE l hl).2
  have hfol := dfa.follow_spec fuel _ b reg hwf hnp hinv hstart hvalid
  -- the state that the symbols `0 .. k-1` lead to stands for the list `[k]`
  have hA : ∀ k, k ≤ n → ∃ r, b.dfa.follow ((List.range k).map Int.ofNat) = some r ∧
      reg[r]? = some [k] := by
    intro k hk
    have hreach := (dfa.linear_reaches n ((List.range k).map Int.ofNat) k).2 ⟨hk, rfl⟩
    cases hf : b.dfa.follow ((List.range k).map Int.ofNat) with
    | none => exact absurd hreach ((hfol _).2 hf k)
    | some r =>
      obtain ⟨l, hl, hmem⟩ := (hfol _).1 r hf
      obtain ⟨k1, _, rfl⟩ := dfa.linear_enqueued n l (hE l (List.getElem?_mem hl)).1
      have : k = k1 := List.mem_singleton.1 ((hmem k).2 hreach)
      subst this
      exact ⟨r, rfl, hl⟩
  have hlen : reg.length = n + 1 := by
    apply Nat.le_antisymm
    · have hsub : reg ⊆ (List.range (n + 1)).map (fun k => [k]) := by
        intro l hl
        obtain ⟨k, hk, rfl⟩ := dfa.linear_enqueued n l (hE l hl).1
        exact List.mem_map.2 ⟨k, List.mem_range.2 (Nat.lt_succ_of_le hk), rfl⟩
      have := ((dfa.reg_nodup _ b reg hinv.base).subperm hsub).length_le
      simpa using this
    · have hnd2 : ((List.range (n + 1)).map (fun k => [k])).Nodup :=
        (List.nodup_range (n + 1)).map (fun a b h => by simpa using h)
      have hsub : (List.range (n + 1)).map (fun k => [k]) ⊆ reg := by
        intro l hl
        obtain ⟨k, hk, rfl⟩ := List.mem_map.1 hl
        obtain ⟨r, _, hr⟩ := hA k (Nat.le_of_lt_succ (List.mem_range.1 hk))
        exact List.getElem?_mem hr
      have := (hnd2.subperm hsub).length_le
      simpa using this
  refine ⟨hinv.base.len.trans hlen, ?_, ?_, ?_⟩
  · exact dfa.final_not_accepting hwf fuel b reg hinv (fun x => ht.acc x)
  · intro k hk
    obtain ⟨r, hr, hreg⟩ := hA k hk
    have hrlt : r < reg.length := (List.getElem?_eq_some.1 hreg).1
    have hst := dfa.final_state _ fuel b reg hinv r _ hreg
    have hndT := hinv.base.nodupT r _ hst
    have hmove : ∀ a : Int, dfa.moveOn (examples.linearNfa n).states [k] a =
        if k < n ∧ a = (k : Int) then [k + 1] else [] := by
      intro a
      rw [dfa.table_moveOn ht]
      simp only [List.flatMap_cons, List.flatMap_nil, List.append_nil]
    have hkeys : ∀ a : Int, a ∈ (b.dfa.deref r).transitions.map Prod.fst ↔
        (k < n ∧ a = (k : Int)) := by
      intro a
      rw [dfa.mem_keys_iff]
      have htr := dfa.final_transitions _ fuel b reg hinv r _ hreg a
      rw [hmove a] at htr
      by_cases hc : k < n ∧ a = (k : Int)
      · rw [if_pos hc] at htr
        obtain ⟨j, _, _, hj, _⟩ := htr.2 (by simp)
        rw [hj]
        simp [hc]
      · rw [if_neg hc] at htr
        rw [htr.1 rfl]
        simp [hc]
    refine ⟨r, hr, by rw [hinv.base.len]; exact hrlt, ?_, ?_⟩
    · intro hkn
      refine ⟨dfa.eq_singleton_of_nodup _ _ hndT (fun a => ?_), ?_⟩
      · rw [hkeys a]
        exact ⟨fun h => h.2, fun h => ⟨hkn, h⟩⟩
      · rw [List.range_succ, List.map_append, List.map_singleton, dfa.follow_snoc, hr]
        rfl
    · intro hkn
      have hnil : (b.dfa.deref r).transitions.map Prod.fst = [] := by
        rw [List.eq_nil_iff_forall_not_mem]
        intro a ha
        have := ((hkeys a).1 ha).1
        omega
      exact List.map_eq_nil_iff.1 hnil
  · intro j k hj hk heq
    obtain ⟨r1, hr1, hreg1⟩ := hA j hj
    obtain ⟨r2, hr2, hreg2⟩ := hA k hk
    rw [hr1, hr2] at heq
    have : r1 = r2 := Option.some.inj heq
    subst this
    rw [hreg1] at hreg2
    simpa using hreg2

/-- C29 at `n = 2`: the DFA of the linear machine with two symbols has the three states
with the transitions `0 -> 1`, `1 -> 2` and none. -/
theorem C29_linear_nfa_isomorphic_dfa_witness :
    ∃ d, dfa.FromNfa 9 (examples.linearNfa 2) = .ok d ∧
      d.states.map (fun st => st.transitions) = [[(0, 1)], [(1, 2)], []] ∧
      d.states.length = 2 + 1 :=
  ⟨_, rfl, rfl, ((C29_linear_nfa_isomorphic_dfa 2).2 9 _ rfl).1⟩

namespace dfa

/-! ## The fan-out machine -/

theorem fanOut_table (c : Nat) :
    nfa.Table (examples.fanOutNfa c) (c + 1) (fun _ => [])
      (fun q a => if q = 0 ∧ a = 1 then List.range' 1 c else []) (fun _ => false) := by
  unfold examples.fanOutNfa
  induction c with
  | zero =>
    refine nfa.table_congr nfa.table_new (fun _ => rfl) (fun q a => ?_) (fun _ => rfl)
    simp
  | succ c ih =>
    rw [List.range_succ, List.foldl_append]
    simp only [List.foldl_cons, List.foldl_nil]
    refine nfa.table_congr (nfa.table_add ih (Nat.succ_pos c) (1 : Int)) (fun _ => rfl)
      (fun q a => ?_) (fun _ => rfl)
    by_cases h1 : q = 0 ∧ a = 1
    · have h2 : q = 0 ∧ (1 : Int) = a := ⟨h1.1, h1.2.symm⟩
      rw [if_pos h1, if_pos h1, if_pos h2, List.range'_1_concat, Nat.add_comm 1 c]
    · have h2 : ¬ (q = 0 ∧ (1 : Int) = a) := fun h => h1 ⟨h.1, h.2.symm⟩
      rw [if_neg h1, if_neg h1, if_neg h2]
      rfl

theorem fanOut_move_targets (n : Nat) (a : Int) :
    (List.range' 1 n).flatMap
      (fun s => if s = 0 ∧ a = 1 then List.range' 1 n else []) = [] := by
  rw [List.flatMap_eq_nil_iff]
  intro s hs
  have : 1 ≤ s := (List.mem_range'_1.1 hs).1
  rw [if_neg (by omega)]

theorem fanOut_enqueued (n : Nat) (l : List Nat) (h : Enqueued (examples.fanOutNfa n) l) :
    l = [0] ∨ l = List.range' 1 n := by
  have ht := fanOut_table n
  induction h with
  | start h0 =>
    left
    have hs : (examples.fanOutNfa n).Start = 0 := ht.start
    rw [hs] at h0
    exact table_closure_plain ht [0] (fun _ _ => rfl) _ _ h0
  | @step fuel l l1 a _ h1 hne ih =>
    rw [table_moveOn ht] at h1
    rcases ih with rfl | rfl
    · simp only [List.flatMap_cons, List.flatMap_nil, List.append_nil] at h1
      by_cases hc : a = 1
      · rw [if_pos ⟨trivial, hc⟩] at h1
        right
        exact table_closure_plain ht _ (fun _ _ => rfl) _ _ h1
      · rw [if_neg (fun h => hc h.2)] at h1
        exact absurd (findPossibleStates_nil _ _ _ h1) hne
    · rw [fanOut_move_targets] at h1
      exact absurd (findPossibleStates_nil _ _ _ h1) hne

end dfa

/-- C30: fan-out collapses to one DFA transition. For every `n >= 1`, `FromNfa` returns on
the machine obtained by `n` calls `Add(start, 1)`, whose targets are the states `1 .. n`;
the DFA it returns has exactly two states; its start state, state 0, has one transition, on
the symbol 1 to state 1; state 1 is not accepting, has no transition, and is registered
under the key of the list of the states `1 .. n`. -/
theorem C30_fanOut_collapses (n : Nat) (hn : 1 ≤ n) :
    (nfa.deref (examples.fanOutNfa n).states (examples.fanOutNfa n).Start).OutgoingFor 1 =
      List.range' 1 n ∧
    (∃ d, dfa.FromNfa (2 ^ (n + 1) + 1) (examples.fanOutNfa n) = .ok d) ∧
    ∀ fuel d, dfa.FromNfa fuel (examples.fanOutNfa n) = .ok d →
      d.states.length = 2 ∧ d.Start = some 0 ∧
      (d.deref 0).transitions = [((1 : Int), 1)] ∧
      (d.deref 1).IsAccepting = false ∧ (d.deref 1).transitions = [] ∧
      ∃ b, dfa.dfaBuilder.initial.run fuel (examples.fanOutNfa n) = .ok b ∧ b.dfa = d ∧
        gomap.get b.subsetKeyToStateMap
          (dfa.calculateStatesKey (examples.fanOutNfa n).states (List.range' 1 n)) =
          some 1 := by
  have ht := dfa.fanOut_table n
  have hwf : (examples.fanOutNfa n).WF := nfa.built_wf _ ht.built
  have hac := dfa.table_acyclic ht (fun _ => 0) (fun x y hy => by cases hy)
  have hnd : ∀ l, dfa.Enqueued (examples.fanOutNfa n) l → l.Nodup := by
    intro l hl
    rcases dfa.fanOut_enqueued n l hl with rfl | rfl
    · exact List.nodup_singleton 0
    · exact List.nodup_range' 1 n
  have hs : (examples.fanOutNfa n).Start = 0 := ht.start
  refine ⟨?_, ?_, ?_⟩
  · rw [hs, ht.out, if_pos ⟨rfl, rfl⟩]
  · have := dfa.fromNfa_total (examples.fanOutNfa n) hwf hac hnd
    rw [ht.len] at this
    exact this
  intro fuel d hd
  obtain ⟨b, hrun, rfl⟩ := (dfa.fromNfa_ok_iff fuel _ d).1 hd
  obtain ⟨reg, hinv, ⟨l0, hl0, hreg0⟩, hE⟩ := dfa.run_enqueued fuel _ b hwf hrun
  rw [hs] at hl0
  have h00 : l0 = [0] := dfa.table_closure_plain ht [0] (fun _ _ => rfl) _ _ hl0
  subst h00
  have hne : List.range' 1 n ≠ [] := by
    intro h
    have := congrArg List.length h
    simp at this
    omega
  -- the transition of the start state
  have hmove0 : ∀ a : Int, dfa.moveOn (examples.fanOutNfa n).states [0] a =
      if a = 1 then List.range' 1 n else [] := by
    intro a
    rw [dfa.table_moveOn ht]
    simp only [List.flatMap_cons, List.flatMap_nil, List.append_nil, true_and]
  have htr1 := (dfa.final_transitions _ fuel b reg hinv 0 _ hreg0 1).2
    (by rw [hmove0, if_pos rfl]; exact hne)
  obtain ⟨j, l1, l2, hj, hl2, hl1, _, hkey⟩ := htr1
  rw [hmove0, if_pos rfl] at hl1
  have h11 : l1 = List.range' 1 n := dfa.table_closure_plain ht _ (fun _ _ => rfl) _ _ hl1
  subst h11
  have hl2E := hE l2 (List.getElem?_mem hl2)
  have hvalidR : ∀ x ∈ List.range' 1 n, x < (examples.fanOutNfa n).states.length := by
    intro x hx
    rw [ht.len]
    have := (List.mem_range'_1.1 hx).2
    omega
  have hperm := dfa.wf_mem_of_key_eq hwf l2 _ hl2E.2 hvalidR hkey
  have hl2R : l2 = List.range' 1 n := by
    rcases dfa.fanOut_enqueued n l2 hl2E.1 with rfl | h
    · have h0 : (0 : Nat) ∈ List.range' 1 n := hperm.subset (List.mem_singleton.2 rfl)
      have := (List.mem_range'_1.1 h0).1
      omega
    · exact h
  subst hl2R
  have hj0 : j ≠ 0 := by
    intro h
    rw [h, hreg0] at hl2
    have h0 : (0 : Nat) ∈ List.range' 1 n := by
      rw [← Option.some.inj hl2]
      exact List.mem_singleton.2 rfl
    have := (List.mem_range'_1.1 h0).1
    omega
  have hjlt : j < reg.length := (List.getElem?_eq_some.1 hl2).1
  have hlen : reg.length ≤ 2 := by
    have hsub : reg ⊆ [[0], List.range' 1 n] := by
      intro l hl
      rcases dfa.fanOut_enqueued n l (hE l hl).1 with rfl | rfl <;> simp
    exact ((dfa.reg_nodup _ b reg hinv.base).subperm hsub).length_le
  have hj1 : j = 1 := by omega
  subst hj1
  have hlen2 : reg.length = 2 := by omega
  -- the keys of state 0
  have hst0 := dfa.final_state _ fuel b reg hinv 0 _ hreg0
  have hkeys0 : (b.dfa.deref 0).transitions.map Prod.fst = [(1 : Int)] := by
    refine dfa.eq_singleton_of_nodup _ _ (hinv.base.nodupT 0 _ hst0) (fun a => ?_)
    rw [dfa.mem_keys_iff]
    by_cases hc : a = 1
    · rw [hc, hj]
      simp
    · have := (dfa.final_transitions _ fuel b reg hinv 0 _ hreg0 a).1
        (by rw [hmove0, if_neg hc])
      rw [this]
      simp [hc]
  have htrans0 : (b.dfa.deref 0).transitions = [((1 : Int), 1)] := by
    have hj2 := hj
    unfold dfa.State.OutgoingFor at hj2
    match htr : (b.dfa.deref 0).transitions, hkeys0, hj2 with
    | [(k, v)], hk, hg =>
      simp only [List.map_cons, List.map_nil, List.cons.injEq, and_true] at hk
      simp only [gomap.get, hk, if_true, Option.some.injEq] at hg
      rw [hk, hg]
    | [], hk, _ => simp at hk
    | _ :: _ :: _, hk, _ => simp at hk
  -- state 1
  have hst1 := dfa.final_state _ fuel b reg hinv 1 _ hl2
  have htrans1 : (b.dfa.deref 1).transitions = [] := by
    have hnil : (b.dfa.deref 1).transitions.map Prod.fst = [] := by
      rw [List.eq_nil_iff_forall_not_mem]
      intro a ha
      rw [dfa.mem_keys_iff] at ha
      apply ha
      exact (dfa.final_transitions _ fuel b reg hinv 1 _ hl2 a).1
        (by rw [dfa.table_moveOn ht]; exact dfa.fanOut_move_targets n a)
    exact List.map_eq_nil_iff.1 hnil
  have hacc1 : (b.dfa.deref 1).IsAccepting = false :=
    dfa.final_not_accepting hwf fuel b reg hinv (fun x => ht.acc x) _ (List.getElem?_mem hst1)
  exact ⟨hinv.base.len.trans hlen2, hinv.base.start, htrans0, hacc1, htrans1, b, hrun, rfl,
    hinv.base.keyOf 1 _ hl2⟩

/-- C30 at `n = 3`: the DFA of the machine with three transitions on 1 from the start state
has the two states with the transitions `1 -> 1` and none. -/
theorem C30_fanOut_collapses_witness :
    1 ≤ 3 ∧ ∃ d, dfa.FromNfa 17 (examples.fanOutNfa 3) = .ok d ∧
      d.states.map (fun st => st.transitions) = [[(1, 1)], []] ∧ d.states.length = 2 :=
  ⟨by decide, _, rfl, rfl, ((C30_fanOut_collapses 3 (by decide)).2.2 17 _ rfl).1⟩

namespace scanner

/-! ## The machine of a bounded repetition of one symbol -/

section
variable {S V : Type} [Inhabited V] [DecidableEq S]

theorem literal_single (x : S) (machine : nfa.Nfa S V) (start : Nat) :
    (Fragment.fragLiteral [x]).Build machine start = machine.Add start x := by
  rw [literal_cons, literal_nil]

theorem repeat_thread_table (x : S) (k : Nat) :
    nfa.Table
      (fragRepeat.thread (Fragment.fragLiteral [x]).Build k (nfa.New : nfa.Nfa S V) 0).1
      (k + 1) (fun _ => []) (fun q a => if q < k ∧ a = x then [q + 1] else [])
      (fun _ => false) ∧
    (fragRepeat.thread (Fragment.fragLiteral [x]).Build k (nfa.New : nfa.Nfa S V) 0).2 = k := by
  induction k with
  | zero =>
    refine ⟨nfa.table_congr nfa.table_new (fun _ => rfl) (fun q a => ?_) (fun _ => rfl), rfl⟩
    simp
  | succ k ih =>
    rw [thread_succ, literal_single]
    obtain ⟨ht, hc⟩ := ih
    rw [hc]
    refine ⟨nfa.table_congr (nfa.table_add ht (Nat.lt_succ_self k) x) (fun _ => rfl)
      (fun q a => ?_) (fun _ => rfl), (nfa.add_alloc _ _ _).1.trans ht.len⟩
    by_cases h1 : q < k
    · have h2 : q ≠ k := Nat.ne_of_lt h1
      have h3 : q < k + 1 := Nat.lt_succ_of_lt h1
      simp [h1, h2, h3]
    · by_cases h2 : q = k
      · subst h2
        by_cases h4 : a = x
        · simp [h4]
        · have h5 : ¬ x = a := fun h => h4 h.symm
          simp [h4, h5]
      · have h3 : ¬ q < k + 1 := by omega
        simp [h1, h2, h3]

theorem repeat_exit_eq (x : S) (mn : Nat) :
    (fragRepeat.thread (Fragment.fragLiteral [x]).Build mn
          (nfa.New : nfa.Nfa S V) 0).1.NewState.1.ConnectEpsilon
        (fragRepeat.thread (Fragment.fragLiteral [x]).Build mn (nfa.New : nfa.Nfa S V) 0).2
        (fragRepeat.thread (Fragment.fragLiteral [x]).Build mn
          (nfa.New : nfa.Nfa S V) 0).1.NewState.2 = repeatExitMachine x mn := by
  obtain ⟨ht, hc⟩ := repeat_thread_table (V := V) x mn
  rw [hc, (nfa.newState_alloc _).1, ht.len]
  rfl

theorem repeat_exit_table (x : S) (mn : Nat) :
    nfa.Table (repeatExitMachine x mn : nfa.Nfa S V) (mn + 2) (repeatEps mn 0)
      (repeatOut x mn 0) (fun _ => false) := by
  obtain ⟨ht, hc⟩ := repeat_thread_table (V := V) x mn
  refine nfa.table_congr
    (nfa.table_connect (nfa.table_newState ht) (s := mn) (t := mn + 1) (by omega) (by omega))
    (fun q => ?_) (fun q a => ?_) (fun _ => rfl)
  · unfold repeatEps
    by_cases h1 : q = mn
    · simp [h1]
    · have h2 : ¬ (mn + 3 ≤ q ∧ (q - mn) % 2 = 1 ∧ q < mn + 2 + 2 * 0) := by omega
      simp [h1, h2]
  · unfold repeatOut
    by_cases h1 : q < mn ∧ a = x
    · rw [if_pos h1, if_pos ⟨h1.2, Or.inl h1.1⟩]
    · rw [if_neg h1, if_neg]
      rintro ⟨h2, h3 | h3⟩
      · exact h1 ⟨h3, h2⟩
      · omega

theorem repeat_optional_table (x : S) (mn : Nat) (m1 : nfa.Nfa S V)
    (h1 : nfa.Table m1 (mn + 2) (repeatEps mn 0) (repeatOut x mn 0) (fun _ => false))
    (j : Nat) :
    nfa.Table
      (fragRepeat.optional (Fragment.fragLiteral [x]).Build (mn + 1) j m1 mn).1
      (mn + 2 + 2 * j) (repeatEps mn j) (repeatOut x mn j) (fun _ => false) ∧
    (fragRepeat.optional (Fragment.fragLiteral [x]).Build (mn + 1) j m1 mn).2 =
      repeatCur mn j := by
  induction j with
  | zero => exact ⟨h1, rfl⟩
  | succ j ih =>
    obtain ⟨ht, hc⟩ := ih
    rw [optional_succ, literal_single, hc]
    have hcur : repeatCur mn j < mn + 2 + 2 * j := by
      unfold repeatCur
      split_ifs <;> omega
    have ha := nfa.table_addEpsilon ht hcur
    have e1 := (nfa.addEpsilon_alloc
      (fragRepeat.optional (Fragment.fragLiteral [x]).Build (mn + 1) j m1 mn).1
      (repeatCur mn j)).1.trans ht.len
    rw [e1]
    have hb := nfa.table_add ha (s := mn + 2 + 2 * j) (by omega) x
    have e2 := (nfa.add_alloc
      ((fragRepeat.optional (Fragment.fragLiteral [x]).Build (mn + 1) j m1
        mn).1.AddEpsilonTransition (repeatCur mn j)).1 (mn + 2 + 2 * j) x).1.trans ha.len
    rw [e2]
    have hd := nfa.table_connect hb (s := mn + 2 + 2 * j + 1) (t := mn + 1) (by omega)
      (by omega)
    have hlen : mn + 2 + 2 * (j + 1) = mn + 2 + 2 * j + 1 + 1 := by omega
    rw [hlen]
    refine ⟨nfa.table_congr hd (fun q => ?_) (fun q a => ?_) (fun _ => rfl), ?_⟩
    · simp only [repeatEps, repeatCur]
      split_ifs <;> first | rfl | omega | (simp; omega)
    · simp only [repeatOut]
      by_cases hax : a = x
      · subst hax
        simp only [true_and, and_true]
        split_ifs <;> first | rfl | omega | (simp; omega)
      · have hxa : ¬ x = a := fun h => hax h.symm
        simp [hax, hxa]
    · unfold repeatCur
      rw [if_neg (by omega)]
      omega

theorem repeat_build (x : S) (mn d : Nat) :
    (Fragment.fragRepeat (Fragment.fragLiteral [x]) (mn : Int) ((mn + d : Nat) : Int)
        true).Build (nfa.New : nfa.Nfa S V) 0 =
      ((fragRepeat.optional (Fragment.fragLiteral [x]).Build (mn + 1) d
          (repeatExitMachine x mn : nfa.Nfa S V) mn).1, mn + 1) := by
  obtain ⟨ht, hc⟩ := repeat_thread_table (V := V) x mn
  have hsub : ((mn + d : Nat) : Int) - (mn : Int) = (d : Int) := by
    push_cast
    omega
  rw [build_repeat]
  simp only [Int.toNat_ofNat, Bool.not_true, Bool.false_eq_true, if_false, hsub,
    repeat_exit_eq, hc, (nfa.newState_alloc _).1, ht.len]
  by_cases hd : d = 0
  · subst hd
    simp only [Nat.cast_zero, if_true, optional_zero]
    rfl
  · have : ¬ (d : Int) = 0 := by omega
    rw [if_neg this]
    rfl

theorem repeat_final_table (x : S) (mn d : Nat) (v : V) :
    ∃ n : nfa.Nfa S V,
      examples.repeatBetweenNfa x (mn : Int) ((mn + d : Nat) : Int) v = .ok n ∧
      nfa.Table n (mn + 2 + 2 * d + 1) (repeatEpsFinal mn d) (repeatOut x mn d)
        (fun q => decide (q = mn + 2 + 2 * d)) := by
  have hb := repeat_build (V := V) x mn d
  obtain ⟨ht, _⟩ := repeat_optional_table x mn _ (repeat_exit_table (V := V) x mn) d
  have hf := nfa.table_addAccepting ht (s := mn + 1) (by omega) v
  refine ⟨_, ?_, nfa.table_congr hf (fun q => rfl) (fun q a => rfl) (fun q => ?_)⟩
  · unfold examples.repeatBetweenNfa Literal RepeatBetween
    have h1 : ¬ ((mn : Int) < 0) := by omega
    have h2 : ¬ (((mn + d : Nat) : Int) < (mn : Int)) := by omega
    simp only [List.length_singleton, one_ne_zero, if_false, h1, h2]
    show Except.ok _ = Except.ok _
    have h0 : (nfa.New : nfa.Nfa S V).Start = 0 := rfl
    rw [h0, hb]
  · by_cases hq : q = mn + 2 + 2 * d <;> simp [hq]

end
end scanner

namespace scanner

theorem repeatEpsFinal_cur (mn d j : Nat) (hj : j ≤ d) :
    repeatEpsFinal mn d (repeatCur mn j) =
      (mn + 1) :: (if j < d then [mn + 2 + 2 * j] else []) := by
  unfold repeatEpsFinal repeatEps repeatCur
  split_ifs <;> first | rfl | omega | (simp; omega)

theorem repeatEpsFinal_exit (mn d : Nat) :
    repeatEpsFinal mn d (mn + 1) = [mn + 2 + 2 * d] := by
  unfold repeatEpsFinal repeatEps
  split_ifs <;> first | rfl | omega

theorem repeatEpsFinal_optional (mn d j : Nat) :
    repeatEpsFinal mn d (mn + 2 + 2 * j) = [] := by
  unfold repeatEpsFinal repeatEps
  split_ifs <;> first | rfl | omega

theorem repeatEpsFinal_chain (mn d k : Nat) (hk : k < mn) : repeatEpsFinal mn d k = [] := by
  unfold repeatEpsFinal repeatEps
  split_ifs <;> first | rfl | omega

theorem repeatOut_other {S : Type} [DecidableEq S] (x : S) (mn d q : Nat) (a : S)
    (ha : a ≠ x) : repeatOut x mn d q a = [] := by
  unfold repeatOut
  rw [if_neg (fun h => ha h.1)]

theorem repeatOut_cur {S : Type} [DecidableEq S] (x : S) (mn d j : Nat) (a : S) :
    repeatOut x mn d (repeatCur mn j) a = [] := by
  unfold repeatOut repeatCur
  rw [if_neg]
  rintro ⟨_, h | h⟩ <;> split_ifs at h <;> omega

theorem repeatOut_exit {S : Type} [DecidableEq S] (x : S) (mn d : Nat) (a : S) :
    repeatOut x mn d (mn + 1) a = [] := by
  unfold repeatOut
  rw [if_neg]
  rintro ⟨_, h | h⟩ <;> omega

theorem repeatOut_accept {S : Type} [DecidableEq S] (x : S) (mn d : Nat) (a : S) :
    repeatOut x mn d (mn + 2 + 2 * d) a = [] := by
  unfold repeatOut
  rw [if_neg]
  rintro ⟨_, h | h⟩ <;> omega

theorem repeatOut_optional {S : Type} [DecidableEq S] (x : S) (mn d j : Nat) (hj : j < d) :
    repeatOut x mn d (mn + 2 + 2 * j) x = [mn + 2 + 2 * j + 1] := by
  unfold repeatOut
  rw [if_pos]
  exact ⟨rfl, Or.inr ⟨by omega, by omega, by omega⟩⟩

theorem repeatOut_chain {S : Type} [DecidableEq S] (x : S) (mn d k : Nat) (hk : k < mn) :
    repeatOut x mn d k x = [k + 1] := by
  unfold repeatOut
  rw [if_pos ⟨rfl, Or.inl hk⟩]

theorem repeat_eps_count (mn d k q y : Nat) (hy : y ∈ repeatEpsFinal mn d q)
    (hq : repeatCount mn d k q) : repeatCount mn d k y := by
  unfold repeatCount at hq ⊢
  unfold repeatEpsFinal repeatEps at hy
  split_ifs at hy <;> simp at hy <;> omega

theorem repeat_out_count {S : Type} [DecidableEq S] (x : S) (mn d k q y : Nat) (a : S)
    (hy : y ∈ repeatOut x mn d q a) (hq : repeatCount mn d k q) :
    a = x ∧ repeatCount mn d (k + 1) y := by
  unfold repeatOut at hy
  split_ifs at hy with h
  · rw [List.mem_singleton] at hy
    refine ⟨h.1, ?_⟩
    have h2 := h.2
    unfold repeatCount at hq ⊢
    omega
  · cases hy

theorem repeatClosure_nodup (mn d j : Nat) (hj : j ≤ d) : (repeatClosure mn d j).Nodup := by
  unfold repeatClosure repeatCur
  split_ifs <;> simp <;> omega

section
variable {S V : Type} [Inhabited V] [DecidableEq S]

/-- A word that reaches a state of the repetition machine is a number of symbols `x` that
the state counts. -/
theorem repeat_reaches_sound {n : nfa.Nfa S V} {x : S} {mn d : Nat}
    (ht : nfa.Table n (mn + 2 + 2 * d + 1) (repeatEpsFinal mn d) (repeatOut x mn d)
      (fun q => decide (q = mn + 2 + 2 * d)))
    (w : List S) (q : Nat) (h : nfa.Reaches n w q) :
    ∃ k, w = List.replicate k x ∧ repeatCount mn d k q := by
  induction h with
  | start =>
    have hs : n.Start = 0 := ht.start
    rw [hs]
    exact ⟨0, rfl, Or.inl ⟨Nat.zero_le mn, rfl⟩⟩
  | @eps w q y _ hy ih =>
    obtain ⟨k, hw, hk⟩ := ih
    unfold nfa.State.Epsilon at hy
    rw [ht.eps] at hy
    exact ⟨k, hw, repeat_eps_count mn d k q y hy hk⟩
  | @sym w a q y _ hy ih =>
    obtain ⟨k, hw, hk⟩ := ih
    rcases hy with hy | ⟨pt, hpt, _⟩
    · rw [ht.out] at hy
      obtain ⟨ha, hc⟩ := repeat_out_count x mn d k q y a hy hk
      refine ⟨k + 1, ?_, hc⟩
      rw [hw, ha, List.replicate_succ']
    · rw [ht.preds] at hpt
      cases hpt

theorem repeat_reaches_chain {n : nfa.Nfa S V} {x : S} {mn d : Nat}
    (ht : nfa.Table n (mn + 2 + 2 * d + 1) (repeatEpsFinal mn d) (repeatOut x mn d)
      (fun q => decide (q = mn + 2 + 2 * d)))
    (q : Nat) (hq : q ≤ mn) : nfa.Reaches n (List.replicate q x) q := by
  induction q with
  | zero =>
    have hs : n.Start = 0 := ht.start
    have := @nfa.Reaches.start _ _ _ _ n
    rw [hs] at this
    exact this
  | succ q ih =>
    rw [List.replicate_succ']
    refine nfa.Reaches.sym (ih (Nat.le_of_succ_le hq)) (Or.inl ?_)
    rw [ht.out, repeatOut_chain x mn d q hq]
    exact List.mem_singleton.2 rfl

theorem repeat_reaches_cur {n : nfa.Nfa S V} {x : S} {mn d : Nat}
    (ht : nfa.Table n (mn + 2 + 2 * d + 1) (repeatEpsFinal mn d) (repeatOut x mn d)
      (fun q => decide (q = mn + 2 + 2 * d)))
    (j : Nat) (hj : j ≤ d) : nfa.Reaches n (List.replicate (mn + j) x) (repeatCur mn j) := by
  induction j with
  | zero => exact repeat_reaches_chain ht mn (Nat.le_refl mn)
  | succ j ih =>
    have h1 := ih (Nat.le_of_succ_le hj)
    have h2 : nfa.Reaches n (List.replicate (mn + j) x) (mn + 2 + 2 * j) := by
      refine nfa.Reaches.eps h1 ?_
      unfold nfa.State.Epsilon
      rw [ht.eps, repeatEpsFinal_cur mn d j (Nat.le_of_succ_le hj),
        if_pos (Nat.lt_of_succ_le hj)]
      simp
    have h3 : nfa.Reaches n (List.replicate (mn + j) x ++ [x]) (mn + 2 + 2 * j + 1) := by
      refine nfa.Reaches.sym h2 (Or.inl ?_)
      rw [ht.out, repeatOut_optional x mn d j hj]
      exact List.mem_singleton.2 rfl
    rw [← List.replicate_succ'] at h3
    have hc : repeatCur mn (j + 1) = mn + 2 + 2 * j + 1 := by
      unfold repeatCur
      rw [if_neg (by omega)]
      omega
    rw [hc]
    exact h3

theorem repeat_reaches_accept {n : nfa.Nfa S V} {x : S} {mn d : Nat}
    (ht : nfa.Table n (mn + 2 + 2 * d + 1) (repeatEpsFinal mn d) (repeatOut x mn d)
      (fun q => decide (q = mn + 2 + 2 * d)))
    (k : Nat) (h1 : mn ≤ k) (h2 : k ≤ mn + d) :
    nfa.Reaches n (List.replicate k x) (mn + 2 + 2 * d) := by
  have hk : k = mn + (k - mn) := by omega
  have hr := repeat_reaches_cur ht (k - mn) (by omega)
  rw [← hk] at hr
  have hE : nfa.Reaches n (List.replicate k x) (mn + 1) := by
    refine nfa.Reaches.eps hr ?_
    unfold nfa.State.Epsilon
    rw [ht.eps, repeatEpsFinal_cur mn d (k - mn) (by omega)]
    exact List.mem_cons_self _ _
  refine nfa.Reaches.eps hE ?_
  unfold nfa.State.Epsilon
  rw [ht.eps, repeatEpsFinal_exit]
  exact List.mem_singleton.2 rfl

theorem repeat_acyclic {n : nfa.Nfa S V} {x : S} {mn d : Nat}
    (ht : nfa.Table n (mn + 2 + 2 * d + 1) (repeatEpsFinal mn d) (repeatOut x mn d)
      (fun q => decide (q = mn + 2 + 2 * d))) :
    ∀ q, ¬ Relation.TransGen (dfa.EpsStep n.states) q q := by
  refine dfa.table_acyclic ht
    (fun q => if q = mn + 1 then 2 * (mn + 2 * d) + 10
      else if q = mn + 2 + 2 * d then 2 * (mn + 2 * d) + 11 else q) ?_
  intro q y hy
  show (if q = mn + 1 then 2 * (mn + 2 * d) + 10
      else if q = mn + 2 + 2 * d then 2 * (mn + 2 * d) + 11 else q) <
    (if y = mn + 1 then 2 * (mn + 2 * d) + 10
      else if y = mn + 2 + 2 * d then 2 * (mn + 2 * d) + 11 else y)
  unfold repeatEpsFinal repeatEps at hy
  split_ifs at hy <;> simp at hy <;> split_ifs <;> omega

theorem repeat_closure_cur {n : nfa.Nfa S V} {x : S} {mn d : Nat}
    (ht : nfa.Table n (mn + 2 + 2 * d + 1) (repeatEpsFinal mn d) (repeatOut x mn d)
      (fun q => decide (q = mn + 2 + 2 * d)))
    (j : Nat) (hj : j ≤ d) (fuel : Nat) (r : List Nat)
    (h : dfa.findPossibleStates fuel n.states [repeatCur mn j] = .ok r) :
    r = repeatClosure mn d j := by
  by_cases hjd : j < d
  · have h3 := dfa.closure_eval n.states 3 _ r fuel
      (by simp [dfa.epsLevel, dfa.table_epsTargets ht, repeatEpsFinal_cur mn d j hj, hjd,
        repeatEpsFinal_exit, repeatEpsFinal_optional]) h
    rw [h3]
    simp [dfa.epsLevels, dfa.table_epsTargets ht, repeatEpsFinal_cur mn d j hj, hjd,
      repeatEpsFinal_exit, repeatEpsFinal_optional, repeatClosure]
  · have h3 := dfa.closure_eval n.states 3 _ r fuel
      (by simp [dfa.epsLevel, dfa.table_epsTargets ht, repeatEpsFinal_cur mn d j hj, hjd,
        repeatEpsFinal_exit, repeatEpsFinal_optional]) h
    rw [h3]
    simp [dfa.epsLevels, dfa.table_epsTargets ht, repeatEpsFinal_cur mn d j hj, hjd,
      repeatEpsFinal_exit, repeatEpsFinal_optional, repeatClosure]

theorem repeat_move_closure {S : Type} [DecidableEq S] (x : S) (mn d j : Nat) (a : S) :
    (repeatClosure mn d j).flatMap (fun s => repeatOut x mn d s a) =
      if j < d ∧ a = x then [repeatCur mn (j + 1)] else [] := by
  have hc : repeatCur mn (j + 1) = mn + 2 + 2 * j + 1 := by
    unfold repeatCur
    rw [if_neg (by omega)]
    omega
  unfold repeatClosure
  by_cases hjd : j < d
  · by_cases hax : a = x
    · subst hax
      simp [hjd, repeatOut_cur, repeatOut_exit, repeatOut_accept, repeatOut_optional, hc]
    · simp [hjd, hax, repeatOut_other]
  · simp [hjd, repeatOut_cur, repeatOut_exit, repeatOut_accept]

theorem repeat_enqueued {n : nfa.Nfa S V} {x : S} {mn d : Nat}
    (ht : nfa.Table n (mn + 2 + 2 * d + 1) (repeatEpsFinal mn d) (repeatOut x mn d)
      (fun q => decide (q = mn + 2 + 2 * d)))
    (l : List Nat) (h : dfa.Enqueued n l) :
    (∃ k, k < mn ∧ l = [k]) ∨ ∃ j, j ≤ d ∧ l = repeatClosure mn d j := by
  have hchain : ∀ k, k ≤ mn → ∀ fuel r,
      dfa.findPossibleStates fuel n.states [k] = .ok r →
      (∃ k, k < mn ∧ r = [k]) ∨ ∃ j, j ≤ d ∧ r = repeatClosure mn d j := by
    intro k hk fuel r hr
    by_cases hlt : k < mn
    · left
      refine ⟨k, hlt, dfa.table_closure_plain ht [k] (fun y hy => ?_) _ _ hr⟩
      rw [List.mem_singleton] at hy
      rw [hy]
      exact repeatEpsFinal_chain mn d k hlt
    · right
      have hkm : k = repeatCur mn 0 := by
        unfold repeatCur
        rw [if_pos rfl]
        omega
      rw [hkm] at hr
      exact ⟨0, Nat.zero_le d, repeat_closure_cur ht 0 (Nat.zero_le d) _ _ hr⟩
  induction h with
  | start h0 =>
    have hs : n.Start = 0 := ht.start
    rw [hs] at h0
    exact hchain 0 (Nat.zero_le mn) _ _ h0
  | @step fuel l l1 a _ h1 hne ih =>
    rw [dfa.table_moveOn ht] at h1
    rcases ih with ⟨k, hk, rfl⟩ | ⟨j, hj, rfl⟩
    · simp only [List.flatMap_cons, List.flatMap_nil, List.append_nil] at h1
      by_cases hax : a = x
      · rw [hax, repeatOut_chain x mn d k hk] at h1
        exact hchain (k + 1) hk _ _ h1
      · rw [repeatOut_other x mn d k a hax] at h1
        exact absurd (dfa.findPossibleStates_nil _ _ _ h1) hne
    · rw [repeat_move_closure] at h1
      by_cases hc : j < d ∧ a = x
      · rw [if_pos hc] at h1
        exact Or.inr ⟨j + 1, hc.1, repeat_closure_cur ht (j + 1) hc.1 _ _ h1⟩
      · rw [if_neg hc] at h1
        exact absurd (dfa.findPossibleStates_nil _ _ _ h1) hne

/-- The conversion of the repetition machine: it returns, the DFA accepts `k` symbols `x`
exactly when `mn <= k <= mn + d`, and no state of the DFA has a transition on another
symbol. -/
theorem repeat_converts {n : nfa.Nfa S V} {x : S} {mn d : Nat}
    (ht : nfa.Table n (mn + 2 + 2 * d + 1) (repeatEpsFinal mn d) (repeatOut x mn d)
      (fun q => decide (q = mn + 2 + 2 * d))) :
    (∃ D, dfa.FromNfa (2 ^ n.states.length + 1) n = .ok D) ∧
    ∀ fuel D, dfa.FromNfa fuel n = .ok D →
      (∀ k : Nat,
        (∃ r, D.follow (List.replicate k x) = some r ∧ (D.deref r).IsAccepting = true) ↔
          (mn ≤ k ∧ k ≤ mn + d)) ∧
      ∀ st ∈ D.states, ∀ a, a ≠ x → st.OutgoingFor a = none := by
  have hwf : n.WF := nfa.built_wf _ ht.built
  have hnp := dfa.table_noPredicates ht
  have hac := repeat_acyclic ht
  have hnd : ∀ l, dfa.Enqueued n l → l.Nodup := by
    intro l hl
    rcases repeat_enqueued ht l hl with ⟨k, _, rfl⟩ | ⟨j, hj, rfl⟩
    · exact List.nodup_singleton k
    · exact repeatClosure_nodup mn d j hj
  refine ⟨dfa.fromNfa_total n hwf hac hnd, ?_⟩
  intro fuel D hD
  obtain ⟨b, hrun, rfl⟩ := (dfa.fromNfa_ok_iff fuel _ D).1 hD
  obtain ⟨reg, hinv, hstart, hE⟩ := dfa.run_enqueued fuel _ b hwf hrun
  have hvalid : ∀ l ∈ reg, ∀ y ∈ l, y < n.states.length := fun l hl => (hE l hl).2
  have hfol := dfa.follow_spec fuel _ b reg hwf hnp hinv hstart hvalid
  constructor
  · intro k
    constructor
    · rintro ⟨r, hr, hacc⟩
      obtain ⟨l, hl, hmem⟩ := (hfol _).1 r hr
      obtain ⟨q, hq, hqa⟩ := (dfa.final_accepting hwf fuel b reg hinv r l hl).1 hacc
      rw [ht.acc, decide_eq_true_iff] at hqa
      obtain ⟨k1, hw, hc⟩ := repeat_reaches_sound ht _ q ((hmem q).1 hq)
      have hk : k = k1 := by
        have := congrArg List.length hw
        simpa using this
      subst hk
      unfold repeatCount at hc
      omega
    · rintro ⟨h1, h2⟩
      have hreach := repeat_reaches_accept ht k h1 h2
      cases hf : b.dfa.follow (List.replicate k x) with
      | none => exact absurd hreach ((hfol _).2 hf _)
      | some r =>
        obtain ⟨l, hl, hmem⟩ := (hfol _).1 r hf
        refine ⟨r, rfl, (dfa.final_accepting hwf fuel b reg hinv r l hl).2
          ⟨mn + 2 + 2 * d, (hmem _).2 hreach, ?_⟩⟩
        rw [ht.acc, decide_eq_true_iff]
  · intro st hst a ha
    obtain ⟨i, hi, rfl⟩ := List.getElem_of_mem hst
    have hi2 : i < reg.length := by rw [← hinv.base.len]; exact hi
    have hl : reg[i]? = some reg[i] := List.getElem?_eq_getElem hi2
    have hd : b.dfa.deref i = b.dfa.states[i] :=
      dfa.deref_of_getElem? _ _ _ (List.getElem?_eq_getElem hi)
    rw [← hd]
    refine (dfa.final_transitions _ fuel b reg hinv i _ hl a).1 ?_
    rw [dfa.table_moveOn ht, List.flatMap_eq_nil_iff]
    intro s _
    exact repeatOut_other x mn d s a ha

end
end scanner

/-- C28: `RepeatBetween` matches between `min` and `max` repetitions inclusive. For every
symbol `x`, accept value and `0 <= min <= max`, the constructors return,
`RepeatBetween(min, max, Literal(x))` is built at the start state of a new machine and an
accepting state is attached to the exit; `FromNfa` returns on that machine, and in the DFA
it returns the symbol `x` repeated `k` times leads from the start state to an accepting
state exactly when `min <= k <= max`, and no state has a transition on a symbol other than
`x`. -/
theorem C28_repeatBetween_matches_bounds {S V : Type} [Inhabited V] [DecidableEq S] (x : S)
    (v : V) (min max : Int) (h0 : 0 ≤ min) (h1 : min ≤ max) :
    ∃ n : nfa.Nfa S V, examples.repeatBetweenNfa x min max v = .ok n ∧
      (∃ d, dfa.FromNfa (2 ^ n.states.length + 1) n = .ok d) ∧
      ∀ fuel d, dfa.FromNfa fuel n = .ok d →
        (∀ k : Nat,
          (∃ r, d.follow (List.replicate k x) = some r ∧ (d.deref r).IsAccepting = true) ↔
            (min ≤ (k : Int) ∧ (k : Int) ≤ max)) ∧
        ∀ st ∈ d.states, ∀ a, a ≠ x → st.OutgoingFor a = none := by
  have hmin : min = ((min.toNat : Nat) : Int) := (Int.toNat_of_nonneg h0).symm
  have hmax : max = ((min.toNat + (max - min).toNat : Nat) : Int) := by
    push_cast
    rw [Int.toNat_of_nonneg h0, Int.toNat_of_nonneg (by omega)]
    omega
  obtain ⟨n, hn, ht⟩ := scanner.repeat_final_table (V := V) x min.toNat (max - min).toNat v
  rw [← hmin, ← hmax] at hn
  obtain ⟨hterm, hrest⟩ := scanner.repeat_converts ht
  refine ⟨n, hn, hterm, fun fuel d hd => ⟨fun k => ?_, (hrest fuel d hd).2⟩⟩
  rw [(hrest fuel d hd).1 k]
  omega

/-- C28 at the spec's instance, `min = 2` and `max = 4`, for the symbol 7. -/
theorem C28_repeatBetween_matches_bounds_witness :
    (0 : Int) ≤ 2 ∧ (2 : Int) ≤ 4 ∧
    ∃ n : nfa.Nfa Nat Nat, examples.repeatBetweenNfa 7 2 4 0 = .ok n ∧
      (∃ d, dfa.FromNfa (2 ^ n.states.length + 1) n = .ok d) ∧
      ∀ fuel d, dfa.FromNfa fuel n = .ok d →
        (∀ k : Nat,
          (∃ r, d.follow (List.replicate k 7) = some r ∧ (d.deref r).IsAccepting = true) ↔
            ((2 : Int) ≤ (k : Int) ∧ (k : Int) ≤ 4)) ∧
        ∀ st ∈ d.states, ∀ a, a ≠ 7 → st.OutgoingFor a = none :=
  ⟨by decide, by decide, C28_repeatBetween_matches_bounds 7 0 2 4 (by decide) (by decide)⟩

/-! ## collections/queue and collections/mvmap -/

namespace queue

theorem enqueue_all {T : Type} (vs : List T) (q : Queue T) :
    (vs.foldl (fun q v => q.Enqueue v) q).data = q.data ++ vs := by
  induction vs generalizing q with
  | nil => simp
  | cons v vs ih =>
    rw [List.foldl_cons, ih]
    simp [Queue.Enqueue]

theorem dequeue_front {T : Type} (q : Queue T) : q.Dequeue.1 = q.data.head? := by
  unfold Queue.Dequeue
  cases q.data <;> rfl

theorem dequeue_empty {T : Type} (q : Queue T) (h : q.data = []) : q.Dequeue = (none, q) := by
  unfold Queue.Dequeue
  rw [h]

theorem dequeue_iterate {T : Type} (k : Nat) (q : Queue T) :
    ((fun q : Queue T => q.Dequeue.2)^[k] q).data = q.data.drop k := by
  induction k generalizing q with
  | zero => simp
  | succ k ih =>
    rw [Function.iterate_succ_apply, ih]
    unfold Queue.Dequeue
    cases h : q.data with
    | nil => simp [h]
    | cons v rest => simp

end queue

/-- C32: the queue is first-in, first-out. For every list `vs` of values enqueued in order
on a new queue, and every `k` below their number, the queue after `k` calls of `Dequeue`
holds `n - k` values and its `Dequeue` returns the value `vs[k]`; after `n` calls the queue
is empty; and `Dequeue` on an empty queue returns no value and leaves the queue as it is. -/
theorem C32_queue_fifo {T : Type} (vs : List T) :
    (vs.foldl (fun q v => q.Enqueue v) (queue.New : queue.Queue T)).Len = vs.length ∧
    (∀ k, k < vs.length →
      ((fun q : queue.Queue T => q.Dequeue.2)^[k]
          (vs.foldl (fun q v => q.Enqueue v) queue.New)).Len = vs.length - k ∧
      ((fun q : queue.Queue T => q.Dequeue.2)^[k]
          (vs.foldl (fun q v => q.Enqueue v) queue.New)).Dequeue.1 = vs[k]? ∧
      vs[k]? ≠ none ∧
      ((fun q : queue.Queue T => q.Dequeue.2)^[k + 1]
          (vs.foldl (fun q v => q.Enqueue v) queue.New)).Len = vs.length - (k + 1)) ∧
    ((fun q : queue.Queue T => q.Dequeue.2)^[vs.length]
        (vs.foldl (fun q v => q.Enqueue v) queue.New)) = queue.New ∧
    ∀ q : queue.Queue T, q.Len = 0 → q.Dequeue = (none, q) ∧ q.Dequeue.2.Len = 0 := by
  have hd : ∀ k, ((fun q : queue.Queue T => q.Dequeue.2)^[k]
      (vs.foldl (fun q v => q.Enqueue v) queue.New)).data = vs.drop k := by
    intro k
    rw [queue.dequeue_iterate, queue.enqueue_all]
    simp [queue.New]
  refine ⟨?_, ?_, ?_, ?_⟩
  · unfold queue.Queue.Len
    rw [queue.enqueue_all]
    simp [queue.New]
  · intro k hk
    refine ⟨?_, ?_, ?_, ?_⟩
    · unfold queue.Queue.Len
      rw [hd]
      simp
    · rw [queue.dequeue_front, hd, List.drop_eq_getElem_cons hk]
      simp [List.getElem?_eq_getElem hk]
    · rw [List.getElem?_eq_getElem hk]
      simp
    · unfold queue.Queue.Len
      rw [hd]
      simp
  · have := hd vs.length
    rw [List.drop_length] at this
    cases hq : ((fun q : queue.Queue T => q.Dequeue.2)^[vs.length]
        (vs.foldl (fun q v => q.Enqueue v) queue.New)) with
    | mk data =>
      rw [hq] at this
      simp only at this
      rw [this]
      rfl
  · intro q hq
    unfold queue.Queue.Len at hq
    have h0 : q.data = [] := List.length_eq_zero.1 hq
    rw [queue.dequeue_empty q h0]
    exact ⟨rfl, hq⟩

namespace mvmap

theorem keys_put_gen {K V : Type} [DecidableEq K] (m : MvMap K V) (k : K) (v : V) :
    (m.Put k v).Keys = if k ∈ m.Keys then m.Keys else m.Keys ++ [k] := by
  unfold MvMap.Put MvMap.Keys
  exact gomap.keys_set _ _ _

theorem put_all {K V : Type} [DecidableEq K] (ps : List (K × V)) :
    ∀ m : MvMap K V, m.Keys.Nodup →
      (∀ k, (ps.foldl (fun m p => m.Put p.1 p.2) m).Get k =
        m.Get k ++ (ps.filter (fun p => decide (p.1 = k))).map Prod.snd) ∧
      (ps.foldl (fun m p => m.Put p.1 p.2) m).Keys.Nodup ∧
      ∀ k, k ∈ (ps.foldl (fun m p => m.Put p.1 p.2) m).Keys ↔
        k ∈ m.Keys ∨ k ∈ ps.map Prod.fst := by
  induction ps with
  | nil => intro m hm; simp [hm]
  | cons p ps ih =>
    intro m hm
    have hm1 : (m.Put p.1 p.2).Keys.Nodup := by
      rw [keys_put_gen]
      split_ifs with h
      · exact hm
      · exact List.Nodup.append hm (List.nodup_singleton _) (by simpa using h)
    obtain ⟨h1, h2, h3⟩ := ih (m.Put p.1 p.2) hm1
    rw [List.foldl_cons]
    refine ⟨fun k => ?_, h2, fun k => ?_⟩
    · rw [h1 k, get_put]
      by_cases hk : p.1 = k
      · simp [hk, List.filter_cons]
      · simp [hk, List.filter_cons]
    · rw [h3 k, keys_put_gen]
      by_cases hk : p.1 ∈ m.Keys
      · rw [if_pos hk]
        simp only [List.map_cons, List.mem_cons]
        constructor
        · rintro (h | h)
          · exact Or.inl h
          · exact Or.inr (Or.inr h)
        · rintro (h | h | h)
          · exact Or.inl h
          · exact Or.inl (h ▸ hk)
          · exact Or.inr h
      · rw [if_neg hk]
        simp only [List.map_cons, List.mem_cons, List.mem_append, List.mem_singleton]
        tauto

end mvmap

/-- C33: the multi-value map groups the values per key in insertion order. After the calls
`Put(k_i, v_i)` of a list on a new map, `Get(k)` is the list of the `v_i` with `k_i = k` in
call order (empty for a key never put), `Len()` is the number of distinct keys put, and
`Keys()` holds each of those keys exactly once and nothing else. -/
theorem C33_mvmap_groups_values {K V : Type} [DecidableEq K] (ps : List (K × V)) :
    (∀ k, (ps.foldl (fun m p => m.Put p.1 p.2) (mvmap.New : mvmap.MvMap K V)).Get k =
      (ps.filter (fun p => decide (p.1 = k))).map Prod.snd) ∧
    (∀ k, k ∉ ps.map Prod.fst →
      (ps.foldl (fun m p => m.Put p.1 p.2) (mvmap.New : mvmap.MvMap K V)).Get k = []) ∧
    (ps.foldl (fun m p => m.Put p.1 p.2) (mvmap.New : mvmap.MvMap K V)).Len =
      (ps.map Prod.fst).dedup.length ∧
    (ps.foldl (fun m p => m.Put p.1 p.2) (mvmap.New : mvmap.MvMap K V)).Keys.Nodup ∧
    ∀ k, k ∈ (ps.foldl (fun m p => m.Put p.1 p.2) (mvmap.New : mvmap.MvMap K V)).Keys ↔
      k ∈ ps.map Prod.fst := by
  obtain ⟨h1, h2, h3⟩ := mvmap.put_all ps (mvmap.New : mvmap.MvMap K V) List.nodup_nil
  have hget : ∀ k, (ps.foldl (fun m p => m.Put p.1 p.2) (mvmap.New : mvmap.MvMap K V)).Get k =
      (ps.filter (fun p => decide (p.1 = k))).map Prod.snd := by
    intro k
    rw [h1 k, mvmap.get_new, List.nil_append]
  have hmem : ∀ k, k ∈ (ps.foldl (fun m p => m.Put p.1 p.2)
      (mvmap.New : mvmap.MvMap K V)).Keys ↔ k ∈ ps.map Prod.fst := by
    intro k
    rw [h3 k]
    simp [mvmap.MvMap.Keys, mvmap.New]
  refine ⟨hget, ?_, ?_, h2, hmem⟩
  · intro k hk
    rw [hget k]
    rw [List.map_eq_nil_iff, List.filter_eq_nil_iff]
    intro p hp hpk
    exact hk (List.mem_map.2 ⟨p, hp, by simpa using hpk⟩)
  · have hperm : (ps.foldl (fun m p => m.Put p.1 p.2)
        (mvmap.New : mvmap.MvMap K V)).Keys.Perm (ps.map Prod.fst).dedup := by
      refine (List.perm_ext_iff_of_nodup h2 (List.nodup_dedup _)).2 (fun k => ?_)
      rw [hmem k, List.mem_dedup]
    have := hperm.length_eq
    unfold mvmap.MvMap.Keys at this
    rw [List.length_map] at this
    exact this

/-- C38: concatenating literals equals sequencing them. For all non-empty symbol lists `a`
and `b`, every machine and every anchor, the three literals are constructed, and the build of
`Sequence(Literal(a), Literal(b))` gives the same machine and the same exit state as the
build of `Literal(a ++ b)`. -/
theorem C38_literal_concat_is_sequence {S V : Type} [Inhabited V] [DecidableEq S]
    (a b : List S) (ha : a ≠ []) (hb : b ≠ []) (machine : nfa.Nfa S V) (start : Nat) :
    ∃ la lb lab, scanner.Literal a = .ok la ∧ scanner.Literal b = .ok lb ∧
      scanner.Literal (a ++ b) = .ok lab ∧
      (scanner.Sequence [la, lb]).Build machine start = lab.Build machine start := by
  have hla : a.length ≠ 0 := fun h => ha (List.length_eq_zero.1 h)
  have hlb : b.length ≠ 0 := fun h => hb (List.length_eq_zero.1 h)
  have hlab : (a ++ b).length ≠ 0 := by
    rw [List.length_append]
    omega
  refine ⟨.fragLiteral a, .fragLiteral b, .fragLiteral (a ++ b), ?_, ?_, ?_, ?_⟩
  · unfold scanner.Literal
    rw [if_neg hla]
  · unfold scanner.Literal
    rw [if_neg hlb]
  · unfold scanner.Literal
    rw [if_neg hlab]
  · unfold scanner.Sequence
    rw [scanner.build_sequence, scanner.sequence_loop_foldl]
    simp only [List.foldl_cons, List.foldl_nil, scanner.build_literal, List.foldl_append]

/-- C38 at the literals `1, 2` and `3` on a new machine. -/
theorem C38_literal_concat_is_sequence_witness :
    ([1, 2] : List Nat) ≠ [] ∧ ([3] : List Nat) ≠ [] ∧
    ∃ la lb lab, scanner.Literal [1, 2] = .ok la ∧ scanner.Literal [3] = .ok lb ∧
      scanner.Literal ([1, 2] ++ [3]) = .ok lab ∧
      (scanner.Sequence [la, lb]).Build (nfa.New : nfa.Nfa Nat Nat) 0 =
        lab.Build (nfa.New : nfa.Nfa Nat Nat) 0 :=
  ⟨by decide, by decide,
    C38_literal_concat_is_sequence [1, 2] [3] (by decide) (by decide) nfa.New 0⟩

/-- C39: the key of a list of states is the text of the ids of the list in ascending order,
every occurrence included, separated by commas. It does not depend on the order of the list,
and two lists have the same key exactly when they hold the same ids the same number of
times; the list of the states 3 and 1 of a machine of the API has the key `1,3` and the
empty list has the empty key. -/
theorem C39_key_sorted_ids_with_multiplicity {S V : Type} [Inhabited V]
    (heap : List (nfa.State S V)) (s1 s2 : List Nat) :
    (∃ ids : List Nat, ids.Sorted (fun a b => a ≤ b) ∧ ids.Perm (dfa.idsOf heap s1) ∧
      dfa.calculateStatesKey heap s1 = String.mk (dfa.joinIDs ids)) ∧
    (s1.Perm s2 → dfa.calculateStatesKey heap s1 = dfa.calculateStatesKey heap s2) ∧
    (dfa.calculateStatesKey heap s1 = dfa.calculateStatesKey heap s2 ↔
      ∀ id, (dfa.idsOf heap s1).count id = (dfa.idsOf heap s2).count id) ∧
    dfa.calculateStatesKey examples.diamond.states [3, 1] = "1,3" ∧
    dfa.calculateStatesKey heap [] = "" := by
  refine ⟨⟨(dfa.idsOf heap s1).insertionSort (fun a b => a ≤ b),
    List.sorted_insertionSort _ _, List.perm_insertionSort _ _, ?_⟩, ?_, ?_, by rfl, by rfl⟩
  · have := dfa.calculateStatesKey_data heap s1
    cases hk : dfa.calculateStatesKey heap s1 with
    | mk data =>
      rw [hk] at this
      simp only at this
      rw [this]
  · intro hp
    rw [dfa.calculateStatesKey_eq_iff]
    exact hp.map _
  · rw [dfa.calculateStatesKey_eq_iff, List.perm_iff_count]

/-! ## The main loop of the converter: ids, lookups and transitions -/

namespace dfa

section
variable {S V : Type} [Inhabited V] [DecidableEq S]

theorem expand_loop_error (fuel : Nat) (heap : List (nfa.State S V)) (states : List Nat)
    (syms : List S) :
    ∀ (acc : List (S × List Nat)) (e : Fault),
      expandStatesPerSymbol.loop fuel heap states syms acc = .error e → e = .outOfFuel := by
  induction syms with
  | nil => intro acc e h; cases h
  | cons sym rest ih =>
    intro acc e h
    simp only [expandStatesPerSymbol.loop] at h
    cases hf : findPossibleStates fuel heap (findReachableStatesForSymbol heap states sym) with
    | error e1 =>
      rw [hf] at h
      simp only at h
      cases h
      exact findPossibleStates_error heap fuel _ _ hf
    | ok r =>
      rw [hf] at h
      simp only at h
      split at h
      · exact ih _ e h
      · exact ih _ e h

theorem expand_error (fuel : Nat) (heap : List (nfa.State S V)) (states : List Nat)
    (e : Fault) (h : expandStatesPerSymbol fuel heap states = .error e) : e = .outOfFuel :=
  expand_loop_error fuel heap states _ _ e h

/-- The main loop only faults by running out of fuel. -/
theorem builder_loop_error (heap : List (nfa.State S V)) (closureFuel fuel : Nat) :
    ∀ (b : dfaBuilder S V) (reg : List (List Nat)) (p : Nat) (e : Fault),
      LoopInv heap closureFuel b reg p →
      dfaBuilder.loop heap closureFuel fuel b = .error e → e = .outOfFuel := by
  induction fuel with
  | zero =>
    intro b reg p e _ h
    simp only [dfaBuilder.loop] at h
    cases h
    rfl
  | succ fuel ih =>
    intro b reg p e hinv h
    cases hq : b.workingQueue.data with
    | nil =>
      rw [loop_done heap closureFuel fuel b hq] at h
      cases h
    | cons l rest =>
      rw [loop_step heap closureFuel fuel b l rest hq] at h
      cases hexp : expandStatesPerSymbol closureFuel heap l with
      | error e1 =>
        rw [hexp] at h
        simp only at h
        cases h
        exact expand_error closureFuel heap l _ hexp
      | ok expanded =>
        rw [hexp] at h
        simp only at h
        obtain ⟨b2, t, hb2, hinv2, _⟩ := hinv.step l rest hq expanded hexp
        rw [hb2] at h
        simp only at h
        exact ih b2 (reg ++ t) (p + 1) e hinv2 h

/-- A run of the converter only faults by running out of fuel. -/
theorem run_error (fuel : Nat) (n : nfa.Nfa S V) (e : Fault)
    (h : dfaBuilder.initial.run fuel n = .error e) : e = .outOfFuel := by
  unfold dfaBuilder.run at h
  cases h0 : findPossibleStates fuel n.states [n.Start] with
  | error e1 =>
    rw [h0] at h
    simp only at h
    cases h
    exact findPossibleStates_error n.states fuel _ _ h0
  | ok l0 =>
    rw [h0] at h
    simp only at h
    have hne : l0 ≠ [] := by
      obtain ⟨t, ht⟩ := findPossibleStates_prefix n.states _ _ _ h0
      rw [ht]; simp
    exact builder_loop_error n.states fuel fuel _ [l0] 0 e (init_spec n.states fuel l0 hne) h

/-- The loop invariant holds of every builder at the head of the main loop. -/
theorem atHead_inv (closureFuel : Nat) (n : nfa.Nfa S V) (b : dfaBuilder S V)
    (h : dfaBuilder.AtHead closureFuel n b) :
    ∃ reg p, LoopInv n.states closureFuel b reg p := by
  induction h with
  | @start l0 h0 =>
    have hne : l0 ≠ [] := by
      obtain ⟨t, ht⟩ := findPossibleStates_prefix n.states _ _ _ h0
      rw [ht]; simp
    exact ⟨[l0], 0, init_spec n.states closureFuel l0 hne⟩
  | @step b b2 l rest expanded _ hq hexp hconn ih =>
    obtain ⟨reg, p, hinv⟩ := ih
    obtain ⟨b3, t, hb3, hinv3, _⟩ := hinv.step l rest hq expanded hexp
    rw [hconn] at hb3
    cases hb3
    exact ⟨reg ++ t, p + 1, hinv3⟩

end
end dfa

/-- C35: the ids of the states of a DFA do not collide. The builder that `FromNfa` starts
from has the next id 1; in every DFA that `FromNfa` returns the start state is the first
state and has the id 0, the state at position `j`, the `j`-th that `ensureState` created, has
the id `j`, the next id is the number of states, and two states with the same id are the
same state. -/
theorem C35_dfa_ids_do_not_collide {S V : Type} [Inhabited V] [DecidableEq S]
    (n : nfa.Nfa S V) (fuel : Nat) (d : dfa.Dfa S V) (h : dfa.FromNfa fuel n = .ok d) :
    (dfa.dfaBuilder.initial : dfa.dfaBuilder S V).dfa.nextStateID = 1 ∧
    d.Start = some 0 ∧ 0 < d.states.length ∧ (d.deref 0).id = 0 ∧
    (∀ (j : Nat) (st : dfa.State S V), d.states[j]? = some st → st.id = j) ∧
    d.nextStateID = d.states.length ∧
    ∀ (i j : Nat) (si sj : dfa.State S V), d.states[i]? = some si → d.states[j]? = some sj →
      si.id = sj.id → i = j := by
  obtain ⟨b, hrun, rfl⟩ := (dfa.fromNfa_ok_iff fuel n d).1 h
  obtain ⟨l0, t, _, hinv, _⟩ := dfa.run_spec fuel n b (fun _ => True)
    (fun _ _ _ _ _ _ _ => trivial) (fun _ _ => trivial) hrun
  have hb := hinv.base
  have hpos : 0 < b.dfa.states.length := by rw [hb.len]; exact hb.pos
  refine ⟨rfl, hb.start, hpos, ?_, hb.ids, ?_, ?_⟩
  · have h0 : b.dfa.states[0]? = some (b.dfa.states[0]) := List.getElem?_eq_getElem hpos
    rw [dfa.deref_of_getElem? _ _ _ h0]
    exact hb.ids 0 _ h0
  · rw [hb.nextID, hb.len]
  · intro i j si sj hi hj hid
    rw [hb.ids i si hi, hb.ids j sj hj] at hid
    exact hid

/-- C35 at the machine of `TestFromNfa_Complex`, whose DFA has the ids 0, 1, 2 and 3. -/
theorem C35_dfa_ids_do_not_collide_witness :
    dfa.FromNfa 20 examples.complexNfa = .ok examples.complexDfa ∧
    examples.complexDfa.states.map (fun st => st.id) = [0, 1, 2, 3] ∧
    examples.complexDfa.nextStateID = examples.complexDfa.states.length :=
  ⟨by rfl, by rfl,
    (C35_dfa_ids_do_not_collide examples.complexNfa 20 examples.complexDfa (by rfl)).2.2.2.2.2.1⟩

/-- C36: the lookup of the dequeued subset never yields nil. A run of the converter faults
only by running out of fuel, never by a write through a nil pointer; and at the head of
every iteration of the main loop every list in the working queue, so in particular the one
that is dequeued next, is registered in `subsetKeyToStateMap` under its key, for a state of
the DFA. -/
theorem C36_worklist_lookup_never_nil {S V : Type} [Inhabited V] [DecidableEq S]
    (n : nfa.Nfa S V) (fuel : Nat) :
    (∀ e, dfa.dfaBuilder.initial.run fuel n = .error e → e = Fault.outOfFuel) ∧
    (∀ e, dfa.FromNfa fuel n = .error e → e = Fault.outOfFuel) ∧
    ∀ b, dfa.dfaBuilder.AtHead fuel n b → ∀ l ∈ b.workingQueue.data,
      ∃ src, gomap.get b.subsetKeyToStateMap (dfa.calculateStatesKey n.states l) = some src ∧
        src < b.dfa.states.length := by
  refine ⟨fun e h => dfa.run_error fuel n e h, ?_, ?_⟩
  · intro e h
    unfold dfa.FromNfa dfa.dfaBuilder.buildFromNfa at h
    cases hr : dfa.dfaBuilder.initial.run fuel n with
    | error e1 =>
      rw [hr] at h
      simp only at h
      cases h
      exact dfa.run_error fuel n _ hr
    | ok b =>
      rw [hr] at h
      cases h
  · intro b hb l hl
    obtain ⟨reg, p, hinv⟩ := dfa.atHead_inv fuel n b hb
    rw [hinv.queue] at hl
    have hmem : l ∈ reg := List.mem_of_mem_drop hl
    obtain ⟨i, hi, rfl⟩ := List.getElem_of_mem hmem
    refine ⟨i, hinv.base.keyOf i _ (List.getElem?_eq_getElem hi), ?_⟩
    rw [hinv.base.len]
    exact hi

/-- C31 fails as stated: in the DFA of the machine of `TestFromNfa_Complex` the start state
has no transition on `b`, as the test itself requires. -/
theorem C31_counterexample :
    dfa.FromNfa 20 examples.complexNfa = .ok examples.complexDfa ∧
    examples.complexDfa.Start = some 0 ∧
    (examples.complexDfa.deref 0).OutgoingFor "b" = none := by
  refine ⟨by rfl, by rfl, by rfl⟩

/-- C31, as the code has it: a state of a DFA has at most one transition for every symbol.
In every DFA that `FromNfa` returns, the symbols of the transitions of a state are pairwise
different, and the state is registered for a list of states of the machine such that
`OutgoingFor(a)` is nil when no state of the list has a concrete transition on `a`, and a
state of the DFA otherwise. -/
theorem C31_at_most_one_transition {S V : Type} [Inhabited V] [DecidableEq S]
    (n : nfa.Nfa S V) (fuel : Nat) (d : dfa.Dfa S V) (h : dfa.FromNfa fuel n = .ok d) :
    ∃ b, dfa.dfaBuilder.initial.run fuel n = .ok b ∧ b.dfa = d ∧
      ∀ (r : Nat) (st : dfa.State S V), d.states[r]? = some st →
        (st.transitions.map Prod.fst).Nodup ∧
        ∃ l, gomap.get b.subsetKeyToStateMap (dfa.calculateStatesKey n.states l) = some r ∧
          ∀ a, (dfa.moveOn n.states l a = [] → st.OutgoingFor a = none) ∧
            (dfa.moveOn n.states l a ≠ [] →
              ∃ t, st.OutgoingFor a = some t ∧ t < d.states.length) := by
  obtain ⟨b, hrun, rfl⟩ := (dfa.fromNfa_ok_iff fuel n d).1 h
  obtain ⟨l0, t, _, hinv, _⟩ := dfa.run_spec fuel n b (fun _ => True)
    (fun _ _ _ _ _ _ _ => trivial) (fun _ _ => trivial) hrun
  refine ⟨b, hrun, rfl, ?_⟩
  intro r st hst
  have hr : r < (l0 :: t).length := by
    rw [← hinv.base.len]
    exact (List.getElem?_eq_some.1 hst).1
  have hl : (l0 :: t)[r]? = some (l0 :: t)[r] := List.getElem?_eq_getElem hr
  refine ⟨hinv.base.nodupT r st hst, (l0 :: t)[r], hinv.base.keyOf r _ hl, ?_⟩
  intro a
  have htr := dfa.final_transitions n.states fuel b (l0 :: t) hinv r _ hl a
  rw [dfa.deref_of_getElem? _ _ _ hst] at htr
  refine ⟨htr.1, fun hm => ?_⟩
  obtain ⟨j, _, l2, hj, hl2, _⟩ := htr.2 hm
  refine ⟨j, hj, ?_⟩
  rw [hinv.base.len]
  exact (List.getElem?_eq_some.1 hl2).1

/-- C31, as amended, at the machine of `TestFromNfa_Complex`. -/
theorem C31_at_most_one_transition_witness :
    dfa.FromNfa 20 examples.complexNfa = .ok examples.complexDfa ∧
    ∃ b, dfa.dfaBuilder.initial.run 20 examples.complexNfa = .ok b ∧
      b.dfa = examples.complexDfa ∧
      ∀ (r : Nat) (st : dfa.State String String), examples.complexDfa.states[r]? = some st →
        (st.transitions.map Prod.fst).Nodup ∧
        ∃ l, gomap.get b.subsetKeyToStateMap
            (dfa.calculateStatesKey examples.complexNfa.states l) = some r ∧
          ∀ a, (dfa.moveOn examples.complexNfa.states l a = [] → st.OutgoingFor a = none) ∧
            (dfa.moveOn examples.complexNfa.states l a ≠ [] →
              ∃ t, st.OutgoingFor a = some t ∧ t < examples.complexDfa.states.length) :=
  ⟨by rfl, C31_at_most_one_transition examples.complexNfa 20 examples.complexDfa (by rfl)⟩

/-! ## The storage of the concrete transitions of a state -/

namespace nfa

section
variable {S V : Type} [Inhabited V] [DecidableEq S]

theorem stores_congr {S V : Type} [DecidableEq S] {s1 s2 : State S V} (he : s1.edge = s2.edge)
    (ht : s1.transitions = s2.transitions) (ps : List (S × Nat)) (h : s2.Stores ps) :
    s1.Stores ps := by
  unfold State.Stores at h ⊢
  rw [he, ht]
  exact h

theorem stores_put {S V : Type} [DecidableEq S] (st : State S V) (ps : List (S × Nat)) (h : st.Stores ps) (a : S)
    (t : Nat) : (st.put a t).Stores (ps ++ [(a, t)]) := by
  match ps, h with
  | [], h =>
    obtain ⟨he, ht⟩ := h
    show (st.put a t).edge = some (a, t) ∧ (st.put a t).transitions = none
    unfold State.put
    rw [he, ht]
    exact ⟨rfl, rfl⟩
  | [p], h =>
    obtain ⟨he, ht⟩ := h
    show (st.put a t).edge = none ∧ (st.put a t).transitions =
      some ([p, (a, t)].foldl (fun m e => m.Put e.1 e.2) mvmap.New)
    unfold State.put
    rw [he, ht]
    exact ⟨rfl, rfl⟩
  | p :: q :: rest, h =>
    obtain ⟨he, ht⟩ := h
    show (st.put a t).edge = none ∧ (st.put a t).transitions =
      some ((p :: q :: (rest ++ [(a, t)])).foldl (fun m e => m.Put e.1 e.2) mvmap.New)
    unfold State.put
    rw [he, ht]
    refine ⟨rfl, ?_⟩
    simp only [List.foldl_cons, List.foldl_append, List.foldl_nil]

theorem attachedOn_cons {S V : Type} (e : Call S V × Option Nat) (l : List (Call S V × Option Nat))
    (r : Nat) : attachedOn (e :: l) r = attachedOn [e] r ++ attachedOn l r := by
  unfold attachedOn
  rw [← List.filterMap_append]
  rfl

theorem stores_call (n : Nfa S V) (c : Call S V) (hc : c.valid n.states.length = true)
    (r : Nat) (ps : List (S × Nat)) (h : (deref n.states r).Stores ps) :
    (deref (n.call c).1.states r).Stores (ps ++ attachedOn [(c, (n.call c).2)] r) := by
  by_cases hadd : ∃ a, c = .Add r a
  · obtain ⟨a, rfl⟩ := hadd
    have hr : r < n.states.length := by simpa [Call.valid] using hc
    rw [deref_call_add n r a hr]
    have hlog : attachedOn [((Call.Add r a : Call S V), (n.call (.Add r a)).2)] r =
        [(a, n.states.length)] := by
      simp [attachedOn, Nfa.call, (add_alloc n r a).1]
    rw [hlog]
    exact stores_put _ ps h a _
  · have hne : ∀ a, c ≠ .Add r a := fun a ha => hadd ⟨a, ha⟩
    obtain ⟨he, ht⟩ := store_call n c r hc hne
    have hlog : attachedOn [(c, (n.call c).2)] r = [] := by
      cases c with
      | Add s a =>
        have hs : s ≠ r := by
          intro hs
          exact hne a (by rw [hs])
        simp only [attachedOn, List.filterMap_cons, List.filterMap_nil, Nfa.call, if_neg hs]
      | NewState => simp [attachedOn]
      | AddEpsilonTransition s => simp [attachedOn]
      | AddAcceptingEpsilonTransition s v => simp [attachedOn]
      | AddPredicateTransition s t fn => simp [attachedOn]
      | ConnectEpsilon s t => simp [attachedOn]
    rw [hlog, List.append_nil]
    exact stores_congr he ht ps h

theorem stores_run (cs : List (Call S V)) :
    ∀ (n : Nfa S V), n.validCalls cs = true → ∀ (r : Nat) (ps : List (S × Nat)),
      (deref n.states r).Stores ps →
      (deref (n.run cs).states r).Stores (ps ++ attachedOn (n.log cs) r) := by
  induction cs with
  | nil =>
    intro n _ r ps h
    simpa [Nfa.run, Nfa.log, attachedOn] using h
  | cons c cs ih =>
    intro n hv r ps h
    simp only [Nfa.validCalls, Bool.and_eq_true] at hv
    have h1 := stores_call n c hv.1 r ps h
    have h2 := ih (n.call c).1 hv.2 r _ h1
    rw [List.append_assoc] at h2
    show (deref (Nfa.run (n.call c).1 cs).states r).Stores
      (ps ++ attachedOn ((c, (n.call c).2) :: Nfa.log (n.call c).1 cs) r)
    rw [attachedOn_cons]
    exact h2

theorem stores_facts {S V : Type} [DecidableEq S] (st : State S V) (ps : List (S × Nat)) (h : st.Stores ps) :
    ¬ (st.edge.isSome = true ∧ st.transitions.isSome = true) ∧
    (st.edge.isSome = true ↔ ps.length = 1) ∧
    (st.transitions.isSome = true ↔ 2 ≤ ps.length) ∧
    (∀ p, ps = [p] → st.edge = some p) ∧
    (2 ≤ ps.length →
      st.transitions = some (ps.foldl (fun m e => m.Put e.1 e.2) mvmap.New)) := by
  match ps, h with
  | [], h =>
    obtain ⟨he, ht⟩ := h
    rw [he, ht]
    simp
  | [p], h =>
    obtain ⟨he, ht⟩ := h
    rw [he, ht]
    simp
  | p :: q :: rest, h =>
    obtain ⟨he, ht⟩ := h
    rw [he, ht]
    simp

end
end nfa

/-- C34: the single-edge slot and the transition map are mutually exclusive. After `New` and
any sequence of calls of the API on states of the machine, so in particular any sequence of
calls of `Add`, no state has both the slot and the map populated; a state has the slot
populated exactly when one concrete transition has been attached to it, and the slot then
holds that transition; it has the map exactly when two or more have been attached, whatever
their symbols, and the map is then the one filled with all of them in the order of the
calls, the former entry of the slot first. -/
theorem C34_slot_and_map_exclusive {S V : Type} [Inhabited V] [DecidableEq S]
    (cs : List (nfa.Call S V)) (hv : (nfa.New : nfa.Nfa S V).validCalls cs = true) (s : Nat) :
    ¬ ((nfa.deref ((nfa.New : nfa.Nfa S V).run cs).states s).edge.isSome = true ∧
      (nfa.deref ((nfa.New : nfa.Nfa S V).run cs).states s).transitions.isSome = true) ∧
    ((nfa.deref ((nfa.New : nfa.Nfa S V).run cs).states s).edge.isSome = true ↔
      (nfa.attachedOn ((nfa.New : nfa.Nfa S V).log cs) s).length = 1) ∧
    ((nfa.deref ((nfa.New : nfa.Nfa S V).run cs).states s).transitions.isSome = true ↔
      2 ≤ (nfa.attachedOn ((nfa.New : nfa.Nfa S V).log cs) s).length) ∧
    (∀ p, nfa.attachedOn ((nfa.New : nfa.Nfa S V).log cs) s = [p] →
      (nfa.deref ((nfa.New : nfa.Nfa S V).run cs).states s).edge = some p) ∧
    (2 ≤ (nfa.attachedOn ((nfa.New : nfa.Nfa S V).log cs) s).length →
      (nfa.deref ((nfa.New : nfa.Nfa S V).run cs).states s).transitions =
        some ((nfa.attachedOn ((nfa.New : nfa.Nfa S V).log cs) s).foldl
          (fun m e => m.Put e.1 e.2) mvmap.New)) := by
  have h0 : (nfa.deref (nfa.New : nfa.Nfa S V).states s).Stores [] := by
    rw [nfa.deref_new]
    exact ⟨rfl, rfl⟩
  have h1 := nfa.stores_run cs nfa.New hv s [] h0
  rw [List.nil_append] at h1
  exact nfa.stores_facts _ _ h1

/-- C34 at the calls of the tests of `OutgoingFor`: the state 1 got four transitions, two of
them on the symbol 1, and has the map; the state 2 got one and has the slot. -/
theorem C34_slot_and_map_exclusive_witness :
    (nfa.New : nfa.Nfa Nat Nat).validCalls examples.symbolCalls = true ∧
    nfa.attachedOn ((nfa.New : nfa.Nfa Nat Nat).log examples.symbolCalls) 1 =
      [(1, 3), (1, 4), (10, 5), (100, 6)] ∧
    nfa.attachedOn ((nfa.New : nfa.Nfa Nat Nat).log examples.symbolCalls) 2 = [(1000, 7)] ∧
    (nfa.deref ((nfa.New : nfa.Nfa Nat Nat).run examples.symbolCalls).states 2).edge =
      some (1000, 7) ∧
    ¬ ((nfa.deref ((nfa.New : nfa.Nfa Nat Nat).run examples.symbolCalls).states 1).edge.isSome
        = true ∧
      (nfa.deref ((nfa.New : nfa.Nfa Nat Nat).run examples.symbolCalls).states
        1).transitions.isSome = true) :=
  ⟨by decide, by decide, by decide, by decide,
    (C34_slot_and_map_exclusive examples.symbolCalls (by decide) 1).1⟩

/-! ## The symbols of a state and its concrete transitions -/

namespace nfa

section
variable {S V : Type} [Inhabited V] [DecidableEq S]

theorem addedOn_single (n : Nfa S V) (c : Call S V) (r : Nat) (a : S) :
    addedOn [(c, (n.call c).2)] r a ≠ [] ↔ c = .Add r a := by
  cases c with
  | Add s b =>
    simp only [addedOn, List.filterMap_cons, List.filterMap_nil, Nfa.call]
    by_cases h : s = r ∧ b = a
    · rw [if_pos h]
      obtain ⟨rfl, rfl⟩ := h
      simp
    · rw [if_neg h]
      simp only [ne_eq, not_true_eq_false, false_iff]
      intro he
      injection he with h1 h2
      exact h ⟨h1, h2⟩
  | NewState => simp [addedOn, Nfa.call]
  | AddEpsilonTransition s => simp [addedOn, Nfa.call]
  | AddAcceptingEpsilonTransition s v => simp [addedOn, Nfa.call]
  | AddPredicateTransition s t fn => simp [addedOn, Nfa.call]
  | ConnectEpsilon s t => simp [addedOn, Nfa.call]

theorem live_call {n : Nfa S V} (h : Built n) (c : Call S V)
    (hc : c.valid n.states.length = true)
    (hI : ∀ r a, a ∈ (deref n.states r).OutgoingSymbols ↔ (deref n.states r).OutgoingFor a ≠ [])
    (r : Nat) (a : S) :
    a ∈ (deref (n.call c).1.states r).OutgoingSymbols ↔
      (deref (n.call c).1.states r).OutgoingFor a ≠ [] := by
  have hv : n.validCalls [c] = true := by simp [Nfa.validCalls, hc]
  have h1 := mem_outgoingSymbols_run h [c] hv r a
  have h2 := outgoingFor_call h c hc r a
  have hrun : n.run [c] = (n.call c).1 := rfl
  rw [hrun] at h1
  have h5 : ∀ A B : List Nat, A ++ B ≠ [] ↔ (A ≠ [] ∨ B ≠ []) := by
    intro A B
    rw [ne_eq, List.append_eq_nil, not_and_or]
  rw [h1, h2, hI r a, List.mem_singleton, h5]
  have h3 := addedOn_single n c r a
  constructor
  · rintro (h4 | h4)
    · exact Or.inl h4
    · exact Or.inr (h3.2 h4.symm)
  · rintro (h4 | h4)
    · exact Or.inl h4
    · exact Or.inr (h3.1 h4).symm

/-- In a machine of the API a state has a symbol among its outgoing symbols exactly when it
has a concrete transition on it. -/
theorem built_live (n : Nfa S V) (h : Built n) (r : Nat) (a : S) :
    a ∈ (deref n.states r).OutgoingSymbols ↔ (deref n.states r).OutgoingFor a ≠ [] := by
  induction h generalizing r a with
  | new =>
    rw [deref_new]
    simp [State.OutgoingSymbols, State.OutgoingFor, State.fresh]
  | @newState n hb ih =>
    exact live_call hb .NewState rfl ih r a
  | @add n s b hb hs ih =>
    exact live_call hb (.Add s b) (by simpa [Call.valid] using hs) ih r a
  | @addEpsilon n s hb hs ih =>
    exact live_call hb (.AddEpsilonTransition s) (by simpa [Call.valid] using hs) ih r a
  | @addAccepting n s v hb hs ih =>
    exact live_call hb (.AddAcceptingEpsilonTransition s v)
      (by simpa [Call.valid] using hs) ih r a
  | @addPredicate n s t fn hb hs ht ih =>
    exact live_call hb (.AddPredicateTransition s t fn)
      (by simp [Call.valid, hs, ht]) ih r a
  | @connect n s t hb hs ht ih =>
    exact live_call hb (.ConnectEpsilon s t) (by simp [Call.valid, hs, ht]) ih r a

end
end nfa

namespace dfa

section
variable {S V : Type} [Inhabited V] [DecidableEq S]

/-- In a machine of the API a list of states has a move on a symbol exactly when one of its
states has the symbol among its outgoing symbols. -/
theorem built_moveOn {n : nfa.Nfa S V} (h : nfa.Built n) (l : List Nat) (a : S) :
    moveOn n.states l a ≠ [] ↔ ∃ s ∈ l, a ∈ (nfa.deref n.states s).OutgoingSymbols := by
  unfold moveOn
  rw [ne_eq, List.flatMap_eq_nil_iff]
  constructor
  · intro hne
    by_contra hc
    apply hne
    intro s hs
    by_contra hs2
    exact hc ⟨s, hs, (nfa.built_live n h s a).2 hs2⟩
  · rintro ⟨s, hs, ha⟩ hall
    exact (nfa.built_live n h s a).1 ha (hall s hs)

end
end dfa

/-- C37: a DFA state has transitions on exactly the alphabet of its subset. For every machine
of the API on which `FromNfa` returns, every state of the DFA is registered under the key of
a list of states of the machine, and for every such list and every symbol `a`,
`OutgoingFor(a)` of the DFA state is a state exactly when some state of the list has `a`
among its `OutgoingSymbols`. And for every list of states and every symbol of its alphabet,
the states reached on the symbol are not empty and neither is their closure, so that
`expandStatesPerSymbol` never skips a symbol. -/
theorem C37_transitions_on_subset_alphabet {S V : Type} [Inhabited V] [DecidableEq S]
    (n : nfa.Nfa S V) (hb : nfa.Built n) (fuel : Nat) (d : dfa.Dfa S V)
    (h : dfa.FromNfa fuel n = .ok d) :
    (∃ b, dfa.dfaBuilder.initial.run fuel n = .ok b ∧ b.dfa = d ∧
      ∀ (r : Nat) (st : dfa.State S V), d.states[r]? = some st →
        ∃ k, gomap.get b.subsetKeyToStateMap k = some r ∧
          (∃ l, (∀ x ∈ l, x < n.states.length) ∧ dfa.calculateStatesKey n.states l = k) ∧
          ∀ l, (∀ x ∈ l, x < n.states.length) → dfa.calculateStatesKey n.states l = k →
            ∀ a, st.OutgoingFor a ≠ none ↔
              ∃ s ∈ l, a ∈ (nfa.deref n.states s).OutgoingSymbols) ∧
    ∀ (l : List Nat) (a : S), (∃ s ∈ l, a ∈ (nfa.deref n.states s).OutgoingSymbols) →
      dfa.findReachableStatesForSymbol n.states l a ≠ [] ∧
      ∀ fuel2 epsilonStates,
        dfa.findPossibleStates fuel2 n.states (dfa.findReachableStatesForSymbol n.states l a) =
          .ok epsilonStates → epsilonStates.length > 0 := by
  have hwf : n.WF := nfa.built_wf n hb
  constructor
  · obtain ⟨b, hrun, rfl⟩ := (dfa.fromNfa_ok_iff fuel n d).1 h
    obtain ⟨reg, hinv, _, hvalid⟩ := dfa.run_final fuel n b hwf hrun
    refine ⟨b, hrun, rfl, ?_⟩
    intro r st hst
    have hr : r < reg.length := by
      rw [← hinv.base.len]
      exact (List.getElem?_eq_some.1 hst).1
    have hl : reg[r]? = some reg[r] := List.getElem?_eq_getElem hr
    have hv0 := hvalid reg[r] (List.getElem?_mem hl)
    refine ⟨dfa.calculateStatesKey n.states reg[r], hinv.base.keyOf r _ hl,
      ⟨reg[r], hv0, rfl⟩, ?_⟩
    intro l hvl hkey a
    have hperm := dfa.wf_mem_of_key_eq hwf l reg[r] hvl hv0 hkey
    have htr := dfa.final_transitions n.states fuel b reg hinv r _ hl a
    rw [dfa.deref_of_getElem? _ _ _ hst] at htr
    have hmove := dfa.built_moveOn hb reg[r] a
    constructor
    · intro hne
      have hm : dfa.moveOn n.states reg[r] a ≠ [] := fun hm => hne (htr.1 hm)
      obtain ⟨s, hs, ha⟩ := hmove.1 hm
      exact ⟨s, hperm.symm.subset hs, ha⟩
    · rintro ⟨s, hs, ha⟩
      have hm : dfa.moveOn n.states reg[r] a ≠ [] := hmove.2 ⟨s, hperm.subset hs, ha⟩
      obtain ⟨j, _, _, hj, _⟩ := htr.2 hm
      rw [hj]
      simp
  · intro l a hex
    rw [dfa.findReachableStatesForSymbol_eq]
    have hm := (dfa.built_moveOn hb l a).2 hex
    refine ⟨hm, ?_⟩
    intro fuel2 eps heps
    obtain ⟨t, ht⟩ := dfa.findPossibleStates_prefix n.states _ _ _ heps
    rw [ht, List.length_append]
    have : 0 < (dfa.moveOn n.states l a).length := List.length_pos.2 hm
    omega

/-- C37 at the machine of `TestFromNfa_Complex`. -/
theorem C37_transitions_on_subset_alphabet_witness :
    dfa.FromNfa 20 examples.complexNfa = .ok examples.complexDfa ∧
    (examples.complexDfa.deref 0).OutgoingFor "a" ≠ none ∧
    "a" ∈ (nfa.deref examples.complexNfa.states 0).OutgoingSymbols ∧
    ∀ (l : List Nat) (a : String),
      (∃ s ∈ l, a ∈ (nfa.deref examples.complexNfa.states s).OutgoingSymbols) →
      dfa.findReachableStatesForSymbol examples.complexNfa.states l a ≠ [] ∧
      ∀ fuel2 epsilonStates,
        dfa.findPossibleStates fuel2 examples.complexNfa.states
            (dfa.findReachableStatesForSymbol examples.complexNfa.states l a) =
          .ok epsilonStates → epsilonStates.length > 0 :=
  ⟨by rfl, by decide, by decide,
    (C37_transitions_on_subset_alphabet examples.complexNfa
      (nfa.Built.connect
        (nfa.Built.add
          (nfa.Built.connect
            (nfa.Built.add
              (nfa.Built.add
                (nfa.Built.addAccepting
                  (nfa.Built.addAccepting
                    (nfa.Built.add (nfa.Built.add nfa.Built.new (by decide)) (by decide))
                    (by decide))
                  (by decide))
                (by decide))
              (by decide))
            (by decide) (by decide))
          (by decide))
        (by decide) (by decide))
      20 examples.complexDfa (by rfl)).2⟩

end Realign
